import Mathlib

/-!
# SealChat export pipeline: a shallow embedding and its verified properties

The development embeds the export core of the repository
(`service/export_viewer.go`, `service/export_worker.go`) as Lean definitions and
proves properties of them.  It also embeds the normalisation of gallery remarks
(`service/gallery.go`), the membership and invite operations of worlds
(`service/world.go`), the serving of uploaded files (`api/attachment.go`) and the
compression of images (`api/utils.go`).

Conventions of the embedding.

* Go `int` is embedded as `Int`.  The only arithmetic of the embedded code is
  `i + limit` in `splitMessagesForViewer`, executed while `i < len(messages)`; for
  `i > 0` one has `limit ≤ i`, so the sum stays below `2 * len(messages)`, far from the
  range of a 64-bit integer for any slice that fits in memory.  No wrap-around is
  modelled for that reason.
* A Go `error` is embedded by its message (`GoError`); the nil error is `none`.
* Code that can loop forever takes a fuel argument and returns `none` when the fuel
  is used up or when the Go code would raise a run-time fault.
* Constants and functions the sources refer to but do not declare are parameters.
* The strings of the gallery and upload code are sequences of bytes (`List Nat`), with
  the UTF-8 decoding of Go.  The counter `used_count` of an invite grows by one per call
  and is embedded as `Int` without wrap-around.
* A statement sent to the database either is carried out or returns an error and changes
  nothing; which of the two is a parameter of the surroundings.
* The archive writer passes its data to the file when it is closed.  `writeViewerArchive`
  closes the writer and the file in deferred calls and drops their errors, so the file it
  leaves is a complete archive only if every entry write and both closes succeeded;
  otherwise the file is recorded as unfinished, with the entries that were handed over.
-/

namespace SealChat

/-! ## Definitions -/

/-- The slice-limit constants `DefaultExportSliceLimit`, `MinExportSliceLimit` and
`MaxExportSliceLimit`.  Their declarations are outside the embedded sources, so all
three are parameters of the embedding. -/
structure SliceLimits where
  DefaultExportSliceLimit : Int
  MinExportSliceLimit : Int
  MaxExportSliceLimit : Int
  deriving Repr, DecidableEq

/-- Lines 83-91 of `splitMessagesForViewer`: the three consecutive `if` statements that
rewrite the local variable `limit`. -/
def normalizeSliceLimit (c : SliceLimits) (limit : Int) : Int :=
  let limit := if limit ≤ 0 then c.DefaultExportSliceLimit else limit
  let limit := if limit < c.MinExportSliceLimit then c.MinExportSliceLimit else limit
  let limit := if limit > c.MaxExportSliceLimit then c.MaxExportSliceLimit else limit
  limit

/-- The Go slice expression `s[i:e]` on a slice whose capacity equals its length:
a run-time fault (`none`) unless `0 ≤ i ≤ e ≤ len(s)`. -/
def goSlice {α : Type} (s : List α) (i e : Int) : Option (List α) :=
  if 0 ≤ i ∧ i ≤ e ∧ e ≤ (s.length : Int) then
    some ((s.drop i.toNat).take (e - i).toNat)
  else none

/-- The `for i := 0; i < len(messages); i += limit` loop of `splitMessagesForViewer`
(lines 96-103), started at index `i` with the chunks collected so far. -/
def splitLoop {α : Type} (messages : List α) (limit : Int) :
    Nat → Int → List (List α) → Option (List (List α))
  | 0, _, _ => none
  | fuel + 1, i, chunks =>
    if i < (messages.length : Int) then
      let e := i + limit
      let e := if e > (messages.length : Int) then (messages.length : Int) else e
      match goSlice messages i e with
      | none => none
      | some chunk => splitLoop messages limit fuel (i + limit) (chunks ++ [chunk])
    else some chunks

/-- The function `splitMessagesForViewer` of `service/export_viewer.go`. -/
def splitMessagesForViewer {α : Type} (c : SliceLimits) (messages : List α) (limit : Int)
    (fuel : Nat) : Option (List (List α)) :=
  let limit := normalizeSliceLimit c limit
  if messages.length = 0 then some [[]]
  else
    match splitLoop messages limit fuel 0 [] with
    | none => none
    | some chunks => if chunks.length = 0 then some (chunks ++ [[]]) else some chunks

/-! ### Job store -/

/-- A Go `error` value, embedded by the string its `Error()` method returns.  The nil
error is `none : Option GoError`. -/
structure GoError where
  msg : String
  deriving Repr, DecidableEq

/-- A `time.Time` value: the instant as Unix nanoseconds together with the calendar
fields its `Format` method prints (in the location of the value). -/
structure GoTime where
  unix : Int
  year : Int
  month : Nat
  day : Nat
  hour : Nat
  minute : Nat
  second : Nat
  deriving Repr, DecidableEq

/-- Modelled from the spec: the constants `model.MessageExportStatusPending`,
`...Processing`, `...Done` and `...Failed` are declared outside the embedded sources; the
data model names exactly the four pairwise distinct states `pending`, `processing`,
`done`, `failed`. -/
inductive ExportStatus where
  | pending
  | processing
  | done
  | failed
  deriving Repr, DecidableEq

/-- Modelled from the spec: the row type `model.MessageExportJobModel` is declared
outside the embedded sources; these are the columns the embedded code reads or writes
(`id`, `channel_id`, `format`, `extra_options`, `status`, `error_msg`, `file_path`,
`file_name`, `created_at`, `updated_at`, `finished_at`). -/
structure MessageExportJobModel where
  ID : String
  ChannelID : String
  Format : String
  ExtraOptions : String
  Status : ExportStatus
  ErrorMsg : String
  FilePath : String
  FileName : String
  CreatedAt : GoTime
  UpdatedAt : GoTime
  FinishedAt : Option GoTime
  deriving Repr, DecidableEq

/-- The table of export jobs: its rows in storage order. -/
abbrev JobStore := List MessageExportJobModel

/-- The Go zero value of `time.Time`. -/
def zeroTime : GoTime := ⟨0, 1, 1, 1, 0, 0, 0⟩

/-- The Go zero value of `model.MessageExportJobModel` (what `var job` holds, and what
`Find` leaves untouched when no row matches). -/
def zeroJob : MessageExportJobModel :=
  { ID := "", ChannelID := "", Format := "", ExtraOptions := "", Status := ExportStatus.pending,
    ErrorMsg := "", FilePath := "", FileName := "", CreatedAt := zeroTime,
    UpdatedAt := zeroTime, FinishedAt := none }

/-- The row selected by `Where("status = ?", pending).Order("created_at asc").Limit(1)`:
a pending row of least creation time (the first such row in storage order), if any. -/
def oldestPending : JobStore → Option MessageExportJobModel
  | [] => none
  | j :: rest =>
    match oldestPending rest with
    | none => if j.Status = ExportStatus.pending then some j else none
    | some k =>
      if j.Status = ExportStatus.pending ∧ j.CreatedAt.unix ≤ k.CreatedAt.unix then some j
      else some k

/-- The query of lines 62-65: `Find(&job)` into the zero-valued local `job`. -/
def findOldestPending (db : JobStore) : MessageExportJobModel :=
  match oldestPending db with
  | none => zeroJob
  | some j => j

/-- The conditional update of lines 71-76 as one atomic statement:
`UPDATE ... SET status = processing, updated_at = now WHERE id = ? AND status = pending`,
returning the new table and `RowsAffected`. -/
def claimUpdate (db : JobStore) (id : String) (now : GoTime) : JobStore × Nat :=
  (db.map (fun j =>
      if j.ID = id ∧ j.Status = ExportStatus.pending then
        { j with Status := ExportStatus.processing, UpdatedAt := now }
      else j),
   (db.filter (fun j => decide (j.ID = id ∧ j.Status = ExportStatus.pending))).length)

/-- What one call of `acquireNextExportJob` meets in its surroundings: the value of
`time.Now()`, and the errors (if any) that the read and the update of the store report. -/
structure AcquireEnv where
  now : GoTime
  findErr : Option GoError
  updateErr : Option GoError
  deriving Repr, DecidableEq

/-- The function `acquireNextExportJob` of `service/export_worker.go`, run without
interference: the new table and the pair `(job, err)` it returns, `job = nil` being
`none`. -/
def acquireNextExportJob (env : AcquireEnv) (db : JobStore) :
    JobStore × Except GoError (Option MessageExportJobModel) :=
  match env.findErr with
  | some e => (db, Except.error e)
  | none =>
    let job := findOldestPending db
    if job.ID = "" then (db, Except.ok none)
    else
      match env.updateErr with
      | some e => (db, Except.error e)
      | none =>
        let res := claimUpdate db job.ID env.now
        if res.2 = 0 then (res.1, Except.ok none)
        else (res.1, Except.ok (some { job with Status := ExportStatus.processing }))

/-- Control point of one caller of `acquireNextExportJob`: before the read, between the
read and the update (holding the local `job`), or returned. -/
inductive AcquirePC where
  | start
  | read (job : MessageExportJobModel)
  | returned (result : Except GoError (Option MessageExportJobModel))

/-- One atomic store statement of a caller of `acquireNextExportJob`: the read (with the
test `job.ID == ""` that follows it) or the conditional update (with the test on
`RowsAffected`).  A caller that has returned does nothing. -/
def acquireStep (env : AcquireEnv) (db : JobStore) : AcquirePC → JobStore × AcquirePC
  | AcquirePC.start =>
    match env.findErr with
    | some e => (db, AcquirePC.returned (Except.error e))
    | none =>
      let job := findOldestPending db
      if job.ID = "" then (db, AcquirePC.returned (Except.ok none))
      else (db, AcquirePC.read job)
  | AcquirePC.read job =>
    match env.updateErr with
    | some e => (db, AcquirePC.returned (Except.error e))
    | none =>
      let res := claimUpdate db job.ID env.now
      if res.2 = 0 then (res.1, AcquirePC.returned (Except.ok none))
      else (res.1, AcquirePC.returned (Except.ok (some { job with Status := ExportStatus.processing })))
  | AcquirePC.returned r => (db, AcquirePC.returned r)

/-- Two callers of `acquireNextExportJob` sharing one store. -/
structure RaceState where
  db : JobStore
  first : AcquirePC
  second : AcquirePC

/-- An interleaving of the two callers: each entry says which caller executes its next
store statement (`false` the first caller, `true` the second). -/
def runRace (envA envB : AcquireEnv) : List Bool → RaceState → RaceState
  | [], s => s
  | false :: rest, s =>
    let r := acquireStep envA s.db s.first
    runRace envA envB rest { db := r.1, first := r.2, second := s.second }
  | true :: rest, s =>
    let r := acquireStep envB s.db s.second
    runRace envA envB rest { db := r.1, first := s.first, second := r.2 }

/-- The states two racing callers can be in when the table `db` holds the single pending
row `j0`: nobody has claimed yet, or the first caller has won, or the second has. -/
def RaceInv (db : JobStore) (j0 : MessageExportJobModel) (envA envB : AcquireEnv)
    (s : RaceState) : Prop :=
  (s.db = db ∧ (s.first = AcquirePC.start ∨ s.first = AcquirePC.read j0) ∧
    (s.second = AcquirePC.start ∨ s.second = AcquirePC.read j0)) ∨
  (s.db = (claimUpdate db j0.ID envA.now).1 ∧
    s.first = AcquirePC.returned
      (Except.ok (some { j0 with Status := ExportStatus.processing })) ∧
    (s.second = AcquirePC.start ∨ s.second = AcquirePC.read j0 ∨
      s.second = AcquirePC.returned (Except.ok none))) ∨
  (s.db = (claimUpdate db j0.ID envB.now).1 ∧
    s.second = AcquirePC.returned
      (Except.ok (some { j0 with Status := ExportStatus.processing })) ∧
    (s.first = AcquirePC.start ∨ s.first = AcquirePC.read j0 ∨
      s.first = AcquirePC.returned (Except.ok none)))

/-- The Go function `unicode.IsSpace`. -/
def goIsSpace (ch : Char) : Bool :=
  ch = '\t' || ch = '\n' || ch.toNat = 0x0B || ch.toNat = 0x0C || ch = '\r' || ch = ' '
    || ch.toNat = 0x85 || ch.toNat = 0xA0 || ch.toNat = 0x1680
    || (0x2000 ≤ ch.toNat && ch.toNat ≤ 0x200A)
    || ch.toNat = 0x2028 || ch.toNat = 0x2029 || ch.toNat = 0x202F || ch.toNat = 0x205F
    || ch.toNat = 0x3000

/-- The Go function `strings.TrimSpace` on a string of valid UTF-8. -/
def trimSpace (s : String) : String :=
  String.mk (((s.toList.dropWhile goIsSpace).reverse.dropWhile goIsSpace).reverse)

/-- The function `markJobFailed` of `service/export_worker.go`: the update
`SET status = failed, error_msg = message, finished_at = now WHERE id = job.ID`.
`dbErr` is the error the store reports for the update; a failed update changes nothing. -/
def markJobFailed (db : JobStore) (job : MessageExportJobModel) (cause : Option GoError)
    (now : GoTime) (dbErr : Option GoError) : JobStore × Option GoError :=
  let message := match cause with
    | none => ""
    | some e => e.msg
  match dbErr with
  | some e => (db, some e)
  | none =>
    (db.map (fun j =>
      if j.ID = job.ID then
        { j with Status := ExportStatus.failed, ErrorMsg := message, FinishedAt := some now }
      else j), none)

/-- The function `markJobDone` of `service/export_worker.go`; the variadic parameter
`formatOverride` is a list. -/
def markJobDone (db : JobStore) (job : MessageExportJobModel) (filePath fileName : String)
    (formatOverride : List String) (now : GoTime) (dbErr : Option GoError) :
    JobStore × Option GoError :=
  let format : Option String :=
    match formatOverride with
    | [] => none
    | f :: _ => if trimSpace f ≠ "" then some (trimSpace f) else none
  match dbErr with
  | some e => (db, some e)
  | none =>
    (db.map (fun j =>
      if j.ID = job.ID then
        { j with Status := ExportStatus.done, FilePath := filePath, FileName := fileName,
                 ErrorMsg := "", FinishedAt := some now,
                 Format := match format with
                   | none => j.Format
                   | some f => f }
      else j), none)

/-! ### Names and time labels -/

/-- The character class complemented in `filenameSafeRe`
(`[^0-9A-Za-z一-龥_-]+`): ASCII digits and letters, U+4E00..U+9FA5, `_` and `-`. -/
def filenameSafeChar (ch : Char) : Bool :=
  (0x30 ≤ ch.toNat && ch.toNat ≤ 0x39) || (0x41 ≤ ch.toNat && ch.toNat ≤ 0x5A)
    || (0x61 ≤ ch.toNat && ch.toNat ≤ 0x7A) || (0x4E00 ≤ ch.toNat && ch.toNat ≤ 0x9FA5)
    || ch = '_' || ch = '-'

/-- The call `filenameSafeRe.ReplaceAllString(input, "_")` on the characters of the input:
every maximal run of characters outside the class becomes one `_`.  The flag tells
whether the preceding character belonged to such a run. -/
def replaceUnsafeRuns : Bool → List Char → List Char
  | _, [] => []
  | inRun, ch :: rest =>
    if filenameSafeChar ch then ch :: replaceUnsafeRuns false rest
    else if inRun then replaceUnsafeRuns true rest
    else '_' :: replaceUnsafeRuns true rest

/-- The function `sanitizeFileName` of `service/export_worker.go`. -/
def sanitizeFileName (input : String) : String :=
  let input := trimSpace input
  if input = "" then ""
  else String.mk (replaceUnsafeRuns false input.toList)

/-- Decimal digits of a natural number, padded with zeros on the left to `width`. -/
def zeroPad (width : Nat) (n : Nat) : String :=
  String.mk (List.replicate (width - (Nat.toDigits 10 n).length) '0' ++ Nat.toDigits 10 n)

/-- The verb `%03d` of `fmt.Sprintf` (the sign counts in the width). -/
def fmtD03 (n : Int) : String :=
  if n < 0 then "-" ++ zeroPad 2 n.natAbs else zeroPad 3 n.natAbs

/-- The year as `time.Time.Format` prints it for the layout element `2006`. -/
def formatYear (y : Int) : String :=
  if y < 0 then "-" ++ zeroPad 4 y.natAbs else zeroPad 4 y.natAbs

/-- The call `t.Format("20060102")`. -/
def formatDate (t : GoTime) : String :=
  formatYear t.year ++ zeroPad 2 t.month ++ zeroPad 2 t.day

/-- The call `t.Format("20060102-1504")`. -/
def formatMinuteStamp (t : GoTime) : String :=
  formatDate t ++ "-" ++ zeroPad 2 t.hour ++ zeroPad 2 t.minute

/-- The call `t.Format("20060102_150405")`. -/
def formatSecondStamp (t : GoTime) : String :=
  formatDate t ++ "_" ++ zeroPad 2 t.hour ++ zeroPad 2 t.minute ++ zeroPad 2 t.second

/-- The function `buildViewerArchiveName` of `service/export_viewer.go`. -/
def buildViewerArchiveName (channelName : String) (generatedAt : GoTime) : String :=
  let safeName := sanitizeFileName channelName
  let safeName := if safeName = "" then "channel" else safeName
  "sealchat-" ++ safeName ++ "-" ++ formatMinuteStamp generatedAt ++ ".zip"

/-- The function `safeTimeRangeLabel` of `service/export_worker.go`. -/
def safeTimeRangeLabel (start stop : Option GoTime) : String :=
  let parts : List String := []
  let parts := match start with
    | some t => parts ++ [formatDate t]
    | none => parts
  let parts := match stop with
    | some t => parts ++ [formatDate t]
    | none => parts
  String.intercalate "-" parts

/-! ### Payloads, parts and the manifest -/

/-- Modelled from the spec: `model.MessageModel` is declared outside the embedded sources;
the embedded code reads only the creation time of a message. -/
structure MessageModel where
  ID : String
  CreatedAt : GoTime
  deriving Repr, DecidableEq

/-- Modelled from the spec: `exportExtraOptions` is declared outside the embedded sources;
the parsed view of a job's options: slice limit, maximal concurrency, display settings. -/
structure exportExtraOptions where
  SliceLimit : Int
  MaxConcurrency : Int
  DisplaySettings : List (String × String)
  deriving Repr, DecidableEq

/-- Modelled from the spec: `payloadContext` is declared outside the embedded sources;
the fields are those the embedded code sets. -/
structure payloadContext where
  DisplayOptions : List (String × String)
  PartIndex : Int
  PartTotal : Int
  SliceStart : Option GoTime
  SliceEnd : Option GoTime
  GeneratedAt : Option GoTime
  deriving Repr, DecidableEq

/-- Modelled from the spec: `ExportPayload` is declared outside the embedded sources; the
materialized view handed to a renderer: channel id and name, the ordered messages, part
metadata, time bounds, generation time and display options. -/
structure ExportPayload where
  ChannelID : String
  ChannelName : String
  Messages : List MessageModel
  StartTime : Option GoTime
  EndTime : Option GoTime
  GeneratedAt : GoTime
  PartIndex : Int
  PartTotal : Int
  DisplayOptions : List (String × String)
  deriving Repr, DecidableEq

/-- Modelled from the spec: `viewerAssets` is declared outside the embedded sources; the
static rendering assets, loaded once for a job. -/
structure viewerAssets where
  data : String
  deriving Repr, DecidableEq

/-- The struct `viewerManifestPart` of `service/export_viewer.go`. -/
structure viewerManifestPart where
  File : String
  PartIndex : Int
  PartTotal : Int
  Messages : Int
  SliceStart : Option GoTime
  SliceEnd : Option GoTime
  SHA256 : String
  deriving Repr, DecidableEq

/-- The struct `partRenderResult` of `service/export_viewer.go`. -/
structure partRenderResult where
  fileName : String
  content : List UInt8
  meta : viewerManifestPart
  err : Option GoError
  deriving Repr, DecidableEq

/-- The struct `viewerManifest` of `service/export_viewer.go` (the field `Meta`, never
set by the embedded code, is left out). -/
structure viewerManifest where
  ChannelID : String
  ChannelName : String
  GeneratedAt : GoTime
  DisplayOptions : List (String × String)
  SliceLimit : Int
  MaxConcurrency : Int
  PartTotal : Int
  TotalMessages : Int
  Parts : List viewerManifestPart
  deriving Repr, DecidableEq

/-- The Go zero value of `partRenderResult`, which `make([]partRenderResult, n)` fills
the results with. -/
def zeroPartRenderResult : partRenderResult :=
  { fileName := "", content := [],
    meta := { File := "", PartIndex := 0, PartTotal := 0, Messages := 0, SliceStart := none,
              SliceEnd := none, SHA256 := "" },
    err := none }

/-- A single-document formatter of the registry: `Build` and `Ext`. -/
structure Formatter where
  Build : ExportPayload → Except GoError (List UInt8)
  Ext : String

/-- The surroundings of one run of `processExportJob`: the functions of the repository
and of the Go libraries that the embedded sources call but do not declare, and the
outcome of every effect (clock readings, errors of the file system, of the archive
writer and of the store). -/
structure ExportEnv where
  limits : SliceLimits
  NormalizeExportConcurrency : Int → Int
  resolveChannelName : String → String
  loadMessagesForExport : MessageExportJobModel → Except GoError (List MessageModel)
  parseExportExtraOptions : String → exportExtraOptions
  buildExportPayload :
    MessageExportJobModel → String → List MessageModel → Option payloadContext → ExportPayload
  newInlineImageEmbedder : Option (ExportPayload → ExportPayload)
  getViewerAssets : viewerAssets
  renderHTMLPart : ExportPayload → viewerAssets → Except GoError (List UInt8)
  sha256Sum : List UInt8 → List UInt8
  cloneDisplayOptions : payloadContext → List (String × String)
  jsonMarshalIndent : viewerManifest → Except GoError (List UInt8)
  renderViewerIndex : viewerManifest → viewerAssets → Except GoError (List UInt8)
  getFormatter : String → Option Formatter
  filepathJoin : String → String → String
  utc : GoTime → GoTime
  generatedAt : GoTime
  finishedAt : GoTime
  mkdirAllErr : String → Option GoError
  createErr : String → Option GoError
  zipCreateHeaderErr : String → Option GoError
  zipWriteErr : String → List UInt8 → Option GoError
  zipCloseErr : String → Option GoError
  fileCloseErr : String → Option GoError
  writeFileErr : String → List UInt8 → Option GoError
  markDoneErr : Option GoError
  markFailedErr : Option GoError

/-- The function `normalizeConcurrency` of `service/export_viewer.go`. -/
def normalizeConcurrency (env : ExportEnv) (value : Int) : Int :=
  let value := env.NormalizeExportConcurrency value
  let value := if value ≤ 0 then 1 else value
  value

/-- The function `sliceBounds` of `service/export_viewer.go`. -/
def sliceBounds (messages : List MessageModel) : Option GoTime × Option GoTime :=
  match messages with
  | [] => (none, none)
  | m :: rest => (some m.CreatedAt, some ((m :: rest).getLast (List.cons_ne_nil m rest)).CreatedAt)

/-- One hexadecimal digit, lower case. -/
def hexDigit (n : Nat) : Char :=
  if n < 10 then Char.ofNat (48 + n) else Char.ofNat (87 + n)

/-- The Go function `hex.EncodeToString`. -/
def hexEncodeToString (bytes : List UInt8) : String :=
  String.mk (bytes.flatMap (fun b => [hexDigit (b.toNat / 16), hexDigit (b.toNat % 16)]))

/-- The name of the part file: `fmt.Sprintf("parts/part-%03d.html", n)`. -/
def partFileName (n : Int) : String :=
  "parts/part-" ++ fmtD03 n ++ ".html"

/-- The body of one render task of `renderViewerParts` between the acquisition and the
release of its semaphore slot (lines 131-166): the error it sends to `errCh`, or the
record it stores in `results[index]`. -/
def renderPart (env : ExportEnv) (job : MessageExportJobModel) (channelName : String)
    (chunks : List (List MessageModel)) (assets : viewerAssets) (extra : exportExtraOptions)
    (generatedAt : GoTime) (embedder : Option (ExportPayload → ExportPayload))
    (index : Nat) (messages : List MessageModel) : Except GoError partRenderResult :=
  let partFile := partFileName ((index : Int) + 1)
  let bounds := sliceBounds messages
  let ctx : payloadContext :=
    { DisplayOptions := extra.DisplaySettings,
      PartIndex := (index : Int) + 1,
      PartTotal := (chunks.length : Int),
      SliceStart := bounds.1,
      SliceEnd := bounds.2,
      GeneratedAt := some generatedAt }
  let payload := env.buildExportPayload job channelName messages (some ctx)
  let payload := match embedder with
    | some inlinePayload => inlinePayload payload
    | none => payload
  match env.renderHTMLPart payload assets with
  | Except.error e => Except.error e
  | Except.ok htmlBytes =>
    let hash := env.sha256Sum htmlBytes
    Except.ok
      { fileName := partFile,
        content := htmlBytes,
        meta :=
          { File := partFile,
            PartIndex := (index : Int) + 1,
            PartTotal := (chunks.length : Int),
            Messages := (messages.length : Int),
            SliceStart := bounds.1,
            SliceEnd := bounds.2,
            SHA256 := hexEncodeToString hash },
        err := none }

/-! ### The bounded executor -/

/-- Where a render task of `renderViewerParts` stands: started but not yet holding a
semaphore slot, holding a slot (between `sem <- struct{}{}` and the deferred `<-sem`),
or finished (slot released, `wg.Done()` called). -/
inductive TaskPhase where
  | spawned
  | running
  | finished
  deriving Repr, DecidableEq

/-- The shared state of a run of `renderViewerParts`: the phase of every task, the number
of tokens in the buffered channel `sem`, the content of the one-slot channel `errCh`, and
the `results` slice. -/
structure RenderState where
  phases : List TaskPhase
  sem : Nat
  errCh : Option GoError
  results : List partRenderResult
  deriving Repr, DecidableEq

/-- The two events of a task: it obtains a slot, or it completes (renders, records its
outcome and releases the slot). -/
inductive RenderEvent where
  | acquire (index : Nat)
  | complete (index : Nat)
  deriving Repr, DecidableEq

/-- One event of a run of `renderViewerParts` with a semaphore of capacity `cap`; `task i`
is the outcome of the body of task `i`.  The result is `none` when the event cannot
happen in the state: a send on the full channel `sem` blocks, only a task holding a slot
completes, and a store at an index outside `results` is a run-time fault. -/
def renderStep (cap : Nat) (task : Nat → Except GoError partRenderResult)
    (s : RenderState) : RenderEvent → Option RenderState
  | RenderEvent.acquire i =>
    if s.phases[i]? = some TaskPhase.spawned ∧ s.sem < cap then
      some { s with phases := s.phases.set i TaskPhase.running, sem := s.sem + 1 }
    else none
  | RenderEvent.complete i =>
    if s.phases[i]? = some TaskPhase.running then
      match task i with
      | Except.error e =>
        some { phases := s.phases.set i TaskPhase.finished,
               sem := s.sem - 1,
               errCh := match s.errCh with
                 | none => some e
                 | some first => some first,
               results := s.results }
      | Except.ok r =>
        if i < s.results.length then
          some { phases := s.phases.set i TaskPhase.finished,
                 sem := s.sem - 1,
                 errCh := s.errCh,
                 results := s.results.set i r }
        else none
    else none

/-- A sequence of events, executed from a state. -/
def runRender (cap : Nat) (task : Nat → Except GoError partRenderResult) :
    List RenderEvent → RenderState → Option RenderState
  | [], s => some s
  | ev :: rest, s =>
    match renderStep cap task s ev with
    | none => none
    | some s' => runRender cap task rest s'

/-- The tasks run one after the other: a schedule that exists for every number of tasks. -/
def sequentialSchedule : Nat → Nat → List RenderEvent
  | _, 0 => []
  | i, n + 1 => RenderEvent.acquire i :: RenderEvent.complete i :: sequentialSchedule (i + 1) n

/-- The body of task `index` of `renderViewerParts` as a function of the index alone. -/
def renderTask (env : ExportEnv) (job : MessageExportJobModel) (channelName : String)
    (chunks : List (List MessageModel)) (assets : viewerAssets) (extra : exportExtraOptions)
    (generatedAt : GoTime) (embedder : Option (ExportPayload → ExportPayload))
    (index : Nat) : Except GoError partRenderResult :=
  renderPart env job channelName chunks assets extra generatedAt embedder index
    (chunks.getD index [])

/-- The state in which `renderViewerParts` starts its tasks. -/
def renderInit (chunks : List (List MessageModel)) (results : List partRenderResult) :
    RenderState :=
  { phases := List.replicate chunks.length TaskPhase.spawned, sem := 0, errCh := none,
    results := results }

/-- The function `renderViewerParts` of `service/export_viewer.go` under the schedule
`sched` of its tasks: the error it returns and the `results` slice it leaves.  The value
is `none` when `sched` is not an execution that lets `wg.Wait()` return (an event that
cannot happen, or a task left unfinished). -/
def renderViewerParts (env : ExportEnv) (job : MessageExportJobModel) (channelName : String)
    (chunks : List (List MessageModel)) (assets : viewerAssets) (extra : exportExtraOptions)
    (generatedAt : GoTime) (results : List partRenderResult)
    (embedder : Option (ExportPayload → ExportPayload)) (sched : List RenderEvent) :
    Option (Option GoError × List partRenderResult) :=
  let cap := (normalizeConcurrency env extra.MaxConcurrency).toNat
  match runRender cap (renderTask env job channelName chunks assets extra generatedAt embedder)
      sched (renderInit chunks results) with
  | none => none
  | some s =>
    if s.phases.all (fun ph => decide (ph = TaskPhase.finished)) then some (s.errCh, s.results)
    else none

/-- What holds in every state of a run of the render tasks started with the results
`init`: the channel `sem` holds one token per running task and at most `cap` tokens;
`errCh` holds the error of a finished task, and is empty only if every finished task
succeeded; `results` holds at index `i` the record of task `i` once that task has
finished with success, and the initial value otherwise. -/
def RenderInv (cap : Nat) (task : Nat → Except GoError partRenderResult) (n : Nat)
    (init : List partRenderResult) (s : RenderState) : Prop :=
  s.phases.length = n ∧
  s.sem = s.phases.count TaskPhase.running ∧
  s.sem ≤ cap ∧
  s.results.length = init.length ∧
  (∀ e, s.errCh = some e →
    ∃ i, s.phases[i]? = some TaskPhase.finished ∧ task i = Except.error e) ∧
  (s.errCh = none →
    ∀ i, s.phases[i]? = some TaskPhase.finished → ∃ r, task i = Except.ok r) ∧
  (∀ i, s.results[i]? =
    if s.phases[i]? = some TaskPhase.finished then
      (match task i with
        | Except.ok r => some r
        | Except.error _ => init[i]?)
    else init[i]?)

/-! ### The archive and the job -/

/-- What a file holds: the bytes of a plain file, the entries of a complete ZIP archive
in the order they were written, or what an archive write leaves that ended with a failed
entry write or a failed `Close`: then `handed` are the entries for which `writeZipEntry`
had returned nil, and the file need not hold any of them in a form that can be read
back (the archive writer passes buffered data and the central directory to the file
only when it is closed). -/
inductive FileContent where
  | raw (data : List UInt8)
  | zip (entries : List (String × List UInt8))
  | unfinished (handed : List (String × List UInt8))
  deriving Repr, DecidableEq

/-- The part of the file system the export touches: the directories created and the
files written, the most recent first. -/
structure FileSystem where
  dirs : List String
  files : List (String × FileContent)
  deriving Repr, DecidableEq

/-- The store and the file system. -/
structure World where
  db : JobStore
  fs : FileSystem
  deriving Repr, DecidableEq

/-- The function `writeZipEntry` of `service/export_viewer.go` on the entries written so
far. -/
def writeZipEntry (env : ExportEnv) (entries : List (String × List UInt8)) (name : String)
    (data : List UInt8) : List (String × List UInt8) × Option GoError :=
  match env.zipCreateHeaderErr name with
  | some e => (entries, some ⟨"写入 ZIP 失败 (" ++ name ++ "): " ++ e.msg⟩)
  | none =>
    match env.zipWriteErr name data with
    | some e => (entries, some ⟨"写入 ZIP 内容失败 (" ++ name ++ "): " ++ e.msg⟩)
    | none => (entries ++ [(name, data)], none)

/-- The first loop of `writeViewerArchive` (lines 196-202): one entry per result, the
message counts summed up, stopping at the first error. -/
def writePartEntries (env : ExportEnv) :
    List partRenderResult → List (String × List UInt8) → Int →
      List (String × List UInt8) × Int × Option GoError
  | [], entries, totalMessages => (entries, totalMessages, none)
  | result :: rest, entries, totalMessages =>
    match writeZipEntry env entries result.fileName result.content with
    | (entries', some e) => (entries', totalMessages, some e)
    | (entries', none) => writePartEntries env rest entries' (totalMessages + result.meta.Messages)

/-- The manifest `writeViewerArchive` builds (lines 204-217) from the results and the sum
of their message counts. -/
def buildManifest (env : ExportEnv) (job : MessageExportJobModel) (channelName : String)
    (extra : exportExtraOptions) (generatedAt : GoTime) (results : List partRenderResult)
    (totalMessages : Int) : viewerManifest :=
  { ChannelID := job.ChannelID,
    ChannelName := channelName,
    GeneratedAt := env.utc generatedAt,
    DisplayOptions := env.cloneDisplayOptions
      { DisplayOptions := extra.DisplaySettings, PartIndex := 0, PartTotal := 0,
        SliceStart := none, SliceEnd := none, GeneratedAt := none },
    SliceLimit := extra.SliceLimit,
    MaxConcurrency := extra.MaxConcurrency,
    PartTotal := (results.length : Int),
    TotalMessages := totalMessages,
    Parts := results.map (fun result => result.meta) }

/-- The deferred calls `zw.Close()` and `f.Close()` of `writeViewerArchive` (lines 194 and
191), which run on every return after the file has been created and whose errors are
dropped: what the file holds once the function has returned.  `intact` tells whether
every entry write before the return had returned nil.  The file is a complete archive
of the entries only if that is so and both calls return no error. -/
def closeViewerArchive (env : ExportEnv) (filePath : String)
    (entries : List (String × List UInt8)) (intact : Bool) : FileContent :=
  if intact = true ∧ env.zipCloseErr filePath = none ∧ env.fileCloseErr filePath = none then
    FileContent.zip entries
  else FileContent.unfinished entries

/-- The function `writeViewerArchive` of `service/export_viewer.go`: the file system it
leaves (after the deferred `zw.Close()` and `f.Close()`), the manifest it built (if it
got that far) and the error it returns. -/
def writeViewerArchive (env : ExportEnv) (fs : FileSystem) (filePath : String)
    (job : MessageExportJobModel) (channelName : String) (extra : exportExtraOptions)
    (generatedAt : GoTime) (results : List partRenderResult) (assets : viewerAssets) :
    FileSystem × Option viewerManifest × Option GoError :=
  match env.createErr filePath with
  | some e => (fs, none, some ⟨"创建 ZIP 文件失败: " ++ e.msg⟩)
  | none =>
    match writePartEntries env results [] 0 with
    | (entries, _, some e) =>
      ({ fs with files := (filePath, closeViewerArchive env filePath entries false)
          :: fs.files }, none, some e)
    | (entries, totalMessages, none) =>
      let manifest := buildManifest env job channelName extra generatedAt results totalMessages
      match env.jsonMarshalIndent manifest with
      | Except.error e =>
        ({ fs with files := (filePath, closeViewerArchive env filePath entries true)
            :: fs.files }, some manifest,
          some ⟨"序列化 manifest 失败: " ++ e.msg⟩)
      | Except.ok metaBytes =>
        match writeZipEntry env entries "manifest/meta.json" metaBytes with
        | (entries, some e) =>
          ({ fs with files := (filePath, closeViewerArchive env filePath entries false)
              :: fs.files }, some manifest, some e)
        | (entries, none) =>
          match env.renderViewerIndex manifest assets with
          | Except.error e =>
            ({ fs with files := (filePath, closeViewerArchive env filePath entries true)
                :: fs.files }, some manifest, some e)
          | Except.ok indexBytes =>
            match writeZipEntry env entries "index.html" indexBytes with
            | (entries, some e) =>
              ({ fs with files := (filePath, closeViewerArchive env filePath entries false)
                  :: fs.files }, some manifest, some e)
            | (entries, none) =>
              ({ fs with files := (filePath, closeViewerArchive env filePath entries true)
                  :: fs.files }, some manifest, none)

/-- The function `processViewerExportJob` of `service/export_viewer.go` under the schedule
`sched` of the render tasks.  The value is `none` when the Go function does not return:
the splitter does not return, or `sched` is not an execution of the render tasks. -/
def processViewerExportJob (env : ExportEnv) (w : World) (job : MessageExportJobModel)
    (channelName : String) (messages : List MessageModel) (storageDir : String)
    (extra : Option exportExtraOptions) (sched : List RenderEvent) :
    Option (World × Option GoError) :=
  let extra := match extra with
    | none => env.parseExportExtraOptions ""
    | some x => x
  match splitMessagesForViewer env.limits messages extra.SliceLimit (messages.length + 1) with
  | none => none
  | some chunks =>
    let partTotal := chunks.length
    let generatedAt := env.generatedAt
    let assets := env.getViewerAssets
    let embedder := env.newInlineImageEmbedder
    let results := List.replicate partTotal zeroPartRenderResult
    match renderViewerParts env job channelName chunks assets extra generatedAt results
        embedder sched with
    | none => none
    | some (some err, _) => some (w, some err)
    | some (none, results) =>
      match env.mkdirAllErr storageDir with
      | some e => some (w, some ⟨"创建导出目录失败: " ++ e.msg⟩)
      | none =>
        let fs := { w.fs with dirs := storageDir :: w.fs.dirs }
        let fileName := buildViewerArchiveName channelName generatedAt
        let filePath := env.filepathJoin storageDir fileName
        match writeViewerArchive env fs filePath job channelName extra generatedAt results
            assets with
        | (fs, _, some err) => some ({ db := w.db, fs := fs }, some err)
        | (fs, _, none) =>
          let r := markJobDone w.db job filePath fileName ["zip"] env.finishedAt env.markDoneErr
          some ({ db := r.1, fs := fs }, r.2)

/-- The function `buildExportFileName` of `service/export_worker.go`. -/
def buildExportFileName (payload : ExportPayload) (ext : String) : String :=
  let base := sanitizeFileName payload.ChannelName
  let base := if base = "" then sanitizeFileName payload.ChannelID else base
  let base := if base = "" then "channel" else base
  let rangeLabel := safeTimeRangeLabel payload.StartTime payload.EndTime
  let rangeLabel := if rangeLabel = "" then formatSecondStamp payload.GeneratedAt else rangeLabel
  base ++ "_" ++ rangeLabel ++ "." ++ ext

/-- The call `strings.EqualFold(s, "html")`: no character outside ASCII folds to one of
`h`, `t`, `m`, `l`, so the comparison is that of the ASCII lower-case forms. -/
def equalFoldHtml (s : String) : Bool :=
  s.toList.map Char.toLower = ['h', 't', 'm', 'l']

/-- The function `processExportJob` of `service/export_worker.go` under the schedule
`sched` of the render tasks of a viewer export; `none` when the Go function does not
return. -/
def processExportJob (env : ExportEnv) (w : World) (job : MessageExportJobModel)
    (storageDir : String) (sched : List RenderEvent) : Option (World × Option GoError) :=
  let channelName := env.resolveChannelName job.ChannelID
  match env.loadMessagesForExport job with
  | Except.error err =>
    some ({ w with db := (markJobFailed w.db job (some err) env.finishedAt env.markFailedErr).1 },
      some err)
  | Except.ok messages =>
    let extraOptions := env.parseExportExtraOptions job.ExtraOptions
    if equalFoldHtml job.Format then
      match processViewerExportJob env w job channelName messages storageDir
          (some extraOptions) sched with
      | none => none
      | some (w', some err) =>
        some ({ w' with
          db := (markJobFailed w'.db job (some err) env.finishedAt env.markFailedErr).1 },
          some err)
      | some (w', none) => some (w', none)
    else
      let payload := env.buildExportPayload job channelName messages none
      match env.getFormatter job.Format with
      | none =>
        let err : GoError := ⟨"不支持的导出格式: " ++ job.Format⟩
        some ({ w with
          db := (markJobFailed w.db job (some err) env.finishedAt env.markFailedErr).1 },
          some err)
      | some formatter =>
        match formatter.Build payload with
        | Except.error err =>
          some ({ w with
            db := (markJobFailed w.db job (some err) env.finishedAt env.markFailedErr).1 },
            some err)
        | Except.ok data =>
          match env.mkdirAllErr storageDir with
          | some err =>
            some ({ w with
              db := (markJobFailed w.db job (some err) env.finishedAt env.markFailedErr).1 },
              some err)
          | none =>
            let fs := { w.fs with dirs := storageDir :: w.fs.dirs }
            let fileName := buildExportFileName payload formatter.Ext
            let filePath := env.filepathJoin storageDir (job.ID ++ "." ++ formatter.Ext)
            match env.writeFileErr filePath data with
            | some err =>
              some ({ db := (markJobFailed w.db job (some err) env.finishedAt
                        env.markFailedErr).1, fs := fs },
                some err)
            | none =>
              let fs := { fs with files := (filePath, FileContent.raw data) :: fs.files }
              let r := markJobDone w.db job filePath fileName [] env.finishedAt env.markDoneErr
              some ({ db := r.1, fs := fs }, r.2)

/-! ### The worker and the life of a job -/

/-- One iteration of the loop of `runMessageExportWorker` (lines 43-55): claim the next
job and, if there is one, process it. -/
def workerIteration (aenv : AcquireEnv) (env : ExportEnv) (storageDir : String)
    (sched : List RenderEvent) (w : World) : Option World :=
  match acquireNextExportJob aenv w.db with
  | (db, Except.error _) => some { w with db := db }
  | (db, Except.ok none) => some { w with db := db }
  | (db, Except.ok (some job)) =>
    match processExportJob env { w with db := db } job storageDir sched with
    | none => none
    | some (w', _) => some w'

/-- The worlds the worker reaches from `w0` in any number of iterations, each in
surroundings that satisfy `P`. -/
inductive WorkerReach (P : ExportEnv → Prop) (w0 : World) : World → Prop where
  | start : WorkerReach P w0 w0
  | step (w w' : World) (aenv : AcquireEnv) (env : ExportEnv) (storageDir : String)
      (sched : List RenderEvent) :
      WorkerReach P w0 w → P env → workerIteration aenv env storageDir sched w = some w' →
      WorkerReach P w0 w'

/-- A newly created job: pending, without file path, file name or error message. -/
def FreshJob (j : MessageExportJobModel) : Prop :=
  j.Status = ExportStatus.pending ∧ j.FilePath = "" ∧ j.FileName = "" ∧ j.ErrorMsg = ""

/-- The invariant of the data model: `file_path` and `file_name` are set (non-empty) when
the status is `done` and empty otherwise; `error_msg` is set (non-empty) when the status
is `failed` and empty otherwise. -/
def JobInv (j : MessageExportJobModel) : Prop :=
  (j.Status = ExportStatus.done → j.FilePath ≠ "" ∧ j.FileName ≠ "") ∧
  (j.Status ≠ ExportStatus.done → j.FilePath = "" ∧ j.FileName = "") ∧
  (j.Status = ExportStatus.failed → j.ErrorMsg ≠ "") ∧
  (j.Status ≠ ExportStatus.failed → j.ErrorMsg = "")

/-- Every error the surroundings raise and the code passes on unwrapped carries a
non-empty message. -/
def ErrorsNonEmpty (env : ExportEnv) : Prop :=
  (∀ job e, env.loadMessagesForExport job = Except.error e → e.msg ≠ "") ∧
  (∀ payload assets e, env.renderHTMLPart payload assets = Except.error e → e.msg ≠ "") ∧
  (∀ manifest assets e, env.renderViewerIndex manifest assets = Except.error e → e.msg ≠ "") ∧
  (∀ key formatter payload e, env.getFormatter key = some formatter →
    formatter.Build payload = Except.error e → e.msg ≠ "") ∧
  (∀ dir e, env.mkdirAllErr dir = some e → e.msg ≠ "") ∧
  (∀ path data e, env.writeFileErr path data = some e → e.msg ≠ "") ∧
  (∀ e, env.markDoneErr = some e → e.msg ≠ "")

/-- The property of `filepath.Join` the export relies on: joining a non-empty name to a
directory gives a non-empty path. -/
def JoinKeepsName (env : ExportEnv) : Prop :=
  ∀ dir name : String, name ≠ "" → env.filepathJoin dir name ≠ ""

/-- A table in good order: the ids of its rows are pairwise distinct and every row
satisfies the invariant of the data model. -/
def GoodStore (db : JobStore) : Prop :=
  (db.map (fun j => j.ID)).Nodup ∧ ∀ j ∈ db, JobInv j

/-! ### Sample data -/

/-- Three sample messages. -/
def sampleMessages : List MessageModel :=
  [⟨"m1", zeroTime⟩, ⟨"m2", zeroTime⟩, ⟨"m3", zeroTime⟩]

/-- A sample job: an html export, freshly created. -/
def sampleJob : MessageExportJobModel :=
  { zeroJob with ID := "job-1", ChannelID := "Team/Chat*2024", Format := "html" }

/-- Sample surroundings in which nothing fails: slice limit 2 (constants 2, 1, 3),
concurrency 2, three messages to load. -/
def sampleEnv : ExportEnv :=
  { limits := ⟨2, 1, 3⟩,
    NormalizeExportConcurrency := fun v => v,
    resolveChannelName := fun id => id,
    loadMessagesForExport := fun _ => Except.ok sampleMessages,
    parseExportExtraOptions := fun _ => ⟨2, 2, []⟩,
    buildExportPayload := fun job name messages ctx =>
      { ChannelID := job.ChannelID, ChannelName := name, Messages := messages,
        StartTime := none, EndTime := none, GeneratedAt := zeroTime,
        PartIndex := match ctx with
          | some c => c.PartIndex
          | none => 0,
        PartTotal := match ctx with
          | some c => c.PartTotal
          | none => 0,
        DisplayOptions := [] },
    newInlineImageEmbedder := some (fun payload => payload),
    getViewerAssets := ⟨""⟩,
    renderHTMLPart := fun _ _ => Except.ok [60, 62],
    sha256Sum := fun _ => [0, 255],
    cloneDisplayOptions := fun ctx => ctx.DisplayOptions,
    jsonMarshalIndent := fun _ => Except.ok [123, 125],
    renderViewerIndex := fun _ _ => Except.ok [60, 62],
    getFormatter := fun _ => none,
    filepathJoin := fun dir name => dir ++ "/" ++ name,
    utc := fun t => t,
    generatedAt := zeroTime,
    finishedAt := zeroTime,
    mkdirAllErr := fun _ => none,
    createErr := fun _ => none,
    zipCreateHeaderErr := fun _ => none,
    zipWriteErr := fun _ _ => none,
    zipCloseErr := fun _ => none,
    fileCloseErr := fun _ => none,
    writeFileErr := fun _ _ => none,
    markDoneErr := none,
    markFailedErr := none }

/-- The sample surroundings, except that the render of the second part fails. -/
def sampleFailingEnv : ExportEnv :=
  { sampleEnv with
    renderHTMLPart := fun payload _ =>
      if payload.PartIndex = 2 then Except.error ⟨"render failed"⟩ else Except.ok [60, 62] }

/-- The sample surroundings, except that loading the messages fails with an error whose
message is empty (as `errors.New("")` is). -/
def sampleEmptyErrorEnv : ExportEnv :=
  { sampleEnv with loadMessagesForExport := fun _ => Except.error ⟨""⟩ }

/-- Surroundings of a call of `acquireNextExportJob` in which the store does not fail. -/
def sampleAcquireEnv : AcquireEnv := ⟨zeroTime, none, none⟩

/-- The chunks of the sample messages under the slice limit 2. -/
def sampleChunks : List (List MessageModel) :=
  [[⟨"m1", zeroTime⟩, ⟨"m2", zeroTime⟩], [⟨"m3", zeroTime⟩]]

/-- A sample job that has reached the terminal state `done`. -/
def sampleDoneJob : MessageExportJobModel :=
  { zeroJob with ID := "job-2", Status := ExportStatus.done,
                 FilePath := "dir/a.zip", FileName := "a.zip" }

/-- A sample job that has reached the terminal state `failed`. -/
def sampleFailedJob : MessageExportJobModel :=
  { zeroJob with ID := "job-3", Status := ExportStatus.failed, ErrorMsg := "boom" }

/-- The sample surroundings with a digest function that returns 32 bytes, as
`sha256.Sum256` does. -/
def sampleHashEnv : ExportEnv :=
  { sampleEnv with sha256Sum := fun _ => List.replicate 32 171 }

/-- The sample surroundings, except that loading the messages fails. -/
def sampleLoadFailEnv : ExportEnv :=
  { sampleEnv with loadMessagesForExport := fun _ => Except.error ⟨"load failed"⟩ }

/-- A sample job that asks for a format the registry does not know. -/
def sampleDocxJob : MessageExportJobModel :=
  { zeroJob with ID := "job-4", ChannelID := "c1", Format := "docx-unknown" }

/-- A sample single-document formatter. -/
def sampleFormatter : Formatter :=
  { Build := fun _ => Except.ok [104, 105], Ext := "txt" }

/-- The sample surroundings with the sample formatter registered for every key. -/
def sampleDocEnv : ExportEnv :=
  { sampleEnv with getFormatter := fun _ => some sampleFormatter }

/-- A sample job that asks for a single-document export. -/
def sampleTxtJob : MessageExportJobModel :=
  { zeroJob with ID := "job-5", ChannelID := "Team/Chat*2024", Format := "txt" }

/-- Two sample rendered parts with different file names and contents. -/
def sampleResults : List partRenderResult :=
  [{ zeroPartRenderResult with fileName := "parts/part-001.html", content := [60, 49, 62] },
   { zeroPartRenderResult with fileName := "parts/part-002.html", content := [60, 50, 62] }]

/-- The sample surroundings, except that the deferred `zw.Close()` fails (the disk is full
when the archive writer passes its data to the file). -/
def sampleCloseFailEnv : ExportEnv :=
  { sampleEnv with zipCloseErr := fun _ => some ⟨"write: no space left on device"⟩ }

/-- The sample surroundings, except that the write of the manifest entry fails. -/
def sampleZipFailEnv : ExportEnv :=
  { sampleEnv with
    zipWriteErr := fun name _ =>
      if name = "manifest/meta.json" then some ⟨"disk full"⟩ else none }

/-- The sample surroundings, except that the store refuses the update of
`markJobFailed`. -/
def sampleLockedEnv : ExportEnv :=
  { sampleEnv with markFailedErr := some ⟨"database is locked"⟩ }

/-- The sample surroundings in which the render of the second part fails and the store
refuses the update of `markJobFailed`. -/
def sampleLockedFailingEnv : ExportEnv :=
  { sampleFailingEnv with markFailedErr := some ⟨"database is locked"⟩ }

/-- The sample surroundings in which loading the messages fails and the store refuses
the update of `markJobFailed`. -/
def sampleLockedLoadFailEnv : ExportEnv :=
  { sampleLoadFailEnv with markFailedErr := some ⟨"database is locked"⟩ }

/-- The sample job as a worker has claimed it. -/
def sampleClaimedJob : MessageExportJobModel :=
  { sampleJob with Status := ExportStatus.processing }

/-- The sample job with the unknown format as a worker has claimed it. -/
def sampleClaimedDocxJob : MessageExportJobModel :=
  { sampleDocxJob with Status := ExportStatus.processing }

/-! ### Image compression (`api/utils.go`) -/

/-- The compression levels of `image/png` that `tryCompressImage` chooses from. -/
inductive PngCompressionLevel where
  | DefaultCompression
  | BestSpeed
  | BestCompression
  deriving Repr, DecidableEq

/-- The image library as `tryCompressImage` uses it, for a type `Image` of decoded
images: `image.Decode` (the image and the name of its format, or an error),
`jpeg.Encode` with its `Quality` option and `(&png.Encoder{CompressionLevel: level}).Encode`;
an encoder gives the bytes it has written to the empty buffer, or an error. -/
structure ImageCodec (Image : Type) where
  decode : List UInt8 → Except GoError (Image × String)
  jpegEncode : Image → Int → Except GoError (List UInt8)
  pngEncode : PngCompressionLevel → Image → Except GoError (List UInt8)

/-- The function `clampImageQuality` of `api/utils.go`. -/
def clampImageQuality (val : Int) : Int :=
  if val < 1 then 85
  else if val > 100 then 100
  else val

/-- The compression level that `tryCompressImage` derives from the clamped quality for a
PNG image (the inner `switch` of the function). -/
def pngLevelOfQuality (quality : Int) : PngCompressionLevel :=
  if quality ≥ 90 then PngCompressionLevel.BestCompression
  else if quality ≥ 70 then PngCompressionLevel.DefaultCompression
  else if quality ≥ 40 then PngCompressionLevel.DefaultCompression
  else PngCompressionLevel.BestSpeed

/-- The function `tryCompressImage` of `api/utils.go`: the returned bytes (`none` is the
nil slice), the flag `ok` and the error. -/
def tryCompressImage {Image : Type} (codec : ImageCodec Image) (data : List UInt8)
    (mimeType : String) (quality : Int) : Option (List UInt8) × Bool × Option GoError :=
  match codec.decode data with
  | Except.error _ => (none, false, none)
  | Except.ok (img, format) =>
    let quality := clampImageQuality quality
    if format = "jpeg" ∨ format = "jpg" then
      match codec.jpegEncode img quality with
      | Except.error err => (none, false, some err)
      | Except.ok result =>
        if result.length ≥ data.length then (none, false, none)
        else (some result, true, none)
    else if format = "png" then
      let level := pngLevelOfQuality quality
      match codec.pngEncode level img with
      | Except.error err => (none, false, some err)
      | Except.ok result =>
        if result.length ≥ data.length then (none, false, none)
        else (some result, true, none)
    else (none, false, none)

/-- A codec for the examples: every input decodes to itself as a JPEG image, the JPEG
encoder writes as many bytes as the quality says, the PNG encoder fails. -/
def sampleCodec : ImageCodec (List UInt8) :=
  { decode := fun data => Except.ok (data, "jpeg"),
    jpegEncode := fun _ q => Except.ok (List.replicate (q.toNat / 50) 7),
    pngEncode := fun _ _ => Except.error ⟨"png: unsupported"⟩ }

/-! ### Go strings as byte sequences (`unicode/utf8`, `strings`, `path/filepath`)

A Go string is a sequence of bytes; here a byte is a natural number (below 256 in every
string that the functions build), and a rune is a natural number. -/

/-- The bytes of an ASCII string literal of the source. -/
def ascii (s : String) : List Nat :=
  s.toList.map Char.toNat

/-- The constant `utf8.RuneError` (U+FFFD). -/
def RuneError : Nat := 0xFFFD

/-- The Go function `utf8.DecodeRuneInString`: the rune at the start of `s` and its width
in bytes; the empty string gives `(RuneError, 0)`, and a byte that does not start a
well-formed encoding gives `(RuneError, 1)`. -/
def decodeRune (s : List Nat) : Nat × Nat :=
  match s with
  | [] => (RuneError, 0)
  | s0 :: rest =>
    if s0 < 0x80 then (s0, 1)
    else if s0 < 0xC2 then (RuneError, 1)
    else if s0 < 0xE0 then
      match rest with
      | s1 :: _ =>
        if s1 < 0x80 ∨ 0xBF < s1 then (RuneError, 1)
        else (s0 % 32 * 64 + s1 % 64, 2)
      | _ => (RuneError, 1)
    else if s0 < 0xF0 then
      match rest with
      | s1 :: s2 :: _ =>
        if s1 < (if s0 = 0xE0 then 0xA0 else 0x80) ∨ (if s0 = 0xED then 0x9F else 0xBF) < s1
        then (RuneError, 1)
        else if s2 < 0x80 ∨ 0xBF < s2 then (RuneError, 1)
        else (s0 % 16 * 4096 + s1 % 64 * 64 + s2 % 64, 3)
      | _ => (RuneError, 1)
    else if s0 < 0xF5 then
      match rest with
      | s1 :: s2 :: s3 :: _ =>
        if s1 < (if s0 = 0xF0 then 0x90 else 0x80) ∨ (if s0 = 0xF4 then 0x8F else 0xBF) < s1
        then (RuneError, 1)
        else if s2 < 0x80 ∨ 0xBF < s2 then (RuneError, 1)
        else if s3 < 0x80 ∨ 0xBF < s3 then (RuneError, 1)
        else (s0 % 8 * 262144 + s1 % 64 * 4096 + s2 % 64 * 64 + s3 % 64, 4)
      | _ => (RuneError, 1)
    else (RuneError, 1)

/-- The Go function `utf8.AppendRune` on an empty buffer (the bytes that
`strings.Builder.WriteRune` appends): the UTF-8 encoding of `r`, and the encoding of
`RuneError` for a surrogate or a value above U+10FFFF. -/
def encodeRune (r : Nat) : List Nat :=
  if r ≤ 0x7F then [r]
  else if r ≤ 0x7FF then [0xC0 + r / 64, 0x80 + r % 64]
  else if 0x10FFFF < r ∨ (0xD800 ≤ r ∧ r ≤ 0xDFFF) then [0xEF, 0xBF, 0xBD]
  else if r ≤ 0xFFFF then [0xE0 + r / 4096, 0x80 + r / 64 % 64, 0x80 + r % 64]
  else [0xF0 + r / 262144, 0x80 + r / 4096 % 64, 0x80 + r / 64 % 64, 0x80 + r % 64]

/-- The runes that a `for _, r := range s` loop sees, for at most `fuel` iterations. -/
def rangeRunes : Nat → List Nat → List Nat
  | 0, _ => []
  | fuel + 1, s =>
    if s = [] then []
    else (decodeRune s).1 :: rangeRunes fuel (s.drop (decodeRune s).2)

/-- The runes that a `for _, r := range s` loop sees: every iteration takes at least one
byte, so `len(s)` iterations are enough. -/
def goRunes (s : List Nat) : List Nat :=
  rangeRunes s.length s

/-- The Go function `utf8.RuneStart`: the byte is not a continuation byte. -/
def runeStart (b : Nat) : Bool :=
  decide (b / 64 % 4 ≠ 2)

/-- The Go function `utf8.DecodeLastRuneInString`: the last rune of `s` and its width.
The rune starts at the nearest byte, among the up to three bytes before the last one,
that is not a continuation byte, and its encoding has to end with the string; otherwise
the result is `(RuneError, 1)`. -/
def decodeLastRune (s : List Nat) : Nat × Nat :=
  match s.reverse with
  | [] => (RuneError, 0)
  | c0 :: before =>
    if c0 < 0x80 then (c0, 1)
    else
      let back : Nat :=
        match before with
        | c1 :: before1 =>
          if runeStart c1 then 2
          else match before1 with
            | c2 :: before2 =>
              if runeStart c2 then 3
              else match before2 with
                | c3 :: _ => if runeStart c3 then 4 else 0
                | [] => 0
            | [] => 0
        | [] => 0
      if back = 0 then (RuneError, 1)
      else if (decodeRune (s.drop (s.length - back))).2 ≠ back then (RuneError, 1)
      else decodeRune (s.drop (s.length - back))

/-- The Go function `unicode.IsSpace` on a rune. -/
def unicodeIsSpace (r : Nat) : Bool :=
  r = 0x09 || r = 0x0A || r = 0x0B || r = 0x0C || r = 0x0D || r = 0x20
    || r = 0x85 || r = 0xA0 || r = 0x1680
    || (0x2000 ≤ r && r ≤ 0x200A)
    || r = 0x2028 || r = 0x2029 || r = 0x202F || r = 0x205F || r = 0x3000

/-- The Go function `strings.TrimLeftFunc(s, unicode.IsSpace)`, for at most `fuel` runes. -/
def trimLeftSpace : Nat → List Nat → List Nat
  | 0, s => s
  | fuel + 1, s =>
    if s = [] then []
    else if unicodeIsSpace (decodeRune s).1 then trimLeftSpace fuel (s.drop (decodeRune s).2)
    else s

/-- The Go function `strings.TrimRightFunc(s, unicode.IsSpace)`, for at most `fuel` runes:
the string is cut at the end of its last rune that is not white space. -/
def trimRightSpace : Nat → List Nat → List Nat
  | 0, s => s
  | fuel + 1, s =>
    if s = [] then []
    else if unicodeIsSpace (decodeLastRune s).1 then
      trimRightSpace fuel (s.take (s.length - (decodeLastRune s).2))
    else s

/-- The Go function `strings.TrimSpace`: all leading and trailing white space removed. -/
def bytesTrimSpace (s : List Nat) : List Nat :=
  trimRightSpace s.length (trimLeftSpace s.length s)

/-- The Go function `strings.Trim(s, cutset)` for a cutset of one ASCII character `c`:
the leading and the trailing bytes equal to `c` removed. -/
def trimByte (s : List Nat) (c : Nat) : List Nat :=
  (((s.reverse.dropWhile (fun b => decide (b = c))).reverse).dropWhile
    (fun b => decide (b = c)))

/-- The loop of `filepath.Ext` on the reversed path (path separator `/`): `acc` holds the
bytes already passed. -/
def extLoop : List Nat → List Nat → List Nat
  | [], _ => []
  | c :: before, acc =>
    if c = 0x2F then []
    else if c = 0x2E then c :: acc
    else extLoop before (c :: acc)

/-- The Go function `filepath.Ext`: the suffix of `path` from the last dot of its last
element, empty when there is none. -/
def filepathExt (path : List Nat) : List Nat :=
  extLoop path.reverse []

/-- The Go function `strings.TrimSuffix`. -/
def trimSuffix (s suffix : List Nat) : List Nat :=
  if suffix.isSuffixOf s then s.take (s.length - suffix.length) else s

/-! ### Gallery remarks (`service/gallery.go`) -/

/-- The tables of the `unicode` package that the gallery code consults:
`unicode.IsLetter` (which is also the class `\p{L}` of `regexp`), `unicode.IsDigit` and
the class `\p{N}` of `regexp`. -/
structure UnicodeTables where
  isLetter : Nat → Bool
  isDigit : Nat → Bool
  isNumber : Nat → Bool

/-- The function `GalleryValidateRemark` of `service/gallery.go`; the pattern
`^[\p{L}\p{N}_]{1,64}$` matches a string of 1 to 64 runes (a byte outside a well-formed
encoding counts as the rune `RuneError`), each a letter, a number or `_`. -/
def GalleryValidateRemark (U : UnicodeTables) (remark : List Nat) : Bool :=
  if remark = [] then false
  else
    decide (1 ≤ (goRunes remark).length) && decide ((goRunes remark).length ≤ 64)
      && (goRunes remark).all (fun r => U.isLetter r || U.isNumber r || decide (r = 0x5F))

/-- The body of the loop of `NormalizeRemark` over the runes still to come, from the
content of `builder` and the flag `lastUnderscore`. -/
def normalizeRemarkLoop (U : UnicodeTables) : List Nat → List Nat → Bool → List Nat
  | [], builder, _ => builder
  | r :: rest, builder, lastUnderscore =>
    if U.isLetter r || U.isDigit r then
      normalizeRemarkLoop U rest (builder ++ encodeRune r) false
    else if r = 0x5F then
      if !lastUnderscore then normalizeRemarkLoop U rest (builder ++ encodeRune 0x5F) true
      else normalizeRemarkLoop U rest builder lastUnderscore
    else
      if !lastUnderscore then normalizeRemarkLoop U rest (builder ++ encodeRune 0x5F) true
      else normalizeRemarkLoop U rest builder lastUnderscore

/-- The value of `out` in `NormalizeRemark` before the length check: the normalised
remark, `img` when nothing is left. -/
def normalizeRemarkText (U : UnicodeTables) (input filename : List Nat) : List Nat :=
  let remark := bytesTrimSpace input
  let remark := if remark = [] then trimSuffix filename (filepathExt filename) else remark
  let out := trimByte (normalizeRemarkLoop U (goRunes remark) [] false) 0x5F
  if out = [] then ascii "img" else out

/-- The function `NormalizeRemark` of `service/gallery.go`. -/
def NormalizeRemark (U : UnicodeTables) (input filename : List Nat) : List Nat :=
  let out := normalizeRemarkText U input filename
  if out.length > 64 then out.take 64 else out

/-- A fragment of the Unicode tables for the examples: the ASCII letters and the CJK
unified ideographs U+4E00..U+9FFF are letters, the ASCII digits are digits and numbers. -/
def sampleUnicode : UnicodeTables :=
  { isLetter := fun r => (0x41 ≤ r && r ≤ 0x5A) || (0x61 ≤ r && r ≤ 0x7A)
      || (0x4E00 ≤ r && r ≤ 0x9FFF),
    isDigit := fun r => 0x30 ≤ r && r ≤ 0x39,
    isNumber := fun r => 0x30 ≤ r && r ≤ 0x39 }

/-- The remark of 22 characters `中` (U+4E2D, bytes E4 B8 AD): 66 bytes. -/
def sampleLongRemark : List Nat :=
  (List.replicate 22 [0xE4, 0xB8, 0xAD]).flatten

/-- The remark of 63 letters `a` followed by `_b`: 65 bytes. -/
def sampleUnderscoreRemark : List Nat :=
  List.replicate 63 0x61 ++ [0x5F, 0x62]

/-- The bytes that `WriteRune` appends for a sequence of runes, one after the other. -/
def encodeRunes (rs : List Nat) : List Nat :=
  rs.flatMap encodeRune

/-- A rune that `utf8.ValidRune` accepts: a Unicode scalar value. -/
def validRune (r : Nat) : Prop :=
  r < 0xD800 ∨ (0xE000 ≤ r ∧ r ≤ 0x10FFFF)

/-- The runes that the loop of `NormalizeRemark` writes to `builder` for the runes still
to come: a letter or digit as it is, and one `_` for every run of other runes. -/
def writtenRunes (U : UnicodeTables) : List Nat → Bool → List Nat
  | [], _ => []
  | r :: rest, lastUnderscore =>
    if U.isLetter r || U.isDigit r then r :: writtenRunes U rest false
    else if !lastUnderscore then 0x5F :: writtenRunes U rest true
    else writtenRunes U rest lastUnderscore

/-- A sequence of runes without the `_` at its two ends. -/
def trimRune (rs : List Nat) : List Nat :=
  ((rs.reverse.dropWhile (fun r => decide (r = 0x5F))).reverse).dropWhile
    (fun r => decide (r = 0x5F))

/-- Facts about the Unicode tables that the properties of `NormalizeRemark` rest on: `_`
is neither a letter nor a digit, no white space character is a letter or a digit, and
`i`, `m` and `g` are letters. -/
def unicodeFacts (U : UnicodeTables) : Prop :=
  (U.isLetter 0x5F || U.isDigit 0x5F) = false ∧
  (∀ r, unicodeIsSpace r = true → (U.isLetter r || U.isDigit r) = false) ∧
  U.isLetter 0x69 = true ∧ U.isLetter 0x6D = true ∧ U.isLetter 0x67 = true

/-- The runes of a remark that `NormalizeRemark` leaves as it is: not empty, every rune a
Unicode scalar value that is a letter, a digit or `_`, no `_` at the two ends and no two
`_` in a row. -/
def goodRemark (U : UnicodeTables) (rs : List Nat) : Prop :=
  rs ≠ [] ∧
  (∀ r ∈ rs, validRune r ∧ ((U.isLetter r || U.isDigit r) = true ∨ r = 0x5F)) ∧
  rs.head? ≠ some 0x5F ∧ rs.getLast? ≠ some 0x5F ∧
  rs.Chain' (fun a b => ¬ (a = 0x5F ∧ b = 0x5F))

/-! ### Serving an uploaded file (`api/attachment.go`) -/

/-- A byte of the class `[0-9a-fA-F]`. -/
def isHexDigitByte (b : Nat) : Bool :=
  (0x30 ≤ b && b ≤ 0x39) || (0x61 ≤ b && b ≤ 0x66) || (0x41 ≤ b && b ≤ 0x46)

/-- A byte of the class `[0-9]`. -/
def isDecDigitByte (b : Nat) : Bool :=
  0x30 ≤ b && b ≤ 0x39

/-- Whether `attachmentFileTokenPattern`, the expression `^[0-9a-fA-F]{32,}_[0-9]+$`,
matches the whole of `token`: at least 32 hexadecimal digits, one `_`, at least one
decimal digit.  As `_` is no hexadecimal digit, the digits before it are the longest run
of hexadecimal digits at the start. -/
def attachmentFileTokenMatch (token : List Nat) : Bool :=
  decide (32 ≤ (token.takeWhile isHexDigitByte).length) &&
    match token.dropWhile isHexDigitByte with
    | c :: digits => decide (c = 0x5F) && !digits.isEmpty && digits.all isDecDigitByte
    | [] => false

/-- The backtracking of `filepath.Clean` at a `..` element: from the index `w`, the index
of the last separator above `dotdot`, or `dotdot`. -/
def cleanBacktrack (out : List Nat) (dotdot : Nat) : Nat → Nat
  | 0 => 0
  | w + 1 =>
    if w + 1 > dotdot ∧ out.getD (w + 1) 0 ≠ 0x2F then cleanBacktrack out dotdot w
    else w + 1

/-- The loop of `filepath.Clean` (path separator `/`) over the bytes of the path still to
read, with the buffer `out` and the index `dotdot`, for at most `fuel` elements. -/
def cleanLoop (rooted : Bool) : Nat → List Nat → List Nat → Nat → List Nat
  | 0, _, out, _ => out
  | _ + 1, [], out, _ => out
  | fuel + 1, c :: rest, out, dotdot =>
    if c = 0x2F then cleanLoop rooted fuel rest out dotdot
    else if c = 0x2E ∧ (rest = [] ∨ rest.head? = some 0x2F) then
      cleanLoop rooted fuel rest out dotdot
    else if c = 0x2E ∧ rest.head? = some 0x2E ∧
        (rest.tail = [] ∨ rest.tail.head? = some 0x2F) then
      if out.length > dotdot then
        cleanLoop rooted fuel rest.tail
          (out.take (cleanBacktrack out dotdot (out.length - 1))) dotdot
      else if !rooted then
        cleanLoop rooted fuel rest.tail
          ((if out.length > 0 then out ++ [0x2F] else out) ++ [0x2E, 0x2E])
          ((if out.length > 0 then out ++ [0x2F] else out) ++ [0x2E, 0x2E]).length
      else cleanLoop rooted fuel rest.tail out dotdot
    else
      cleanLoop rooted fuel (rest.dropWhile (fun b => decide (b ≠ 0x2F)))
        ((if (rooted && decide (out.length ≠ 1)) || (!rooted && decide (out.length ≠ 0))
            then out ++ [0x2F] else out)
          ++ c :: rest.takeWhile (fun b => decide (b ≠ 0x2F)))
        dotdot

/-- The Go function `filepath.Clean` where the path separator is `/`. -/
def filepathClean (path : List Nat) : List Nat :=
  if path = [] then ascii "."
  else
    let rooted := decide (path.head? = some 0x2F)
    let out :=
      if rooted then cleanLoop rooted path.length path.tail [0x2F] 1
      else cleanLoop rooted path.length path [] 0
    if out = [] then ascii "." else out

/-- The Go function `filepath.Join` for two elements, where the path separator is `/`. -/
def filepathJoin (a b : List Nat) : List Nat :=
  if a ≠ [] then filepathClean (a ++ [0x2F] ++ b)
  else if b ≠ [] then filepathClean b
  else []

/-- An access of `trySendUploadFile` to the file system: `os.Stat` of a path, or
`c.SendFile` of a path. -/
inductive UploadAccess where
  | stat (path : List Nat)
  | sendFile (path : List Nat)
  deriving Repr, DecidableEq

/-- The surroundings of `trySendUploadFile`: the error of `os.Stat` for a path (`none` when
the file is there), whether an error is `os.ErrNotExist`, the error of `c.SendFile`, and
the value that `wrapError` returns after it has written the response. -/
structure UploadEnv where
  stat : List Nat → Option GoError
  isNotExist : GoError → Bool
  sendFile : List Nat → Option GoError
  wrapError : GoError → String → Option GoError

/-- The function `trySendUploadFile` of `api/attachment.go`: the flag `served`, the error,
and the accesses to the file system in their order. -/
def trySendUploadFile (env : UploadEnv) (token : List Nat) :
    Bool × Option GoError × List UploadAccess :=
  let token := bytesTrimSpace token
  if token = [] then (false, none, [])
  else if token.any (fun b => b = 0x2F || b = 0x5C) then (false, none, [])
  else if !attachmentFileTokenMatch token then (false, none, [])
  else
    let fullPath := filepathJoin (ascii "./data/upload") token
    match env.stat fullPath with
    | some err =>
      if env.isNotExist err then (false, none, [UploadAccess.stat fullPath])
      else (true, env.wrapError err "读取附件失败", [UploadAccess.stat fullPath])
    | none =>
      (true, env.sendFile fullPath,
        [UploadAccess.stat fullPath, UploadAccess.sendFile fullPath])

/-- A token of 32 hexadecimal digits, `_` and the decimal digits `42`. -/
def sampleToken : List Nat :=
  List.replicate 32 0x61 ++ ascii "_42"

/-- Surroundings in which the file of `sampleToken` is there and every other path is
missing. -/
def sampleUploadEnv : UploadEnv :=
  { stat := fun path =>
      if path = ascii "data/upload/" ++ sampleToken then none else some ⟨"no such file"⟩,
    isNotExist := fun err => decide (err.msg = "no such file"),
    sendFile := fun _ => none,
    wrapError := fun _ _ => none }

/-! ### Worlds, their members and invites (`service/world.go`) -/

/-- The constants `model.WorldRoleOwner`, `model.WorldRoleAdmin` and
`model.WorldRoleMember` are declared outside the embedded sources; they are parameters. -/
structure WorldRoles where
  Owner : String
  Admin : String
  Member : String
  deriving Repr, DecidableEq

/-- The row type `model.WorldMemberModel` is declared outside the embedded sources; these
are the columns that the embedded code reads or writes (`id`, `world_id`, `user_id`,
`role`, `joined_at`, `updated_at`). -/
structure WorldMemberModel where
  ID : String
  WorldID : String
  UserID : String
  Role : String
  JoinedAt : GoTime
  UpdatedAt : GoTime
  deriving Repr, DecidableEq

/-- The row type `model.WorldFavoriteModel`: the columns `world_id` and `user_id`. -/
structure WorldFavoriteModel where
  WorldID : String
  UserID : String
  deriving Repr, DecidableEq

/-- The row type `model.WorldModel`: the columns `id` and `status` that the embedded code
of members and invites reads. -/
structure WorldModel where
  ID : String
  Status : String
  deriving Repr, DecidableEq

/-- The row type `model.WorldInviteModel` is declared outside the embedded sources; these
are the columns that the embedded code reads or writes (`id`, `slug`, `status`,
`world_id`, `expire_at`, `max_use`, `used_count`, `updated_at`). -/
structure WorldInviteModel where
  ID : String
  Slug : String
  Status : String
  WorldID : String
  ExpireAt : Option GoTime
  MaxUse : Int
  UsedCount : Int
  UpdatedAt : GoTime
  deriving Repr, DecidableEq

/-- The tables of worlds, members, favorites and invites: their rows in storage order. -/
structure WorldStore where
  worlds : List WorldModel
  members : List WorldMemberModel
  favorites : List WorldFavoriteModel
  invites : List WorldInviteModel
  deriving Repr, DecidableEq

/-- The surroundings of the world service: the role constants, the clock, and for every
statement sent to the database the error it returns (`none` when it is carried out; a
statement that returns an error changes nothing).  The error of a statement depends on
the statement and its arguments.  `ensureWorldChannelMemberships` works on the tables of
channels, which are not embedded: only its error is given.  `newMemberID` is the id that
the model layer gives to a row it creates. -/
structure WorldEnv where
  roles : WorldRoles
  now : GoTime
  memberFindErr : String → String → Option GoError
  memberDeleteErr : String → String → Option GoError
  favoriteDeleteErr : String → String → Option GoError
  memberUpdateErr : String → String → Option GoError
  memberCreateErr : String → String → Option GoError
  newMemberID : WorldStore → String
  worldFindErr : String → Option GoError
  activeWorldFindErr : String → Option GoError
  inviteFindErr : String → Option GoError
  existingMemberFindErr : String → String → Option GoError
  inviteUpdateErr : String → Option GoError
  ensureWorldChannelMemberships : String → String → Option GoError

/-- The error `ErrWorldNotFound`. -/
def ErrWorldNotFound : GoError := ⟨"world not found"⟩

/-- The error `ErrWorldPermission`. -/
def ErrWorldPermission : GoError := ⟨"world permission denied"⟩

/-- The error `ErrWorldInviteInvalid`. -/
def ErrWorldInviteInvalid : GoError := ⟨"world invite invalid"⟩

/-- The error `ErrWorldMemberInvalid`. -/
def ErrWorldMemberInvalid : GoError := ⟨"world member invalid"⟩

/-- The error `ErrWorldOwnerImmutable`. -/
def ErrWorldOwnerImmutable : GoError := ⟨"world owner immutable"⟩

/-- The Go zero value of `model.WorldMemberModel`. -/
def zeroWorldMember : WorldMemberModel := ⟨"", "", "", "", zeroTime, zeroTime⟩

/-- The Go zero value of `model.WorldModel`. -/
def zeroWorld : WorldModel := ⟨"", ""⟩

/-- The Go zero value of `model.WorldInviteModel`. -/
def zeroWorldInvite : WorldInviteModel := ⟨"", "", "", "", none, 0, 0, zeroTime⟩

/-- The query `Where("world_id = ? AND user_id = ?", worldID, userID).Limit(1).Find(&member)`
on the table of members: the first row of the pair, and the zero value when there is
none. -/
def findWorldMember (db : WorldStore) (worldID userID : String) : WorldMemberModel :=
  (db.members.find? (fun m => decide (m.WorldID = worldID ∧ m.UserID = userID))).getD
    zeroWorldMember

/-- The function `worldRoleEquals` of `service/world.go`. -/
def worldRoleEquals (env : WorldEnv) (db : WorldStore) (worldID userID role : String) : Bool :=
  let err := env.memberFindErr worldID userID
  let member := match err with
    | some _ => zeroWorldMember
    | none => findWorldMember db worldID userID
  if err ≠ none ∨ member.ID = "" then false
  else if role = "" then true
  else decide (member.Role = role)

/-- The function `IsWorldOwner` of `service/world.go`. -/
def IsWorldOwner (env : WorldEnv) (db : WorldStore) (worldID userID : String) : Bool :=
  worldRoleEquals env db worldID userID env.roles.Owner

/-- The function `IsWorldAdmin` of `service/world.go`. -/
def IsWorldAdmin (env : WorldEnv) (db : WorldStore) (worldID userID : String) : Bool :=
  if worldRoleEquals env db worldID userID env.roles.Owner then true
  else worldRoleEquals env db worldID userID env.roles.Admin

/-- The function `WorldLeave` of `service/world.go`: the error it returns and the store
it leaves. -/
def WorldLeave (env : WorldEnv) (db : WorldStore) (worldID userID : String) :
    Option GoError × WorldStore :=
  if IsWorldOwner env db worldID userID then
    (some ⟨"世界拥有者无法退出，请先转移所有权或删除世界"⟩, db)
  else
    match env.memberDeleteErr worldID userID with
    | some err => (some err, db)
    | none =>
      let members := db.members.filter
        (fun m => !decide (m.WorldID = worldID ∧ m.UserID = userID))
      let favorites := match env.favoriteDeleteErr worldID userID with
        | some _ => db.favorites
        | none => db.favorites.filter
            (fun f => !decide (f.WorldID = worldID ∧ f.UserID = userID))
      (none, { db with members := members, favorites := favorites })

/-- The function `WorldRemoveMember` of `service/world.go`. -/
def WorldRemoveMember (env : WorldEnv) (db : WorldStore) (worldID actorID targetUserID : String) :
    Option GoError × WorldStore :=
  if trimSpace targetUserID = "" then (some ErrWorldMemberInvalid, db)
  else if !IsWorldAdmin env db worldID actorID then (some ErrWorldPermission, db)
  else if IsWorldOwner env db worldID targetUserID then (some ErrWorldOwnerImmutable, db)
  else WorldLeave env db worldID targetUserID

/-- The function `WorldUpdateMemberRole` of `service/world.go`. -/
def WorldUpdateMemberRole (env : WorldEnv) (db : WorldStore)
    (worldID actorID targetUserID role : String) : Option GoError × WorldStore :=
  let role := trimSpace role
  if role ≠ env.roles.Admin ∧ role ≠ env.roles.Member then (some ErrWorldMemberInvalid, db)
  else if !IsWorldAdmin env db worldID actorID then (some ErrWorldPermission, db)
  else if IsWorldOwner env db worldID targetUserID then (some ErrWorldOwnerImmutable, db)
  else
    match env.memberUpdateErr worldID targetUserID with
    | some err => (some err, db)
    | none =>
      let rowsAffected := db.members.countP
        (fun m => decide (m.WorldID = worldID ∧ m.UserID = targetUserID))
      let members := db.members.map (fun m =>
        if m.WorldID = worldID ∧ m.UserID = targetUserID then
          { m with Role := role, UpdatedAt := env.now }
        else m)
      if rowsAffected = 0 then (some ErrWorldMemberInvalid, { db with members := members })
      else (none, { db with members := members })

/-- The memberships of owners in a store. -/
def ownerMemberships (env : WorldEnv) (db : WorldStore) : List WorldMemberModel :=
  db.members.filter (fun m => decide (m.Role = env.roles.Owner))

/-- A table of members in good order: every row has an id (the primary key), and there
is at most one row for a world and a user. -/
def membersWellFormed (db : WorldStore) : Prop :=
  (∀ m ∈ db.members, m.ID ≠ "") ∧
  ∀ m1 ∈ db.members, ∀ m2 ∈ db.members,
    m1.WorldID = m2.WorldID → m1.UserID = m2.UserID → m1 = m2

/-- The role constants for the examples. -/
def sampleRoles : WorldRoles := ⟨"owner", "admin", "member"⟩

/-- Surroundings in which every statement is carried out. -/
def sampleWorldEnv : WorldEnv :=
  { roles := sampleRoles,
    now := ⟨1000, 2024, 1, 1, 0, 0, 0⟩,
    memberFindErr := fun _ _ => none,
    memberDeleteErr := fun _ _ => none,
    favoriteDeleteErr := fun _ _ => none,
    memberUpdateErr := fun _ _ => none,
    memberCreateErr := fun _ _ => none,
    newMemberID := fun db => "m" ++ toString (db.members.length + 1),
    worldFindErr := fun _ => none,
    activeWorldFindErr := fun _ => none,
    inviteFindErr := fun _ => none,
    existingMemberFindErr := fun _ _ => none,
    inviteUpdateErr := fun _ => none,
    ensureWorldChannelMemberships := fun _ _ => none }

/-- Surroundings in which the lookups of members return an error and every other
statement is carried out. -/
def sampleLookupFailEnv : WorldEnv :=
  { sampleWorldEnv with memberFindErr := fun _ _ => some ⟨"database is locked"⟩ }

/-- The membership of the owner `u1` of the world `w1`. -/
def sampleOwnerRow : WorldMemberModel := ⟨"m1", "w1", "u1", "owner", zeroTime, zeroTime⟩

/-- A store with the world `w1`, its owner `u1`, its admin `u2` and its member `u3`, and
the invite `welcome` that can be used twice. -/
def sampleWorldStore : WorldStore :=
  { worlds := [⟨"w1", "active"⟩],
    members := [sampleOwnerRow, ⟨"m2", "w1", "u2", "admin", zeroTime, zeroTime⟩,
      ⟨"m3", "w1", "u3", "member", zeroTime, zeroTime⟩],
    favorites := [⟨"w1", "u1"⟩, ⟨"w1", "u3"⟩],
    invites := [⟨"i1", "welcome", "active", "w1", none, 2, 0, zeroTime⟩] }

/-- The function `GetWorldByID` of `service/world.go`. -/
def GetWorldByID (env : WorldEnv) (db : WorldStore) (worldID : String) :
    Option WorldModel × Option GoError :=
  if trimSpace worldID = "" then (none, some ErrWorldNotFound)
  else
    match env.worldFindErr worldID with
    | some err => (none, some err)
    | none =>
      let world := (db.worlds.find? (fun w => decide (w.ID = worldID))).getD zeroWorld
      if world.ID = "" then (none, some ErrWorldNotFound)
      else (some world, none)

/-- The function `WorldJoin` of `service/world.go`: the member and the error it returns,
and the store it leaves. -/
def WorldJoin (env : WorldEnv) (db : WorldStore) (worldID userID : String) :
    (Option WorldMemberModel × Option GoError) × WorldStore :=
  match env.activeWorldFindErr worldID with
  | some err => ((none, some err), db)
  | none =>
    let world := (db.worlds.find?
      (fun w => decide (w.ID = worldID ∧ w.Status = "active"))).getD zeroWorld
    if world.ID = "" then ((none, some ErrWorldNotFound), db)
    else
      match env.memberFindErr worldID userID with
      | some err => ((none, some err), db)
      | none =>
        let member := findWorldMember db worldID userID
        if member.ID ≠ "" then
          match env.ensureWorldChannelMemberships worldID userID with
          | some err => ((some member, some err), db)
          | none => ((some member, none), db)
        else
          let member : WorldMemberModel :=
            { ID := env.newMemberID db, WorldID := worldID, UserID := userID,
              Role := env.roles.Member, JoinedAt := env.now, UpdatedAt := env.now }
          match env.memberCreateErr worldID userID with
          | some err => ((none, some err), db)
          | none =>
            match env.ensureWorldChannelMemberships worldID userID with
            | some err => ((some member, some err), { db with members := db.members ++ [member] })
            | none => ((some member, none), { db with members := db.members ++ [member] })

/-- What `WorldInviteConsume` returns: the invite, the world, the member, the flag
`alreadyJoined` and the error. -/
structure InviteConsumeResult where
  invite : Option WorldInviteModel
  world : Option WorldModel
  member : Option WorldMemberModel
  alreadyJoined : Bool
  err : Option GoError
  deriving Repr, DecidableEq

/-- The result of `WorldInviteConsume` on a failure. -/
def inviteConsumeFailure (err : GoError) : InviteConsumeResult :=
  ⟨none, none, none, false, some err⟩

/-- The query `Where("slug = ? AND status = ?", slug, "active").Limit(1).Find(&invite)`:
the first active invite of the slug, and the zero value when there is none. -/
def findActiveInvite (db : WorldStore) (slug : String) : WorldInviteModel :=
  (db.invites.find? (fun i => decide (i.Slug = slug ∧ i.Status = "active"))).getD
    zeroWorldInvite

/-- The statement of `WorldInviteConsume` that adds one to `used_count` in the rows of
the id. -/
def bumpUsedCount (env : WorldEnv) (invites : List WorldInviteModel) (id : String) :
    List WorldInviteModel :=
  invites.map (fun i =>
    if i.ID = id then { i with UsedCount := i.UsedCount + 1, UpdatedAt := env.now } else i)

/-- The function `WorldInviteConsume` of `service/world.go`: what it returns and the
store it leaves. -/
def WorldInviteConsume (env : WorldEnv) (db : WorldStore) (slug userID : String) :
    InviteConsumeResult × WorldStore :=
  let slug := trimSpace slug
  if slug = "" then (inviteConsumeFailure ErrWorldInviteInvalid, db)
  else
    match env.inviteFindErr slug with
    | some err => (inviteConsumeFailure err, db)
    | none =>
      let invite := findActiveInvite db slug
      if invite.ID = "" then (inviteConsumeFailure ErrWorldInviteInvalid, db)
      else if (match invite.ExpireAt with
          | some t => decide (t.unix < env.now.unix)
          | none => false) then (inviteConsumeFailure ErrWorldInviteInvalid, db)
      else if invite.MaxUse > 0 ∧ invite.UsedCount ≥ invite.MaxUse then
        (inviteConsumeFailure ErrWorldInviteInvalid, db)
      else
        match GetWorldByID env db invite.WorldID with
        | (_, some err) => (inviteConsumeFailure err, db)
        | (world, none) =>
          let existingMember := match env.existingMemberFindErr invite.WorldID userID with
            | some _ => zeroWorldMember
            | none => findWorldMember db invite.WorldID userID
          let wasMember := decide (existingMember.ID ≠ "")
          match WorldJoin env db invite.WorldID userID with
          | ((_, some err), db1) => (inviteConsumeFailure err, db1)
          | ((member, none), db1) =>
            let db2 :=
              if !wasMember then
                match env.inviteUpdateErr invite.ID with
                | some _ => db1
                | none => { db1 with invites := bumpUsedCount env db1.invites invite.ID }
              else db1
            (⟨some invite, world, member, wasMember, none⟩, db2)

/-- A table of invites in good order: the ids (the primary key) are pairwise distinct. -/
def invitesWellFormed (db : WorldStore) : Prop :=
  (db.invites.map (fun i => i.ID)).Nodup

/-- No invite with a limit has been used more often than its limit allows. -/
def usedCountBounded (db : WorldStore) : Prop :=
  ∀ i ∈ db.invites, 0 < i.MaxUse → i.UsedCount ≤ i.MaxUse

/-- Surroundings in which the statement that counts the use of an invite returns an error
and every other statement is carried out. -/
def sampleCountFailEnv : WorldEnv :=
  { sampleWorldEnv with inviteUpdateErr := fun _ => some ⟨"database is locked"⟩ }

/-! ## Theorems -/

/-- With a limit `L ≥ 1` and fuel exceeding the number of messages still to be
distributed, the loop returns: it appends chunks whose concatenation is the remaining
suffix of the message list, each of length at most `L`, and `ceil(remaining / L)` of them. -/
theorem splitLoop_spec {α : Type} (messages : List α) (L : Nat) (hL : 1 ≤ L) :
    ∀ (fuel k : Nat) (acc : List (List α)), messages.length - k < fuel →
      ∃ rest, splitLoop messages (L : Int) fuel (k : Int) acc = some (acc ++ rest) ∧
        rest.flatten = messages.drop k ∧
        (∀ ch ∈ rest, ch.length ≤ L) ∧
        rest.length = (messages.length - k + L - 1) / L := by
  intro fuel
  induction fuel with
  | zero => intro k acc h; omega
  | succ fuel ih =>
    intro k acc h
    by_cases hk : k < messages.length
    · have hk' : (k : Int) < (messages.length : Int) := by exact_mod_cast hk
      obtain ⟨rest, hrun, hflat, hlen, hcnt⟩ :=
        ih (k + L) (acc ++ [(messages.drop k).take (min (k + L) messages.length - k)])
          (by omega)
      have hslice : goSlice messages (k : Int)
          (if (k : Int) + (L : Int) > (messages.length : Int) then (messages.length : Int)
            else (k : Int) + (L : Int))
          = some ((messages.drop k).take (min (k + L) messages.length - k)) := by
        unfold goSlice
        by_cases hgt : (k : Int) + (L : Int) > (messages.length : Int)
        · have hgt' : messages.length < k + L := by exact_mod_cast hgt
          have hmin : min (k + L) messages.length = messages.length := by omega
          have hto : ((messages.length : Int) - (k : Int)).toNat = messages.length - k := by
            omega
          simp only [hgt, if_true, hmin, hto, Int.toNat_ofNat]
          rw [if_pos]
          refine ⟨by omega, by omega, le_refl _⟩
        · have hgt' : ¬ messages.length < k + L := by
            intro hh; apply hgt; exact_mod_cast hh
          have hmin : min (k + L) messages.length = k + L := by omega
          have hto : ((k : Int) + (L : Int) - (k : Int)).toNat = k + L - k := by omega
          simp only [hgt, if_false, hmin, hto, Int.toNat_ofNat]
          rw [if_pos]
          refine ⟨by omega, by omega, by omega⟩
      refine ⟨(messages.drop k).take (min (k + L) messages.length - k) :: rest, ?_, ?_, ?_, ?_⟩
      · have hcast : ((k : Int) + (L : Int)) = ((k + L : Nat) : Int) := by push_cast; rfl
        simp only [splitLoop, hk', if_true]
        rw [hslice]
        simp only []
        rw [hcast, hrun]
        simp
      · rw [List.flatten_cons, hflat]
        by_cases hgt : messages.length < k + L
        · have hmin : min (k + L) messages.length = messages.length := by omega
          rw [hmin]
          have h1 : List.take (messages.length - k) (List.drop k messages)
              = List.drop k messages := by
            apply List.take_of_length_le; simp
          have h2 : List.drop (k + L) messages = [] := by
            apply List.drop_eq_nil_of_le; omega
          rw [h1, h2]; simp
        · have hmin : min (k + L) messages.length = k + L := by omega
          rw [hmin]
          have h3 : k + L - k = L := by omega
          rw [h3, ← List.drop_drop, List.take_append_drop]
      · intro ch hch
        rcases List.mem_cons.mp hch with h1 | h1
        · subst h1
          rw [List.length_take]
          omega
        · exact hlen ch h1
      · rw [List.length_cons, hcnt]
        by_cases hgt : messages.length < k + L
        · have e1 : messages.length - (k + L) + L - 1 = L - 1 := by omega
          have e2 : (L - 1) / L = 0 := Nat.div_eq_of_lt (by omega)
          have e3 : (messages.length - k + L - 1) / L = 1 := by
            apply Nat.div_eq_of_lt_le <;> omega
          rw [e1, e2, e3]
        · have e1 : messages.length - k + L - 1 = (messages.length - (k + L) + L - 1) + L := by
            omega
          rw [e1, Nat.add_div_right _ (by omega : 0 < L)]
    · have hk' : ¬ (k : Int) < (messages.length : Int) := by
        intro hh; apply hk; exact_mod_cast hh
      refine ⟨[], ?_, ?_, ?_, ?_⟩
      · simp [splitLoop, hk']
      · rw [List.drop_eq_nil_of_le (by omega)]; rfl
      · intro ch hch; cases hch
      · have e1 : messages.length - k + L - 1 = L - 1 := by omega
        rw [e1, Nat.div_eq_of_lt (by omega)]; rfl

/-- With a limit `≤ 0` and at least one message the loop never returns chunks: a negative
limit faults on the slice expression `messages[0:limit]`, and the limit `0` keeps the
index at `0` for ever. -/
theorem splitLoop_nonpos {α : Type} (messages : List α) (limit : Int) (hl : limit ≤ 0)
    (hm : 0 < messages.length) :
    ∀ (fuel : Nat) (acc : List (List α)), splitLoop messages limit fuel 0 acc = none := by
  intro fuel
  induction fuel with
  | zero => intro acc; rfl
  | succ fuel ih =>
    intro acc
    have hm' : (0 : Int) < (messages.length : Int) := by exact_mod_cast hm
    have hng : ¬ (0 + limit > (messages.length : Int)) := by omega
    simp only [splitLoop, hm', if_true, hng, if_false]
    by_cases h0 : limit = 0
    · subst h0
      have : goSlice messages 0 (0 + 0) = some [] := by
        simp [goSlice]
      rw [this]
      simpa using ih (acc ++ [[]])
    · have : goSlice messages 0 (0 + limit) = none := by
        unfold goSlice
        rw [if_neg]
        omega
      rw [this]

/-- The splitter as a function of the normalized limit only. -/
theorem splitMessagesForViewer_congr {α : Type} (c : SliceLimits) (messages : List α)
    (l₁ l₂ : Int) (fuel : Nat) (h : normalizeSliceLimit c l₁ = normalizeSliceLimit c l₂) :
    splitMessagesForViewer c messages l₁ fuel = splitMessagesForViewer c messages l₂ fuel := by
  simp only [splitMessagesForViewer, h]

/-- When the normalized limit is `≤ 0` the splitter returns the single empty chunk for
an empty message list and no chunks at all otherwise. -/
theorem splitMessagesForViewer_nonpos {α : Type} (c : SliceLimits) (messages : List α)
    (limit : Int) (fuel : Nat) (h : normalizeSliceLimit c limit ≤ 0) :
    splitMessagesForViewer c messages limit fuel
      = if messages.length = 0 then some [[]] else none := by
  by_cases hm : messages.length = 0
  · simp [splitMessagesForViewer, hm]
  · have hpos : 0 < messages.length := Nat.pos_of_ne_zero hm
    simp only [splitMessagesForViewer, hm, if_false]
    rw [splitLoop_nonpos messages _ h hpos]

/-- The result of the loop does not depend on the fuel, once the fuel suffices. -/
theorem splitLoop_fuel_irrelevant {α : Type} (messages : List α) (L : Nat) :
    ∀ (f₁ f₂ k : Nat) (acc r₁ r₂ : List (List α)),
      splitLoop messages (L : Int) f₁ (k : Int) acc = some r₁ →
      splitLoop messages (L : Int) f₂ (k : Int) acc = some r₂ → r₁ = r₂ := by
  intro f₁
  induction f₁ with
  | zero => intro f₂ k acc r₁ r₂ h1 _; simp [splitLoop] at h1
  | succ f₁ ih =>
    intro f₂ k acc r₁ r₂ h1 h2
    cases f₂ with
    | zero => simp [splitLoop] at h2
    | succ f₂ =>
      simp only [splitLoop] at h1 h2
      by_cases hk : (k : Int) < (messages.length : Int)
      · simp only [hk, if_true] at h1 h2
        cases hs : goSlice messages (k : Int)
            (if (k : Int) + (L : Int) > (messages.length : Int)
              then (messages.length : Int) else (k : Int) + (L : Int)) with
        | none => rw [hs] at h1; simp at h1
        | some chunk =>
          rw [hs] at h1 h2
          simp only [] at h1 h2
          have hcast : ((k : Int) + (L : Int)) = ((k + L : Nat) : Int) := by
            push_cast; rfl
          rw [hcast] at h1 h2
          exact ih f₂ (k + L) _ r₁ r₂ h1 h2
      · simp only [hk, if_false] at h1 h2
        rw [← Option.some.inj h1, ← Option.some.inj h2]

/-- The splitter with an effective limit `L ≥ 1`: it returns for every fuel above the
number of messages, and the chunks returned concatenate to the message list, have length
at most `L`, and number `ceil(N / L)` (written `(N + L - 1) / L`) when there is a message
and form the single empty chunk otherwise. -/
theorem splitMessagesForViewer_spec {α : Type} (c : SliceLimits) (messages : List α)
    (limit : Int) (hL : 1 ≤ normalizeSliceLimit c limit) :
    ∃ chunks : List (List α),
      (∀ fuel, messages.length < fuel →
        splitMessagesForViewer c messages limit fuel = some chunks) ∧
      chunks.flatten = messages ∧
      (∀ ch ∈ chunks, (ch.length : Int) ≤ normalizeSliceLimit c limit) ∧
      (0 < messages.length → chunks.length =
        (messages.length + (normalizeSliceLimit c limit).toNat - 1)
          / (normalizeSliceLimit c limit).toNat) ∧
      (messages.length = 0 → chunks = [[]]) := by
  obtain ⟨L, hLeq⟩ : ∃ L : Nat, normalizeSliceLimit c limit = (L : Int) :=
    ⟨(normalizeSliceLimit c limit).toNat, by omega⟩
  have hL1 : 1 ≤ L := by omega
  by_cases hm : messages.length = 0
  · refine ⟨[[]], ?_, ?_, ?_, ?_, ?_⟩
    · intro fuel _; simp [splitMessagesForViewer, hm]
    · have : messages = [] := List.length_eq_zero.mp hm
      simp [this]
    · intro ch hch
      have : ch = [] := by simpa using hch
      subst this
      simp only [List.length_nil]; omega
    · intro h; omega
    · intro _; rfl
  · have hpos : 0 < messages.length := Nat.pos_of_ne_zero hm
    obtain ⟨rest, hrun, hflat, hlen, hcnt⟩ :=
      splitLoop_spec messages L hL1 (messages.length + 1) 0 [] (by omega)
    have hne : rest.length ≠ 0 := by
      rw [hcnt]
      have : L ≤ messages.length - 0 + L - 1 := by omega
      have := Nat.div_le_div_right (c := L) this
      rw [Nat.div_self (by omega)] at this
      omega
    refine ⟨rest, ?_, ?_, ?_, ?_, ?_⟩
    · intro fuel hfuel
      obtain ⟨rest', hrun', -, -, -⟩ :=
        splitLoop_spec messages L hL1 fuel 0 [] (by omega)
      have hrr : [] ++ rest' = [] ++ rest :=
        splitLoop_fuel_irrelevant messages L fuel (messages.length + 1) 0 [] _ _ hrun' hrun
      have hrun'' : splitLoop messages (normalizeSliceLimit c limit) fuel 0 [] = some rest := by
        rw [hLeq]
        simpa [hrr] using hrun'
      simp only [splitMessagesForViewer, hm, if_false, hrun'', hne]
    · simpa using hflat
    · intro ch hch
      rw [hLeq]
      exact_mod_cast hlen ch hch
    · intro _
      rw [hcnt, hLeq]
      simp
    · intro h; omega

/-- The ceiling of a quotient of naturals, as the integer division the loop count
is computed with. -/
theorem natCeil_div_eq (N L : Nat) (hL : 0 < L) :
    ⌈(N : ℚ) / (L : ℚ)⌉₊ = (N + L - 1) / L := by
  have hLq : (0 : ℚ) < (L : ℚ) := by exact_mod_cast hL
  rcases Nat.eq_zero_or_pos N with h0 | hN
  · subst h0
    have : (L - 1) / L = 0 := Nat.div_eq_of_lt (by omega)
    simp [this]
  · have hmod := Nat.div_add_mod (N + L - 1) L
    have hr := Nat.mod_lt (N + L - 1) hL
    set n := (N + L - 1) / L with hn
    set r := (N + L - 1) % L with hrdef
    have hn1 : 1 ≤ n := by
      rcases Nat.eq_zero_or_pos n with h | h
      · rw [h] at hmod; simp at hmod; omega
      · exact h
    have hn0 : n ≠ 0 := by omega
    rw [Nat.ceil_eq_iff hn0]
    have hmul : L * (n - 1) + L = L * n := by
      have : n = (n - 1) + 1 := by omega
      conv_rhs => rw [this, Nat.mul_add, Nat.mul_one]
    constructor
    · rw [lt_div_iff₀ hLq]
      have : (n - 1) * L < N := by
        have h2 : (n - 1) * L = L * (n - 1) := Nat.mul_comm _ _
        omega
      exact_mod_cast this
    · rw [div_le_iff₀ hLq]
      have : N ≤ n * L := by
        have h2 : n * L = L * n := Nat.mul_comm _ _
        omega
      exact_mod_cast this

/-- C1.  For every message list and every limit whose normalized value is at least 1,
`splitMessagesForViewer` returns (for every fuel above the number of messages) a list of
chunks whose concatenation, in order, is exactly the message list: the chunks are
contiguous, non-overlapping, order-preserving and cover every message exactly once. -/
theorem splitMessagesForViewer_concat {α : Type} (c : SliceLimits) (messages : List α)
    (limit : Int) (hL : 1 ≤ normalizeSliceLimit c limit) :
    ∃ chunks : List (List α),
      (∀ fuel, messages.length < fuel →
        splitMessagesForViewer c messages limit fuel = some chunks) ∧
      chunks.flatten = messages := by
  obtain ⟨chunks, hrun, hflat, -, -, -⟩ := splitMessagesForViewer_spec c messages limit hL
  exact ⟨chunks, hrun, hflat⟩

/-- Witness of C1: three messages split with limit 2 under the constants (2, 1, 3). -/
theorem splitMessagesForViewer_concat_witness :
    1 ≤ normalizeSliceLimit ⟨2, 1, 3⟩ 2 ∧
    ∃ chunks : List (List Nat),
      (∀ fuel, [10, 20, 30].length < fuel →
        splitMessagesForViewer ⟨2, 1, 3⟩ [10, 20, 30] 2 fuel = some chunks) ∧
      chunks.flatten = [10, 20, 30] :=
  ⟨by decide, splitMessagesForViewer_concat ⟨2, 1, 3⟩ [10, 20, 30] 2 (by decide)⟩

/-- C2.  For a message list of length `N` and normalized limit `L ≥ 1`,
`splitMessagesForViewer` returns exactly `ceil(N / L)` chunks when `N > 0`, exactly one
empty chunk when `N = 0`, and every returned chunk has length at most `L`. -/
theorem splitMessagesForViewer_count {α : Type} (c : SliceLimits) (messages : List α)
    (limit : Int) (hL : 1 ≤ normalizeSliceLimit c limit) :
    ∃ chunks : List (List α),
      (∀ fuel, messages.length < fuel →
        splitMessagesForViewer c messages limit fuel = some chunks) ∧
      (0 < messages.length →
        chunks.length = ⌈(messages.length : ℚ) / ((normalizeSliceLimit c limit : Int) : ℚ)⌉₊) ∧
      (messages.length = 0 → chunks = [[]]) ∧
      (∀ ch ∈ chunks, (ch.length : Int) ≤ normalizeSliceLimit c limit) := by
  obtain ⟨chunks, hrun, -, hlen, hcnt, hnil⟩ := splitMessagesForViewer_spec c messages limit hL
  refine ⟨chunks, hrun, ?_, hnil, hlen⟩
  intro hpos
  rw [hcnt hpos]
  obtain ⟨L, hLeq⟩ : ∃ L : Nat, normalizeSliceLimit c limit = (L : Int) :=
    ⟨(normalizeSliceLimit c limit).toNat, by omega⟩
  rw [hLeq]
  have hL1 : 0 < L := by omega
  simp only [Int.toNat_ofNat, Int.cast_natCast]
  exact (natCeil_div_eq messages.length L hL1).symm

/-- Witness of C2: three messages split with limit 2 under the constants (2, 1, 3). -/
theorem splitMessagesForViewer_count_witness :
    1 ≤ normalizeSliceLimit ⟨2, 1, 3⟩ 2 ∧
    ∃ chunks : List (List Nat),
      (∀ fuel, [10, 20, 30].length < fuel →
        splitMessagesForViewer ⟨2, 1, 3⟩ [10, 20, 30] 2 fuel = some chunks) ∧
      (0 < [10, 20, 30].length →
        chunks.length
          = ⌈(([10, 20, 30] : List Nat).length : ℚ)
              / ((normalizeSliceLimit ⟨2, 1, 3⟩ 2 : Int) : ℚ)⌉₊) ∧
      (([10, 20, 30] : List Nat).length = 0 → chunks = [[]]) ∧
      (∀ ch ∈ chunks, (ch.length : Int) ≤ normalizeSliceLimit ⟨2, 1, 3⟩ 2) :=
  ⟨by decide, splitMessagesForViewer_count ⟨2, 1, 3⟩ [10, 20, 30] 2 (by decide)⟩

/-- C3.  Assuming Min ≤ Max, the limit `splitMessagesForViewer` uses lies in [Min, Max];
for every message list a limit ≤ 0 gives the same chunks as Default, a limit with
0 < limit < Min the same chunks as Min, a limit > Max the same chunks as Max, and a limit
already in [Min, Max] (the case left by the three before it, so a positive one; every
limit in [Min, Max] when Min ≥ 1) is used unchanged. -/
theorem splitMessagesForViewer_limit_cases (c : SliceLimits) (limit : Int)
    (hc : c.MinExportSliceLimit ≤ c.MaxExportSliceLimit) :
    (c.MinExportSliceLimit ≤ normalizeSliceLimit c limit ∧
      normalizeSliceLimit c limit ≤ c.MaxExportSliceLimit) ∧
    (limit ≤ 0 → ∀ (α : Type) (messages : List α) (fuel : Nat),
      splitMessagesForViewer c messages limit fuel
        = splitMessagesForViewer c messages c.DefaultExportSliceLimit fuel) ∧
    (0 < limit → limit < c.MinExportSliceLimit → ∀ (α : Type) (messages : List α) (fuel : Nat),
      splitMessagesForViewer c messages limit fuel
        = splitMessagesForViewer c messages c.MinExportSliceLimit fuel) ∧
    (limit > c.MaxExportSliceLimit → ∀ (α : Type) (messages : List α) (fuel : Nat),
      splitMessagesForViewer c messages limit fuel
        = splitMessagesForViewer c messages c.MaxExportSliceLimit fuel) ∧
    (0 < limit → c.MinExportSliceLimit ≤ limit → limit ≤ c.MaxExportSliceLimit →
      normalizeSliceLimit c limit = limit ∧
      ∀ (α : Type) (messages : List α) (fuel : Nat),
        splitMessagesForViewer c messages limit fuel
          = if messages.length = 0 then some [[]]
            else match splitLoop messages limit fuel 0 [] with
              | none => none
              | some chunks => if chunks.length = 0 then some (chunks ++ [[]]) else some chunks) ∧
    (1 ≤ c.MinExportSliceLimit → c.MinExportSliceLimit ≤ limit →
      limit ≤ c.MaxExportSliceLimit →
      normalizeSliceLimit c limit = limit ∧
      ∀ (α : Type) (messages : List α) (fuel : Nat),
        splitMessagesForViewer c messages limit fuel
          = if messages.length = 0 then some [[]]
            else match splitLoop messages limit fuel 0 [] with
              | none => none
              | some chunks => if chunks.length = 0 then some (chunks ++ [[]]) else some chunks) := by
  have hsame : 0 < limit → c.MinExportSliceLimit ≤ limit → limit ≤ c.MaxExportSliceLimit →
      normalizeSliceLimit c limit = limit ∧
      ∀ (α : Type) (messages : List α) (fuel : Nat),
        splitMessagesForViewer c messages limit fuel
          = if messages.length = 0 then some [[]]
            else match splitLoop messages limit fuel 0 [] with
              | none => none
              | some chunks =>
                if chunks.length = 0 then some (chunks ++ [[]]) else some chunks := by
    intro h1 h2 h3
    have e : normalizeSliceLimit c limit = limit := by
      simp only [normalizeSliceLimit]
      split_ifs <;> omega
    refine ⟨e, ?_⟩
    intro α messages fuel
    simp only [splitMessagesForViewer, e]
  refine ⟨?_, ?_, ?_, ?_, hsame, fun h0 h2 h3 => hsame (by omega) h2 h3⟩
  · simp only [normalizeSliceLimit]
    split_ifs <;> omega
  · intro h α messages fuel
    apply splitMessagesForViewer_congr
    simp only [normalizeSliceLimit, h, if_true]
    split_ifs <;> omega
  · intro h1 h2 α messages fuel
    apply splitMessagesForViewer_congr
    simp only [normalizeSliceLimit]
    split_ifs <;> omega
  · intro h α messages fuel
    by_cases hmax : 0 < c.MaxExportSliceLimit
    · apply splitMessagesForViewer_congr
      simp only [normalizeSliceLimit]
      split_ifs <;> omega
    · have e1 : normalizeSliceLimit c limit ≤ 0 := by
        simp only [normalizeSliceLimit]
        split_ifs <;> omega
      have e2 : normalizeSliceLimit c c.MaxExportSliceLimit ≤ 0 := by
        simp only [normalizeSliceLimit]
        split_ifs <;> omega
      rw [splitMessagesForViewer_nonpos c messages limit fuel e1,
        splitMessagesForViewer_nonpos c messages _ fuel e2]

/-- Witness of C3 at the constants (5, 2, 10): the limit 3 lies in [2, 10] and is used
unchanged, so that seven messages are split into chunks of 3, 3 and 1; the limit 0 is
replaced by 5, the limit 1 by 2 and the limit 11 by 10. -/
theorem splitMessagesForViewer_limit_cases_witness :
    (⟨5, 2, 10⟩ : SliceLimits).MinExportSliceLimit ≤ (⟨5, 2, 10⟩ : SliceLimits).MaxExportSliceLimit ∧
    ((2 : Int) ≤ normalizeSliceLimit ⟨5, 2, 10⟩ 3 ∧ normalizeSliceLimit ⟨5, 2, 10⟩ 3 ≤ 10) ∧
    normalizeSliceLimit ⟨5, 2, 10⟩ 3 = 3 ∧
    splitMessagesForViewer ⟨5, 2, 10⟩ [1, 2, 3, 4, 5, 6, 7] 3 8
      = some [[1, 2, 3], [4, 5, 6], [7]] ∧
    splitMessagesForViewer ⟨5, 2, 10⟩ [1, 2, 3, 4, 5, 6, 7] 0 8
      = splitMessagesForViewer ⟨5, 2, 10⟩ [1, 2, 3, 4, 5, 6, 7] 5 8 ∧
    splitMessagesForViewer ⟨5, 2, 10⟩ [1, 2, 3, 4, 5, 6, 7] 1 8
      = splitMessagesForViewer ⟨5, 2, 10⟩ [1, 2, 3, 4, 5, 6, 7] 2 8 ∧
    splitMessagesForViewer ⟨5, 2, 10⟩ [1, 2, 3, 4, 5, 6, 7] 11 8
      = splitMessagesForViewer ⟨5, 2, 10⟩ [1, 2, 3, 4, 5, 6, 7] 10 8 :=
  ⟨by decide, (splitMessagesForViewer_limit_cases ⟨5, 2, 10⟩ 3 (by decide)).1,
    ((splitMessagesForViewer_limit_cases ⟨5, 2, 10⟩ 3 (by decide)).2.2.2.2.2
      (by decide) (by decide) (by decide)).1,
    by decide, by decide, by decide, by decide⟩

/-! ### The claim of a job -/

/-- The pending rows of a table. -/
theorem oldestPending_filter (db : JobStore) :
    oldestPending db
      = oldestPending (db.filter (fun j => decide (j.Status = ExportStatus.pending))) := by
  induction db with
  | nil => rfl
  | cons j rest ih =>
    by_cases hj : j.Status = ExportStatus.pending
    · have : (j :: rest).filter (fun j => decide (j.Status = ExportStatus.pending))
          = j :: rest.filter (fun j => decide (j.Status = ExportStatus.pending)) := by
        simp [List.filter, hj]
      rw [this]
      simp only [oldestPending, ih]
    · have : (j :: rest).filter (fun j => decide (j.Status = ExportStatus.pending))
          = rest.filter (fun j => decide (j.Status = ExportStatus.pending)) := by
        simp [List.filter, hj]
      rw [this, ← ih]
      simp only [oldestPending, hj, false_and, if_false]
      cases oldestPending rest <;> rfl

/-- A table without pending rows: the read finds nothing. -/
theorem findOldestPending_of_no_pending (db : JobStore)
    (h : db.filter (fun j => decide (j.Status = ExportStatus.pending)) = []) :
    findOldestPending db = zeroJob := by
  simp [findOldestPending, oldestPending_filter db, h, oldestPending]

/-- A table whose only pending row is `j0`: the read finds `j0`. -/
theorem findOldestPending_of_single (db : JobStore) (j0 : MessageExportJobModel)
    (h : db.filter (fun j => decide (j.Status = ExportStatus.pending)) = [j0]) :
    findOldestPending db = j0 := by
  have hmem : j0 ∈ db.filter (fun j => decide (j.Status = ExportStatus.pending)) := by
    rw [h]; exact List.mem_singleton.mpr rfl
  have hp : j0.Status = ExportStatus.pending := by
    simpa using (List.mem_filter.mp hmem).2
  simp [findOldestPending, oldestPending_filter db, h, oldestPending, hp]

/-- A table without pending rows: the conditional update matches no row and changes
nothing. -/
theorem claimUpdate_of_no_pending (db : JobStore) (id : String) (now : GoTime)
    (h : db.filter (fun j => decide (j.Status = ExportStatus.pending)) = []) :
    claimUpdate db id now = (db, 0) := by
  have hall : ∀ j ∈ db, j.Status ≠ ExportStatus.pending := by
    intro j hj hp
    have : j ∈ db.filter (fun j => decide (j.Status = ExportStatus.pending)) :=
      List.mem_filter.mpr ⟨hj, by simpa using hp⟩
    rw [h] at this
    cases this
  unfold claimUpdate
  refine Prod.ext ?_ ?_
  · simp only
    conv_rhs => rw [← List.map_id db]
    apply List.map_congr_left
    intro j hj
    simp [hall j hj]
  · simp only [List.length_eq_zero, List.filter_eq_nil_iff]
    intro j hj
    simp [hall j hj]

/-- A table whose only pending row is `j0`: the conditional update for `j0.ID` matches at
least one row, leaves no row pending and turns the row `j0` into a processing row. -/
theorem claimUpdate_of_single (db : JobStore) (j0 : MessageExportJobModel) (now : GoTime)
    (h : db.filter (fun j => decide (j.Status = ExportStatus.pending)) = [j0]) :
    (claimUpdate db j0.ID now).2 ≠ 0 ∧
    (claimUpdate db j0.ID now).1.filter (fun j => decide (j.Status = ExportStatus.pending)) = [] ∧
    { j0 with Status := ExportStatus.processing, UpdatedAt := now } ∈ (claimUpdate db j0.ID now).1 := by
  have hmem : j0 ∈ db.filter (fun j => decide (j.Status = ExportStatus.pending)) := by
    rw [h]; exact List.mem_singleton.mpr rfl
  have hin : j0 ∈ db := (List.mem_filter.mp hmem).1
  have hp : j0.Status = ExportStatus.pending := by
    simpa using (List.mem_filter.mp hmem).2
  have hall : ∀ j ∈ db, j.Status = ExportStatus.pending → j = j0 := by
    intro j hj hpj
    have : j ∈ db.filter (fun j => decide (j.Status = ExportStatus.pending)) :=
      List.mem_filter.mpr ⟨hj, by simpa using hpj⟩
    rw [h] at this
    exact List.mem_singleton.mp this
  refine ⟨?_, ?_, ?_⟩
  · unfold claimUpdate
    simp only [ne_eq, List.length_eq_zero, List.filter_eq_nil_iff, not_forall]
    exact ⟨j0, hin, by simp [hp]⟩
  · unfold claimUpdate
    simp only [List.filter_eq_nil_iff, List.mem_map]
    rintro j ⟨k, hk, rfl⟩
    by_cases hkp : k.Status = ExportStatus.pending
    · have := hall k hk hkp
      subst this
      simp [hkp]
    · simp [hkp]
  · unfold claimUpdate
    simp only [List.mem_map]
    exact ⟨j0, hin, by simp [hp]⟩

/-- The read of a caller on the unclaimed table. -/
theorem acquireStep_start_unclaimed (env : AcquireEnv) (db : JobStore)
    (j0 : MessageExportJobModel) (he : env.findErr = none) (hid : j0.ID ≠ "")
    (h : db.filter (fun j => decide (j.Status = ExportStatus.pending)) = [j0]) :
    acquireStep env db AcquirePC.start = (db, AcquirePC.read j0) := by
  simp [acquireStep, he, findOldestPending_of_single db j0 h, hid]

/-- The conditional update of a caller on the unclaimed table. -/
theorem acquireStep_read_unclaimed (env : AcquireEnv) (db : JobStore)
    (j0 : MessageExportJobModel) (he : env.updateErr = none)
    (h : db.filter (fun j => decide (j.Status = ExportStatus.pending)) = [j0]) :
    acquireStep env db (AcquirePC.read j0)
      = ((claimUpdate db j0.ID env.now).1,
          AcquirePC.returned (Except.ok (some { j0 with Status := ExportStatus.processing }))) := by
  simp [acquireStep, he, (claimUpdate_of_single db j0 env.now h).1]

/-- The read of a caller on a table without pending rows. -/
theorem acquireStep_start_claimed (env : AcquireEnv) (db : JobStore) (he : env.findErr = none)
    (h : db.filter (fun j => decide (j.Status = ExportStatus.pending)) = []) :
    acquireStep env db AcquirePC.start = (db, AcquirePC.returned (Except.ok none)) := by
  simp [acquireStep, he, findOldestPending_of_no_pending db h, zeroJob]

/-- The conditional update of a caller on a table without pending rows. -/
theorem acquireStep_read_claimed (env : AcquireEnv) (db : JobStore)
    (j : MessageExportJobModel) (he : env.updateErr = none)
    (h : db.filter (fun j => decide (j.Status = ExportStatus.pending)) = []) :
    acquireStep env db (AcquirePC.read j) = (db, AcquirePC.returned (Except.ok none)) := by
  simp [acquireStep, he, claimUpdate_of_no_pending db j.ID env.now h]

/-- Every interleaving keeps the two callers inside `RaceInv`. -/
theorem runRace_inv (db : JobStore) (j0 : MessageExportJobModel) (envA envB : AcquireEnv)
    (hA1 : envA.findErr = none) (hA2 : envA.updateErr = none)
    (hB1 : envB.findErr = none) (hB2 : envB.updateErr = none)
    (hid : j0.ID ≠ "")
    (h : db.filter (fun j => decide (j.Status = ExportStatus.pending)) = [j0]) :
    ∀ (sched : List Bool) (s : RaceState), RaceInv db j0 envA envB s →
      RaceInv db j0 envA envB (runRace envA envB sched s) := by
  have hcA := (claimUpdate_of_single db j0 envA.now h).2.1
  have hcB := (claimUpdate_of_single db j0 envB.now h).2.1
  intro sched
  induction sched with
  | nil => intro s hs; exact hs
  | cons b rest ih =>
    intro s hs
    obtain ⟨sdb, sa, sb⟩ := s
    cases b with
    | false =>
      simp only [runRace]
      apply ih
      rcases hs with ⟨h1, h2, h3⟩ | ⟨h1, h2, h3⟩ | ⟨h1, h2, h3⟩
      · simp only at h1 h2 h3
        subst h1
        rcases h2 with h2 | h2
        · subst h2
          rw [acquireStep_start_unclaimed envA sdb j0 hA1 hid h]
          exact Or.inl ⟨rfl, Or.inr rfl, h3⟩
        · subst h2
          rw [acquireStep_read_unclaimed envA sdb j0 hA2 h]
          refine Or.inr (Or.inl ⟨rfl, rfl, ?_⟩)
          rcases h3 with h3 | h3
          · exact Or.inl h3
          · exact Or.inr (Or.inl h3)
      · simp only at h1 h2 h3
        subst h1 h2
        simp only [acquireStep]
        exact Or.inr (Or.inl ⟨rfl, rfl, h3⟩)
      · simp only at h1 h2 h3
        subst h1 h2
        rcases h3 with h3 | h3 | h3
        · subst h3
          rw [acquireStep_start_claimed envA _ hA1 hcB]
          exact Or.inr (Or.inr ⟨rfl, rfl, Or.inr (Or.inr rfl)⟩)
        · subst h3
          rw [acquireStep_read_claimed envA _ j0 hA2 hcB]
          exact Or.inr (Or.inr ⟨rfl, rfl, Or.inr (Or.inr rfl)⟩)
        · subst h3
          simp only [acquireStep]
          exact Or.inr (Or.inr ⟨rfl, rfl, Or.inr (Or.inr rfl)⟩)
    | true =>
      simp only [runRace]
      apply ih
      rcases hs with ⟨h1, h2, h3⟩ | ⟨h1, h2, h3⟩ | ⟨h1, h2, h3⟩
      · simp only at h1 h2 h3
        subst h1
        rcases h3 with h3 | h3
        · subst h3
          rw [acquireStep_start_unclaimed envB sdb j0 hB1 hid h]
          exact Or.inl ⟨rfl, h2, Or.inr rfl⟩
        · subst h3
          rw [acquireStep_read_unclaimed envB sdb j0 hB2 h]
          refine Or.inr (Or.inr ⟨rfl, rfl, ?_⟩)
          rcases h2 with h2 | h2
          · exact Or.inl h2
          · exact Or.inr (Or.inl h2)
      · simp only at h1 h2 h3
        subst h1 h2
        rcases h3 with h3 | h3 | h3
        · subst h3
          rw [acquireStep_start_claimed envB _ hB1 hcA]
          exact Or.inr (Or.inl ⟨rfl, rfl, Or.inr (Or.inr rfl)⟩)
        · subst h3
          rw [acquireStep_read_claimed envB _ j0 hB2 hcA]
          exact Or.inr (Or.inl ⟨rfl, rfl, Or.inr (Or.inr rfl)⟩)
        · subst h3
          simp only [acquireStep]
          exact Or.inr (Or.inl ⟨rfl, rfl, Or.inr (Or.inr rfl)⟩)
      · simp only at h1 h2 h3
        subst h1 h2
        simp only [acquireStep]
        exact Or.inr (Or.inr ⟨rfl, rfl, h3⟩)

/-- C4.  A store whose only pending row is `j0` (with a non-empty id), two callers of
`acquireNextExportJob` whose store statements do not fail, each statement (the read of the
oldest pending job, the update conditional on the status still being pending) atomic:
under every interleaving after which both callers have returned, exactly one call returns
the job (with status processing) and the other returns `(nil, nil)`; the row of the job
is then processing, stamped with the winner's time, and no row is pending.  The
interleaving in which the first caller runs to its end before the second starts is one
such execution. -/
theorem acquireNextExportJob_race (db : JobStore) (j0 : MessageExportJobModel)
    (envA envB : AcquireEnv)
    (hA1 : envA.findErr = none) (hA2 : envA.updateErr = none)
    (hB1 : envB.findErr = none) (hB2 : envB.updateErr = none)
    (hid : j0.ID ≠ "")
    (h : db.filter (fun j => decide (j.Status = ExportStatus.pending)) = [j0]) :
    (∀ (sched : List Bool) (rA rB : Except GoError (Option MessageExportJobModel)),
      (runRace envA envB sched ⟨db, AcquirePC.start, AcquirePC.start⟩).first
          = AcquirePC.returned rA →
      (runRace envA envB sched ⟨db, AcquirePC.start, AcquirePC.start⟩).second
          = AcquirePC.returned rB →
      ((rA = Except.ok (some { j0 with Status := ExportStatus.processing }) ∧
          rB = Except.ok none ∧
          { j0 with Status := ExportStatus.processing, UpdatedAt := envA.now }
            ∈ (runRace envA envB sched ⟨db, AcquirePC.start, AcquirePC.start⟩).db) ∨
        (rB = Except.ok (some { j0 with Status := ExportStatus.processing }) ∧
          rA = Except.ok none ∧
          { j0 with Status := ExportStatus.processing, UpdatedAt := envB.now }
            ∈ (runRace envA envB sched ⟨db, AcquirePC.start, AcquirePC.start⟩).db)) ∧
      (runRace envA envB sched ⟨db, AcquirePC.start, AcquirePC.start⟩).db.filter
          (fun j => decide (j.Status = ExportStatus.pending)) = []) ∧
    (∃ rA rB,
      (runRace envA envB [false, false, true, true]
        ⟨db, AcquirePC.start, AcquirePC.start⟩).first = AcquirePC.returned rA ∧
      (runRace envA envB [false, false, true, true]
        ⟨db, AcquirePC.start, AcquirePC.start⟩).second = AcquirePC.returned rB) := by
  have hcA := claimUpdate_of_single db j0 envA.now h
  have hcB := claimUpdate_of_single db j0 envB.now h
  constructor
  · intro sched rA rB hfa hfb
    have hinv := runRace_inv db j0 envA envB hA1 hA2 hB1 hB2 hid h sched
      ⟨db, AcquirePC.start, AcquirePC.start⟩ (Or.inl ⟨rfl, Or.inl rfl, Or.inl rfl⟩)
    rcases hinv with ⟨_, h2, _⟩ | ⟨h1, h2, h3⟩ | ⟨h1, h2, h3⟩
    · rw [hfa] at h2
      rcases h2 with h2 | h2 <;> cases h2
    · rw [hfa] at h2
      rw [hfb] at h3
      have ea := AcquirePC.returned.inj h2
      have eb : rB = Except.ok none := by
        rcases h3 with h3 | h3 | h3
        · cases h3
        · cases h3
        · exact AcquirePC.returned.inj h3
      refine ⟨Or.inl ⟨ea, eb, ?_⟩, ?_⟩
      · rw [h1]; exact hcA.2.2
      · rw [h1]; exact hcA.2.1
    · rw [hfb] at h2
      rw [hfa] at h3
      have eb := AcquirePC.returned.inj h2
      have ea : rA = Except.ok none := by
        rcases h3 with h3 | h3 | h3
        · cases h3
        · cases h3
        · exact AcquirePC.returned.inj h3
      refine ⟨Or.inr ⟨eb, ea, ?_⟩, ?_⟩
      · rw [h1]; exact hcB.2.2
      · rw [h1]; exact hcB.2.1
  · refine ⟨Except.ok (some { j0 with Status := ExportStatus.processing }), Except.ok none, ?_, ?_⟩
    · simp only [runRace]
      rw [acquireStep_start_unclaimed envA db j0 hA1 hid h]
      simp only []
      rw [acquireStep_read_unclaimed envA db j0 hA2 h]
    · simp only [runRace]
      rw [acquireStep_start_unclaimed envA db j0 hA1 hid h]
      simp only []
      rw [acquireStep_read_unclaimed envA db j0 hA2 h]
      simp only []
      rw [acquireStep_start_claimed envB _ hB1 hcA.2.1]
      simp only [acquireStep]

/-! ### The bounded executor -/

/-- Reading a list after one store. -/
theorem getElem?_set_of_lt {α : Type} (l : List α) (i j : Nat) (a : α) (h : i < l.length) :
    (l.set i a)[j]? = if j = i then some a else l[j]? := by
  rw [List.getElem?_set]
  by_cases hij : i = j
  · subst hij; simp [h]
  · have : ¬ j = i := fun hh => hij hh.symm
    simp [hij, this]

/-- The initial state of the render tasks satisfies the invariant. -/
theorem renderInv_init (cap : Nat) (task : Nat → Except GoError partRenderResult)
    (chunks : List (List MessageModel)) (results : List partRenderResult) :
    RenderInv cap task chunks.length results (renderInit chunks results) := by
  have hph : ∀ i : Nat, (List.replicate chunks.length TaskPhase.spawned)[i]?
      ≠ some TaskPhase.finished := by
    intro i
    rw [List.getElem?_replicate]
    split_ifs <;> simp
  refine ⟨by simp [renderInit], ?_, by simp [renderInit], rfl, ?_, ?_, ?_⟩
  · simp [renderInit, List.count_replicate]
  · intro e he; simp [renderInit] at he
  · intro _ i hi
    exact absurd hi (hph i)
  · intro i
    simp only [renderInit]
    rw [if_neg (hph i)]

/-- Every event keeps the invariant. -/
theorem renderStep_inv (cap : Nat) (task : Nat → Except GoError partRenderResult) (n : Nat)
    (init : List partRenderResult) (s s' : RenderState) (ev : RenderEvent)
    (hinv : RenderInv cap task n init s) (hstep : renderStep cap task s ev = some s') :
    RenderInv cap task n init s' := by
  obtain ⟨hlen, hsem, hcap, hres, herr, hnone, hresults⟩ := hinv
  cases ev with
  | acquire i =>
    simp only [renderStep] at hstep
    by_cases hc : s.phases[i]? = some TaskPhase.spawned ∧ s.sem < cap
    swap
    · rw [if_neg hc] at hstep; cases hstep
    rw [if_pos hc] at hstep
    obtain ⟨hpi, hlt⟩ := hc
    have hs' := (Option.some.inj hstep).symm
    subst hs'
    obtain ⟨hil, hget⟩ := List.getElem?_eq_some.mp hpi
    have hfin : ∀ j : Nat, (s.phases.set i TaskPhase.running)[j]? = some TaskPhase.finished
        ↔ s.phases[j]? = some TaskPhase.finished := by
      intro j
      rw [getElem?_set_of_lt s.phases i j TaskPhase.running hil]
      by_cases hj : j = i
      · subst hj; simp [hpi]
      · simp [hj]
    refine ⟨by simp [hlen], ?_, ?_, hres, ?_, ?_, ?_⟩
    · simp only
      rw [List.count_set _ _ _ _ hil, hget]
      simp [hsem]
    · simp only; omega
    · intro e he
      obtain ⟨j, hj, ht⟩ := herr e he
      exact ⟨j, (hfin j).mpr hj, ht⟩
    · intro he j hj
      exact hnone he j ((hfin j).mp hj)
    · intro j
      have := hresults j
      simp only [hfin j]
      exact this
  | complete i =>
    simp only [renderStep] at hstep
    by_cases hpi : s.phases[i]? = some TaskPhase.running
    swap
    · rw [if_neg hpi] at hstep; cases hstep
    rw [if_pos hpi] at hstep
    obtain ⟨hil, hget⟩ := List.getElem?_eq_some.mp hpi
    have hnotfin : s.phases[i]? ≠ some TaskPhase.finished := by rw [hpi]; simp
    have hfin : ∀ j : Nat, (s.phases.set i TaskPhase.finished)[j]? = some TaskPhase.finished
        ↔ (j = i ∨ s.phases[j]? = some TaskPhase.finished) := by
      intro j
      rw [getElem?_set_of_lt s.phases i j TaskPhase.finished hil]
      by_cases hj : j = i
      · simp [hj]
      · simp [hj]
    have hcount : (s.phases.set i TaskPhase.finished).count TaskPhase.running = s.sem - 1 := by
      rw [List.count_set _ _ _ _ hil, hget]
      simp [hsem]
    cases ht : task i with
    | error e =>
      rw [ht] at hstep
      have hs' := (Option.some.inj hstep).symm
      subst hs'
      refine ⟨by simp [hlen], ?_, ?_, hres, ?_, ?_, ?_⟩
      · simp only; rw [hcount]
      · simp only; omega
      · intro e' he'
        simp only at he'
        cases hch : s.errCh with
        | none =>
          rw [hch] at he'
          have : e = e' := Option.some.inj he'
          subst this
          exact ⟨i, (hfin i).mpr (Or.inl rfl), ht⟩
        | some first =>
          rw [hch] at he'
          have : first = e' := Option.some.inj he'
          subst this
          obtain ⟨j, hj, htj⟩ := herr first hch
          exact ⟨j, (hfin j).mpr (Or.inr hj), htj⟩
      · intro he'
        simp only at he'
        cases hch : s.errCh <;> rw [hch] at he' <;> simp at he'
      · intro j
        simp only
        rw [hresults j]
        by_cases hj : j = i
        · subst hj
          rw [if_neg hnotfin, if_pos ((hfin j).mpr (Or.inl rfl)), ht]
        · have : ((s.phases.set i TaskPhase.finished)[j]? = some TaskPhase.finished)
              = (s.phases[j]? = some TaskPhase.finished) := by
            apply propext
            rw [hfin j]
            simp [hj]
          simp only [this]
    | ok r =>
      rw [ht] at hstep
      simp only at hstep
      by_cases hir : i < s.results.length
      swap
      · rw [if_neg hir] at hstep; cases hstep
      rw [if_pos hir] at hstep
      have hs' := (Option.some.inj hstep).symm
      subst hs'
      refine ⟨by simp [hlen], ?_, ?_, by simp [hres], ?_, ?_, ?_⟩
      · simp only; rw [hcount]
      · simp only; omega
      · intro e' he'
        obtain ⟨j, hj, htj⟩ := herr e' he'
        exact ⟨j, (hfin j).mpr (Or.inr hj), htj⟩
      · intro he' j hj
        rcases (hfin j).mp hj with h1 | h1
        · subst h1; exact ⟨r, ht⟩
        · exact hnone he' j h1
      · intro j
        simp only
        rw [getElem?_set_of_lt s.results i j r hir]
        by_cases hj : j = i
        · subst hj
          rw [if_pos rfl, if_pos ((hfin j).mpr (Or.inl rfl)), ht]
        · rw [if_neg hj, hresults j]
          have : ((s.phases.set i TaskPhase.finished)[j]? = some TaskPhase.finished)
              = (s.phases[j]? = some TaskPhase.finished) := by
            apply propext
            rw [hfin j]
            simp [hj]
          simp only [this]

/-- Every sequence of events keeps the invariant. -/
theorem runRender_inv (cap : Nat) (task : Nat → Except GoError partRenderResult) (n : Nat)
    (init : List partRenderResult) :
    ∀ (sched : List RenderEvent) (s s' : RenderState), RenderInv cap task n init s →
      runRender cap task sched s = some s' → RenderInv cap task n init s' := by
  intro sched
  induction sched with
  | nil =>
    intro s s' hinv hrun
    simp only [runRender] at hrun
    rw [← Option.some.inj hrun]; exact hinv
  | cons ev rest ih =>
    intro s s' hinv hrun
    simp only [runRender] at hrun
    cases hstep : renderStep cap task s ev with
    | none => rw [hstep] at hrun; simp at hrun
    | some s1 =>
      rw [hstep] at hrun
      exact ih s1 s' (renderStep_inv cap task n init s s1 ev hinv hstep) hrun

/-- The capacity of the semaphore is at least one. -/
theorem normalizeConcurrency_pos (env : ExportEnv) (value : Int) :
    1 ≤ normalizeConcurrency env value := by
  simp only [normalizeConcurrency]
  split_ifs <;> omega

/-- All phases of a list are `finished` exactly when the Boolean test of
`renderViewerParts` succeeds. -/
theorem all_finished_iff (phases : List TaskPhase) :
    phases.all (fun ph => decide (ph = TaskPhase.finished)) = true
      ↔ ∀ i : Nat, i < phases.length → phases[i]? = some TaskPhase.finished := by
  rw [List.all_eq_true]
  constructor
  · intro h i hi
    have hmem : phases[i] ∈ phases := List.getElem_mem hi
    have := h _ hmem
    rw [List.getElem?_eq_getElem hi]
    simpa using this
  · intro h x hx
    obtain ⟨i, hi⟩ := List.mem_iff_getElem?.mp hx
    have hlt : i < phases.length := by
      by_contra hge
      rw [List.getElem?_eq_none (by omega)] at hi
      cases hi
    have := h i hlt
    rw [hi] at this
    simpa using this

/-- With a capacity of at least one, running the tasks `i, i+1, ..., i+m-1` one after the
other is an execution: it ends with these tasks finished and all slots released. -/
theorem runRender_sequential (cap : Nat) (task : Nat → Except GoError partRenderResult)
    (hcap : 1 ≤ cap) :
    ∀ (m i : Nat) (s : RenderState), s.sem = 0 → s.phases.length = i + m →
      (∀ k : Nat, i ≤ k → k < i + m → s.phases[k]? = some TaskPhase.spawned) →
      (∀ k : Nat, k < i → s.phases[k]? = some TaskPhase.finished) →
      i + m ≤ s.results.length →
      ∃ s', runRender cap task (sequentialSchedule i m) s = some s' ∧ s'.sem = 0 ∧
        s'.phases.length = i + m ∧
        (∀ k : Nat, k < i + m → s'.phases[k]? = some TaskPhase.finished) := by
  intro m
  induction m with
  | zero =>
    intro i s hsem hlen _ hfin _
    exact ⟨s, rfl, hsem, hlen, by simpa using hfin⟩
  | succ m ih =>
    intro i s hsem hlen hsp hfin hres
    have hi : s.phases[i]? = some TaskPhase.spawned := hsp i (le_refl _) (by omega)
    have hil : i < s.phases.length := by omega
    have hstep1 : renderStep cap task s (RenderEvent.acquire i)
        = some { s with phases := s.phases.set i TaskPhase.running, sem := s.sem + 1 } := by
      simp only [renderStep]
      rw [if_pos ⟨hi, by omega⟩]
    have hrun1 : (s.phases.set i TaskPhase.running)[i]? = some TaskPhase.running := by
      rw [getElem?_set_of_lt s.phases i i TaskPhase.running hil, if_pos rfl]
    have hphases : ∀ k : Nat,
        ((s.phases.set i TaskPhase.running).set i TaskPhase.finished)[k]?
          = if k = i then some TaskPhase.finished else s.phases[k]? := by
      intro k
      rw [getElem?_set_of_lt _ i k TaskPhase.finished (by simpa using hil)]
      by_cases hk : k = i
      · simp [hk]
      · rw [if_neg hk, if_neg hk, getElem?_set_of_lt s.phases i k TaskPhase.running hil,
          if_neg hk]
    obtain ⟨s2, hstep2, hsem2, hph2, hres2⟩ : ∃ s2,
        renderStep cap task { s with phases := s.phases.set i TaskPhase.running, sem := s.sem + 1 }
          (RenderEvent.complete i) = some s2 ∧ s2.sem = 0 ∧
        s2.phases = (s.phases.set i TaskPhase.running).set i TaskPhase.finished ∧
        s2.results.length = s.results.length := by
      simp only [renderStep]
      rw [if_pos hrun1]
      cases ht : task i with
      | error e => exact ⟨_, rfl, by simp [hsem], rfl, rfl⟩
      | ok r =>
        simp only
        rw [if_pos (by omega : i < s.results.length)]
        exact ⟨_, rfl, by simp [hsem], rfl, by simp⟩
    obtain ⟨s', hrun, hsem', hlen', hall⟩ := ih (i + 1) s2 hsem2
      (by rw [hph2]; simp [hlen]; omega)
      (by
        intro k hk1 hk2
        rw [hph2, hphases k, if_neg (by omega)]
        exact hsp k (by omega) (by omega))
      (by
        intro k hk
        rw [hph2, hphases k]
        by_cases hki : k = i
        · rw [if_pos hki]
        · rw [if_neg hki]; exact hfin k (by omega))
      (by rw [hres2]; omega)
    refine ⟨s', ?_, hsem', by omega, ?_⟩
    · simp only [sequentialSchedule, runRender, hstep1, hstep2]
      exact hrun
    · intro k hk
      exact hall k (by omega)

/-- The function `renderViewerParts` returns under the sequential schedule whenever
`results` has room for every chunk. -/
theorem renderViewerParts_sequential (env : ExportEnv) (job : MessageExportJobModel)
    (channelName : String) (chunks : List (List MessageModel)) (assets : viewerAssets)
    (extra : exportExtraOptions) (generatedAt : GoTime) (results : List partRenderResult)
    (embedder : Option (ExportPayload → ExportPayload))
    (hres : chunks.length ≤ results.length) :
    ∃ r, renderViewerParts env job channelName chunks assets extra generatedAt results embedder
      (sequentialSchedule 0 chunks.length) = some r := by
  have hcap : 1 ≤ (normalizeConcurrency env extra.MaxConcurrency).toNat := by
    have := normalizeConcurrency_pos env extra.MaxConcurrency
    omega
  obtain ⟨s', hrun, -, hlen, hall⟩ := runRender_sequential _
    (renderTask env job channelName chunks assets extra generatedAt embedder) hcap
    chunks.length 0 (renderInit chunks results) rfl (by simp [renderInit])
    (by
      intro k _ hk
      simp only [renderInit, List.getElem?_replicate]
      rw [if_pos (by omega)])
    (by intro k hk; omega)
    (by simpa [renderInit] using hres)
  have hfin : s'.phases.all (fun ph => decide (ph = TaskPhase.finished)) = true := by
    rw [all_finished_iff]
    intro i hi
    exact hall i (by omega)
  exact ⟨(s'.errCh, s'.results), by simp only [renderViewerParts, hrun, hfin, if_true]⟩

/-- What `renderViewerParts` returns, under any schedule: the final state satisfies the
invariant and every task has finished. -/
theorem renderViewerParts_final (env : ExportEnv) (job : MessageExportJobModel)
    (channelName : String) (chunks : List (List MessageModel)) (assets : viewerAssets)
    (extra : exportExtraOptions) (generatedAt : GoTime) (results : List partRenderResult)
    (embedder : Option (ExportPayload → ExportPayload)) (sched : List RenderEvent)
    (r : Option GoError × List partRenderResult)
    (h : renderViewerParts env job channelName chunks assets extra generatedAt results embedder
      sched = some r) :
    ∃ s, runRender (normalizeConcurrency env extra.MaxConcurrency).toNat
        (renderTask env job channelName chunks assets extra generatedAt embedder) sched
        (renderInit chunks results) = some s ∧
      r = (s.errCh, s.results) ∧
      RenderInv (normalizeConcurrency env extra.MaxConcurrency).toNat
        (renderTask env job channelName chunks assets extra generatedAt embedder)
        chunks.length results s ∧
      (∀ i : Nat, i < chunks.length → s.phases[i]? = some TaskPhase.finished) := by
  simp only [renderViewerParts] at h
  cases hrun : runRender (normalizeConcurrency env extra.MaxConcurrency).toNat
      (renderTask env job channelName chunks assets extra generatedAt embedder) sched
      (renderInit chunks results) with
  | none => rw [hrun] at h; simp at h
  | some s =>
    rw [hrun] at h
    simp only at h
    by_cases hall : s.phases.all (fun ph => decide (ph = TaskPhase.finished)) = true
    · rw [if_pos hall] at h
      have hinv := runRender_inv _ _ chunks.length results sched _ s
        (renderInv_init _ _ chunks results) hrun
      refine ⟨s, rfl, (Option.some.inj h).symm, hinv, ?_⟩
      intro i hi
      exact (all_finished_iff s.phases).mp hall i (by rw [hinv.1]; exact hi)
    · rw [if_neg hall] at h; cases h

/-- C8.  In every state of every execution of `renderViewerParts`, for every number of
chunks and every configured concurrency, the number of render tasks between acquiring and
releasing a semaphore slot is the number of tokens in `sem` and never exceeds
`C = normalizeConcurrency(extra.MaxConcurrency)`; a task holding a slot completes and
releases it whether its render succeeds or fails; and once every task has finished all
slots are free. -/
theorem renderViewerParts_bounded_concurrency (env : ExportEnv) (job : MessageExportJobModel)
    (channelName : String) (chunks : List (List MessageModel)) (assets : viewerAssets)
    (extra : exportExtraOptions) (generatedAt : GoTime) (results : List partRenderResult)
    (embedder : Option (ExportPayload → ExportPayload)) :
    (((normalizeConcurrency env extra.MaxConcurrency).toNat : Int)
        = normalizeConcurrency env extra.MaxConcurrency) ∧
    (∀ (sched : List RenderEvent) (s : RenderState),
      runRender (normalizeConcurrency env extra.MaxConcurrency).toNat
        (renderTask env job channelName chunks assets extra generatedAt embedder) sched
        (renderInit chunks results) = some s →
      s.sem = s.phases.count TaskPhase.running ∧
      ((s.phases.count TaskPhase.running : Nat) : Int)
        ≤ normalizeConcurrency env extra.MaxConcurrency ∧
      ((∀ i : Nat, i < chunks.length → s.phases[i]? = some TaskPhase.finished) → s.sem = 0)) ∧
    (∀ (s : RenderState) (i : Nat), s.phases[i]? = some TaskPhase.running →
      i < s.results.length →
      ∃ s', renderStep (normalizeConcurrency env extra.MaxConcurrency).toNat
          (renderTask env job channelName chunks assets extra generatedAt embedder) s
          (RenderEvent.complete i) = some s' ∧
        s'.sem = s.sem - 1 ∧ s'.phases[i]? = some TaskPhase.finished) := by
  have hpos := normalizeConcurrency_pos env extra.MaxConcurrency
  refine ⟨by omega, ?_, ?_⟩
  · intro sched s hrun
    have hinv := runRender_inv _ _ chunks.length results sched _ s
      (renderInv_init _ _ chunks results) hrun
    obtain ⟨hlen, hsem, hcap, -, -, -, -⟩ := hinv
    refine ⟨hsem, ?_, ?_⟩
    · rw [← hsem]; omega
    · intro hall
      rw [hsem, List.count_eq_zero]
      intro hmem
      obtain ⟨k, hk⟩ := List.mem_iff_getElem?.mp hmem
      have hlt : k < s.phases.length := by
        by_contra hge
        rw [List.getElem?_eq_none (by omega)] at hk
        cases hk
      have := hall k (by omega)
      rw [hk] at this
      cases this
  · intro s i hrun hres
    obtain ⟨hil, -⟩ := List.getElem?_eq_some.mp hrun
    simp only [renderStep]
    rw [if_pos hrun]
    cases ht : renderTask env job channelName chunks assets extra generatedAt embedder i with
    | error e =>
      refine ⟨_, rfl, rfl, ?_⟩
      simp only
      rw [getElem?_set_of_lt s.phases i i TaskPhase.finished hil, if_pos rfl]
    | ok r =>
      simp only
      rw [if_pos hres]
      refine ⟨_, rfl, rfl, ?_⟩
      simp only
      rw [getElem?_set_of_lt s.phases i i TaskPhase.finished hil, if_pos rfl]

/-- The record a successful render task stores: file name and manifest fields are
determined by the index of the task and its chunk. -/
theorem renderTask_ok_fields (env : ExportEnv) (job : MessageExportJobModel)
    (channelName : String) (chunks : List (List MessageModel)) (assets : viewerAssets)
    (extra : exportExtraOptions) (generatedAt : GoTime)
    (embedder : Option (ExportPayload → ExportPayload)) (i : Nat) (p : partRenderResult)
    (h : renderTask env job channelName chunks assets extra generatedAt embedder i
      = Except.ok p) :
    p.fileName = partFileName ((i : Int) + 1) ∧
    p.meta.File = partFileName ((i : Int) + 1) ∧
    p.meta.PartIndex = (i : Int) + 1 ∧
    p.meta.PartTotal = (chunks.length : Int) ∧
    p.meta.Messages = (((chunks.getD i []).length : Nat) : Int) ∧
    p.meta.SHA256 = hexEncodeToString (env.sha256Sum p.content) ∧
    p.err = none := by
  simp only [renderTask, renderPart] at h
  split at h
  · cases h
  · have := Except.ok.inj h
    subst this
    exact ⟨rfl, rfl, rfl, rfl, rfl, rfl, rfl⟩

/-- When `renderViewerParts` returns without an error, every task has succeeded and
`results` holds at every chunk index the record of the task of that index. -/
theorem renderViewerParts_results (env : ExportEnv) (job : MessageExportJobModel)
    (channelName : String) (chunks : List (List MessageModel)) (assets : viewerAssets)
    (extra : exportExtraOptions) (generatedAt : GoTime) (results : List partRenderResult)
    (embedder : Option (ExportPayload → ExportPayload)) (sched : List RenderEvent)
    (err : Option GoError) (res : List partRenderResult)
    (h : renderViewerParts env job channelName chunks assets extra generatedAt results embedder
      sched = some (err, res)) :
    res.length = results.length ∧
    (∀ e, err = some e → ∃ i : Nat, i < chunks.length ∧
      renderTask env job channelName chunks assets extra generatedAt embedder i
        = Except.error e) ∧
    (err = none → ∀ i : Nat, i < chunks.length → ∃ p,
      renderTask env job channelName chunks assets extra generatedAt embedder i = Except.ok p ∧
      res[i]? = some p) ∧
    (∀ i : Nat, i < chunks.length → ∀ p,
      renderTask env job channelName chunks assets extra generatedAt embedder i = Except.ok p →
      res[i]? = some p) := by
  obtain ⟨s, -, hr, hinv, hall⟩ := renderViewerParts_final env job channelName chunks assets
    extra generatedAt results embedder sched _ h
  obtain ⟨hlen, -, -, hres, herr, hnone, hresults⟩ := hinv
  have h1 : err = s.errCh := (Prod.mk.inj hr).1
  have h2 : res = s.results := (Prod.mk.inj hr).2
  subst h1 h2
  have hget : ∀ i : Nat, i < chunks.length → ∀ p,
      renderTask env job channelName chunks assets extra generatedAt embedder i = Except.ok p →
      s.results[i]? = some p := by
    intro i hi p hp
    rw [hresults i, if_pos (hall i hi), hp]
  refine ⟨hres, ?_, ?_, hget⟩
  · intro e he
    obtain ⟨i, hi, ht⟩ := herr e he
    refine ⟨i, ?_, ht⟩
    obtain ⟨hil, -⟩ := List.getElem?_eq_some.mp hi
    omega
  · intro he i hi
    obtain ⟨p, hp⟩ := hnone he i (hall i hi)
    exact ⟨p, hp, hget i hi p hp⟩

/-! ### The archive -/

/-- The first loop of `writeViewerArchive`, when no entry fails: one entry per result, in
order, and the message counts added up. -/
theorem writePartEntries_ok (env : ExportEnv) :
    ∀ (results : List partRenderResult) (entries entries' : List (String × List UInt8))
      (total total' : Int),
      writePartEntries env results entries total = (entries', total', none) →
      entries' = entries ++ results.map (fun r => (r.fileName, r.content)) ∧
      total' = total + (results.map (fun r => r.meta.Messages)).sum := by
  intro results
  induction results with
  | nil =>
    intro entries entries' total total' h
    simp only [writePartEntries] at h
    obtain ⟨h1, h2, -⟩ := Prod.mk.inj h |>.imp id Prod.mk.inj
    subst h1 h2
    simp
  | cons r rest ih =>
    intro entries entries' total total' h
    simp only [writePartEntries, writeZipEntry] at h
    cases h1 : env.zipCreateHeaderErr r.fileName with
    | some e => rw [h1] at h; simp at h
    | none =>
      rw [h1] at h
      cases h2 : env.zipWriteErr r.fileName r.content with
      | some e => rw [h2] at h; simp at h
      | none =>
        rw [h2] at h
        simp only at h
        obtain ⟨e1, e2⟩ := ih _ _ _ _ h
        subst e1 e2
        simp [Int.add_assoc]

/-- The manifest `writeViewerArchive` builds: it exists once every part entry has been
written, and is `buildManifest` of the results and the sum of their message counts. -/
theorem writeViewerArchive_manifest (env : ExportEnv) (fs fs' : FileSystem) (filePath : String)
    (job : MessageExportJobModel) (channelName : String) (extra : exportExtraOptions)
    (generatedAt : GoTime) (results : List partRenderResult) (assets : viewerAssets)
    (m : viewerManifest) (e : Option GoError)
    (h : writeViewerArchive env fs filePath job channelName extra generatedAt results assets
      = (fs', some m, e)) :
    m = buildManifest env job channelName extra generatedAt results
      (results.map (fun r => r.meta.Messages)).sum := by
  unfold writeViewerArchive at h
  cases h0 : env.createErr filePath with
  | some e0 => rw [h0] at h; simp at h
  | none =>
    rw [h0] at h
    simp only at h
    rcases h1 : writePartEntries env results [] 0 with ⟨entries, total, _ | e1⟩
    · rw [h1] at h
      simp only at h
      have htot := (writePartEntries_ok env results [] entries 0 total h1).2
      rw [Int.zero_add] at htot
      subst htot
      have key : ∀ (x : FileSystem × Option viewerManifest × Option GoError),
          x = (fs', some m, e) → x.2.1 = some (buildManifest env job channelName extra
            generatedAt results (results.map (fun r => r.meta.Messages)).sum) →
          m = buildManifest env job channelName extra generatedAt results
            (results.map (fun r => r.meta.Messages)).sum := by
        intro x hx hx2
        rw [hx] at hx2
        exact Option.some.inj hx2
      apply key _ h
      repeat' split
      all_goals rfl
    · rw [h1] at h
      simp at h

/-- Whenever the splitter returns (with the fuel `processViewerExportJob` gives it), the
chunks concatenate to the message list. -/
theorem splitMessagesForViewer_some_flatten {α : Type} (c : SliceLimits) (messages : List α)
    (limit : Int) (chunks : List (List α))
    (h : splitMessagesForViewer c messages limit (messages.length + 1) = some chunks) :
    chunks.flatten = messages := by
  by_cases hL : 1 ≤ normalizeSliceLimit c limit
  · obtain ⟨chunks', hrun, hflat, -, -, -⟩ := splitMessagesForViewer_spec c messages limit hL
    have := hrun (messages.length + 1) (by omega)
    rw [this] at h
    rw [← Option.some.inj h]; exact hflat
  · rw [splitMessagesForViewer_nonpos c messages limit _ (by omega)] at h
    by_cases hm : messages.length = 0
    · rw [if_pos hm] at h
      rw [← Option.some.inj h, List.length_eq_zero.mp hm]; rfl
    · rw [if_neg hm] at h; cases h

/-- The sum of the lengths of the chunks is the length of their concatenation. -/
theorem sum_chunk_lengths {α : Type} (chunks : List (List α)) :
    (chunks.map (fun ch => ((ch.length : Nat) : Int))).sum = ((chunks.flatten.length : Nat) : Int) := by
  induction chunks with
  | nil => rfl
  | cons ch rest ih =>
    simp only [List.map_cons, List.sum_cons, List.flatten_cons, List.length_append, ih]
    push_cast
    rfl

/-- When every task succeeds, the message counts recorded in `results` are the lengths of
the chunks, index by index. -/
theorem renderViewerParts_message_counts (env : ExportEnv) (job : MessageExportJobModel)
    (channelName : String) (chunks : List (List MessageModel)) (assets : viewerAssets)
    (extra : exportExtraOptions) (generatedAt : GoTime) (results : List partRenderResult)
    (embedder : Option (ExportPayload → ExportPayload)) (sched : List RenderEvent)
    (res : List partRenderResult) (hres : results.length = chunks.length)
    (h : renderViewerParts env job channelName chunks assets extra generatedAt results embedder
      sched = some (none, res)) :
    res.map (fun r => r.meta.Messages) = chunks.map (fun ch => ((ch.length : Nat) : Int)) := by
  obtain ⟨hlen, -, hok, -⟩ := renderViewerParts_results env job channelName chunks assets extra
    generatedAt results embedder sched none res h
  apply List.ext_getElem?
  intro i
  rw [List.getElem?_map, List.getElem?_map]
  by_cases hi : i < chunks.length
  · obtain ⟨p, hp, hget⟩ := hok rfl i hi
    have hf := (renderTask_ok_fields env job channelName chunks assets extra generatedAt
      embedder i p hp).2.2.2.2.1
    rw [hget, List.getElem?_eq_getElem hi]
    simp only [Option.map_some']
    rw [hf]
    simp [List.getD_eq_getElem?_getD, List.getElem?_eq_getElem hi]
  · rw [List.getElem?_eq_none (by omega), List.getElem?_eq_none (by omega)]
    rfl

/-- C9.  When every part renders successfully and `results` has one slot per chunk,
`renderViewerParts` returns under some schedule, and under every schedule under which it
returns (whatever the order in which the tasks finish) it returns no error and leaves at
every chunk index `i` (0-based, chunk `ch`) the result of that chunk: file name and
manifest `File` are the part name for `i + 1`, `PartIndex = i + 1`, `PartTotal` is the
number of chunks and `Messages` the length of `ch`; and the manifest `writeViewerArchive`
builds lists these records in the same order, `manifest.Parts[i] = results[i].meta`. -/
theorem renderViewerParts_results_by_index (env : ExportEnv) (job : MessageExportJobModel)
    (channelName : String) (chunks : List (List MessageModel)) (assets : viewerAssets)
    (extra : exportExtraOptions) (generatedAt : GoTime) (results : List partRenderResult)
    (embedder : Option (ExportPayload → ExportPayload))
    (hres : results.length = chunks.length)
    (hall : ∀ i : Nat, i < chunks.length → ∃ p,
      renderTask env job channelName chunks assets extra generatedAt embedder i
        = Except.ok p) :
    (∃ r, renderViewerParts env job channelName chunks assets extra generatedAt results embedder
      (sequentialSchedule 0 chunks.length) = some r) ∧
    ∀ (sched : List RenderEvent) (err : Option GoError) (res : List partRenderResult),
      renderViewerParts env job channelName chunks assets extra generatedAt results embedder
        sched = some (err, res) →
      err = none ∧ res.length = chunks.length ∧
      (∀ (i : Nat) (ch : List MessageModel), chunks[i]? = some ch →
        ∃ p, res[i]? = some p ∧
          renderTask env job channelName chunks assets extra generatedAt embedder i
            = Except.ok p ∧
          p.fileName = partFileName ((i : Int) + 1) ∧
          p.meta.File = partFileName ((i : Int) + 1) ∧
          p.meta.PartIndex = (i : Int) + 1 ∧
          p.meta.PartTotal = (chunks.length : Int) ∧
          p.meta.Messages = (ch.length : Int)) ∧
      (∀ (fs fs' : FileSystem) (filePath : String) (m : viewerManifest) (e : Option GoError),
        writeViewerArchive env fs filePath job channelName extra generatedAt res assets
          = (fs', some m, e) →
        m.Parts.length = chunks.length ∧
        ∀ i : Nat, m.Parts[i]? = (res[i]?).map (fun r => r.meta)) := by
  refine ⟨renderViewerParts_sequential env job channelName chunks assets extra generatedAt
    results embedder (by omega), ?_⟩
  intro sched err res hrun
  obtain ⟨hlen, herr, -, hget⟩ := renderViewerParts_results env job channelName chunks assets
    extra generatedAt results embedder sched err res hrun
  have herr' : err = none := by
    cases err with
    | none => rfl
    | some e =>
      obtain ⟨i, hi, ht⟩ := herr e rfl
      obtain ⟨p, hp⟩ := hall i hi
      rw [hp] at ht; cases ht
  refine ⟨herr', by omega, ?_, ?_⟩
  · intro i ch hch
    obtain ⟨hi, hgetch⟩ := List.getElem?_eq_some.mp hch
    obtain ⟨p, hp⟩ := hall i hi
    obtain ⟨f1, f2, f3, f4, f5, -, -⟩ := renderTask_ok_fields env job channelName chunks assets
      extra generatedAt embedder i p hp
    refine ⟨p, hget i hi p hp, hp, f1, f2, f3, f4, ?_⟩
    rw [f5]
    simp [List.getD_eq_getElem?_getD, hch]
  · intro fs fs' filePath m e hw
    have hm := writeViewerArchive_manifest env fs fs' filePath job channelName extra
      generatedAt res assets m e hw
    subst hm
    refine ⟨by simp [buildManifest]; omega, ?_⟩
    intro i
    simp [buildManifest]

/-- C10.  For a viewer export whose parts all rendered successfully (the message list
split into chunks, the chunks rendered into `results` without an error), the manifest
`writeViewerArchive` builds satisfies `len(Parts) = PartTotal = number of chunks` and
`sum(Parts[i].Messages) = TotalMessages = number of messages`. -/
theorem viewerManifest_counts (env : ExportEnv) (job : MessageExportJobModel)
    (channelName : String) (messages : List MessageModel) (chunks : List (List MessageModel))
    (assets : viewerAssets) (extra : exportExtraOptions) (generatedAt : GoTime)
    (embedder : Option (ExportPayload → ExportPayload)) (sched : List RenderEvent)
    (res : List partRenderResult) (fs fs' : FileSystem) (filePath : String)
    (m : viewerManifest) (e : Option GoError)
    (hsplit : splitMessagesForViewer env.limits messages extra.SliceLimit (messages.length + 1)
      = some chunks)
    (hrender : renderViewerParts env job channelName chunks assets extra generatedAt
      (List.replicate chunks.length zeroPartRenderResult) embedder sched = some (none, res))
    (hwrite : writeViewerArchive env fs filePath job channelName extra generatedAt res assets
      = (fs', some m, e)) :
    (m.Parts.length : Int) = m.PartTotal ∧
    m.PartTotal = (chunks.length : Int) ∧
    (m.Parts.map (fun part => part.Messages)).sum = m.TotalMessages ∧
    m.TotalMessages = (messages.length : Int) := by
  have hm := writeViewerArchive_manifest env fs fs' filePath job channelName extra
    generatedAt res assets m e hwrite
  have hlen := (renderViewerParts_results env job channelName chunks assets extra generatedAt
    _ embedder sched none res hrender).1
  have hcounts := renderViewerParts_message_counts env job channelName chunks assets extra
    generatedAt _ embedder sched res (by simp) hrender
  have hflat := splitMessagesForViewer_some_flatten env.limits messages extra.SliceLimit
    chunks hsplit
  subst hm
  refine ⟨by simp [buildManifest], ?_, ?_, ?_⟩
  · simp only [buildManifest, hlen, List.length_replicate]
  · simp only [buildManifest, List.map_map]
    rfl
  · simp only [buildManifest, hcounts, sum_chunk_lengths, hflat]

/-! ### Processing a job -/

/-- The viewer branch of `processExportJob`. -/
theorem processExportJob_html (env : ExportEnv) (w : World) (job : MessageExportJobModel)
    (storageDir : String) (sched : List RenderEvent) (messages : List MessageModel)
    (hfmt : equalFoldHtml job.Format = true)
    (hload : env.loadMessagesForExport job = Except.ok messages) :
    processExportJob env w job storageDir sched
      = match processViewerExportJob env w job (env.resolveChannelName job.ChannelID) messages
            storageDir (some (env.parseExportExtraOptions job.ExtraOptions)) sched with
        | none => none
        | some (w', some err) =>
          some ({ w' with
            db := (markJobFailed w'.db job (some err) env.finishedAt env.markFailedErr).1 },
            some err)
        | some (w', none) => some (w', none) := by
  simp only [processExportJob, hload, hfmt, if_true]

/-- The function `processViewerExportJob` after the split and the render. -/
theorem processViewerExportJob_eq (env : ExportEnv) (w : World) (job : MessageExportJobModel)
    (channelName : String) (messages : List MessageModel) (storageDir : String)
    (extra : exportExtraOptions) (sched : List RenderEvent)
    (chunks : List (List MessageModel))
    (hsplit : splitMessagesForViewer env.limits messages extra.SliceLimit (messages.length + 1)
      = some chunks) :
    processViewerExportJob env w job channelName messages storageDir (some extra) sched
      = match renderViewerParts env job channelName chunks env.getViewerAssets extra
            env.generatedAt (List.replicate chunks.length zeroPartRenderResult)
            env.newInlineImageEmbedder sched with
        | none => none
        | some (some err, _) => some (w, some err)
        | some (none, results) =>
          match env.mkdirAllErr storageDir with
          | some e => some (w, some ⟨"创建导出目录失败: " ++ e.msg⟩)
          | none =>
            match writeViewerArchive env { w.fs with dirs := storageDir :: w.fs.dirs }
                (env.filepathJoin storageDir (buildViewerArchiveName channelName env.generatedAt))
                job channelName extra env.generatedAt results env.getViewerAssets with
            | (fs, _, some err) => some ({ db := w.db, fs := fs }, some err)
            | (fs, _, none) =>
              some ({ db := (markJobDone w.db job
                        (env.filepathJoin storageDir
                          (buildViewerArchiveName channelName env.generatedAt))
                        (buildViewerArchiveName channelName env.generatedAt) ["zip"]
                        env.finishedAt env.markDoneErr).1, fs := fs },
                    (markJobDone w.db job
                        (env.filepathJoin storageDir
                          (buildViewerArchiveName channelName env.generatedAt))
                        (buildViewerArchiveName channelName env.generatedAt) ["zip"]
                        env.finishedAt env.markDoneErr).2) := by
  simp only [processViewerExportJob, hsplit]

/-- What `markJobFailed` leaves in the rows of the job when the store accepts the
update. -/
theorem markJobFailed_rows (db : JobStore) (job : MessageExportJobModel) (e : GoError)
    (now : GoTime) :
    ∀ j ∈ (markJobFailed db job (some e) now none).1, j.ID = job.ID →
      j.Status = ExportStatus.failed ∧ j.ErrorMsg = e.msg := by
  intro j hj hid
  simp only [markJobFailed, List.mem_map] at hj
  obtain ⟨k, -, hk⟩ := hj
  by_cases hkid : k.ID = job.ID
  · rw [if_pos hkid] at hk
    subst hk
    exact ⟨rfl, rfl⟩
  · rw [if_neg hkid] at hk
    subst hk
    exact absurd hid hkid

/-- When the store accepts the update of `markJobFailed` and holds a row of the job, it
holds a row of the job afterwards that is failed with the message of the cause. -/
theorem markJobFailed_row_exists (db : JobStore) (job : MessageExportJobModel) (e : GoError)
    (now : GoTime) (h : ∃ j ∈ db, j.ID = job.ID) :
    ∃ j ∈ (markJobFailed db job (some e) now none).1,
      j.ID = job.ID ∧ j.Status = ExportStatus.failed ∧ j.ErrorMsg = e.msg := by
  obtain ⟨j, hj, hid⟩ := h
  refine ⟨{ j with Status := ExportStatus.failed, ErrorMsg := e.msg, FinishedAt := some now },
    ?_, hid, rfl, rfl⟩
  simp only [markJobFailed, List.mem_map]
  exact ⟨j, hj, by rw [if_pos hid]⟩

/-- When the store refuses the update of `markJobFailed`, no row is changed. -/
theorem markJobFailed_refused (db : JobStore) (job : MessageExportJobModel)
    (cause : Option GoError) (now : GoTime) (err : GoError) :
    (markJobFailed db job cause now (some err)).1 = db := rfl

/-- C7, as stated, fails: `processExportJob` discards the error of `markJobFailed`
(`_ = markJobFailed(job, err)`), so when the store refuses that update the render error
is returned while the row of the job is left as it was, `processing` with an empty
`error_msg`: the job has not ended failed. -/
theorem render_failure_not_recorded_counterexample :
    equalFoldHtml sampleClaimedJob.Format = true ∧
    renderTask sampleLockedFailingEnv sampleClaimedJob
        (sampleLockedFailingEnv.resolveChannelName sampleClaimedJob.ChannelID) sampleChunks
        sampleLockedFailingEnv.getViewerAssets
        (sampleLockedFailingEnv.parseExportExtraOptions sampleClaimedJob.ExtraOptions)
        sampleLockedFailingEnv.generatedAt sampleLockedFailingEnv.newInlineImageEmbedder 1
      = Except.error ⟨"render failed"⟩ ∧
    (processExportJob sampleLockedFailingEnv ⟨[sampleClaimedJob], ⟨[], []⟩⟩ sampleClaimedJob
        "dir" (sequentialSchedule 0 2)).map
        (fun out => (out.2, out.1.db.map (fun j => (j.ID, j.Status, j.ErrorMsg)), out.1.fs))
      = some (some ⟨"render failed"⟩, [("job-1", ExportStatus.processing, "")], ⟨[], []⟩) := by
  refine ⟨by decide, rfl, by decide⟩

/-- C7, amended.  A viewer (html) export whose messages load and split into `chunks`.  If
the render of at least one chunk fails, then `processExportJob` returns under the
sequential schedule, and under every schedule under which it returns: `renderViewerParts`
returns the error of one of the failing parts, `processViewerExportJob` returns that
error with the world unchanged (no directory created, no archive file), and
`processExportJob` returns it after calling `markJobFailed` with it: the file system is
unchanged; when the store carries out the update, every row of the job is failed with
that error message, and there is such a row if the store held a row of the job; when the
store refuses the update, whose error is discarded, the store is left as it was.
Conversely, if no render fails `renderViewerParts` returns no error. -/
theorem processExportJob_render_failure (env : ExportEnv) (w : World)
    (job : MessageExportJobModel) (storageDir : String) (messages : List MessageModel)
    (chunks : List (List MessageModel))
    (hfmt : equalFoldHtml job.Format = true)
    (hload : env.loadMessagesForExport job = Except.ok messages)
    (hsplit : splitMessagesForViewer env.limits messages
      (env.parseExportExtraOptions job.ExtraOptions).SliceLimit (messages.length + 1)
      = some chunks) :
    ((∃ i : Nat, i < chunks.length ∧ ∃ e,
        renderTask env job (env.resolveChannelName job.ChannelID) chunks env.getViewerAssets
          (env.parseExportExtraOptions job.ExtraOptions) env.generatedAt
          env.newInlineImageEmbedder i = Except.error e) →
      (∃ out, processExportJob env w job storageDir (sequentialSchedule 0 chunks.length)
        = some out) ∧
      ∀ (sched : List RenderEvent) (out : World × Option GoError),
        processExportJob env w job storageDir sched = some out →
        ∃ (i : Nat) (e : GoError) (res : List partRenderResult),
          i < chunks.length ∧
          renderTask env job (env.resolveChannelName job.ChannelID) chunks env.getViewerAssets
            (env.parseExportExtraOptions job.ExtraOptions) env.generatedAt
            env.newInlineImageEmbedder i = Except.error e ∧
          renderViewerParts env job (env.resolveChannelName job.ChannelID) chunks
            env.getViewerAssets (env.parseExportExtraOptions job.ExtraOptions) env.generatedAt
            (List.replicate chunks.length zeroPartRenderResult) env.newInlineImageEmbedder sched
            = some (some e, res) ∧
          processViewerExportJob env w job (env.resolveChannelName job.ChannelID) messages
            storageDir (some (env.parseExportExtraOptions job.ExtraOptions)) sched
            = some (w, some e) ∧
          out = ({ w with
              db := (markJobFailed w.db job (some e) env.finishedAt env.markFailedErr).1 },
            some e) ∧
          out.1.fs = w.fs ∧
          (env.markFailedErr = none →
            (∀ j ∈ out.1.db, j.ID = job.ID →
              j.Status = ExportStatus.failed ∧ j.ErrorMsg = e.msg) ∧
            ((∃ j ∈ w.db, j.ID = job.ID) →
              ∃ j ∈ out.1.db, j.ID = job.ID ∧ j.Status = ExportStatus.failed ∧
                j.ErrorMsg = e.msg)) ∧
          (env.markFailedErr ≠ none → out.1.db = w.db)) ∧
    ((∀ i : Nat, i < chunks.length → ∃ p,
        renderTask env job (env.resolveChannelName job.ChannelID) chunks env.getViewerAssets
          (env.parseExportExtraOptions job.ExtraOptions) env.generatedAt
          env.newInlineImageEmbedder i = Except.ok p) →
      ∀ (sched : List RenderEvent) (err : Option GoError) (res : List partRenderResult),
        renderViewerParts env job (env.resolveChannelName job.ChannelID) chunks
          env.getViewerAssets (env.parseExportExtraOptions job.ExtraOptions) env.generatedAt
          (List.replicate chunks.length zeroPartRenderResult) env.newInlineImageEmbedder sched
          = some (err, res) → err = none) := by
  have hmain : (∃ i : Nat, i < chunks.length ∧ ∃ e,
        renderTask env job (env.resolveChannelName job.ChannelID) chunks env.getViewerAssets
          (env.parseExportExtraOptions job.ExtraOptions) env.generatedAt
          env.newInlineImageEmbedder i = Except.error e) →
      ∀ (sched : List RenderEvent) (r : Option GoError × List partRenderResult),
        renderViewerParts env job (env.resolveChannelName job.ChannelID) chunks
          env.getViewerAssets (env.parseExportExtraOptions job.ExtraOptions) env.generatedAt
          (List.replicate chunks.length zeroPartRenderResult) env.newInlineImageEmbedder sched
          = some r →
        ∃ (i : Nat) (e : GoError), i < chunks.length ∧
          renderTask env job (env.resolveChannelName job.ChannelID) chunks env.getViewerAssets
            (env.parseExportExtraOptions job.ExtraOptions) env.generatedAt
            env.newInlineImageEmbedder i = Except.error e ∧ r.1 = some e := by
    rintro ⟨i0, hi0, e0, he0⟩ sched ⟨err, res⟩ hr
    obtain ⟨-, herr, hnone, -⟩ := renderViewerParts_results _ _ _ _ _ _ _ _ _ sched err res hr
    cases err with
    | none =>
      obtain ⟨p, hp, -⟩ := hnone rfl i0 hi0
      rw [hp] at he0; cases he0
    | some e =>
      obtain ⟨i, hi, ht⟩ := herr e rfl
      exact ⟨i, e, hi, ht, rfl⟩
  constructor
  · intro hfail
    have hstep : ∀ (sched : List RenderEvent) (r : Option GoError × List partRenderResult),
        renderViewerParts env job (env.resolveChannelName job.ChannelID) chunks
          env.getViewerAssets (env.parseExportExtraOptions job.ExtraOptions) env.generatedAt
          (List.replicate chunks.length zeroPartRenderResult) env.newInlineImageEmbedder sched
          = some r →
        ∃ (i : Nat) (e : GoError), i < chunks.length ∧
          renderTask env job (env.resolveChannelName job.ChannelID) chunks env.getViewerAssets
            (env.parseExportExtraOptions job.ExtraOptions) env.generatedAt
            env.newInlineImageEmbedder i = Except.error e ∧ r = (some e, r.2) ∧
          processViewerExportJob env w job (env.resolveChannelName job.ChannelID) messages
            storageDir (some (env.parseExportExtraOptions job.ExtraOptions)) sched
            = some (w, some e) ∧
          processExportJob env w job storageDir sched
            = some ({ w with
                db := (markJobFailed w.db job (some e) env.finishedAt env.markFailedErr).1 },
              some e) := by
      intro sched r hr
      obtain ⟨i, e, hi, ht, hre⟩ := hmain hfail sched r hr
      obtain ⟨err, res⟩ := r
      simp only at hre
      subst hre
      have hv : processViewerExportJob env w job (env.resolveChannelName job.ChannelID)
          messages storageDir (some (env.parseExportExtraOptions job.ExtraOptions)) sched
          = some (w, some e) := by
        rw [processViewerExportJob_eq env w job _ messages storageDir _ sched chunks hsplit, hr]
      refine ⟨i, e, hi, ht, rfl, hv, ?_⟩
      rw [processExportJob_html env w job storageDir sched messages hfmt hload, hv]
    constructor
    · obtain ⟨r, hr⟩ := renderViewerParts_sequential env job
        (env.resolveChannelName job.ChannelID) chunks env.getViewerAssets
        (env.parseExportExtraOptions job.ExtraOptions) env.generatedAt
        (List.replicate chunks.length zeroPartRenderResult) env.newInlineImageEmbedder
        (by simp)
      obtain ⟨i, e, -, -, -, -, hp⟩ := hstep _ r hr
      exact ⟨_, hp⟩
    · intro sched out hout
      cases hr : renderViewerParts env job (env.resolveChannelName job.ChannelID) chunks
          env.getViewerAssets (env.parseExportExtraOptions job.ExtraOptions) env.generatedAt
          (List.replicate chunks.length zeroPartRenderResult) env.newInlineImageEmbedder sched
          with
      | none =>
        rw [processExportJob_html env w job storageDir sched messages hfmt hload,
          processViewerExportJob_eq env w job _ messages storageDir _ sched chunks hsplit,
          hr] at hout
        cases hout
      | some r =>
        obtain ⟨i, e, hi, ht, hre, hv, hp⟩ := hstep sched r hr
        rw [hp] at hout
        have hout' := (Option.some.inj hout).symm
        subst hout'
        refine ⟨i, e, r.2, hi, ht, congrArg some hre, hv, rfl, rfl, ?_, ?_⟩
        · intro hdb
          simp only [hdb]
          exact ⟨markJobFailed_rows w.db job e env.finishedAt,
            markJobFailed_row_exists w.db job e env.finishedAt⟩
        · intro hdb
          obtain ⟨err, herr⟩ := Option.ne_none_iff_exists'.mp hdb
          simp only [herr]
          exact markJobFailed_refused w.db job (some e) env.finishedAt err
  · intro hall sched err res hr
    obtain ⟨-, herr, -, -⟩ := renderViewerParts_results _ _ _ _ _ _ _ _ _ sched err res hr
    cases err with
    | none => rfl
    | some e =>
      obtain ⟨i, hi, ht⟩ := herr e rfl
      obtain ⟨p, hp⟩ := hall i hi
      rw [hp] at ht; cases ht

/-! ### Status transitions of the store operations -/

/-- A table and its image under a row-wise update are related row by row. -/
theorem forall₂_map_self {α : Type} (R : α → α → Prop) (f : α → α) (h : ∀ a, R a (f a)) :
    ∀ l : List α, List.Forall₂ R l (l.map f) := by
  intro l
  induction l with
  | nil => exact List.Forall₂.nil
  | cons a rest ih => exact List.Forall₂.cons (h a) ih

/-- A table is related to itself row by row under a reflexive relation. -/
theorem forall₂_self {α : Type} (R : α → α → Prop) (h : ∀ a, R a a) :
    ∀ l : List α, List.Forall₂ R l l := by
  intro l
  induction l with
  | nil => exact List.Forall₂.nil
  | cons a rest ih => exact List.Forall₂.cons (h a) ih

/-- Row by row, the conditional update touches pending rows only and makes them
processing. -/
theorem claimUpdate_rows (db : JobStore) (id : String) (now : GoTime) :
    List.Forall₂ (fun j j' : MessageExportJobModel =>
        j'.ID = j.ID ∧ (j.Status ≠ ExportStatus.pending → j' = j) ∧
        (j'.Status = j.Status ∨
          (j.Status = ExportStatus.pending ∧ j'.Status = ExportStatus.processing)))
      db (claimUpdate db id now).1 := by
  unfold claimUpdate
  apply forall₂_map_self
  intro j
  by_cases hc : j.ID = id ∧ j.Status = ExportStatus.pending
  · rw [if_pos hc]
    exact ⟨rfl, fun hn => absurd hc.2 hn, Or.inr ⟨hc.2, rfl⟩⟩
  · rw [if_neg hc]
    exact ⟨rfl, fun _ => rfl, Or.inl rfl⟩

/-- C5, as stated, fails: `markJobFailed` applied to a job that is `done` makes it
`failed`, and `markJobDone` applied to a job that is `failed` makes it `done`. -/
theorem terminal_status_overwritten_counterexample :
    sampleDoneJob.Status = ExportStatus.done ∧
    (markJobFailed [sampleDoneJob] sampleDoneJob (some ⟨"late failure"⟩) zeroTime none).1.map
        (fun j => j.Status) = [ExportStatus.failed] ∧
    sampleFailedJob.Status = ExportStatus.failed ∧
    (markJobDone [sampleFailedJob] sampleFailedJob "dir/b.zip" "b.zip" [] zeroTime none).1.map
        (fun j => j.Status) = [ExportStatus.done] := by
  refine ⟨by decide, by decide, by decide, by decide⟩

/-- C5, amended.  Row by row over every store state: `acquireNextExportJob` never changes
a job that is not pending (so none that is done or failed) and changes a pending job only
to processing; `markJobFailed` and `markJobDone` never change a job whose id differs from
the id of the job they are given; a job with that id keeps its status or becomes failed
(respectively done), whatever its status was, and does become failed (respectively done)
when the store accepts the update; and no operation ever sets the status of a job to
pending. -/
theorem storeOps_status_transitions (db : JobStore) :
    (∀ aenv : AcquireEnv,
      List.Forall₂ (fun j j' : MessageExportJobModel =>
          j'.ID = j.ID ∧ (j.Status ≠ ExportStatus.pending → j' = j) ∧
          (j'.Status = j.Status ∨
            (j.Status = ExportStatus.pending ∧ j'.Status = ExportStatus.processing)) ∧
          (j'.Status = ExportStatus.pending → j.Status = ExportStatus.pending))
        db (acquireNextExportJob aenv db).1) ∧
    (∀ (job : MessageExportJobModel) (cause : Option GoError) (now : GoTime)
        (dbErr : Option GoError),
      List.Forall₂ (fun j j' : MessageExportJobModel =>
          j'.ID = j.ID ∧ (j.ID ≠ job.ID → j' = j) ∧
          (j'.Status = j.Status ∨ (j.ID = job.ID ∧ j'.Status = ExportStatus.failed)) ∧
          (dbErr = none → j.ID = job.ID → j'.Status = ExportStatus.failed) ∧
          (j'.Status = ExportStatus.pending → j.Status = ExportStatus.pending))
        db (markJobFailed db job cause now dbErr).1) ∧
    (∀ (job : MessageExportJobModel) (filePath fileName : String) (formatOverride : List String)
        (now : GoTime) (dbErr : Option GoError),
      List.Forall₂ (fun j j' : MessageExportJobModel =>
          j'.ID = j.ID ∧ (j.ID ≠ job.ID → j' = j) ∧
          (j'.Status = j.Status ∨ (j.ID = job.ID ∧ j'.Status = ExportStatus.done)) ∧
          (dbErr = none → j.ID = job.ID → j'.Status = ExportStatus.done) ∧
          (j'.Status = ExportStatus.pending → j.Status = ExportStatus.pending))
        db (markJobDone db job filePath fileName formatOverride now dbErr).1) := by
  refine ⟨?_, ?_, ?_⟩
  · intro aenv
    have hself : List.Forall₂ (fun j j' : MessageExportJobModel =>
          j'.ID = j.ID ∧ (j.Status ≠ ExportStatus.pending → j' = j) ∧
          (j'.Status = j.Status ∨
            (j.Status = ExportStatus.pending ∧ j'.Status = ExportStatus.processing)) ∧
          (j'.Status = ExportStatus.pending → j.Status = ExportStatus.pending)) db db :=
      forall₂_self _ (fun j => ⟨rfl, fun _ => rfl, Or.inl rfl, fun h => h⟩) db
    have hclaim : ∀ id now, List.Forall₂ (fun j j' : MessageExportJobModel =>
          j'.ID = j.ID ∧ (j.Status ≠ ExportStatus.pending → j' = j) ∧
          (j'.Status = j.Status ∨
            (j.Status = ExportStatus.pending ∧ j'.Status = ExportStatus.processing)) ∧
          (j'.Status = ExportStatus.pending → j.Status = ExportStatus.pending))
          db (claimUpdate db id now).1 := by
      intro id now
      refine List.Forall₂.imp ?_ (claimUpdate_rows db id now)
      rintro j j' ⟨h1, h2, h3⟩
      refine ⟨h1, h2, h3, ?_⟩
      intro hp
      rcases h3 with h3 | ⟨h3, h4⟩
      · rw [← h3]; exact hp
      · exact h3
    simp only [acquireNextExportJob]
    cases aenv.findErr with
    | some e => exact hself
    | none =>
      simp only
      by_cases hid : (findOldestPending db).ID = ""
      · rw [if_pos hid]; exact hself
      · rw [if_neg hid]
        cases aenv.updateErr with
        | some e => exact hself
        | none =>
          simp only
          by_cases hz : (claimUpdate db (findOldestPending db).ID aenv.now).2 = 0
          · rw [if_pos hz]; exact hclaim _ _
          · rw [if_neg hz]; exact hclaim _ _
  · intro job cause now dbErr
    cases dbErr with
    | some e =>
      simp only [markJobFailed]
      exact forall₂_self _
        (fun j => ⟨rfl, fun _ => rfl, Or.inl rfl, (fun h => by cases h), fun h => h⟩) db
    | none =>
      simp only [markJobFailed]
      apply forall₂_map_self
      intro j
      by_cases hj : j.ID = job.ID
      · rw [if_pos hj]
        exact ⟨rfl, fun hn => absurd hj hn, Or.inr ⟨hj, rfl⟩, fun _ _ => rfl,
          fun h => by cases h⟩
      · rw [if_neg hj]
        exact ⟨rfl, fun _ => rfl, Or.inl rfl, fun _ h => absurd h hj, fun h => h⟩
  · intro job filePath fileName formatOverride now dbErr
    cases dbErr with
    | some e =>
      simp only [markJobDone]
      exact forall₂_self _
        (fun j => ⟨rfl, fun _ => rfl, Or.inl rfl, (fun h => by cases h), fun h => h⟩) db
    | none =>
      simp only [markJobDone]
      apply forall₂_map_self
      intro j
      by_cases hj : j.ID = job.ID
      · rw [if_pos hj]
        exact ⟨rfl, fun hn => absurd hj hn, Or.inr ⟨hj, rfl⟩, fun _ _ => rfl,
          fun h => by cases h⟩
      · rw [if_neg hj]
        exact ⟨rfl, fun _ => rfl, Or.inl rfl, fun _ h => absurd h hj, fun h => h⟩

/-! ### The life of a job -/

/-- A string that starts with a non-empty string is non-empty. -/
theorem append_ne_empty_left (a b : String) (h : a ≠ "") : a ++ b ≠ "" := by
  intro h0
  apply h
  have hl := congrArg String.length h0
  rw [String.length_append] at hl
  have ha : a.length = 0 := by
    have : ("" : String).length = 0 := rfl
    omega
  cases a with
  | mk data =>
    have : data = [] := List.length_eq_zero.mp ha
    subst this
    rfl

/-- A string that ends with a non-empty string is non-empty. -/
theorem append_ne_empty_right (a b : String) (h : b ≠ "") : a ++ b ≠ "" := by
  intro h0
  apply h
  have hl := congrArg String.length h0
  rw [String.length_append] at hl
  have hb : b.length = 0 := by
    have : ("" : String).length = 0 := rfl
    omega
  cases b with
  | mk data =>
    have : data = [] := List.length_eq_zero.mp hb
    subst this
    rfl

/-- The archive name is never empty. -/
theorem buildViewerArchiveName_ne_empty (channelName : String) (t : GoTime) :
    buildViewerArchiveName channelName t ≠ "" := by
  unfold buildViewerArchiveName
  exact append_ne_empty_right _ _ (by decide)

/-- The name of a single-document export is never empty. -/
theorem buildExportFileName_ne_empty (payload : ExportPayload) (ext : String) :
    buildExportFileName payload ext ≠ "" := by
  unfold buildExportFileName
  exact append_ne_empty_left _ _ (append_ne_empty_right _ _ (by decide))

/-- An error of `writeZipEntry` has a non-empty message. -/
theorem writeZipEntry_error_msg (env : ExportEnv) (entries entries' : List (String × List UInt8))
    (name : String) (data : List UInt8) (e : GoError)
    (h : writeZipEntry env entries name data = (entries', some e)) : e.msg ≠ "" := by
  unfold writeZipEntry at h
  cases h1 : env.zipCreateHeaderErr name with
  | some e1 =>
    rw [h1] at h
    have he := Option.some.inj (Prod.mk.inj h).2
    rw [← he]
    exact append_ne_empty_left _ _ (append_ne_empty_left _ _
      (append_ne_empty_left _ _ (by decide)))
  | none =>
    rw [h1] at h
    cases h2 : env.zipWriteErr name data with
    | some e2 =>
      rw [h2] at h
      have he := Option.some.inj (Prod.mk.inj h).2
      rw [← he]
      exact append_ne_empty_left _ _ (append_ne_empty_left _ _
        (append_ne_empty_left _ _ (by decide)))
    | none =>
      rw [h2] at h
      have := (Prod.mk.inj h).2
      cases this

/-- An error of the first loop of `writeViewerArchive` has a non-empty message. -/
theorem writePartEntries_error_msg (env : ExportEnv) :
    ∀ (results : List partRenderResult) (entries entries' : List (String × List UInt8))
      (total total' : Int) (e : GoError),
      writePartEntries env results entries total = (entries', total', some e) →
      e.msg ≠ "" := by
  intro results
  induction results with
  | nil =>
    intro entries entries' total total' e h
    simp only [writePartEntries] at h
    have := (Prod.mk.inj (Prod.mk.inj h).2).2
    cases this
  | cons r rest ih =>
    intro entries entries' total total' e h
    simp only [writePartEntries] at h
    rcases hz : writeZipEntry env entries r.fileName r.content with ⟨ent, _ | e1⟩
    · rw [hz] at h
      exact ih _ _ _ _ e h
    · rw [hz] at h
      simp only at h
      have he := Option.some.inj (Prod.mk.inj (Prod.mk.inj h).2).2
      rw [← he]
      exact writeZipEntry_error_msg env entries ent r.fileName r.content e1 hz

/-- An error of `writeViewerArchive` has a non-empty message, provided the errors of the
index renderer have one. -/
theorem writeViewerArchive_error_msg (env : ExportEnv) (fs fs' : FileSystem)
    (filePath : String) (job : MessageExportJobModel) (channelName : String)
    (extra : exportExtraOptions) (generatedAt : GoTime) (results : List partRenderResult)
    (assets : viewerAssets) (m : Option viewerManifest) (e : GoError)
    (hE : ErrorsNonEmpty env)
    (h : writeViewerArchive env fs filePath job channelName extra generatedAt results assets
      = (fs', m, some e)) : e.msg ≠ "" := by
  unfold writeViewerArchive at h
  cases h0 : env.createErr filePath with
  | some e0 =>
    rw [h0] at h
    have he := Option.some.inj (Prod.mk.inj (Prod.mk.inj h).2).2
    rw [← he]
    exact append_ne_empty_left _ _ (by decide)
  | none =>
    rw [h0] at h
    simp only at h
    rcases h1 : writePartEntries env results [] 0 with ⟨entries, total, _ | e1⟩
    · rw [h1] at h
      simp only at h
      cases h2 : env.jsonMarshalIndent
          (buildManifest env job channelName extra generatedAt results total) with
      | error e2 =>
        rw [h2] at h
        have he := Option.some.inj (Prod.mk.inj (Prod.mk.inj h).2).2
        rw [← he]
        exact append_ne_empty_left _ _ (by decide)
      | ok metaBytes =>
        rw [h2] at h
        simp only at h
        rcases h3 : writeZipEntry env entries "manifest/meta.json" metaBytes with ⟨ent3, _ | e3⟩
        · rw [h3] at h
          simp only at h
          cases h4 : env.renderViewerIndex
              (buildManifest env job channelName extra generatedAt results total) assets with
          | error e4 =>
            rw [h4] at h
            have he := Option.some.inj (Prod.mk.inj (Prod.mk.inj h).2).2
            rw [← he]
            exact hE.2.2.1 _ _ e4 h4
          | ok indexBytes =>
            rw [h4] at h
            simp only at h
            rcases h5 : writeZipEntry env ent3 "index.html" indexBytes with ⟨ent5, _ | e5⟩
            · rw [h5] at h
              have := (Prod.mk.inj (Prod.mk.inj h).2).2
              cases this
            · rw [h5] at h
              have he := Option.some.inj (Prod.mk.inj (Prod.mk.inj h).2).2
              rw [← he]
              exact writeZipEntry_error_msg env _ _ _ _ e5 h5
        · rw [h3] at h
          have he := Option.some.inj (Prod.mk.inj (Prod.mk.inj h).2).2
          rw [← he]
          exact writeZipEntry_error_msg env _ _ _ _ e3 h3
    · rw [h1] at h
      have he := Option.some.inj (Prod.mk.inj (Prod.mk.inj h).2).2
      rw [← he]
      exact writePartEntries_error_msg env results [] entries 0 total e1 h1

/-- An error sent by a render task is an error of `renderHTMLPart`. -/
theorem renderTask_error_msg (env : ExportEnv) (job : MessageExportJobModel)
    (channelName : String) (chunks : List (List MessageModel)) (assets : viewerAssets)
    (extra : exportExtraOptions) (generatedAt : GoTime)
    (embedder : Option (ExportPayload → ExportPayload)) (i : Nat) (e : GoError)
    (hE : ErrorsNonEmpty env)
    (h : renderTask env job channelName chunks assets extra generatedAt embedder i
      = Except.error e) : e.msg ≠ "" := by
  simp only [renderTask, renderPart] at h
  split at h
  · rename_i e' heq
    have := Except.error.inj h
    subst this
    exact hE.2.1 _ _ _ heq
  · cases h

/-- What `processViewerExportJob` does to the store: nothing, returning an error with a
non-empty message, or one accepted `markJobDone` with a non-empty path and name. -/
theorem processViewerExportJob_db (env : ExportEnv) (w w' : World)
    (job : MessageExportJobModel) (channelName : String) (messages : List MessageModel)
    (storageDir : String) (extra : exportExtraOptions) (sched : List RenderEvent)
    (r : Option GoError) (hE : ErrorsNonEmpty env) (hJ : JoinKeepsName env)
    (h : processViewerExportJob env w job channelName messages storageDir (some extra) sched
      = some (w', r)) :
    (w'.db = w.db ∧ ∃ e, r = some e ∧ e.msg ≠ "") ∨
    (r = none ∧ ∃ path name fo, path ≠ "" ∧ name ≠ "" ∧
      w'.db = (markJobDone w.db job path name fo env.finishedAt none).1) := by
  cases hs : splitMessagesForViewer env.limits messages extra.SliceLimit (messages.length + 1)
    with
  | none => simp only [processViewerExportJob, hs] at h; cases h
  | some chunks =>
    rw [processViewerExportJob_eq env w job channelName messages storageDir extra sched chunks
      hs] at h
    rcases hr : renderViewerParts env job channelName chunks env.getViewerAssets extra
        env.generatedAt (List.replicate chunks.length zeroPartRenderResult)
        env.newInlineImageEmbedder sched with _ | ⟨_ | e, res⟩
    · rw [hr] at h; cases h
    · rw [hr] at h
      simp only at h
      cases hmk : env.mkdirAllErr storageDir with
      | some e1 =>
        rw [hmk] at h
        have h' := Option.some.inj h
        left
        refine ⟨by rw [← (Prod.mk.inj h').1], _, ((Prod.mk.inj h').2).symm, ?_⟩
        exact append_ne_empty_left _ _ (by decide)
      | none =>
        rw [hmk] at h
        simp only at h
        rcases hw : writeViewerArchive env { w.fs with dirs := storageDir :: w.fs.dirs }
            (env.filepathJoin storageDir (buildViewerArchiveName channelName env.generatedAt))
            job channelName extra env.generatedAt res env.getViewerAssets
          with ⟨fs1, m1, _ | e2⟩
        · rw [hw] at h
          simp only at h
          have h' := Option.some.inj h
          cases hd : env.markDoneErr with
          | some e3 =>
            left
            rw [hd] at h'
            refine ⟨by rw [← (Prod.mk.inj h').1]; rfl, e3, ?_, hE.2.2.2.2.2.2 e3 hd⟩
            rw [← (Prod.mk.inj h').2]; rfl
          | none =>
            right
            rw [hd] at h'
            refine ⟨by rw [← (Prod.mk.inj h').2]; rfl,
              env.filepathJoin storageDir (buildViewerArchiveName channelName env.generatedAt),
              buildViewerArchiveName channelName env.generatedAt, ["zip"],
              hJ _ _ (buildViewerArchiveName_ne_empty channelName env.generatedAt),
              buildViewerArchiveName_ne_empty channelName env.generatedAt, ?_⟩
            rw [← (Prod.mk.inj h').1]
        · rw [hw] at h
          simp only at h
          have h' := Option.some.inj h
          left
          refine ⟨by rw [← (Prod.mk.inj h').1], e2, ((Prod.mk.inj h').2).symm, ?_⟩
          exact writeViewerArchive_error_msg env _ fs1 _ job channelName extra env.generatedAt
            res env.getViewerAssets m1 e2 hE hw
    · rw [hr] at h
      simp only at h
      have h' := Option.some.inj h
      left
      refine ⟨by rw [← (Prod.mk.inj h').1], e, ((Prod.mk.inj h').2).symm, ?_⟩
      obtain ⟨-, herr, -, -⟩ := renderViewerParts_results env job channelName chunks
        env.getViewerAssets extra env.generatedAt _ env.newInlineImageEmbedder sched (some e)
        res hr
      obtain ⟨i, -, ht⟩ := herr e rfl
      exact renderTask_error_msg env job channelName chunks env.getViewerAssets extra
        env.generatedAt env.newInlineImageEmbedder i e hE ht

/-- An update by `markJobFailed` either is refused, leaving the table as it was, or is
accepted. -/
theorem markJobFailed_refused_or_accepted (db : JobStore) (job : MessageExportJobModel)
    (cause : Option GoError) (now : GoTime) (dbErr : Option GoError) :
    (markJobFailed db job cause now dbErr).1 = db ∨
    (markJobFailed db job cause now dbErr).1 = (markJobFailed db job cause now none).1 := by
  cases dbErr with
  | none => exact Or.inr rfl
  | some e => exact Or.inl rfl

/-- What `processExportJob` does to the store: nothing, or one accepted `markJobFailed`
with a non-empty message, or one accepted `markJobDone` with a non-empty path and name. -/
theorem processExportJob_db (env : ExportEnv) (w w' : World) (job : MessageExportJobModel)
    (storageDir : String) (sched : List RenderEvent) (r : Option GoError)
    (hE : ErrorsNonEmpty env) (hJ : JoinKeepsName env)
    (h : processExportJob env w job storageDir sched = some (w', r)) :
    w'.db = w.db ∨
    (∃ e : GoError, e.msg ≠ "" ∧
      w'.db = (markJobFailed w.db job (some e) env.finishedAt none).1) ∨
    (∃ path name fo, path ≠ "" ∧ name ≠ "" ∧
      w'.db = (markJobDone w.db job path name fo env.finishedAt none).1) := by
  have hfail : ∀ (db : JobStore) (e : GoError), e.msg ≠ "" → db = w.db →
      ∀ x : JobStore, x = (markJobFailed db job (some e) env.finishedAt env.markFailedErr).1 →
      x = w.db ∨
      (∃ e : GoError, e.msg ≠ "" ∧
        x = (markJobFailed w.db job (some e) env.finishedAt none).1) ∨
      (∃ path name fo, path ≠ "" ∧ name ≠ "" ∧
        x = (markJobDone w.db job path name fo env.finishedAt none).1) := by
    intro db e he hdb x hx
    subst hdb hx
    rcases markJobFailed_refused_or_accepted w.db job (some e) env.finishedAt env.markFailedErr
      with h1 | h1
    · exact Or.inl h1
    · exact Or.inr (Or.inl ⟨e, he, h1⟩)
  unfold processExportJob at h
  simp only at h
  cases hl : env.loadMessagesForExport job with
  | error e =>
    rw [hl] at h
    simp only at h
    have h' := (Prod.mk.inj (Option.some.inj h)).1
    exact hfail w.db e (hE.1 job e hl) rfl w'.db (by rw [← h'])
  | ok messages =>
    rw [hl] at h
    simp only at h
    by_cases hf : equalFoldHtml job.Format = true
    · rw [if_pos hf] at h
      rcases hv : processViewerExportJob env w job (env.resolveChannelName job.ChannelID)
          messages storageDir (some (env.parseExportExtraOptions job.ExtraOptions)) sched
        with _ | ⟨w1, _ | e⟩
      · rw [hv] at h; cases h
      · rw [hv] at h
        simp only at h
        have h' := (Prod.mk.inj (Option.some.inj h)).1
        subst h'
        rcases processViewerExportJob_db env w w1 job _ messages storageDir _ sched none hE hJ hv
          with ⟨-, e, he, -⟩ | ⟨-, hd⟩
        · cases he
        · exact Or.inr (Or.inr hd)
      · rw [hv] at h
        simp only at h
        have h' := (Prod.mk.inj (Option.some.inj h)).1
        rcases processViewerExportJob_db env w w1 job _ messages storageDir _ sched (some e) hE hJ
            hv with ⟨hdb, e', he, hne⟩ | ⟨hnone, -⟩
        · have : e = e' := Option.some.inj he
          subst this
          exact hfail w1.db e hne hdb w'.db (by rw [← h'])
        · cases hnone
    · rw [if_neg hf] at h
      cases hg : env.getFormatter job.Format with
      | none =>
        rw [hg] at h
        simp only at h
        have h' := (Prod.mk.inj (Option.some.inj h)).1
        exact hfail w.db ⟨"不支持的导出格式: " ++ job.Format⟩
          (append_ne_empty_left _ _ (by decide)) rfl w'.db (by rw [← h'])
      | some formatter =>
        rw [hg] at h
        simp only at h
        cases hb : formatter.Build
            (env.buildExportPayload job (env.resolveChannelName job.ChannelID) messages none) with
        | error e =>
          rw [hb] at h
          simp only at h
          have h' := (Prod.mk.inj (Option.some.inj h)).1
          exact hfail w.db e (hE.2.2.2.1 _ formatter _ e hg hb) rfl w'.db (by rw [← h'])
        | ok data =>
          rw [hb] at h
          simp only at h
          cases hmk : env.mkdirAllErr storageDir with
          | some e =>
            rw [hmk] at h
            simp only at h
            have h' := (Prod.mk.inj (Option.some.inj h)).1
            exact hfail w.db e (hE.2.2.2.2.1 _ e hmk) rfl w'.db (by rw [← h'])
          | none =>
            rw [hmk] at h
            simp only at h
            cases hwf : env.writeFileErr
                (env.filepathJoin storageDir (job.ID ++ "." ++ formatter.Ext)) data with
            | some e =>
              rw [hwf] at h
              simp only at h
              have h' := (Prod.mk.inj (Option.some.inj h)).1
              exact hfail w.db e (hE.2.2.2.2.2.1 _ _ e hwf) rfl w'.db (by rw [← h'])
            | none =>
              rw [hwf] at h
              simp only at h
              have h' := (Prod.mk.inj (Option.some.inj h)).1
              cases hd : env.markDoneErr with
              | some e3 =>
                left
                rw [hd] at h'
                rw [← h']; rfl
              | none =>
                right; right
                rw [hd] at h'
                refine ⟨env.filepathJoin storageDir (job.ID ++ "." ++ formatter.Ext),
                  buildExportFileName (env.buildExportPayload job
                    (env.resolveChannelName job.ChannelID) messages none) formatter.Ext, [],
                  hJ _ _ (append_ne_empty_left _ _ (append_ne_empty_right _ _ (by decide))),
                  buildExportFileName_ne_empty _ _, ?_⟩
                rw [← h']

/-- The row the read selects is a pending row of the table. -/
theorem oldestPending_mem (db : JobStore) (j : MessageExportJobModel)
    (h : oldestPending db = some j) : j ∈ db ∧ j.Status = ExportStatus.pending := by
  induction db generalizing j with
  | nil => simp [oldestPending] at h
  | cons k rest ih =>
    simp only [oldestPending] at h
    cases hr : oldestPending rest with
    | none =>
      rw [hr] at h
      simp only at h
      by_cases hk : k.Status = ExportStatus.pending
      · rw [if_pos hk] at h
        have := Option.some.inj h
        subst this
        exact ⟨List.mem_cons_self _ _, hk⟩
      · rw [if_neg hk] at h; cases h
    | some m =>
      rw [hr] at h
      simp only at h
      by_cases hk : k.Status = ExportStatus.pending ∧ k.CreatedAt.unix ≤ m.CreatedAt.unix
      · rw [if_pos hk] at h
        have := Option.some.inj h
        subst this
        exact ⟨List.mem_cons_self _ _, hk.1⟩
      · rw [if_neg hk] at h
        have := Option.some.inj h
        subst this
        exact ⟨List.mem_cons_of_mem _ (ih m hr).1, (ih m hr).2⟩

/-- A row-wise update that keeps the ids keeps the list of ids. -/
theorem map_ids_of_keeps_id (db : JobStore) (f : MessageExportJobModel → MessageExportJobModel)
    (hf : ∀ j, (f j).ID = j.ID) :
    (db.map f).map (fun j => j.ID) = db.map (fun j => j.ID) := by
  rw [List.map_map]
  apply List.map_congr_left
  intro j _
  exact hf j

/-- The conditional update keeps a table in good order. -/
theorem claimUpdate_good (db : JobStore) (id : String) (now : GoTime) (h : GoodStore db) :
    GoodStore (claimUpdate db id now).1 := by
  obtain ⟨hnd, hinv⟩ := h
  unfold claimUpdate
  constructor
  · simp only
    rw [map_ids_of_keeps_id]
    · exact hnd
    · intro j
      by_cases hc : j.ID = id ∧ j.Status = ExportStatus.pending
      · rw [if_pos hc]
      · rw [if_neg hc]
  · intro j hj
    simp only [List.mem_map] at hj
    obtain ⟨k, hk, hkj⟩ := hj
    by_cases hc : k.ID = id ∧ k.Status = ExportStatus.pending
    · rw [if_pos hc] at hkj
      subst hkj
      obtain ⟨-, h2, -, h4⟩ := hinv k hk
      have hp := hc.2
      refine ⟨(fun hd => by cases hd), fun _ => h2 (by rw [hp]; decide), (fun hd => by cases hd),
        fun _ => h4 (by rw [hp]; decide)⟩
    · rw [if_neg hc] at hkj
      subst hkj
      exact hinv k hk

/-- An accepted `markJobFailed` with a non-empty message keeps a table in good order when
the rows of the job are processing. -/
theorem markJobFailed_good (db : JobStore) (job : MessageExportJobModel) (e : GoError)
    (now : GoTime) (h : GoodStore db) (he : e.msg ≠ "")
    (hproc : ∀ j ∈ db, j.ID = job.ID → j.Status = ExportStatus.processing) :
    GoodStore (markJobFailed db job (some e) now none).1 := by
  obtain ⟨hnd, hinv⟩ := h
  simp only [markJobFailed]
  constructor
  · rw [map_ids_of_keeps_id]
    · exact hnd
    · intro j
      by_cases hc : j.ID = job.ID
      · rw [if_pos hc]
      · rw [if_neg hc]
  · intro j hj
    simp only [List.mem_map] at hj
    obtain ⟨k, hk, hkj⟩ := hj
    by_cases hc : k.ID = job.ID
    · rw [if_pos hc] at hkj
      subst hkj
      obtain ⟨-, h2, -, -⟩ := hinv k hk
      have hp := hproc k hk hc
      refine ⟨(fun hd => by cases hd), fun _ => h2 (by rw [hp]; decide), fun _ => he,
        fun hn => absurd rfl hn⟩
    · rw [if_neg hc] at hkj
      subst hkj
      exact hinv k hk

/-- An accepted `markJobDone` with a non-empty path and name keeps a table in good
order. -/
theorem markJobDone_good (db : JobStore) (job : MessageExportJobModel)
    (filePath fileName : String) (formatOverride : List String) (now : GoTime)
    (h : GoodStore db) (hp : filePath ≠ "") (hn : fileName ≠ "") :
    GoodStore (markJobDone db job filePath fileName formatOverride now none).1 := by
  obtain ⟨hnd, hinv⟩ := h
  simp only [markJobDone]
  constructor
  · rw [map_ids_of_keeps_id]
    · exact hnd
    · intro j
      by_cases hc : j.ID = job.ID
      · rw [if_pos hc]
      · rw [if_neg hc]
  · intro j hj
    simp only [List.mem_map] at hj
    obtain ⟨k, hk, hkj⟩ := hj
    by_cases hc : k.ID = job.ID
    · rw [if_pos hc] at hkj
      subst hkj
      exact ⟨fun _ => ⟨hp, hn⟩, fun hne => absurd rfl hne, (fun hd => by cases hd), fun _ => rfl⟩
    · rw [if_neg hc] at hkj
      subst hkj
      exact hinv k hk

/-- A call of `acquireNextExportJob` keeps a table in good order, and when it returns a
job every row with the id of that job is processing. -/
theorem acquireNextExportJob_good (aenv : AcquireEnv) (db : JobStore) (h : GoodStore db) :
    GoodStore (acquireNextExportJob aenv db).1 ∧
    ∀ job, (acquireNextExportJob aenv db).2 = Except.ok (some job) →
      ∀ j ∈ (acquireNextExportJob aenv db).1, j.ID = job.ID →
        j.Status = ExportStatus.processing := by
  simp only [acquireNextExportJob]
  cases aenv.findErr with
  | some e => exact ⟨h, fun job hj => by cases hj⟩
  | none =>
    simp only
    by_cases hid : (findOldestPending db).ID = ""
    · rw [if_pos hid]
      exact ⟨h, fun job hj => by cases hj⟩
    · rw [if_neg hid]
      cases aenv.updateErr with
      | some e => exact ⟨h, fun job hj => by cases hj⟩
      | none =>
        simp only
        by_cases hz : (claimUpdate db (findOldestPending db).ID aenv.now).2 = 0
        · rw [if_pos hz]
          exact ⟨claimUpdate_good db _ _ h, fun job hj => by cases hj⟩
        · rw [if_neg hz]
          refine ⟨claimUpdate_good db _ _ h, ?_⟩
          intro job hjob j hj hjid
          have hjob' : job = { findOldestPending db with Status := ExportStatus.processing } :=
            (Option.some.inj (Except.ok.inj hjob)).symm
          have hjobid : job.ID = (findOldestPending db).ID := by rw [hjob']
          obtain ⟨j0, hj0⟩ : ∃ j0, oldestPending db = some j0 := by
            cases ho : oldestPending db with
            | none =>
              exfalso; apply hid
              simp [findOldestPending, ho, zeroJob]
            | some j0 => exact ⟨j0, rfl⟩
          have hfo : findOldestPending db = j0 := by simp [findOldestPending, hj0]
          obtain ⟨hmem, hpend⟩ := oldestPending_mem db j0 hj0
          simp only [claimUpdate, List.mem_map] at hj
          obtain ⟨k, hk, hkj⟩ := hj
          have hkid : k.ID = j0.ID := by
            by_cases hc : k.ID = (findOldestPending db).ID ∧ k.Status = ExportStatus.pending
            · rw [← hfo]; exact hc.1
            · rw [if_neg hc] at hkj
              subst hkj
              rw [hjid, hjobid, hfo]
          have hkeq : k = j0 :=
            List.inj_on_of_nodup_map h.1 hk hmem hkid
          subst hkeq
          rw [hfo, if_pos ⟨rfl, hpend⟩] at hkj
          subst hkj
          rfl

/-- One iteration of the worker keeps the store in good order, when the errors of the
surroundings have non-empty messages. -/
theorem workerIteration_good (aenv : AcquireEnv) (env : ExportEnv) (storageDir : String)
    (sched : List RenderEvent) (w w' : World) (hE : ErrorsNonEmpty env)
    (hJ : JoinKeepsName env) (h : GoodStore w.db)
    (hstep : workerIteration aenv env storageDir sched w = some w') : GoodStore w'.db := by
  obtain ⟨hgood, hproc⟩ := acquireNextExportJob_good aenv w.db h
  unfold workerIteration at hstep
  rcases ha : acquireNextExportJob aenv w.db with ⟨db, e | _ | job⟩
  · rw [ha] at hstep hgood
    simp only at hstep
    rw [← Option.some.inj hstep]; exact hgood
  · rw [ha] at hstep hgood
    simp only at hstep
    rw [← Option.some.inj hstep]; exact hgood
  · rw [ha] at hstep hgood hproc
    simp only at hstep hgood hproc
    rcases hp : processExportJob env { w with db := db } job storageDir sched
      with _ | ⟨w1, r⟩
    · rw [hp] at hstep; cases hstep
    · rw [hp] at hstep
      simp only at hstep
      have := Option.some.inj hstep
      subst this
      rcases processExportJob_db env _ w1 job storageDir sched r hE hJ hp
        with h1 | ⟨e, he, h1⟩ | ⟨path, name, fo, hpath, hname, h1⟩
      · rw [h1]; exact hgood
      · rw [h1]
        exact markJobFailed_good db job e env.finishedAt hgood he (hproc job rfl)
      · rw [h1]
        exact markJobDone_good db job path name fo env.finishedAt hgood hpath hname

/-- C6, as stated, fails: a newly created pending job whose messages fail to load with an
error of empty message is, after one iteration of the worker, failed with an empty
`error_msg`. -/
theorem failed_with_empty_message_counterexample :
    FreshJob sampleJob ∧
    (workerIteration sampleAcquireEnv sampleEmptyErrorEnv "dir" [] ⟨[sampleJob], ⟨[], []⟩⟩).map
      (fun w => w.db.map (fun j => (j.Status, j.ErrorMsg, j.FilePath, j.FileName)))
      = some [(ExportStatus.failed, "", "", "")] := by
  refine ⟨⟨rfl, rfl, rfl, rfl⟩, by decide⟩

/-- C6, amended.  From a store of newly created pending jobs with pairwise distinct ids,
through any number of iterations of the worker (`acquireNextExportJob` followed by
`processExportJob`) in which every error that a failure carries has a non-empty message:
in every state reached and for every job, `file_path` and `file_name` are set
(non-empty) if and only if the status is `done`, and `error_msg` is set (non-empty) if
and only if the status is `failed`. -/
theorem jobInv_of_reachable (w0 w : World)
    (hfresh : ∀ j ∈ w0.db, FreshJob j)
    (hnodup : (w0.db.map (fun j => j.ID)).Nodup)
    (hreach : WorkerReach (fun env => ErrorsNonEmpty env ∧ JoinKeepsName env) w0 w) :
    ∀ j ∈ w.db,
      ((j.FilePath ≠ "" ∧ j.FileName ≠ "") ↔ j.Status = ExportStatus.done) ∧
      (j.FilePath ≠ "" ↔ j.Status = ExportStatus.done) ∧
      (j.FileName ≠ "" ↔ j.Status = ExportStatus.done) ∧
      (j.ErrorMsg ≠ "" ↔ j.Status = ExportStatus.failed) := by
  have hgood : GoodStore w.db := by
    induction hreach with
    | start =>
      refine ⟨hnodup, ?_⟩
      intro j hj
      obtain ⟨h1, h2, h3, h4⟩ := hfresh j hj
      exact ⟨(fun hd => by rw [h1] at hd; cases hd), fun _ => ⟨h2, h3⟩,
        (fun hd => by rw [h1] at hd; cases hd), fun _ => h4⟩
    | step w1 w2 aenv env storageDir sched _ hP hstep ih =>
      exact workerIteration_good aenv env storageDir sched w1 w2 hP.1 hP.2 ih hstep
  intro j hj
  obtain ⟨h1, h2, h3, h4⟩ := hgood.2 j hj
  refine ⟨⟨?_, h1⟩, ⟨?_, fun hd => (h1 hd).1⟩, ⟨?_, fun hd => (h1 hd).2⟩, ⟨?_, h3⟩⟩
  · intro hp
    by_contra hne
    exact hp.1 (h2 hne).1
  · intro hp
    by_contra hne
    exact hp (h2 hne).1
  · intro hp
    by_contra hne
    exact hp (h2 hne).2
  · intro hp
    by_contra hne
    exact hp (h4 hne)

/-! ### The properties at the sample data -/

/-- In the sample surroundings with a failing render every error has a non-empty
message. -/
theorem sampleFailingEnv_errorsNonEmpty : ErrorsNonEmpty sampleFailingEnv := by
  refine ⟨?_, ?_, ?_, ?_, ?_, ?_, ?_⟩
  · intro job e h; simp [sampleFailingEnv, sampleEnv] at h
  · intro payload assets e h
    simp only [sampleFailingEnv] at h
    split at h
    · rw [← Except.error.inj h]; decide
    · cases h
  · intro m a e h; simp [sampleFailingEnv, sampleEnv] at h
  · intro k f p e h; simp [sampleFailingEnv, sampleEnv] at h
  · intro d e h; simp [sampleFailingEnv, sampleEnv] at h
  · intro p d e h; simp [sampleFailingEnv, sampleEnv] at h
  · intro e h; simp [sampleFailingEnv, sampleEnv] at h

/-- The sample path join keeps a non-empty name. -/
theorem sampleFailingEnv_joinKeepsName : JoinKeepsName sampleFailingEnv := by
  intro dir name h
  exact append_ne_empty_right _ _ h

/-- Witness of C4: the single pending sample job, the second caller reading first and the
first caller updating first. -/
theorem acquireNextExportJob_race_witness :
    sampleJob.ID ≠ "" ∧
    [sampleJob].filter (fun j => decide (j.Status = ExportStatus.pending)) = [sampleJob] ∧
    (runRace sampleAcquireEnv sampleAcquireEnv [true, false, false, true]
        ⟨[sampleJob], AcquirePC.start, AcquirePC.start⟩).first
      = AcquirePC.returned
          (Except.ok (some { sampleJob with Status := ExportStatus.processing })) ∧
    (runRace sampleAcquireEnv sampleAcquireEnv [true, false, false, true]
        ⟨[sampleJob], AcquirePC.start, AcquirePC.start⟩).second
      = AcquirePC.returned (Except.ok none) ∧
    (((Except.ok (some { sampleJob with Status := ExportStatus.processing })
          = (Except.ok (some { sampleJob with Status := ExportStatus.processing }) :
              Except GoError (Option MessageExportJobModel)) ∧
        (Except.ok none : Except GoError (Option MessageExportJobModel)) = Except.ok none ∧
        { sampleJob with Status := ExportStatus.processing, UpdatedAt := sampleAcquireEnv.now }
          ∈ (runRace sampleAcquireEnv sampleAcquireEnv [true, false, false, true]
              ⟨[sampleJob], AcquirePC.start, AcquirePC.start⟩).db) ∨
      ((Except.ok none : Except GoError (Option MessageExportJobModel))
          = Except.ok (some { sampleJob with Status := ExportStatus.processing }) ∧
        (Except.ok (some { sampleJob with Status := ExportStatus.processing }) :
            Except GoError (Option MessageExportJobModel)) = Except.ok none ∧
        { sampleJob with Status := ExportStatus.processing, UpdatedAt := sampleAcquireEnv.now }
          ∈ (runRace sampleAcquireEnv sampleAcquireEnv [true, false, false, true]
              ⟨[sampleJob], AcquirePC.start, AcquirePC.start⟩).db)) ∧
    (runRace sampleAcquireEnv sampleAcquireEnv [true, false, false, true]
        ⟨[sampleJob], AcquirePC.start, AcquirePC.start⟩).db.filter
      (fun j => decide (j.Status = ExportStatus.pending)) = []) :=
  ⟨by decide, rfl, rfl, rfl,
    (acquireNextExportJob_race [sampleJob] sampleJob sampleAcquireEnv sampleAcquireEnv
      rfl rfl rfl rfl (by decide) rfl).1 [true, false, false, true]
      (Except.ok (some { sampleJob with Status := ExportStatus.processing }))
      (Except.ok none) rfl rfl⟩

/-- Witness of the amended C6: the sample job, one iteration of the worker in which the
render of the second part fails. -/
theorem jobInv_of_reachable_witness :
    (∀ j ∈ [sampleJob], FreshJob j) ∧
    ([sampleJob].map (fun j => j.ID)).Nodup ∧
    ∀ j ∈ ((workerIteration sampleAcquireEnv sampleFailingEnv "dir" (sequentialSchedule 0 2)
          ⟨[sampleJob], ⟨[], []⟩⟩).getD ⟨[], ⟨[], []⟩⟩).db,
      ((j.FilePath ≠ "" ∧ j.FileName ≠ "") ↔ j.Status = ExportStatus.done) ∧
      (j.FilePath ≠ "" ↔ j.Status = ExportStatus.done) ∧
      (j.FileName ≠ "" ↔ j.Status = ExportStatus.done) ∧
      (j.ErrorMsg ≠ "" ↔ j.Status = ExportStatus.failed) :=
  ⟨fun j hj => by rw [List.mem_singleton.mp hj]; exact ⟨rfl, rfl, rfl, rfl⟩,
    by decide,
    jobInv_of_reachable ⟨[sampleJob], ⟨[], []⟩⟩ _
      (fun j hj => by rw [List.mem_singleton.mp hj]; exact ⟨rfl, rfl, rfl, rfl⟩)
      (by decide)
      (WorkerReach.step ⟨[sampleJob], ⟨[], []⟩⟩ _ sampleAcquireEnv sampleFailingEnv "dir"
        (sequentialSchedule 0 2) WorkerReach.start
        ⟨sampleFailingEnv_errorsNonEmpty, sampleFailingEnv_joinKeepsName⟩ rfl)⟩

/-- Witness of the amended C7: the claimed sample job in surroundings in which the render
of the second part fails and the store carries out the update.  The function returns
under the sequential schedule, and under every schedule under which it returns the row of
the job is failed with the message of the render error, which is returned, and the file
system is empty as before. -/
theorem processExportJob_render_failure_witness :
    equalFoldHtml sampleClaimedJob.Format = true ∧
    sampleFailingEnv.loadMessagesForExport sampleClaimedJob = Except.ok sampleMessages ∧
    splitMessagesForViewer sampleFailingEnv.limits sampleMessages
      (sampleFailingEnv.parseExportExtraOptions sampleClaimedJob.ExtraOptions).SliceLimit
      (sampleMessages.length + 1) = some sampleChunks ∧
    (∃ out, processExportJob sampleFailingEnv ⟨[sampleClaimedJob], ⟨[], []⟩⟩ sampleClaimedJob
      "dir" (sequentialSchedule 0 sampleChunks.length) = some out) ∧
    ∀ (sched : List RenderEvent) (out : World × Option GoError),
      processExportJob sampleFailingEnv ⟨[sampleClaimedJob], ⟨[], []⟩⟩ sampleClaimedJob "dir"
        sched = some out →
      out.1.fs = ⟨[], []⟩ ∧
      ∃ e : GoError, out.2 = some e ∧
        ∃ j ∈ out.1.db, j.ID = sampleClaimedJob.ID ∧ j.Status = ExportStatus.failed ∧
          j.ErrorMsg = e.msg :=
  ⟨by decide, rfl, by decide,
    ((processExportJob_render_failure sampleFailingEnv ⟨[sampleClaimedJob], ⟨[], []⟩⟩
      sampleClaimedJob "dir" sampleMessages sampleChunks (by decide) rfl (by decide)).1
      ⟨1, by decide, ⟨"render failed"⟩, rfl⟩).1,
    fun sched out hout => by
      obtain ⟨i, e, res, -, -, -, -, ho, hfs, hacc, -⟩ :=
        ((processExportJob_render_failure sampleFailingEnv ⟨[sampleClaimedJob], ⟨[], []⟩⟩
          sampleClaimedJob "dir" sampleMessages sampleChunks (by decide) rfl (by decide)).1
          ⟨1, by decide, ⟨"render failed"⟩, rfl⟩).2 sched out hout
      exact ⟨hfs, e, by rw [ho], (hacc rfl).2 ⟨sampleClaimedJob, by simp, rfl⟩⟩⟩

/-- Witness of C8: two tasks under capacity 2, both holding a slot at the same time. -/
theorem renderViewerParts_bounded_concurrency_witness :
    (∃ s, runRender (normalizeConcurrency sampleEnv 2).toNat
        (renderTask sampleEnv sampleJob "c" sampleChunks ⟨""⟩ ⟨2, 2, []⟩ zeroTime none)
        [RenderEvent.acquire 1, RenderEvent.acquire 0]
        (renderInit sampleChunks (List.replicate 2 zeroPartRenderResult)) = some s ∧
      s.sem = 2) ∧
    ∀ s, runRender (normalizeConcurrency sampleEnv 2).toNat
        (renderTask sampleEnv sampleJob "c" sampleChunks ⟨""⟩ ⟨2, 2, []⟩ zeroTime none)
        [RenderEvent.acquire 1, RenderEvent.acquire 0]
        (renderInit sampleChunks (List.replicate 2 zeroPartRenderResult)) = some s →
      s.sem = s.phases.count TaskPhase.running ∧
      ((s.phases.count TaskPhase.running : Nat) : Int) ≤ normalizeConcurrency sampleEnv 2 :=
  ⟨⟨_, rfl, rfl⟩, fun s hs =>
    ⟨((renderViewerParts_bounded_concurrency sampleEnv sampleJob "c" sampleChunks ⟨""⟩
        ⟨2, 2, []⟩ zeroTime (List.replicate 2 zeroPartRenderResult) none).2.1 _ s hs).1,
     ((renderViewerParts_bounded_concurrency sampleEnv sampleJob "c" sampleChunks ⟨""⟩
        ⟨2, 2, []⟩ zeroTime (List.replicate 2 zeroPartRenderResult) none).2.1 _ s hs).2.1⟩⟩

/-- Witness of C9: two sample chunks, the second task finishing first. -/
theorem renderViewerParts_results_by_index_witness :
    (List.replicate 2 zeroPartRenderResult).length = sampleChunks.length ∧
    (∃ r, renderViewerParts sampleEnv sampleJob "c" sampleChunks ⟨""⟩ ⟨2, 2, []⟩ zeroTime
      (List.replicate 2 zeroPartRenderResult) none
      [RenderEvent.acquire 1, RenderEvent.acquire 0, RenderEvent.complete 1,
        RenderEvent.complete 0] = some r) ∧
    ∀ err res, renderViewerParts sampleEnv sampleJob "c" sampleChunks ⟨""⟩ ⟨2, 2, []⟩ zeroTime
      (List.replicate 2 zeroPartRenderResult) none
      [RenderEvent.acquire 1, RenderEvent.acquire 0, RenderEvent.complete 1,
        RenderEvent.complete 0] = some (err, res) →
      err = none ∧ res.length = sampleChunks.length :=
  ⟨rfl, ⟨_, rfl⟩, fun err res h =>
    ⟨((renderViewerParts_results_by_index sampleEnv sampleJob "c" sampleChunks ⟨""⟩ ⟨2, 2, []⟩
        zeroTime (List.replicate 2 zeroPartRenderResult) none rfl
        (fun i hi => by
          have hi' : i < 2 := hi
          interval_cases i
          · exact ⟨_, rfl⟩
          · exact ⟨_, rfl⟩)).2 _ err res h).1,
     ((renderViewerParts_results_by_index sampleEnv sampleJob "c" sampleChunks ⟨""⟩ ⟨2, 2, []⟩
        zeroTime (List.replicate 2 zeroPartRenderResult) none rfl
        (fun i hi => by
          have hi' : i < 2 := hi
          interval_cases i
          · exact ⟨_, rfl⟩
          · exact ⟨_, rfl⟩)).2 _ err res h).2.1⟩⟩

/-- Witness of C10: three sample messages under the slice limit 2. -/
theorem viewerManifest_counts_witness :
    ∃ (res : List partRenderResult) (fs' : FileSystem) (m : viewerManifest),
      splitMessagesForViewer sampleEnv.limits sampleMessages 2 (sampleMessages.length + 1)
        = some sampleChunks ∧
      renderViewerParts sampleEnv sampleJob "c" sampleChunks ⟨""⟩ ⟨2, 2, []⟩ zeroTime
        (List.replicate sampleChunks.length zeroPartRenderResult) none
        (sequentialSchedule 0 2) = some (none, res) ∧
      writeViewerArchive sampleEnv ⟨[], []⟩ "dir/a.zip" sampleJob "c" ⟨2, 2, []⟩ zeroTime res
        ⟨""⟩ = (fs', some m, none) ∧
      (m.Parts.length : Int) = m.PartTotal ∧
      m.PartTotal = (sampleChunks.length : Int) ∧
      (m.Parts.map (fun part => part.Messages)).sum = m.TotalMessages ∧
      m.TotalMessages = (sampleMessages.length : Int) :=
  ⟨_, _, _, by decide, rfl, rfl,
    viewerManifest_counts sampleEnv sampleJob "c" sampleMessages sampleChunks ⟨""⟩ ⟨2, 2, []⟩
      zeroTime none (sequentialSchedule 0 2) _ ⟨[], []⟩ _ "dir/a.zip" _ none (by decide) rfl rfl⟩

/-! ### Content hashes and the entries of the archive -/

/-- A hexadecimal digit is one of the sixteen lower-case digits. -/
theorem hexDigit_mem (n : Nat) (h : n < 16) : hexDigit n ∈ "0123456789abcdef".toList := by
  interval_cases n <;> decide

/-- The encoding `hex.EncodeToString` has two characters per byte. -/
theorem hexEncodeToString_length (bytes : List UInt8) :
    (hexEncodeToString bytes).length = 2 * bytes.length := by
  unfold hexEncodeToString
  rw [String.length_mk]
  induction bytes with
  | nil => rfl
  | cons b rest ih =>
    simp only [List.flatMap_cons, List.length_append, List.length_cons, List.length_nil, ih]
    omega

/-- The encoding `hex.EncodeToString` consists of lower-case hexadecimal digits. -/
theorem hexEncodeToString_chars (bytes : List UInt8) :
    ∀ ch ∈ (hexEncodeToString bytes).toList, ch ∈ "0123456789abcdef".toList := by
  unfold hexEncodeToString
  intro ch hch
  simp only [String.toList, List.mem_flatMap] at hch
  obtain ⟨b, -, hb⟩ := hch
  have hlt : b.toNat < 256 := b.val.isLt
  rcases List.mem_cons.mp hb with h1 | h1
  · rw [h1]; exact hexDigit_mem _ (by omega)
  · rw [List.mem_singleton.mp h1]; exact hexDigit_mem _ (by omega)

/-- The error of `writeZipEntry` and the entry it adds do not depend on the entries
written before. -/
theorem writeZipEntry_eq (env : ExportEnv) (entries : List (String × List UInt8))
    (name : String) (data : List UInt8) :
    writeZipEntry env entries name data
      = match (writeZipEntry env [] name data).2 with
        | some e => (entries, some e)
        | none => (entries ++ [(name, data)], none) := by
  unfold writeZipEntry
  cases env.zipCreateHeaderErr name with
  | some e => rfl
  | none =>
    cases env.zipWriteErr name data with
    | some e => rfl
    | none => rfl

/-- The first loop of `writeViewerArchive` on results of which the first `pre` are written
without error and the next one fails: it stops there with that error, having written the
entries of `pre` only. -/
theorem writePartEntries_stops (env : ExportEnv) :
    ∀ (pre : List partRenderResult) (r : partRenderResult) (post : List partRenderResult)
      (entries : List (String × List UInt8)) (total : Int) (e : GoError),
      (∀ q ∈ pre, (writeZipEntry env [] q.fileName q.content).2 = none) →
      (writeZipEntry env [] r.fileName r.content).2 = some e →
      writePartEntries env (pre ++ r :: post) entries total
        = (entries ++ pre.map (fun q => (q.fileName, q.content)),
            total + (pre.map (fun q => q.meta.Messages)).sum, some e) := by
  intro pre
  induction pre with
  | nil =>
    intro r post entries total e _ hr
    simp only [List.nil_append, writePartEntries]
    rw [writeZipEntry_eq, hr]
    simp
  | cons q rest ih =>
    intro r post entries total e hpre hr
    have hq := hpre q (List.mem_cons_self _ _)
    simp only [List.cons_append, writePartEntries]
    rw [writeZipEntry_eq, hq]
    simp only
    change writePartEntries env (rest ++ r :: post) _ _ = _
    rw [ih r post _ _ e (fun x hx => hpre x (List.mem_cons_of_mem _ hx)) hr]
    simp [Int.add_assoc]

/-- The first loop of `writeViewerArchive` on results that are all written without
error. -/
theorem writePartEntries_all (env : ExportEnv) :
    ∀ (results : List partRenderResult) (entries : List (String × List UInt8)) (total : Int),
      (∀ q ∈ results, (writeZipEntry env [] q.fileName q.content).2 = none) →
      writePartEntries env results entries total
        = (entries ++ results.map (fun q => (q.fileName, q.content)),
            total + (results.map (fun q => q.meta.Messages)).sum, none) := by
  intro results
  induction results with
  | nil => intro entries total _; simp [writePartEntries]
  | cons q rest ih =>
    intro entries total hall
    have hq := hall q (List.mem_cons_self _ _)
    simp only [writePartEntries]
    rw [writeZipEntry_eq, hq]
    simp only
    rw [ih _ _ (fun x hx => hall x (List.mem_cons_of_mem _ hx))]
    simp [Int.add_assoc]

/-- Whatever the first loop of `writeViewerArchive` returns, the entries it has written
are those of an initial segment of the results, each with the content of its result. -/
theorem writePartEntries_prefix (env : ExportEnv) :
    ∀ (results : List partRenderResult) (entries : List (String × List UInt8)) (total : Int),
      ∃ k : Nat, k ≤ results.length ∧
        (writePartEntries env results entries total).1
          = entries ++ (results.take k).map (fun q => (q.fileName, q.content)) ∧
        ((writePartEntries env results entries total).2.2 = none → k = results.length) := by
  intro results
  induction results with
  | nil => intro entries total; exact ⟨0, le_refl _, by simp [writePartEntries], fun _ => rfl⟩
  | cons q rest ih =>
    intro entries total
    simp only [writePartEntries]
    rw [writeZipEntry_eq]
    cases hq : (writeZipEntry env [] q.fileName q.content).2 with
    | some e =>
      refine ⟨0, Nat.zero_le _, by simp, ?_⟩
      intro h; simp at h
    | none =>
      simp only
      obtain ⟨k, hk, h1, h2⟩ := ih (entries ++ [(q.fileName, q.content)])
        (total + q.meta.Messages)
      refine ⟨k + 1, by simp; omega, ?_, ?_⟩
      · rw [h1]; simp
      · intro h; rw [h2 h]; simp

/-- When `writeViewerArchive` returns no error, the entries handed to the archive writer
are those of all results in order, then the manifest, then the index, and every entry
write had returned nil when the deferred closes ran. -/
theorem writeViewerArchive_success (env : ExportEnv) (fs fs' : FileSystem) (filePath : String)
    (job : MessageExportJobModel) (channelName : String) (extra : exportExtraOptions)
    (generatedAt : GoTime) (results : List partRenderResult) (assets : viewerAssets)
    (m : Option viewerManifest)
    (h : writeViewerArchive env fs filePath job channelName extra generatedAt results assets
      = (fs', m, none)) :
    ∃ (metaBytes indexBytes : List UInt8),
      env.jsonMarshalIndent (buildManifest env job channelName extra generatedAt results
        (results.map (fun r => r.meta.Messages)).sum) = Except.ok metaBytes ∧
      env.renderViewerIndex (buildManifest env job channelName extra generatedAt results
        (results.map (fun r => r.meta.Messages)).sum) assets = Except.ok indexBytes ∧
      fs' = { fs with files := (filePath, closeViewerArchive env filePath
        (results.map (fun r => (r.fileName, r.content))
          ++ [("manifest/meta.json", metaBytes), ("index.html", indexBytes)]) true)
        :: fs.files } := by
  unfold writeViewerArchive at h
  cases h0 : env.createErr filePath with
  | some e0 => rw [h0] at h; simp at h
  | none =>
    rw [h0] at h
    simp only at h
    rcases h1 : writePartEntries env results [] 0 with ⟨entries, total, _ | e1⟩
    · rw [h1] at h
      simp only at h
      obtain ⟨hent, htot⟩ := writePartEntries_ok env results [] entries 0 total h1
      rw [Int.zero_add] at htot
      rw [List.nil_append] at hent
      subst htot hent
      cases h2 : env.jsonMarshalIndent (buildManifest env job channelName extra generatedAt
          results (results.map (fun r => r.meta.Messages)).sum) with
      | error e2 => rw [h2] at h; simp at h
      | ok metaBytes =>
        rw [h2] at h
        simp only at h
        rw [writeZipEntry_eq] at h
        cases h3 : (writeZipEntry env [] "manifest/meta.json" metaBytes).2 with
        | some e3 => rw [h3] at h; simp at h
        | none =>
          rw [h3] at h
          simp only at h
          cases h4 : env.renderViewerIndex (buildManifest env job channelName extra
              generatedAt results (results.map (fun r => r.meta.Messages)).sum) assets with
          | error e4 => rw [h4] at h; simp at h
          | ok indexBytes =>
            rw [h4] at h
            simp only at h
            rw [writeZipEntry_eq] at h
            cases h5 : (writeZipEntry env [] "index.html" indexBytes).2 with
            | some e5 => rw [h5] at h; simp at h
            | none =>
              rw [h5] at h
              simp only at h
              refine ⟨metaBytes, indexBytes, rfl, rfl, ?_⟩
              rw [← (Prod.mk.inj h).1]
              simp
    · rw [h1] at h
      simp at h

/-- When the first loop of `writeViewerArchive` ends without error, every write of a part
entry had returned nil. -/
theorem writePartEntries_none (env : ExportEnv) :
    ∀ (results : List partRenderResult) (entries : List (String × List UInt8)) (total : Int),
      (writePartEntries env results entries total).2.2 = none →
      ∀ q ∈ results, (writeZipEntry env [] q.fileName q.content).2 = none := by
  intro results
  induction results with
  | nil => intro entries total _ q hq; cases hq
  | cons r rest ih =>
    intro entries total h q hq
    simp only [writePartEntries] at h
    rw [writeZipEntry_eq] at h
    cases hr : (writeZipEntry env [] r.fileName r.content).2 with
    | some e => rw [hr] at h; simp at h
    | none =>
      rw [hr] at h
      simp only at h
      rcases List.mem_cons.mp hq with hq | hq
      · rw [hq]; exact hr
      · exact ih _ _ h q hq

/-- When `writeViewerArchive` returns no error, every entry write had returned nil. -/
theorem writeViewerArchive_writes_ok (env : ExportEnv) (fs fs' : FileSystem)
    (filePath : String) (job : MessageExportJobModel) (channelName : String)
    (extra : exportExtraOptions) (generatedAt : GoTime) (results : List partRenderResult)
    (assets : viewerAssets) (m : Option viewerManifest) (metaBytes indexBytes : List UInt8)
    (h : writeViewerArchive env fs filePath job channelName extra generatedAt results assets
      = (fs', m, none))
    (hm : env.jsonMarshalIndent (buildManifest env job channelName extra generatedAt results
        (results.map (fun r => r.meta.Messages)).sum) = Except.ok metaBytes)
    (hx : env.renderViewerIndex (buildManifest env job channelName extra generatedAt results
        (results.map (fun r => r.meta.Messages)).sum) assets = Except.ok indexBytes) :
    (∀ q ∈ results, (writeZipEntry env [] q.fileName q.content).2 = none) ∧
    (writeZipEntry env [] "manifest/meta.json" metaBytes).2 = none ∧
    (writeZipEntry env [] "index.html" indexBytes).2 = none := by
  unfold writeViewerArchive at h
  cases h0 : env.createErr filePath with
  | some e0 => rw [h0] at h; simp at h
  | none =>
    rw [h0] at h
    simp only at h
    rcases h1 : writePartEntries env results [] 0 with ⟨entries, total, _ | e1⟩
    · have hall := writePartEntries_none env results [] 0 (by rw [h1])
      rw [h1] at h
      simp only at h
      obtain ⟨hent, htot⟩ := writePartEntries_ok env results [] entries 0 total h1
      rw [Int.zero_add] at htot
      rw [List.nil_append] at hent
      subst htot hent
      rw [hm] at h
      simp only at h
      rw [writeZipEntry_eq] at h
      cases h3 : (writeZipEntry env [] "manifest/meta.json" metaBytes).2 with
      | some e3 => rw [h3] at h; simp at h
      | none =>
        rw [h3] at h
        simp only at h
        rw [hx] at h
        simp only at h
        rw [writeZipEntry_eq] at h
        cases h5 : (writeZipEntry env [] "index.html" indexBytes).2 with
        | some e5 => rw [h5] at h; simp at h
        | none => exact ⟨hall, rfl, rfl⟩
    · rw [h1] at h
      simp at h

/-- The deferred closes after entry writes that all returned nil: when both closes return
no error the file is the complete archive of the entries. -/
theorem closeViewerArchive_complete (env : ExportEnv) (filePath : String)
    (entries : List (String × List UInt8))
    (hz : env.zipCloseErr filePath = none) (hf : env.fileCloseErr filePath = none) :
    closeViewerArchive env filePath entries true = FileContent.zip entries := by
  unfold closeViewerArchive
  rw [if_pos ⟨rfl, hz, hf⟩]

/-- The deferred closes after a failed entry write, or when one of them fails: the file
is left unfinished. -/
theorem closeViewerArchive_dropped (env : ExportEnv) (filePath : String)
    (entries : List (String × List UInt8)) (intact : Bool)
    (h : intact = false ∨ env.zipCloseErr filePath ≠ none ∨ env.fileCloseErr filePath ≠ none) :
    closeViewerArchive env filePath entries intact = FileContent.unfinished entries := by
  unfold closeViewerArchive
  rw [if_neg]
  rintro ⟨h1, h2, h3⟩
  rcases h with h | h | h
  · rw [h] at h1; cases h1
  · exact h h2
  · exact h h3

/-- The function `writeViewerArchive` when every step succeeds: it returns nil, having
handed the part entries in the order of the results, then the manifest entry, then the
index entry to the archive writer. -/
theorem writeViewerArchive_all_written (env : ExportEnv) (fs : FileSystem) (filePath : String)
    (job : MessageExportJobModel) (channelName : String) (extra : exportExtraOptions)
    (generatedAt : GoTime) (results : List partRenderResult) (assets : viewerAssets)
    (metaBytes indexBytes : List UInt8)
    (hcreate : env.createErr filePath = none)
    (hall : ∀ q ∈ results, (writeZipEntry env [] q.fileName q.content).2 = none)
    (hm : env.jsonMarshalIndent (buildManifest env job channelName extra generatedAt results
        (results.map (fun r => r.meta.Messages)).sum) = Except.ok metaBytes)
    (hmw : (writeZipEntry env [] "manifest/meta.json" metaBytes).2 = none)
    (hx : env.renderViewerIndex (buildManifest env job channelName extra generatedAt results
        (results.map (fun r => r.meta.Messages)).sum) assets = Except.ok indexBytes)
    (hxw : (writeZipEntry env [] "index.html" indexBytes).2 = none) :
    writeViewerArchive env fs filePath job channelName extra generatedAt results assets
      = ({ fs with files := (filePath, closeViewerArchive env filePath
            (results.map (fun r => (r.fileName, r.content))
              ++ [("manifest/meta.json", metaBytes), ("index.html", indexBytes)]) true)
            :: fs.files },
          some (buildManifest env job channelName extra generatedAt results
            (results.map (fun r => r.meta.Messages)).sum), none) := by
  unfold writeViewerArchive
  rw [hcreate]
  simp only
  rw [writePartEntries_all env results [] 0 hall]
  simp only [Int.zero_add, List.nil_append]
  rw [hm]
  simp only
  rw [writeZipEntry_eq, hmw]
  simp only
  rw [hx]
  simp only
  rw [writeZipEntry_eq, hxw]
  simp

/-- The function `writeViewerArchive` when the write of a part entry fails after the
entries of the parts before it were written: it returns the error of that write, no
later entry is handed to the archive writer, and the file is left unfinished. -/
theorem writeViewerArchive_part_failure (env : ExportEnv) (fs : FileSystem)
    (filePath : String) (job : MessageExportJobModel) (channelName : String)
    (extra : exportExtraOptions) (generatedAt : GoTime) (assets : viewerAssets)
    (pre : List partRenderResult) (r : partRenderResult) (post : List partRenderResult)
    (e : GoError)
    (hcreate : env.createErr filePath = none)
    (hpre : ∀ q ∈ pre, (writeZipEntry env [] q.fileName q.content).2 = none)
    (hr : (writeZipEntry env [] r.fileName r.content).2 = some e) :
    writeViewerArchive env fs filePath job channelName extra generatedAt (pre ++ r :: post)
        assets
      = ({ fs with files := (filePath, FileContent.unfinished
            (pre.map (fun q => (q.fileName, q.content)))) :: fs.files }, none, some e) := by
  unfold writeViewerArchive
  rw [hcreate]
  simp only
  rw [writePartEntries_stops env pre r post [] 0 e hpre hr]
  simp [closeViewerArchive]

/-- The function `writeViewerArchive` when the write of the manifest entry fails: it
returns the error of that write, the part entries were handed to the archive writer and
no later entry, and the file is left unfinished. -/
theorem writeViewerArchive_manifest_entry_failure (env : ExportEnv) (fs : FileSystem)
    (filePath : String) (job : MessageExportJobModel) (channelName : String)
    (extra : exportExtraOptions) (generatedAt : GoTime) (results : List partRenderResult)
    (assets : viewerAssets) (metaBytes : List UInt8) (e : GoError)
    (hcreate : env.createErr filePath = none)
    (hall : ∀ q ∈ results, (writeZipEntry env [] q.fileName q.content).2 = none)
    (hm : env.jsonMarshalIndent (buildManifest env job channelName extra generatedAt results
        (results.map (fun r => r.meta.Messages)).sum) = Except.ok metaBytes)
    (hmw : (writeZipEntry env [] "manifest/meta.json" metaBytes).2 = some e) :
    writeViewerArchive env fs filePath job channelName extra generatedAt results assets
      = ({ fs with files := (filePath, FileContent.unfinished
            (results.map (fun r => (r.fileName, r.content)))) :: fs.files },
          some (buildManifest env job channelName extra generatedAt results
            (results.map (fun r => r.meta.Messages)).sum), some e) := by
  unfold writeViewerArchive
  rw [hcreate]
  simp only
  rw [writePartEntries_all env results [] 0 hall]
  simp only [Int.zero_add, List.nil_append]
  rw [hm]
  simp only
  rw [writeZipEntry_eq, hmw]
  simp [closeViewerArchive]

/-- The function `writeViewerArchive` when the write of the index entry fails: it returns
the error of that write, the part entries and the manifest entry were handed to the
archive writer, and the file is left unfinished. -/
theorem writeViewerArchive_index_entry_failure (env : ExportEnv) (fs : FileSystem)
    (filePath : String) (job : MessageExportJobModel) (channelName : String)
    (extra : exportExtraOptions) (generatedAt : GoTime) (results : List partRenderResult)
    (assets : viewerAssets) (metaBytes indexBytes : List UInt8) (e : GoError)
    (hcreate : env.createErr filePath = none)
    (hall : ∀ q ∈ results, (writeZipEntry env [] q.fileName q.content).2 = none)
    (hm : env.jsonMarshalIndent (buildManifest env job channelName extra generatedAt results
        (results.map (fun r => r.meta.Messages)).sum) = Except.ok metaBytes)
    (hmw : (writeZipEntry env [] "manifest/meta.json" metaBytes).2 = none)
    (hx : env.renderViewerIndex (buildManifest env job channelName extra generatedAt results
        (results.map (fun r => r.meta.Messages)).sum) assets = Except.ok indexBytes)
    (hxw : (writeZipEntry env [] "index.html" indexBytes).2 = some e) :
    writeViewerArchive env fs filePath job channelName extra generatedAt results assets
      = ({ fs with files := (filePath, FileContent.unfinished
            (results.map (fun r => (r.fileName, r.content))
              ++ [("manifest/meta.json", metaBytes)])) :: fs.files },
          some (buildManifest env job channelName extra generatedAt results
            (results.map (fun r => r.meta.Messages)).sum), some e) := by
  unfold writeViewerArchive
  rw [hcreate]
  simp only
  rw [writePartEntries_all env results [] 0 hall]
  simp only [Int.zero_add, List.nil_append]
  rw [hm]
  simp only
  rw [writeZipEntry_eq, hmw]
  simp only
  rw [hx]
  simp only
  rw [writeZipEntry_eq, hxw]
  simp [closeViewerArchive]

/-- C11.  For every successfully rendered part (task `i` of `renderViewerParts` ending
with the record `p`), under every schedule under which `renderViewerParts` returns: the
record is `results[i]`, its `SHA256` field is the lower-case hexadecimal encoding (64
characters, the digest having 32 bytes) of the SHA-256 digest of exactly the bytes stored
as its content, and whenever `writeViewerArchive` has written the archive entry of that
part, the entry holds exactly those bytes under the file name of the part: it is entry
`i` of the entries handed to the archive writer, which are the entries of the archive in
the file when the two deferred closes return no error. -/
theorem part_sha256_of_content (env : ExportEnv) (job : MessageExportJobModel)
    (channelName : String) (chunks : List (List MessageModel)) (assets : viewerAssets)
    (extra : exportExtraOptions) (generatedAt : GoTime) (results : List partRenderResult)
    (embedder : Option (ExportPayload → ExportPayload)) (sched : List RenderEvent)
    (err : Option GoError) (res : List partRenderResult) (i : Nat) (p : partRenderResult)
    (hsha : ∀ bytes, (env.sha256Sum bytes).length = 32)
    (hi : i < chunks.length)
    (hp : renderTask env job channelName chunks assets extra generatedAt embedder i
      = Except.ok p)
    (hrun : renderViewerParts env job channelName chunks assets extra generatedAt results
      embedder sched = some (err, res)) :
    res[i]? = some p ∧
    p.meta.SHA256 = hexEncodeToString (env.sha256Sum p.content) ∧
    p.meta.SHA256.length = 64 ∧
    (∀ ch ∈ p.meta.SHA256.toList, ch ∈ "0123456789abcdef".toList) ∧
    (∀ (entries : List (String × List UInt8)) (total : Int) (entry : String × List UInt8),
      (writePartEntries env res entries total).1[entries.length + i]? = some entry →
      entry = (p.fileName, p.content)) ∧
    (∀ (fs fs' : FileSystem) (filePath : String) (m : Option viewerManifest),
      writeViewerArchive env fs filePath job channelName extra generatedAt res assets
        = (fs', m, none) →
      ∃ entries,
        fs'.files = (filePath, closeViewerArchive env filePath entries true) :: fs.files ∧
        entries[i]? = some (p.fileName, p.content) ∧
        (env.zipCloseErr filePath = none → env.fileCloseErr filePath = none →
          fs'.files = (filePath, FileContent.zip entries) :: fs.files)) := by
  have hget : res[i]? = some p :=
    (renderViewerParts_results env job channelName chunks assets extra generatedAt results
      embedder sched err res hrun).2.2.2 i hi p hp
  have hfield := (renderTask_ok_fields env job channelName chunks assets extra generatedAt
    embedder i p hp).2.2.2.2.2.1
  obtain ⟨hil, hgi⟩ := List.getElem?_eq_some.mp hget
  refine ⟨hget, hfield, ?_, ?_, ?_, ?_⟩
  · rw [hfield, hexEncodeToString_length, hsha]
  · rw [hfield]; exact hexEncodeToString_chars _
  · intro entries total entry hentry
    obtain ⟨k, hk, hpre, -⟩ := writePartEntries_prefix env res entries total
    rw [hpre, List.getElem?_append_right (by omega)] at hentry
    have hsub : entries.length + i - entries.length = i := by omega
    rw [hsub, List.getElem?_map] at hentry
    by_cases hik : i < k
    · rw [List.getElem?_take_of_lt hik, hget] at hentry
      exact (Option.some.inj hentry).symm
    · rw [List.getElem?_eq_none (by rw [List.length_take]; omega)] at hentry
      cases hentry
  · intro fs fs' filePath m hw
    obtain ⟨metaBytes, indexBytes, -, -, hfs⟩ := writeViewerArchive_success env fs fs' filePath
      job channelName extra generatedAt res assets m hw
    refine ⟨_, by rw [hfs], ?_, ?_⟩
    · rw [List.getElem?_append_left (by simpa using hil), List.getElem?_map, hget]
      rfl
    · intro hz hf
      rw [hfs, closeViewerArchive_complete env filePath _ hz hf]

/-- C12.  For every results sequence of length N and a created file.  When all writes
succeed (`writeViewerArchive` returns nil, which it does when every step succeeds) it has
written exactly N+2 archive entries in this order: the N part entries in the order of the
results (each under its file name with its own content), then `manifest/meta.json`, then
`index.html`.  If the write of a part entry, of the manifest entry or of the index entry
fails, it returns the error of that write and writes no later entry: the entries handed
to the archive writer are those written before.  The file that is left: the complete
archive of the N+2 entries when the function returns nil and the two deferred closes,
whose errors are dropped, return none; an unfinished file otherwise. -/
theorem writeViewerArchive_entry_order (env : ExportEnv) (fs : FileSystem) (filePath : String)
    (job : MessageExportJobModel) (channelName : String) (extra : exportExtraOptions)
    (generatedAt : GoTime) (results : List partRenderResult) (assets : viewerAssets)
    (hcreate : env.createErr filePath = none) :
    (∀ (fs' : FileSystem) (m : Option viewerManifest),
      writeViewerArchive env fs filePath job channelName extra generatedAt results assets
        = (fs', m, none) →
      ∃ (metaBytes indexBytes : List UInt8),
        (∀ q ∈ results, (writeZipEntry env [] q.fileName q.content).2 = none) ∧
        (writeZipEntry env [] "manifest/meta.json" metaBytes).2 = none ∧
        (writeZipEntry env [] "index.html" indexBytes).2 = none ∧
        fs' = { fs with files := (filePath, closeViewerArchive env filePath
          (results.map (fun r => (r.fileName, r.content))
            ++ [("manifest/meta.json", metaBytes), ("index.html", indexBytes)]) true)
          :: fs.files } ∧
        (results.map (fun r => (r.fileName, r.content))
            ++ [("manifest/meta.json", metaBytes), ("index.html", indexBytes)]).length
          = results.length + 2 ∧
        (∀ (i : Nat) (r : partRenderResult), results[i]? = some r →
          (results.map (fun r => (r.fileName, r.content))
            ++ [("manifest/meta.json", metaBytes), ("index.html", indexBytes)])[i]?
            = some (r.fileName, r.content)) ∧
        (env.zipCloseErr filePath = none → env.fileCloseErr filePath = none →
          fs' = { fs with files := (filePath, FileContent.zip
            (results.map (fun r => (r.fileName, r.content))
              ++ [("manifest/meta.json", metaBytes), ("index.html", indexBytes)]))
            :: fs.files }) ∧
        ((env.zipCloseErr filePath ≠ none ∨ env.fileCloseErr filePath ≠ none) →
          fs' = { fs with files := (filePath, FileContent.unfinished
            (results.map (fun r => (r.fileName, r.content))
              ++ [("manifest/meta.json", metaBytes), ("index.html", indexBytes)]))
            :: fs.files })) ∧
    (∀ (metaBytes indexBytes : List UInt8),
      (∀ q ∈ results, (writeZipEntry env [] q.fileName q.content).2 = none) →
      env.jsonMarshalIndent (buildManifest env job channelName extra generatedAt results
        (results.map (fun r => r.meta.Messages)).sum) = Except.ok metaBytes →
      (writeZipEntry env [] "manifest/meta.json" metaBytes).2 = none →
      env.renderViewerIndex (buildManifest env job channelName extra generatedAt results
        (results.map (fun r => r.meta.Messages)).sum) assets = Except.ok indexBytes →
      (writeZipEntry env [] "index.html" indexBytes).2 = none →
      writeViewerArchive env fs filePath job channelName extra generatedAt results assets
        = ({ fs with files := (filePath, closeViewerArchive env filePath
              (results.map (fun r => (r.fileName, r.content))
                ++ [("manifest/meta.json", metaBytes), ("index.html", indexBytes)]) true)
              :: fs.files },
            some (buildManifest env job channelName extra generatedAt results
              (results.map (fun r => r.meta.Messages)).sum), none)) ∧
    (∀ (pre : List partRenderResult) (r : partRenderResult) (post : List partRenderResult)
        (e : GoError),
      results = pre ++ r :: post →
      (∀ q ∈ pre, (writeZipEntry env [] q.fileName q.content).2 = none) →
      (writeZipEntry env [] r.fileName r.content).2 = some e →
      writeViewerArchive env fs filePath job channelName extra generatedAt results assets
        = ({ fs with files := (filePath, FileContent.unfinished
              (pre.map (fun q => (q.fileName, q.content)))) :: fs.files }, none, some e)) ∧
    (∀ (metaBytes : List UInt8) (e : GoError),
      (∀ q ∈ results, (writeZipEntry env [] q.fileName q.content).2 = none) →
      env.jsonMarshalIndent (buildManifest env job channelName extra generatedAt results
        (results.map (fun r => r.meta.Messages)).sum) = Except.ok metaBytes →
      (writeZipEntry env [] "manifest/meta.json" metaBytes).2 = some e →
      writeViewerArchive env fs filePath job channelName extra generatedAt results assets
        = ({ fs with files := (filePath, FileContent.unfinished
              (results.map (fun r => (r.fileName, r.content)))) :: fs.files },
            some (buildManifest env job channelName extra generatedAt results
              (results.map (fun r => r.meta.Messages)).sum), some e)) ∧
    (∀ (metaBytes indexBytes : List UInt8) (e : GoError),
      (∀ q ∈ results, (writeZipEntry env [] q.fileName q.content).2 = none) →
      env.jsonMarshalIndent (buildManifest env job channelName extra generatedAt results
        (results.map (fun r => r.meta.Messages)).sum) = Except.ok metaBytes →
      (writeZipEntry env [] "manifest/meta.json" metaBytes).2 = none →
      env.renderViewerIndex (buildManifest env job channelName extra generatedAt results
        (results.map (fun r => r.meta.Messages)).sum) assets = Except.ok indexBytes →
      (writeZipEntry env [] "index.html" indexBytes).2 = some e →
      writeViewerArchive env fs filePath job channelName extra generatedAt results assets
        = ({ fs with files := (filePath, FileContent.unfinished
              (results.map (fun r => (r.fileName, r.content))
                ++ [("manifest/meta.json", metaBytes)])) :: fs.files },
            some (buildManifest env job channelName extra generatedAt results
              (results.map (fun r => r.meta.Messages)).sum), some e)) := by
  refine ⟨?_, ?_, ?_, ?_, ?_⟩
  · intro fs' m hw
    obtain ⟨metaBytes, indexBytes, hm, hx, hfs⟩ := writeViewerArchive_success env fs fs'
      filePath job channelName extra generatedAt results assets m hw
    have hsteps := writeViewerArchive_writes_ok env fs fs' filePath job channelName extra
      generatedAt results assets m metaBytes indexBytes hw hm hx
    refine ⟨metaBytes, indexBytes, hsteps.1, hsteps.2.1, hsteps.2.2, hfs, by simp, ?_, ?_, ?_⟩
    · intro i r hir
      obtain ⟨hil, -⟩ := List.getElem?_eq_some.mp hir
      rw [List.getElem?_append_left (by simpa using hil), List.getElem?_map, hir]
      rfl
    · intro hz hf
      rw [hfs, closeViewerArchive_complete env filePath _ hz hf]
    · intro hclose
      rw [hfs, closeViewerArchive_dropped env filePath _ true (Or.inr hclose)]
  · intro metaBytes indexBytes hall hm hmw hx hxw
    exact writeViewerArchive_all_written env fs filePath job channelName extra generatedAt
      results assets metaBytes indexBytes hcreate hall hm hmw hx hxw
  · intro pre r post e hres hpre hr
    rw [hres]
    exact writeViewerArchive_part_failure env fs filePath job channelName extra generatedAt
      assets pre r post e hcreate hpre hr
  · intro metaBytes e hall hm hmw
    exact writeViewerArchive_manifest_entry_failure env fs filePath job channelName extra
      generatedAt results assets metaBytes e hcreate hall hm hmw
  · intro metaBytes indexBytes e hall hm hmw hx hxw
    exact writeViewerArchive_index_entry_failure env fs filePath job channelName extra
      generatedAt results assets metaBytes indexBytes e hcreate hall hm hmw hx hxw

/-! ### Part file names -/

/-- The decimal digits of a number below 10. -/
theorem toDigits_one (n : Nat) (h : n < 10) : Nat.toDigits 10 n = [Nat.digitChar n] := by
  simp [Nat.toDigits, Nat.toDigitsCore, Nat.div_eq_of_lt h, Nat.mod_eq_of_lt h]

/-- The decimal digits of a number from 10 to 99. -/
theorem toDigits_two (n : Nat) (h1 : 10 ≤ n) (h2 : n < 100) :
    Nat.toDigits 10 n = [Nat.digitChar (n / 10), Nat.digitChar (n % 10)] := by
  obtain ⟨m, rfl⟩ : ∃ m, n = m + 1 := ⟨n - 1, by omega⟩
  have h3 : (m + 1) / 10 ≠ 0 := by omega
  have h4 : (m + 1) / 10 / 10 = 0 := by omega
  have h5 : (m + 1) / 10 % 10 = (m + 1) / 10 := by omega
  simp [Nat.toDigits, Nat.toDigitsCore, h3, h4, h5]

/-- The decimal digits of a number from 100 to 999. -/
theorem toDigits_three (n : Nat) (h1 : 100 ≤ n) (h2 : n < 1000) :
    Nat.toDigits 10 n
      = [Nat.digitChar (n / 100), Nat.digitChar (n / 10 % 10), Nat.digitChar (n % 10)] := by
  obtain ⟨m, rfl⟩ : ∃ m, n = m + 2 := ⟨n - 2, by omega⟩
  have h3 : (m + 2) / 10 ≠ 0 := by omega
  have h4 : (m + 2) / 10 / 10 ≠ 0 := by omega
  have h5 : (m + 2) / 10 / 10 / 10 = 0 := by omega
  have h6 : (m + 2) / 10 / 10 % 10 = (m + 2) / 100 := by omega
  simp [Nat.toDigits, Nat.toDigitsCore, h3, h4, h5, h6]

/-- A number below 1000 padded to width 3: its three decimal digits. -/
theorem zeroPad3_lt_1000 (n : Nat) (h : n < 1000) :
    zeroPad 3 n = String.mk
      [Nat.digitChar (n / 100), Nat.digitChar (n / 10 % 10), Nat.digitChar (n % 10)] := by
  unfold zeroPad
  by_cases h1 : n < 10
  · rw [toDigits_one n h1]
    have e1 : n / 100 = 0 := by omega
    have e2 : n / 10 % 10 = 0 := by omega
    have e3 : n % 10 = n := by omega
    rw [e1, e2, e3]; rfl
  · by_cases h2 : n < 100
    · rw [toDigits_two n (by omega) h2]
      have e1 : n / 100 = 0 := by omega
      have e2 : n / 10 % 10 = n / 10 := by omega
      rw [e1, e2]; rfl
    · rw [toDigits_three n (by omega) h]
      rfl

/-- The digit characters are ordered as the digits. -/
theorem digitChar_lt (a b : Nat) (hab : a < b) (hb : b < 10) :
    Nat.digitChar a < Nat.digitChar b := by
  interval_cases b <;> interval_cases a <;> decide

/-- A common beginning does not change the lexicographic order of two character lists. -/
theorem list_lt_append_left (p x y : List Char) (h : x < y) : p ++ x < p ++ y :=
  List.Lex.append_left _ h p

/-- The characters of a part file name with a part number below 1000. -/
theorem partFileName_toList (n : Nat) (h : n < 1000) :
    (partFileName (n : Int)).toList
      = "parts/part-".toList
        ++ ([Nat.digitChar (n / 100), Nat.digitChar (n / 10 % 10), Nat.digitChar (n % 10)]
          ++ ".html".toList) := by
  have hneg : ¬ ((n : Int) < 0) := by omega
  simp only [partFileName, fmtD03, hneg, if_false, Int.natAbs_ofNat, zeroPad3_lt_1000 n h,
    String.toList, String.data_append, List.append_assoc]

/-- C13, as stated, fails: the name generated for part 1000 is lexicographically smaller
than the name generated for part 999. -/
theorem partFileName_order_counterexample :
    (999 : Int) < 1000 ∧
    partFileName 999 = "parts/part-999.html" ∧
    partFileName 1000 = "parts/part-1000.html" ∧
    partFileName 1000 < partFileName 999 ∧
    ¬ (partFileName 999 < partFileName 1000) := by
  have h : partFileName 1000 < partFileName 999 := by
    rw [String.lt_iff_toList_lt]; decide
  exact ⟨by decide, by decide, by decide, h, lt_asymm h⟩

/-- C13, amended.  For every pair of part numbers `1 ≤ i < j ≤ 999`, the part file name
generated for `i` by the format `parts/part-%03d.html` is lexicographically smaller than
the one generated for `j`, and both names have the same length (the index has the fixed
width 3): up to 999 parts the lexical order of part names coincides with the numeric
order. -/
theorem partFileName_order (i j : Nat) (h1 : 1 ≤ i) (hij : i < j) (hj : j ≤ 999) :
    partFileName (i : Int) < partFileName (j : Int) ∧
    (partFileName (i : Int)).length = (partFileName (j : Int)).length := by
  have hi : i < 1000 := by omega
  have hj' : j < 1000 := by omega
  constructor
  · rw [String.lt_iff_toList_lt, partFileName_toList i hi, partFileName_toList j hj']
    apply list_lt_append_left
    simp only [List.cons_append, List.nil_append]
    by_cases c1 : i / 100 < j / 100
    · exact List.Lex.rel (digitChar_lt _ _ c1 (by omega))
    · have e1 : i / 100 = j / 100 := by omega
      rw [e1]
      refine List.Lex.cons ?_
      by_cases c2 : i / 10 % 10 < j / 10 % 10
      · exact List.Lex.rel (digitChar_lt _ _ c2 (by omega))
      · have e2 : i / 10 % 10 = j / 10 % 10 := by omega
        rw [e2]
        refine List.Lex.cons ?_
        exact List.Lex.rel (digitChar_lt _ _ (by omega) (by omega))
  · have hl : ∀ n : Nat, n < 1000 → (partFileName (n : Int)).length = 19 := by
      intro n hn
      show (partFileName (n : Int)).toList.length = 19
      rw [partFileName_toList n hn]
      rfl
    rw [hl i hi, hl j hj']

/-- Witness of the amended C13: parts 9 and 10. -/
theorem partFileName_order_witness :
    (1 : Nat) ≤ 9 ∧ (9 : Nat) < 10 ∧ (10 : Nat) ≤ 999 ∧
    partFileName ((9 : Nat) : Int) < partFileName ((10 : Nat) : Int) ∧
    (partFileName ((9 : Nat) : Int)).length = (partFileName ((10 : Nat) : Int)).length :=
  ⟨by decide, by decide, by decide, partFileName_order 9 10 (by decide) (by decide) (by decide)⟩

/-! ### File names -/

/-- Every character `replaceUnsafeRuns` produces belongs to the safe class. -/
theorem replaceUnsafeRuns_safe :
    ∀ (l : List Char) (inRun : Bool), ∀ ch ∈ replaceUnsafeRuns inRun l,
      filenameSafeChar ch = true := by
  intro l
  induction l with
  | nil => intro inRun ch h; simp [replaceUnsafeRuns] at h
  | cons c rest ih =>
    intro inRun ch h
    simp only [replaceUnsafeRuns] at h
    by_cases hc : filenameSafeChar c = true
    · rw [if_pos hc] at h
      rcases List.mem_cons.mp h with h1 | h1
      · rw [h1]; exact hc
      · exact ih false ch h1
    · rw [if_neg hc] at h
      cases inRun with
      | true =>
        simp only [if_true] at h
        exact ih true ch h
      | false =>
        simp only [Bool.false_eq_true, if_false] at h
        rcases List.mem_cons.mp h with h1 | h1
        · rw [h1]; decide
        · exact ih true ch h1

/-- A run of safe characters is copied. -/
theorem replaceUnsafeRuns_safe_run :
    ∀ (s rest : List Char) (inRun : Bool), s ≠ [] → (∀ ch ∈ s, filenameSafeChar ch = true) →
      replaceUnsafeRuns inRun (s ++ rest) = s ++ replaceUnsafeRuns false rest := by
  intro s
  induction s with
  | nil => intro rest inRun h; exact absurd rfl h
  | cons c tail ih =>
    intro rest inRun _ hs
    have hc := hs c (List.mem_cons_self _ _)
    simp only [List.cons_append, replaceUnsafeRuns, hc, if_true]
    cases tail with
    | nil => rfl
    | cons d tail' =>
      exact congrArg (List.cons c)
        (ih rest false (by simp) (fun x hx => hs x (List.mem_cons_of_mem _ hx)))

/-- Inside a run of unsafe characters, the rest of the run produces nothing. -/
theorem replaceUnsafeRuns_in_run :
    ∀ (u rest : List Char), (∀ ch ∈ u, filenameSafeChar ch = false) →
      (rest = [] ∨ ∃ c tail, rest = c :: tail ∧ filenameSafeChar c = true) →
      replaceUnsafeRuns true (u ++ rest) = replaceUnsafeRuns false rest := by
  intro u
  induction u with
  | nil =>
    intro rest _ hrest
    rcases hrest with h | ⟨c, tail, h, hc⟩
    · subst h; rfl
    · subst h; simp [replaceUnsafeRuns, hc]
  | cons c tail ih =>
    intro rest hu hrest
    have hc := hu c (List.mem_cons_self _ _)
    simp only [List.cons_append, replaceUnsafeRuns, hc, Bool.false_eq_true, if_false, if_true]
    exact ih rest (fun x hx => hu x (List.mem_cons_of_mem _ hx)) hrest

/-- A maximal run of unsafe characters becomes a single `_`. -/
theorem replaceUnsafeRuns_unsafe_run (u rest : List Char) (hne : u ≠ [])
    (hu : ∀ ch ∈ u, filenameSafeChar ch = false)
    (hrest : rest = [] ∨ ∃ c tail, rest = c :: tail ∧ filenameSafeChar c = true) :
    replaceUnsafeRuns false (u ++ rest) = '_' :: replaceUnsafeRuns false rest := by
  cases u with
  | nil => exact absurd rfl hne
  | cons c tail =>
    have hc := hu c (List.mem_cons_self _ _)
    simp only [List.cons_append, replaceUnsafeRuns, hc, Bool.false_eq_true, if_false]
    exact congrArg (List.cons '_')
      (replaceUnsafeRuns_in_run tail rest (fun x hx => hu x (List.mem_cons_of_mem _ hx)) hrest)

/-- A safe character is neither a path separator, nor a dot, nor white space. -/
theorem filenameSafeChar_not_hostile (ch : Char) (h : filenameSafeChar ch = true) :
    ch ≠ '/' ∧ ch ≠ '\\' ∧ ch ≠ '.' ∧ goIsSpace ch = false := by
  refine ⟨?_, ?_, ?_, ?_⟩
  · intro hc; subst hc; revert h; decide
  · intro hc; subst hc; revert h; decide
  · intro hc; subst hc; revert h; decide
  · have key : ∀ k : Char, ch = k → ch.toNat = k.toNat := fun k hk => by rw [hk]
    cases hs : goIsSpace ch with
    | false => rfl
    | true =>
      exfalso
      simp only [filenameSafeChar, goIsSpace, Bool.or_eq_true, Bool.and_eq_true,
        decide_eq_true_eq] at h hs
      have h' : (0x30 ≤ ch.toNat ∧ ch.toNat ≤ 0x39) ∨ (0x41 ≤ ch.toNat ∧ ch.toNat ≤ 0x5A)
          ∨ (0x61 ≤ ch.toNat ∧ ch.toNat ≤ 0x7A) ∨ (0x4E00 ≤ ch.toNat ∧ ch.toNat ≤ 0x9FA5)
          ∨ ch.toNat = 95 ∨ ch.toNat = 45 := by
        have k95 : ch = '_' → ch.toNat = 95 := key _
        have k45 : ch = '-' → ch.toNat = 45 := key _
        rcases h with ((((h | h) | h) | h) | h) | h
        all_goals first
          | omega
          | (have a := k95 h; omega)
          | (have a := k45 h; omega)
      rcases hs with (((((((((((((hs | hs) | hs) | hs) | hs) | hs) | hs) | hs) | hs) | hs)
        | hs) | hs) | hs) | hs) | hs
      · have h2 : ch.toNat = 9 := key _ hs
        omega
      · have h2 : ch.toNat = 10 := key _ hs
        omega
      · omega
      · omega
      · have h2 : ch.toNat = 13 := key _ hs
        omega
      · have h2 : ch.toNat = 32 := key _ hs
        omega
      · omega
      · omega
      · omega
      · omega
      · omega
      · omega
      · omega
      · omega
      · omega

/-- C14.  For every input string, every character of `sanitizeFileName(input)` is an ASCII
digit, an ASCII letter, a character in U+4E00..U+9FA5, `_` or `-`; in particular the
result contains no `/`, no `\`, no `.` and no white space.  The result is computed from
the trimmed input by copying every run of such characters and replacing each maximal run
of other characters by a single `_`; `Team/Chat*2024` gives `Team_Chat_2024`. -/
theorem sanitizeFileName_safe (input : String) :
    (∀ ch ∈ (sanitizeFileName input).toList,
      ((0x30 ≤ ch.toNat ∧ ch.toNat ≤ 0x39) ∨ (0x41 ≤ ch.toNat ∧ ch.toNat ≤ 0x5A)
        ∨ (0x61 ≤ ch.toNat ∧ ch.toNat ≤ 0x7A) ∨ (0x4E00 ≤ ch.toNat ∧ ch.toNat ≤ 0x9FA5)
        ∨ ch = '_' ∨ ch = '-') ∧
      ch ≠ '/' ∧ ch ≠ '\\' ∧ ch ≠ '.' ∧ goIsSpace ch = false) ∧
    (sanitizeFileName input).toList
      = (if trimSpace input = "" then []
         else replaceUnsafeRuns false (trimSpace input).toList) ∧
    (∀ (s rest : List Char), s ≠ [] → (∀ ch ∈ s, filenameSafeChar ch = true) →
      replaceUnsafeRuns false (s ++ rest) = s ++ replaceUnsafeRuns false rest) ∧
    (∀ (u rest : List Char), u ≠ [] → (∀ ch ∈ u, filenameSafeChar ch = false) →
      (rest = [] ∨ ∃ c tail, rest = c :: tail ∧ filenameSafeChar c = true) →
      replaceUnsafeRuns false (u ++ rest) = '_' :: replaceUnsafeRuns false rest) ∧
    sanitizeFileName "Team/Chat*2024" = "Team_Chat_2024" := by
  have hlist : (sanitizeFileName input).toList
      = (if trimSpace input = "" then []
         else replaceUnsafeRuns false (trimSpace input).toList) := by
    simp only [sanitizeFileName]
    by_cases ht : trimSpace input = ""
    · rw [if_pos ht, if_pos ht]; rfl
    · rw [if_neg ht, if_neg ht]; rfl
  refine ⟨?_, hlist, ?_, ?_, by decide⟩
  · intro ch hch
    rw [hlist] at hch
    have hsafe : filenameSafeChar ch = true := by
      by_cases ht : trimSpace input = ""
      · rw [if_pos ht] at hch; cases hch
      · rw [if_neg ht] at hch
        exact replaceUnsafeRuns_safe _ false ch hch
    refine ⟨?_, filenameSafeChar_not_hostile ch hsafe⟩
    simp only [filenameSafeChar, Bool.or_eq_true, Bool.and_eq_true, decide_eq_true_eq,
      or_assoc] at hsafe
    exact hsafe
  · intro s rest hs hall
    exact replaceUnsafeRuns_safe_run s rest false hs hall
  · intro u rest hu hall hrest
    exact replaceUnsafeRuns_unsafe_run u rest hu hall hrest

/-! ### The next job -/

/-- The row the read selects has the least creation time among the pending rows. -/
theorem oldestPending_least (db : JobStore) (j : MessageExportJobModel)
    (h : oldestPending db = some j) :
    ∀ k ∈ db, k.Status = ExportStatus.pending → j.CreatedAt.unix ≤ k.CreatedAt.unix := by
  induction db generalizing j with
  | nil => intro k hk; cases hk
  | cons a rest ih =>
    intro k hk hkp
    simp only [oldestPending] at h
    cases hr : oldestPending rest with
    | none =>
      rw [hr] at h
      simp only at h
      have hnone : ∀ x ∈ rest, x.Status ≠ ExportStatus.pending := by
        intro x hx hxp
        have hf : rest.filter (fun j => decide (j.Status = ExportStatus.pending)) = [] := by
          by_contra hne
          obtain ⟨y, ys, hy⟩ := List.exists_cons_of_ne_nil hne
          have := oldestPending_filter rest
          rw [hr, hy] at this
          simp only [oldestPending] at this
          cases hys : oldestPending ys with
          | none =>
            rw [hys] at this
            have hyp : y.Status = ExportStatus.pending := by
              have : y ∈ rest.filter (fun j => decide (j.Status = ExportStatus.pending)) := by
                rw [hy]; exact List.mem_cons_self _ _
              simpa using (List.mem_filter.mp this).2
            simp [hyp] at this
          | some z =>
            rw [hys] at this
            simp only at this
            split_ifs at this
        have : x ∈ rest.filter (fun j => decide (j.Status = ExportStatus.pending)) :=
          List.mem_filter.mpr ⟨hx, by simpa using hxp⟩
        rw [hf] at this
        cases this
      by_cases ha : a.Status = ExportStatus.pending
      · rw [if_pos ha] at h
        have := Option.some.inj h
        subst this
        rcases List.mem_cons.mp hk with h1 | h1
        · rw [h1]
        · exact absurd hkp (hnone k h1)
      · rw [if_neg ha] at h; cases h
    | some m =>
      rw [hr] at h
      simp only at h
      have hm := ih m hr
      by_cases ha : a.Status = ExportStatus.pending ∧ a.CreatedAt.unix ≤ m.CreatedAt.unix
      · rw [if_pos ha] at h
        have := Option.some.inj h
        subst this
        rcases List.mem_cons.mp hk with h1 | h1
        · rw [h1]
        · exact le_trans ha.2 (hm k h1 hkp)
      · rw [if_neg ha] at h
        have := Option.some.inj h
        subst this
        rcases List.mem_cons.mp hk with h1 | h1
        · subst h1
          have : ¬ k.CreatedAt.unix ≤ m.CreatedAt.unix := fun hle => ha ⟨hkp, hle⟩
          omega
        · exact hm k h1 hkp

/-- A table with a pending row: the read selects a row. -/
theorem oldestPending_some (db : JobStore)
    (h : ∃ k ∈ db, k.Status = ExportStatus.pending) : ∃ j, oldestPending db = some j := by
  induction db with
  | nil => obtain ⟨k, hk, -⟩ := h; cases hk
  | cons a rest ih =>
    simp only [oldestPending]
    cases hr : oldestPending rest with
    | none =>
      simp only
      obtain ⟨k, hk, hkp⟩ := h
      rcases List.mem_cons.mp hk with h1 | h1
      · subst h1; exact ⟨k, by rw [if_pos hkp]⟩
      · obtain ⟨j, hj⟩ := ih ⟨k, h1, hkp⟩
        rw [hr] at hj; cases hj
    | some m =>
      simp only
      by_cases ha : a.Status = ExportStatus.pending ∧ a.CreatedAt.unix ≤ m.CreatedAt.unix
      · exact ⟨a, by rw [if_pos ha]⟩
      · exact ⟨m, by rw [if_neg ha]⟩

/-- C15.  For every store state whose rows have pairwise distinct, non-empty ids and a
call of `acquireNextExportJob` in which the store operations do not fail: if no job is
pending the call returns `(nil, nil)` and leaves the store unchanged; otherwise it
selects a pending job of earliest creation time, changes only the row of that job (its
status becomes processing and its update time the current time), and returns that job
with `Status = processing`. -/
theorem acquireNextExportJob_selects_oldest (aenv : AcquireEnv) (db : JobStore)
    (hfind : aenv.findErr = none) (hupd : aenv.updateErr = none)
    (hnodup : (db.map (fun j => j.ID)).Nodup) (hids : ∀ j ∈ db, j.ID ≠ "") :
    ((∀ k ∈ db, k.Status ≠ ExportStatus.pending) →
      acquireNextExportJob aenv db = (db, Except.ok none)) ∧
    ((∃ k ∈ db, k.Status = ExportStatus.pending) →
      ∃ job, job ∈ db ∧ job.Status = ExportStatus.pending ∧
        (∀ k ∈ db, k.Status = ExportStatus.pending →
          job.CreatedAt.unix ≤ k.CreatedAt.unix) ∧
        acquireNextExportJob aenv db
          = (db.map (fun j =>
                if j = job then
                  { j with Status := ExportStatus.processing, UpdatedAt := aenv.now }
                else j),
              Except.ok (some { job with Status := ExportStatus.processing }))) := by
  constructor
  · intro hnone
    have hf : db.filter (fun j => decide (j.Status = ExportStatus.pending)) = [] := by
      rw [List.filter_eq_nil_iff]
      intro j hj
      simpa using hnone j hj
    simp [acquireNextExportJob, hfind, findOldestPending_of_no_pending db hf, zeroJob]
  · intro hex
    obtain ⟨job, hjob⟩ := oldestPending_some db hex
    obtain ⟨hmem, hpend⟩ := oldestPending_mem db job hjob
    refine ⟨job, hmem, hpend, oldestPending_least db job hjob, ?_⟩
    have hfo : findOldestPending db = job := by simp [findOldestPending, hjob]
    have hcount : (claimUpdate db job.ID aenv.now).2 ≠ 0 := by
      unfold claimUpdate
      simp only [ne_eq, List.length_eq_zero, List.filter_eq_nil_iff, not_forall]
      exact ⟨job, hmem, by simp [hpend]⟩
    have hmap : (claimUpdate db job.ID aenv.now).1
        = db.map (fun j =>
            if j = job then
              { j with Status := ExportStatus.processing, UpdatedAt := aenv.now }
            else j) := by
      unfold claimUpdate
      simp only
      apply List.map_congr_left
      intro j hj
      by_cases hje : j = job
      · subst hje
        rw [if_pos ⟨rfl, hpend⟩, if_pos rfl]
      · rw [if_neg hje]
        have hne : j.ID ≠ job.ID := by
          intro hid
          exact hje (List.inj_on_of_nodup_map hnodup hj hmem hid)
        rw [if_neg (fun hc => hne hc.1)]
    simp only [acquireNextExportJob, hfind, hupd, hfo]
    rw [if_neg (hids job hmem), if_neg hcount, hmap]

/-- Witness of C15: the sample store with the one pending sample job. -/
theorem acquireNextExportJob_selects_oldest_witness :
    sampleAcquireEnv.findErr = none ∧ sampleAcquireEnv.updateErr = none ∧
    ([sampleDoneJob, sampleJob].map (fun j => j.ID)).Nodup ∧
    (∀ j ∈ [sampleDoneJob, sampleJob], j.ID ≠ "") ∧
    (∃ k ∈ [sampleDoneJob, sampleJob], k.Status = ExportStatus.pending) ∧
    ∃ job, job ∈ [sampleDoneJob, sampleJob] ∧ job.Status = ExportStatus.pending ∧
      (∀ k ∈ [sampleDoneJob, sampleJob], k.Status = ExportStatus.pending →
        job.CreatedAt.unix ≤ k.CreatedAt.unix) ∧
      acquireNextExportJob sampleAcquireEnv [sampleDoneJob, sampleJob]
        = ([sampleDoneJob, sampleJob].map (fun j =>
              if j = job then
                { j with Status := ExportStatus.processing, UpdatedAt := sampleAcquireEnv.now }
              else j),
            Except.ok (some { job with Status := ExportStatus.processing })) :=
  ⟨rfl, rfl, by decide, by decide, ⟨sampleJob, by decide, rfl⟩,
    (acquireNextExportJob_selects_oldest sampleAcquireEnv [sampleDoneJob, sampleJob] rfl rfl
      (by decide) (by decide)).2 ⟨sampleJob, by decide, rfl⟩⟩

/-! ### Failures of a job -/

/-- The branch of `processExportJob` for a format that is not `html`. -/
theorem processExportJob_single (env : ExportEnv) (w : World) (job : MessageExportJobModel)
    (storageDir : String) (sched : List RenderEvent) (messages : List MessageModel)
    (hfmt : equalFoldHtml job.Format = false)
    (hload : env.loadMessagesForExport job = Except.ok messages) :
    processExportJob env w job storageDir sched
      = match env.getFormatter job.Format with
        | none =>
          some ({ w with
            db := (markJobFailed w.db job (some ⟨"不支持的导出格式: " ++ job.Format⟩)
              env.finishedAt env.markFailedErr).1 },
            some ⟨"不支持的导出格式: " ++ job.Format⟩)
        | some formatter =>
          match formatter.Build
              (env.buildExportPayload job (env.resolveChannelName job.ChannelID) messages none)
            with
          | Except.error err =>
            some ({ w with
              db := (markJobFailed w.db job (some err) env.finishedAt env.markFailedErr).1 },
              some err)
          | Except.ok data =>
            match env.mkdirAllErr storageDir with
            | some err =>
              some ({ w with
                db := (markJobFailed w.db job (some err) env.finishedAt env.markFailedErr).1 },
                some err)
            | none =>
              match env.writeFileErr
                  (env.filepathJoin storageDir (job.ID ++ "." ++ formatter.Ext)) data with
              | some err =>
                some ({ db := (markJobFailed w.db job (some err) env.finishedAt
                          env.markFailedErr).1,
                        fs := { w.fs with dirs := storageDir :: w.fs.dirs } },
                  some err)
              | none =>
                some ({ db := (markJobDone w.db job
                          (env.filepathJoin storageDir (job.ID ++ "." ++ formatter.Ext))
                          (buildExportFileName
                            (env.buildExportPayload job (env.resolveChannelName job.ChannelID)
                              messages none) formatter.Ext)
                          [] env.finishedAt env.markDoneErr).1,
                        fs := { dirs := storageDir :: w.fs.dirs,
                                files := (env.filepathJoin storageDir
                                    (job.ID ++ "." ++ formatter.Ext), FileContent.raw data)
                                  :: w.fs.files } },
                  (markJobDone w.db job
                          (env.filepathJoin storageDir (job.ID ++ "." ++ formatter.Ext))
                          (buildExportFileName
                            (env.buildExportPayload job (env.resolveChannelName job.ChannelID)
                              messages none) formatter.Ext)
                          [] env.finishedAt env.markDoneErr).2) := by
  simp only [processExportJob, hload, hfmt, Bool.false_eq_true, if_false]

/-- A string shorter than a key does not contain the key. -/
theorem not_contains_of_shorter (s key : String) (h : s.length < key.length) :
    ¬ ∃ pre post : String, s = pre ++ key ++ post := by
  rintro ⟨pre, post, hs⟩
  have := congrArg String.length hs
  rw [String.length_append, String.length_append] at this
  omega

/-- C16, as stated, fails.  First, for a job whose format is not `html` and has no
formatter, but whose messages fail to load, `processExportJob` returns the load error,
whose message does not contain the format key, and the job is marked failed with that
message.  Second, the error of `markJobFailed` is discarded
(`_ = markJobFailed(job, err)`): when the messages load and the store refuses the update,
the error naming the format is returned while the row of the job is left as it was,
`processing` with an empty `error_msg`. -/
theorem unsupported_format_load_failure_counterexample :
    equalFoldHtml sampleDocxJob.Format = false ∧
    sampleLoadFailEnv.getFormatter sampleDocxJob.Format = none ∧
    (processExportJob sampleLoadFailEnv ⟨[sampleDocxJob], ⟨[], []⟩⟩ sampleDocxJob "dir" []).map
        (fun out => (out.2, out.1.db.map (fun j => (j.Status, j.ErrorMsg))))
      = some (some ⟨"load failed"⟩, [(ExportStatus.failed, "load failed")]) ∧
    (¬ ∃ pre post : String, "load failed" = pre ++ sampleDocxJob.Format ++ post) ∧
    equalFoldHtml sampleClaimedDocxJob.Format = false ∧
    sampleLockedEnv.getFormatter sampleClaimedDocxJob.Format = none ∧
    sampleLockedEnv.loadMessagesForExport sampleClaimedDocxJob = Except.ok sampleMessages ∧
    (processExportJob sampleLockedEnv ⟨[sampleClaimedDocxJob], ⟨[], []⟩⟩ sampleClaimedDocxJob
        "dir" []).map
        (fun out => (out.2, out.1.db.map (fun j => (j.ID, j.Status, j.ErrorMsg))))
      = some (some ⟨"不支持的导出格式: docx-unknown"⟩,
          [("job-4", ExportStatus.processing, "")]) := by
  refine ⟨by decide, rfl, by decide, ?_, by decide, rfl, rfl, by decide⟩
  exact not_contains_of_shorter _ _ (by decide)

/-- C16, amended.  For every job whose format is not `html` (compared case-insensitively),
for which the formatter registry has no entry, and whose messages load: `processExportJob`
returns an error whose message ends with the job's format key, after calling
`markJobFailed` with it, and leaves the file system as it was: no file written, no
directory created.  When the store carries out the update, every row of the job is failed
with that message, and there is such a row if the store held a row of the job; when the
store refuses the update, whose error is discarded, the store is left as it was. -/
theorem processExportJob_unsupported_format (env : ExportEnv) (w : World)
    (job : MessageExportJobModel) (storageDir : String) (sched : List RenderEvent)
    (messages : List MessageModel)
    (hfmt : equalFoldHtml job.Format = false)
    (hreg : env.getFormatter job.Format = none)
    (hload : env.loadMessagesForExport job = Except.ok messages) :
    ∃ (w' : World) (e : GoError),
      processExportJob env w job storageDir sched = some (w', some e) ∧
      (∃ pre : String, e.msg = pre ++ job.Format) ∧
      w'.db = (markJobFailed w.db job (some e) env.finishedAt env.markFailedErr).1 ∧
      (env.markFailedErr = none →
        (∀ j ∈ w'.db, j.ID = job.ID →
          j.Status = ExportStatus.failed ∧ j.ErrorMsg = e.msg) ∧
        ((∃ j ∈ w.db, j.ID = job.ID) →
          ∃ j ∈ w'.db, j.ID = job.ID ∧ j.Status = ExportStatus.failed ∧
            j.ErrorMsg = e.msg)) ∧
      (env.markFailedErr ≠ none → w'.db = w.db) ∧
      w'.fs = w.fs := by
  refine ⟨{ w with
      db := (markJobFailed w.db job (some ⟨"不支持的导出格式: " ++ job.Format⟩)
        env.finishedAt env.markFailedErr).1 },
    ⟨"不支持的导出格式: " ++ job.Format⟩, ?_, ⟨_, rfl⟩, rfl, ?_, ?_, rfl⟩
  · rw [processExportJob_single env w job storageDir sched messages hfmt hload, hreg]
  · intro hdb
    simp only [hdb]
    exact ⟨markJobFailed_rows w.db job _ env.finishedAt,
      markJobFailed_row_exists w.db job _ env.finishedAt⟩
  · intro hdb
    obtain ⟨err, herr⟩ := Option.ne_none_iff_exists'.mp hdb
    simp only [herr]
    exact markJobFailed_refused w.db job _ env.finishedAt err

/-- Witness of the amended C16: the claimed sample job with the unknown format in
surroundings in which the store carries out the update.  The error names the format, the
row of the job is failed with its message and the file system is empty as before. -/
theorem processExportJob_unsupported_format_witness :
    equalFoldHtml sampleClaimedDocxJob.Format = false ∧
    sampleEnv.getFormatter sampleClaimedDocxJob.Format = none ∧
    sampleEnv.loadMessagesForExport sampleClaimedDocxJob = Except.ok sampleMessages ∧
    ∃ (w' : World) (e : GoError),
      processExportJob sampleEnv ⟨[sampleClaimedDocxJob], ⟨[], []⟩⟩ sampleClaimedDocxJob "dir" []
        = some (w', some e) ∧
      (∃ pre : String, e.msg = pre ++ sampleClaimedDocxJob.Format) ∧
      (∃ j ∈ w'.db, j.ID = sampleClaimedDocxJob.ID ∧ j.Status = ExportStatus.failed ∧
        j.ErrorMsg = e.msg) ∧
      w'.fs = ⟨[], []⟩ :=
  ⟨by decide, rfl, rfl, by
    obtain ⟨w', e, hrun, hkey, -, hacc, -, hfs⟩ :=
      processExportJob_unsupported_format sampleEnv ⟨[sampleClaimedDocxJob], ⟨[], []⟩⟩
        sampleClaimedDocxJob "dir" [] sampleMessages (by decide) rfl rfl
    exact ⟨w', e, hrun, hkey, (hacc rfl).2 ⟨sampleClaimedDocxJob, by simp, rfl⟩, hfs⟩⟩

/-- When `processViewerExportJob` returns an error it has not changed the store. -/
theorem processViewerExportJob_error_db (env : ExportEnv) (w w' : World)
    (job : MessageExportJobModel) (channelName : String) (messages : List MessageModel)
    (storageDir : String) (extra : exportExtraOptions) (sched : List RenderEvent) (e : GoError)
    (h : processViewerExportJob env w job channelName messages storageDir (some extra) sched
      = some (w', some e)) : w'.db = w.db := by
  cases hs : splitMessagesForViewer env.limits messages extra.SliceLimit (messages.length + 1)
    with
  | none => simp only [processViewerExportJob, hs] at h; cases h
  | some chunks =>
    rw [processViewerExportJob_eq env w job channelName messages storageDir extra sched chunks
      hs] at h
    rcases hr : renderViewerParts env job channelName chunks env.getViewerAssets extra
        env.generatedAt (List.replicate chunks.length zeroPartRenderResult)
        env.newInlineImageEmbedder sched with _ | ⟨_ | e0, res⟩
    · rw [hr] at h; cases h
    · rw [hr] at h
      simp only at h
      cases hmk : env.mkdirAllErr storageDir with
      | some e1 =>
        rw [hmk] at h
        rw [← (Prod.mk.inj (Option.some.inj h)).1]
      | none =>
        rw [hmk] at h
        simp only at h
        rcases hw : writeViewerArchive env { w.fs with dirs := storageDir :: w.fs.dirs }
            (env.filepathJoin storageDir (buildViewerArchiveName channelName env.generatedAt))
            job channelName extra env.generatedAt res env.getViewerAssets
          with ⟨fs1, m1, _ | e2⟩
        · rw [hw] at h
          simp only at h
          have h' := Option.some.inj h
          cases hd : env.markDoneErr with
          | some e3 =>
            rw [hd] at h'
            rw [← (Prod.mk.inj h').1]; rfl
          | none =>
            rw [hd] at h'
            have := (Prod.mk.inj h').2
            simp [markJobDone] at this
        · rw [hw] at h
          simp only at h
          rw [← (Prod.mk.inj (Option.some.inj h)).1]
    · rw [hr] at h
      simp only at h
      rw [← (Prod.mk.inj (Option.some.inj h)).1]

/-- The message of an error of `writeZipEntry` ends with the message of the error of the
archive writer that caused it. -/
theorem writeZipEntry_error_cause (env : ExportEnv) (entries : List (String × List UInt8))
    (name : String) (data : List UInt8) (e' : GoError)
    (h : (writeZipEntry env entries name data).2 = some e') :
    ∃ (e : GoError) (pre : String),
      (env.zipCreateHeaderErr name = some e ∨
        (env.zipCreateHeaderErr name = none ∧ env.zipWriteErr name data = some e)) ∧
      e'.msg = pre ++ e.msg := by
  unfold writeZipEntry at h
  cases h1 : env.zipCreateHeaderErr name with
  | some e1 =>
    rw [h1] at h
    have := Option.some.inj h
    subst this
    exact ⟨e1, _, Or.inl rfl, rfl⟩
  | none =>
    rw [h1] at h
    cases h2 : env.zipWriteErr name data with
    | some e2 =>
      rw [h2] at h
      have := Option.some.inj h
      subst this
      exact ⟨e2, _, Or.inr ⟨rfl, rfl⟩, rfl⟩
    | none => rw [h2] at h; cases h

/-- The viewer branch of `processExportJob` once the parts are rendered and the storage
directory is created: when `writeViewerArchive` returns an error, `processExportJob`
returns it after calling `markJobFailed` with it, and the file system is as
`writeViewerArchive` left it. -/
theorem processExportJob_archive_failure (env : ExportEnv) (w : World)
    (job : MessageExportJobModel) (storageDir : String) (messages : List MessageModel)
    (chunks : List (List MessageModel)) (res : List partRenderResult)
    (sched : List RenderEvent) (fs1 : FileSystem) (m : Option viewerManifest) (e : GoError)
    (hfmt : equalFoldHtml job.Format = true)
    (hload : env.loadMessagesForExport job = Except.ok messages)
    (hsplit : splitMessagesForViewer env.limits messages
      (env.parseExportExtraOptions job.ExtraOptions).SliceLimit (messages.length + 1)
      = some chunks)
    (hrender : renderViewerParts env job (env.resolveChannelName job.ChannelID) chunks
      env.getViewerAssets (env.parseExportExtraOptions job.ExtraOptions) env.generatedAt
      (List.replicate chunks.length zeroPartRenderResult) env.newInlineImageEmbedder sched
      = some (none, res))
    (hmk : env.mkdirAllErr storageDir = none)
    (hw : writeViewerArchive env { w.fs with dirs := storageDir :: w.fs.dirs }
      (env.filepathJoin storageDir
        (buildViewerArchiveName (env.resolveChannelName job.ChannelID) env.generatedAt))
      job (env.resolveChannelName job.ChannelID)
      (env.parseExportExtraOptions job.ExtraOptions) env.generatedAt res
      env.getViewerAssets = (fs1, m, some e)) :
    processExportJob env w job storageDir sched
      = some ({ db := (markJobFailed w.db job (some e) env.finishedAt env.markFailedErr).1,
                fs := fs1 }, some e) := by
  rw [processExportJob_html env w job storageDir sched messages hfmt hload,
    processViewerExportJob_eq env w job _ messages storageDir _ sched chunks hsplit, hrender]
  simp only [hmk, hw]

/-- The error `writeZipEntry` returns when the archive writer fails: the message of the
failure of the writer, after a text naming the entry. -/
theorem writeZipEntry_failure (env : ExportEnv) (entries : List (String × List UInt8))
    (name : String) (data : List UInt8) (e : GoError) :
    (env.zipCreateHeaderErr name = some e →
      writeZipEntry env entries name data
        = (entries, some ⟨"写入 ZIP 失败 (" ++ name ++ "): " ++ e.msg⟩)) ∧
    (env.zipCreateHeaderErr name = none → env.zipWriteErr name data = some e →
      writeZipEntry env entries name data
        = (entries, some ⟨"写入 ZIP 内容失败 (" ++ name ++ "): " ++ e.msg⟩)) := by
  constructor
  · intro h; simp only [writeZipEntry, h]
  · intro h1 h2; simp only [writeZipEntry, h1, h2]

/-- C17, as stated, fails.  First, the errors of the deferred `zw.Close()` and `f.Close()`
of `writeViewerArchive` are dropped: when every entry write returns nil and the failure of
the file write surfaces only at the close, `processExportJob` returns nil and the job is
marked done, with an unfinished archive as its file.  Second, the error of `markJobFailed`
is discarded: when loading the messages fails and the store refuses the update, the load
error is returned while the row of the job is left as it was, `processing` with an empty
`error_msg`. -/
theorem export_failure_not_recorded_counterexample :
    sampleCloseFailEnv.zipCloseErr "dir/sealchat-Team_Chat_2024-00010101-0000.zip"
      = some ⟨"write: no space left on device"⟩ ∧
    (processExportJob sampleCloseFailEnv ⟨[sampleClaimedJob], ⟨[], []⟩⟩ sampleClaimedJob "dir"
        (sequentialSchedule 0 2)).map
        (fun out => (out.2, out.1.db.map (fun j => (j.ID, j.Status, j.ErrorMsg, j.FilePath)),
          out.1.fs.files))
      = some (none,
          [("job-1", ExportStatus.done, "", "dir/sealchat-Team_Chat_2024-00010101-0000.zip")],
          [("dir/sealchat-Team_Chat_2024-00010101-0000.zip",
            FileContent.unfinished [("parts/part-001.html", [60, 62]),
              ("parts/part-002.html", [60, 62]), ("manifest/meta.json", [123, 125]),
              ("index.html", [60, 62])])]) ∧
    sampleLockedLoadFailEnv.loadMessagesForExport sampleClaimedJob
      = Except.error ⟨"load failed"⟩ ∧
    (processExportJob sampleLockedLoadFailEnv ⟨[sampleClaimedJob], ⟨[], []⟩⟩ sampleClaimedJob
        "dir" (sequentialSchedule 0 2)).map
        (fun out => (out.2, out.1.db.map (fun j => (j.ID, j.Status, j.ErrorMsg))))
      = some (some ⟨"load failed"⟩, [("job-1", ExportStatus.processing, "")]) := by
  refine ⟨rfl, rfl, rfl, by decide⟩

/-- C17, amended.  For every job and every failure inside `processExportJob` of message
loading, formatter build, directory creation, archive or file creation, or of a file
write or archive entry write that returns its error: `processExportJob` returns an error
after calling `markJobFailed` with that same error, and the message of the returned error
is, or ends with, the message of the underlying error.  When the store carries out the
update, every row of the job is failed with `error_msg` equal to the message of the
returned error, and there is such a row if the store held a row of the job; when the
store refuses the update, whose error is discarded, the store is left as it was.  On a
load failure the outcome is the same under every schedule of render tasks (nothing is
rendered) and the file system is unchanged.  After a failed entry write the archive file
is left unfinished. -/
theorem processExportJob_failures (env : ExportEnv) (w : World) (job : MessageExportJobModel)
    (storageDir : String) :
    (∀ (e : GoError), env.loadMessagesForExport job = Except.error e →
      ∀ sched, processExportJob env w job storageDir sched
        = some ({ db := (markJobFailed w.db job (some e) env.finishedAt env.markFailedErr).1,
                  fs := w.fs }, some e)) ∧
    (∀ (messages : List MessageModel) (formatter : Formatter) (e : GoError),
      equalFoldHtml job.Format = false →
      env.loadMessagesForExport job = Except.ok messages →
      env.getFormatter job.Format = some formatter →
      formatter.Build (env.buildExportPayload job (env.resolveChannelName job.ChannelID)
        messages none) = Except.error e →
      ∀ sched, processExportJob env w job storageDir sched
        = some ({ db := (markJobFailed w.db job (some e) env.finishedAt env.markFailedErr).1,
                  fs := w.fs }, some e)) ∧
    (∀ (messages : List MessageModel) (formatter : Formatter) (data : List UInt8) (e : GoError),
      equalFoldHtml job.Format = false →
      env.loadMessagesForExport job = Except.ok messages →
      env.getFormatter job.Format = some formatter →
      formatter.Build (env.buildExportPayload job (env.resolveChannelName job.ChannelID)
        messages none) = Except.ok data →
      env.mkdirAllErr storageDir = some e →
      ∀ sched, processExportJob env w job storageDir sched
        = some ({ db := (markJobFailed w.db job (some e) env.finishedAt env.markFailedErr).1,
                  fs := w.fs }, some e)) ∧
    (∀ (messages : List MessageModel) (formatter : Formatter) (data : List UInt8) (e : GoError),
      equalFoldHtml job.Format = false →
      env.loadMessagesForExport job = Except.ok messages →
      env.getFormatter job.Format = some formatter →
      formatter.Build (env.buildExportPayload job (env.resolveChannelName job.ChannelID)
        messages none) = Except.ok data →
      env.mkdirAllErr storageDir = none →
      env.writeFileErr (env.filepathJoin storageDir (job.ID ++ "." ++ formatter.Ext)) data
        = some e →
      ∀ sched, processExportJob env w job storageDir sched
        = some ({ db := (markJobFailed w.db job (some e) env.finishedAt env.markFailedErr).1,
                  fs := { w.fs with dirs := storageDir :: w.fs.dirs } }, some e)) ∧
    (∀ (messages : List MessageModel) (chunks : List (List MessageModel))
        (res : List partRenderResult) (sched : List RenderEvent) (cn : String)
        (ex : exportExtraOptions) (path : String),
      cn = env.resolveChannelName job.ChannelID →
      ex = env.parseExportExtraOptions job.ExtraOptions →
      path = env.filepathJoin storageDir (buildViewerArchiveName cn env.generatedAt) →
      equalFoldHtml job.Format = true →
      env.loadMessagesForExport job = Except.ok messages →
      splitMessagesForViewer env.limits messages ex.SliceLimit (messages.length + 1)
        = some chunks →
      renderViewerParts env job cn chunks env.getViewerAssets ex env.generatedAt
        (List.replicate chunks.length zeroPartRenderResult) env.newInlineImageEmbedder sched
        = some (none, res) →
      (∀ e : GoError, env.mkdirAllErr storageDir = some e →
        processExportJob env w job storageDir sched
          = some ({ db := (markJobFailed w.db job (some ⟨"创建导出目录失败: " ++ e.msg⟩)
                      env.finishedAt env.markFailedErr).1, fs := w.fs },
              some ⟨"创建导出目录失败: " ++ e.msg⟩)) ∧
      (∀ e : GoError, env.mkdirAllErr storageDir = none → env.createErr path = some e →
        processExportJob env w job storageDir sched
          = some ({ db := (markJobFailed w.db job (some ⟨"创建 ZIP 文件失败: " ++ e.msg⟩)
                      env.finishedAt env.markFailedErr).1,
                    fs := { w.fs with dirs := storageDir :: w.fs.dirs } },
              some ⟨"创建 ZIP 文件失败: " ++ e.msg⟩)) ∧
      (∀ (pre : List partRenderResult) (r : partRenderResult) (post : List partRenderResult)
          (e : GoError),
        env.mkdirAllErr storageDir = none → env.createErr path = none →
        res = pre ++ r :: post →
        (∀ q ∈ pre, (writeZipEntry env [] q.fileName q.content).2 = none) →
        (writeZipEntry env [] r.fileName r.content).2 = some e →
        processExportJob env w job storageDir sched
          = some ({ db := (markJobFailed w.db job (some e) env.finishedAt
                      env.markFailedErr).1,
                    fs := { dirs := storageDir :: w.fs.dirs,
                            files := (path, FileContent.unfinished
                              (pre.map (fun q => (q.fileName, q.content)))) :: w.fs.files } },
              some e)) ∧
      (∀ (metaBytes : List UInt8) (e : GoError),
        env.mkdirAllErr storageDir = none → env.createErr path = none →
        (∀ q ∈ res, (writeZipEntry env [] q.fileName q.content).2 = none) →
        env.jsonMarshalIndent (buildManifest env job cn ex env.generatedAt res
          (res.map (fun r => r.meta.Messages)).sum) = Except.ok metaBytes →
        (writeZipEntry env [] "manifest/meta.json" metaBytes).2 = some e →
        processExportJob env w job storageDir sched
          = some ({ db := (markJobFailed w.db job (some e) env.finishedAt
                      env.markFailedErr).1,
                    fs := { dirs := storageDir :: w.fs.dirs,
                            files := (path, FileContent.unfinished
                              (res.map (fun r => (r.fileName, r.content)))) :: w.fs.files } },
              some e)) ∧
      (∀ (metaBytes indexBytes : List UInt8) (e : GoError),
        env.mkdirAllErr storageDir = none → env.createErr path = none →
        (∀ q ∈ res, (writeZipEntry env [] q.fileName q.content).2 = none) →
        env.jsonMarshalIndent (buildManifest env job cn ex env.generatedAt res
          (res.map (fun r => r.meta.Messages)).sum) = Except.ok metaBytes →
        (writeZipEntry env [] "manifest/meta.json" metaBytes).2 = none →
        env.renderViewerIndex (buildManifest env job cn ex env.generatedAt res
          (res.map (fun r => r.meta.Messages)).sum) env.getViewerAssets
          = Except.ok indexBytes →
        (writeZipEntry env [] "index.html" indexBytes).2 = some e →
        processExportJob env w job storageDir sched
          = some ({ db := (markJobFailed w.db job (some e) env.finishedAt
                      env.markFailedErr).1,
                    fs := { dirs := storageDir :: w.fs.dirs,
                            files := (path, FileContent.unfinished
                              (res.map (fun r => (r.fileName, r.content))
                                ++ [("manifest/meta.json", metaBytes)])) :: w.fs.files } },
              some e)) ∧
      (∀ (fs1 : FileSystem) (m : Option viewerManifest) (e : GoError),
        env.mkdirAllErr storageDir = none →
        writeViewerArchive env { w.fs with dirs := storageDir :: w.fs.dirs } path job cn ex
          env.generatedAt res env.getViewerAssets = (fs1, m, some e) →
        processExportJob env w job storageDir sched
          = some ({ db := (markJobFailed w.db job (some e) env.finishedAt
                      env.markFailedErr).1, fs := fs1 }, some e))) ∧
    (∀ (messages : List MessageModel) (sched : List RenderEvent) (w1 : World) (e : GoError),
      equalFoldHtml job.Format = true →
      env.loadMessagesForExport job = Except.ok messages →
      processViewerExportJob env w job (env.resolveChannelName job.ChannelID) messages
        storageDir (some (env.parseExportExtraOptions job.ExtraOptions)) sched
        = some (w1, some e) →
      processExportJob env w job storageDir sched
        = some ({ db := (markJobFailed w.db job (some e) env.finishedAt env.markFailedErr).1,
                  fs := w1.fs }, some e)) ∧
    (∀ (entries : List (String × List UInt8)) (name : String) (data : List UInt8)
        (e : GoError),
      (env.zipCreateHeaderErr name = some e →
        writeZipEntry env entries name data
          = (entries, some ⟨"写入 ZIP 失败 (" ++ name ++ "): " ++ e.msg⟩)) ∧
      (env.zipCreateHeaderErr name = none → env.zipWriteErr name data = some e →
        writeZipEntry env entries name data
          = (entries, some ⟨"写入 ZIP 内容失败 (" ++ name ++ "): " ++ e.msg⟩))) ∧
    (∀ (entries : List (String × List UInt8)) (name : String) (data : List UInt8)
        (e' : GoError),
      (writeZipEntry env entries name data).2 = some e' →
      ∃ (e : GoError) (pre : String),
        (env.zipCreateHeaderErr name = some e ∨
          (env.zipCreateHeaderErr name = none ∧ env.zipWriteErr name data = some e)) ∧
        e'.msg = pre ++ e.msg) ∧
    (∀ (e : GoError), env.markFailedErr = none →
      (∀ j ∈ (markJobFailed w.db job (some e) env.finishedAt env.markFailedErr).1,
        j.ID = job.ID → j.Status = ExportStatus.failed ∧ j.ErrorMsg = e.msg) ∧
      ((∃ j ∈ w.db, j.ID = job.ID) →
        ∃ j ∈ (markJobFailed w.db job (some e) env.finishedAt env.markFailedErr).1,
          j.ID = job.ID ∧ j.Status = ExportStatus.failed ∧ j.ErrorMsg = e.msg)) ∧
    (∀ (e : GoError), env.markFailedErr ≠ none →
      (markJobFailed w.db job (some e) env.finishedAt env.markFailedErr).1 = w.db) := by
  refine ⟨?_, ?_, ?_, ?_, ?_, ?_, ?_, ?_, ?_, ?_⟩
  · intro e hload sched
    simp only [processExportJob, hload]
  · intro messages formatter e hfmt hload hreg hbuild sched
    rw [processExportJob_single env w job storageDir sched messages hfmt hload, hreg]
    simp only [hbuild]
  · intro messages formatter data e hfmt hload hreg hbuild hmk sched
    rw [processExportJob_single env w job storageDir sched messages hfmt hload, hreg]
    simp only [hbuild, hmk]
  · intro messages formatter data e hfmt hload hreg hbuild hmk hwf sched
    rw [processExportJob_single env w job storageDir sched messages hfmt hload, hreg]
    simp only [hbuild, hmk, hwf]
  · intro messages chunks res sched cn ex path hcn hex hpath hfmt hload hs hr
    subst hcn hex hpath
    refine ⟨?_, ?_, ?_, ?_, ?_, ?_⟩
    · intro e hmk
      rw [processExportJob_html env w job storageDir sched messages hfmt hload,
        processViewerExportJob_eq env w job _ messages storageDir _ sched chunks hs, hr]
      simp only [hmk]
    · intro e hmk hc
      exact processExportJob_archive_failure env w job storageDir messages chunks res sched
        _ none _ hfmt hload hs hr hmk (by simp only [writeViewerArchive, hc])
    · intro pre r post e hmk hc hres hpre hfail
      exact processExportJob_archive_failure env w job storageDir messages chunks res sched
        _ none e hfmt hload hs hr hmk (by
          rw [hres]
          exact writeViewerArchive_part_failure env _ _ job _ _ _ _ pre r post e hc hpre hfail)
    · intro metaBytes e hmk hc hall hm hmw
      exact processExportJob_archive_failure env w job storageDir messages chunks res sched
        _ _ e hfmt hload hs hr hmk
        (writeViewerArchive_manifest_entry_failure env _ _ job _ _ _ res _ metaBytes e hc hall
          hm hmw)
    · intro metaBytes indexBytes e hmk hc hall hm hmw hx hxw
      exact processExportJob_archive_failure env w job storageDir messages chunks res sched
        _ _ e hfmt hload hs hr hmk
        (writeViewerArchive_index_entry_failure env _ _ job _ _ _ res _ metaBytes indexBytes e
          hc hall hm hmw hx hxw)
    · intro fs1 m e hmk hw
      exact processExportJob_archive_failure env w job storageDir messages chunks res sched
        fs1 m e hfmt hload hs hr hmk hw
  · intro messages sched w1 e hfmt hload hv
    have hdb := processViewerExportJob_error_db env w w1 job _ messages storageDir _ sched e hv
    rw [processExportJob_html env w job storageDir sched messages hfmt hload, hv]
    simp only [hdb]
  · intro entries name data e
    exact writeZipEntry_failure env entries name data e
  · intro entries name data e' h
    exact writeZipEntry_error_cause env entries name data e' h
  · intro e hdb
    rw [hdb]
    exact ⟨markJobFailed_rows w.db job e env.finishedAt,
      markJobFailed_row_exists w.db job e env.finishedAt⟩
  · intro e hdb
    obtain ⟨err, herr⟩ := Option.ne_none_iff_exists'.mp hdb
    rw [herr]
    exact markJobFailed_refused w.db job (some e) env.finishedAt err

/-- Witness of the amended C17: the claimed sample job in surroundings in which loading
the messages fails, and in surroundings in which the write of the manifest entry fails.
In both the error is returned and the row of the job is failed with its message; in the
second the message ends with the message of the failed write and the archive file is left
unfinished with the two part entries handed to the archive writer. -/
theorem processExportJob_failures_witness :
    sampleLoadFailEnv.loadMessagesForExport sampleClaimedJob = Except.error ⟨"load failed"⟩ ∧
    (processExportJob sampleLoadFailEnv ⟨[sampleClaimedJob], ⟨[], []⟩⟩ sampleClaimedJob "dir"
        []).map (fun out => (out.2, out.1.db.map (fun j => (j.ID, j.Status, j.ErrorMsg)),
          out.1.fs))
      = some (some ⟨"load failed"⟩, [("job-1", ExportStatus.failed, "load failed")],
          ⟨[], []⟩) ∧
    sampleZipFailEnv.zipWriteErr "manifest/meta.json" [123, 125] = some ⟨"disk full"⟩ ∧
    (processExportJob sampleZipFailEnv ⟨[sampleClaimedJob], ⟨[], []⟩⟩ sampleClaimedJob "dir"
        (sequentialSchedule 0 2)).map
        (fun out => (out.2, out.1.db.map (fun j => (j.ID, j.Status, j.ErrorMsg)), out.1.fs))
      = some (some ⟨"写入 ZIP 内容失败 (manifest/meta.json): disk full"⟩,
          [("job-1", ExportStatus.failed, "写入 ZIP 内容失败 (manifest/meta.json): disk full")],
          ⟨["dir"], [("dir/sealchat-Team_Chat_2024-00010101-0000.zip",
            FileContent.unfinished [("parts/part-001.html", [60, 62]),
              ("parts/part-002.html", [60, 62])])]⟩) :=
  ⟨rfl,
    by
      rw [(processExportJob_failures sampleLoadFailEnv ⟨[sampleClaimedJob], ⟨[], []⟩⟩
        sampleClaimedJob "dir").1 ⟨"load failed"⟩ rfl []]
      decide,
    rfl,
    by
      rw [((processExportJob_failures sampleZipFailEnv ⟨[sampleClaimedJob], ⟨[], []⟩⟩
        sampleClaimedJob "dir").2.2.2.2.1 sampleMessages sampleChunks _
        (sequentialSchedule 0 2) _ _ _ rfl rfl rfl (by decide) rfl (by decide) rfl).2.2.2.1
        [123, 125] ⟨"写入 ZIP 内容失败 (manifest/meta.json): disk full"⟩ rfl rfl (by decide) rfl
        (by decide)]
      decide⟩

/-! ### Names of the exported files -/

/-- A padded number is not the empty string when the width is positive. -/
theorem zeroPad_ne_empty (width n : Nat) (hw : 1 ≤ width) : zeroPad width n ≠ "" := by
  intro h
  have hl := congrArg String.length h
  unfold zeroPad at hl
  rw [String.length_mk, List.length_append, List.length_replicate] at hl
  have : ("" : String).length = 0 := rfl
  omega

/-- A formatted date is not the empty string. -/
theorem formatDate_ne_empty (t : GoTime) : formatDate t ≠ "" := by
  unfold formatDate
  exact append_ne_empty_right _ _ (zeroPad_ne_empty 2 t.day (by decide))

/-- The label `safeTimeRangeLabel` builds from the start and end times. -/
theorem safeTimeRangeLabel_cases (start stop : Option GoTime) :
    safeTimeRangeLabel start stop
      = match start, stop with
        | none, none => ""
        | some s, none => formatDate s
        | none, some e => formatDate e
        | some s, some e => formatDate s ++ "-" ++ formatDate e := by
  cases start <;> cases stop <;> rfl

/-- C18.  For every payload and extension `ext`, `buildExportFileName` returns
`base + "_" + label + "." + ext`, where `base` is the sanitized channel name if that is
non-empty, otherwise the sanitized channel id if that is non-empty, otherwise the literal
`channel`; and `label` is the date-range label of the start and end times of the payload
if at least one of them is present (the start date, the end date, or both joined by `-`),
otherwise the generation time formatted as `yyyymmdd_hhmmss`. -/
theorem buildExportFileName_spec (payload : ExportPayload) (ext : String) :
    buildExportFileName payload ext
      = (if sanitizeFileName payload.ChannelName ≠ "" then sanitizeFileName payload.ChannelName
          else if sanitizeFileName payload.ChannelID ≠ "" then
            sanitizeFileName payload.ChannelID
          else "channel")
        ++ "_"
        ++ (match payload.StartTime, payload.EndTime with
            | none, none => formatSecondStamp payload.GeneratedAt
            | some s, none => formatDate s
            | none, some e => formatDate e
            | some s, some e => formatDate s ++ "-" ++ formatDate e)
        ++ "." ++ ext ∧
    ((payload.StartTime ≠ none ∨ payload.EndTime ≠ none) →
      buildExportFileName payload ext
        = (if sanitizeFileName payload.ChannelName ≠ "" then
              sanitizeFileName payload.ChannelName
            else if sanitizeFileName payload.ChannelID ≠ "" then
              sanitizeFileName payload.ChannelID
            else "channel")
          ++ "_" ++ safeTimeRangeLabel payload.StartTime payload.EndTime ++ "." ++ ext) ∧
    formatSecondStamp payload.GeneratedAt
      = formatYear payload.GeneratedAt.year ++ zeroPad 2 payload.GeneratedAt.month
        ++ zeroPad 2 payload.GeneratedAt.day ++ "_" ++ zeroPad 2 payload.GeneratedAt.hour
        ++ zeroPad 2 payload.GeneratedAt.minute ++ zeroPad 2 payload.GeneratedAt.second := by
  have hbase : (if (if sanitizeFileName payload.ChannelName = "" then
          sanitizeFileName payload.ChannelID else sanitizeFileName payload.ChannelName) = ""
        then "channel"
        else (if sanitizeFileName payload.ChannelName = "" then
          sanitizeFileName payload.ChannelID else sanitizeFileName payload.ChannelName))
      = (if sanitizeFileName payload.ChannelName ≠ "" then sanitizeFileName payload.ChannelName
          else if sanitizeFileName payload.ChannelID ≠ "" then
            sanitizeFileName payload.ChannelID
          else "channel") := by
    by_cases h1 : sanitizeFileName payload.ChannelName = ""
    · by_cases h2 : sanitizeFileName payload.ChannelID = ""
      · simp [h1, h2]
      · simp [h1, h2]
    · simp [h1]
  have hlabel : (if safeTimeRangeLabel payload.StartTime payload.EndTime = "" then
        formatSecondStamp payload.GeneratedAt
        else safeTimeRangeLabel payload.StartTime payload.EndTime)
      = (match payload.StartTime, payload.EndTime with
            | none, none => formatSecondStamp payload.GeneratedAt
            | some s, none => formatDate s
            | none, some e => formatDate e
            | some s, some e => formatDate s ++ "-" ++ formatDate e) := by
    rw [safeTimeRangeLabel_cases]
    cases payload.StartTime with
    | none =>
      cases payload.EndTime with
      | none => simp
      | some e => simp [formatDate_ne_empty e]
    | some s =>
      cases payload.EndTime with
      | none => simp [formatDate_ne_empty s]
      | some e =>
        have : formatDate s ++ "-" ++ formatDate e ≠ "" :=
          append_ne_empty_right _ _ (formatDate_ne_empty e)
        simp [this]
  have hmain : buildExportFileName payload ext
      = (if sanitizeFileName payload.ChannelName ≠ "" then sanitizeFileName payload.ChannelName
          else if sanitizeFileName payload.ChannelID ≠ "" then
            sanitizeFileName payload.ChannelID
          else "channel")
        ++ "_"
        ++ (match payload.StartTime, payload.EndTime with
            | none, none => formatSecondStamp payload.GeneratedAt
            | some s, none => formatDate s
            | none, some e => formatDate e
            | some s, some e => formatDate s ++ "-" ++ formatDate e)
        ++ "." ++ ext := by
    simp only [buildExportFileName]
    rw [hbase, hlabel]
  refine ⟨hmain, ?_, rfl⟩
  intro hpresent
  rw [hmain, safeTimeRangeLabel_cases]
  cases hs : payload.StartTime with
  | none =>
    cases he : payload.EndTime with
    | none => rw [hs, he] at hpresent; simp at hpresent
    | some e => rfl
  | some s =>
    cases he : payload.EndTime with
    | none => rfl
    | some e => rfl

/-- What `markJobDone` leaves in the rows of the job when the store accepts the update. -/
theorem markJobDone_rows (db : JobStore) (job : MessageExportJobModel)
    (filePath fileName : String) (formatOverride : List String) (now : GoTime) :
    ∀ j ∈ (markJobDone db job filePath fileName formatOverride now none).1, j.ID = job.ID →
      j.Status = ExportStatus.done ∧ j.FilePath = filePath ∧ j.FileName = fileName ∧
      j.ErrorMsg = "" := by
  intro j hj hid
  simp only [markJobDone, List.mem_map] at hj
  obtain ⟨k, -, hk⟩ := hj
  by_cases hkid : k.ID = job.ID
  · rw [if_pos hkid] at hk
    subst hk
    exact ⟨rfl, rfl, rfl, rfl⟩
  · rw [if_neg hkid] at hk
    subst hk
    exact absurd hid hkid

/-- C19, as stated, fails: the one file a successful single-document export writes is
named after the id of the job (`job-5.txt`), not by `buildExportFileName`; the name
`buildExportFileName` computes is recorded as the `file_name` of the job. -/
theorem single_document_file_name_counterexample :
    (processExportJob sampleDocEnv ⟨[sampleTxtJob], ⟨[], []⟩⟩ sampleTxtJob "dir" []).map
        (fun out => (out.2, out.1.fs.files.map (fun f => f.1),
          out.1.db.map (fun j => (j.Status, j.FilePath, j.FileName))))
      = some (none, [sampleDocEnv.filepathJoin "dir" "job-5.txt"],
          [(ExportStatus.done, "dir/job-5.txt", "Team_Chat_2024_00010101_000000.txt")]) ∧
    buildExportFileName
        (sampleDocEnv.buildExportPayload sampleTxtJob
          (sampleDocEnv.resolveChannelName sampleTxtJob.ChannelID) sampleMessages none)
        sampleFormatter.Ext
      = "Team_Chat_2024_00010101_000000.txt" ∧
    ("job-5.txt" : String) ≠ "Team_Chat_2024_00010101_000000.txt" := by
  refine ⟨by decide, by decide, by decide⟩

/-- C19, amended.  For every successful single-document export (format not `html`,
messages loaded, formatter found and built, directory created, file written, store update
accepted), `processExportJob` writes exactly one file into the storage directory, named
`<job id>.<ext>` and holding the bytes the formatter built; the name computed by
`buildExportFileName` for that payload and formatter extension is recorded as the
`file_name` of the job, whose `file_path` is the path of the file on disk. -/
theorem processExportJob_single_document_file (env : ExportEnv) (w : World)
    (job : MessageExportJobModel) (storageDir : String) (sched : List RenderEvent)
    (messages : List MessageModel) (formatter : Formatter) (data : List UInt8)
    (hfmt : equalFoldHtml job.Format = false)
    (hload : env.loadMessagesForExport job = Except.ok messages)
    (hreg : env.getFormatter job.Format = some formatter)
    (hbuild : formatter.Build (env.buildExportPayload job
      (env.resolveChannelName job.ChannelID) messages none) = Except.ok data)
    (hmk : env.mkdirAllErr storageDir = none)
    (hwf : env.writeFileErr (env.filepathJoin storageDir (job.ID ++ "." ++ formatter.Ext)) data
      = none)
    (hdone : env.markDoneErr = none) :
    ∃ w' : World,
      processExportJob env w job storageDir sched = some (w', none) ∧
      w'.fs.files
        = (env.filepathJoin storageDir (job.ID ++ "." ++ formatter.Ext), FileContent.raw data)
          :: w.fs.files ∧
      w'.fs.dirs = storageDir :: w.fs.dirs ∧
      ∀ j ∈ w'.db, j.ID = job.ID →
        j.Status = ExportStatus.done ∧
        j.FilePath = env.filepathJoin storageDir (job.ID ++ "." ++ formatter.Ext) ∧
        j.FileName = buildExportFileName
          (env.buildExportPayload job (env.resolveChannelName job.ChannelID) messages none)
          formatter.Ext := by
  refine ⟨{ db := (markJobDone w.db job
                (env.filepathJoin storageDir (job.ID ++ "." ++ formatter.Ext))
                (buildExportFileName
                  (env.buildExportPayload job (env.resolveChannelName job.ChannelID)
                    messages none) formatter.Ext)
                [] env.finishedAt none).1,
            fs := { dirs := storageDir :: w.fs.dirs,
                    files := (env.filepathJoin storageDir (job.ID ++ "." ++ formatter.Ext),
                        FileContent.raw data) :: w.fs.files } }, ?_, rfl, rfl, ?_⟩
  · rw [processExportJob_single env w job storageDir sched messages hfmt hload, hreg]
    simp only [hbuild, hmk, hwf, hdone]
    rfl
  · intro j hj hid
    obtain ⟨h1, h2, h3, -⟩ := markJobDone_rows w.db job _ _ [] env.finishedAt j hj hid
    exact ⟨h1, h2, h3⟩

/-- Witness of the amended C19: the sample single-document job. -/
theorem processExportJob_single_document_file_witness :
    equalFoldHtml sampleTxtJob.Format = false ∧
    sampleDocEnv.loadMessagesForExport sampleTxtJob = Except.ok sampleMessages ∧
    sampleDocEnv.getFormatter sampleTxtJob.Format = some sampleFormatter ∧
    ∃ w' : World,
      processExportJob sampleDocEnv ⟨[sampleTxtJob], ⟨[], []⟩⟩ sampleTxtJob "dir" []
        = some (w', none) ∧
      w'.fs.files
        = (sampleDocEnv.filepathJoin "dir" (sampleTxtJob.ID ++ "." ++ sampleFormatter.Ext),
            FileContent.raw [104, 105]) :: [] ∧
      w'.fs.dirs = "dir" :: [] ∧
      ∀ j ∈ w'.db, j.ID = sampleTxtJob.ID →
        j.Status = ExportStatus.done ∧
        j.FilePath
          = sampleDocEnv.filepathJoin "dir" (sampleTxtJob.ID ++ "." ++ sampleFormatter.Ext) ∧
        j.FileName = buildExportFileName
          (sampleDocEnv.buildExportPayload sampleTxtJob
            (sampleDocEnv.resolveChannelName sampleTxtJob.ChannelID) sampleMessages none)
          sampleFormatter.Ext :=
  ⟨by decide, rfl, rfl,
    processExportJob_single_document_file sampleDocEnv ⟨[sampleTxtJob], ⟨[], []⟩⟩ sampleTxtJob
      "dir" [] sampleMessages sampleFormatter [104, 105] (by decide) rfl rfl rfl rfl rfl rfl⟩

/-- C20.  For every channel name and generation time `t`, `buildViewerArchiveName` returns
`"sealchat-" + s + "-" + stamp + ".zip"`, where `s` is `sanitizeFileName(name)`, or
`channel` when that is empty, and `stamp` is `t` formatted as `yyyymmdd-hhmm`; the result
depends only on the sanitized channel name and on the year, month, day, hour and minute
of `t`, so two generation times within the same minute give the same archive name. -/
theorem buildViewerArchiveName_spec (channelName : String) (t : GoTime) :
    buildViewerArchiveName channelName t
      = "sealchat-"
        ++ (if sanitizeFileName channelName = "" then "channel"
            else sanitizeFileName channelName)
        ++ "-"
        ++ (formatYear t.year ++ zeroPad 2 t.month ++ zeroPad 2 t.day ++ "-"
            ++ zeroPad 2 t.hour ++ zeroPad 2 t.minute)
        ++ ".zip" ∧
    (∀ (name' : String) (t' : GoTime),
      sanitizeFileName name' = sanitizeFileName channelName →
      t'.year = t.year → t'.month = t.month → t'.day = t.day → t'.hour = t.hour →
      t'.minute = t.minute →
      buildViewerArchiveName name' t' = buildViewerArchiveName channelName t) ∧
    buildViewerArchiveName "Team/Chat*2024" ⟨1715938201, 2024, 5, 17, 9, 30, 1⟩
      = "sealchat-Team_Chat_2024-20240517-0930.zip" ∧
    buildViewerArchiveName "Team/Chat*2024" ⟨1715938259, 2024, 5, 17, 9, 30, 59⟩
      = "sealchat-Team_Chat_2024-20240517-0930.zip" := by
  refine ⟨rfl, ?_, by decide, by decide⟩
  intro name' t' hname hy hmo hd hh hmi
  simp only [buildViewerArchiveName, formatMinuteStamp, formatDate, hname, hy, hmo, hd, hh, hmi]

/-- Witness of C11: the first of the two sample parts, the second task finishing first. -/
theorem part_sha256_of_content_witness :
    (∀ bytes, (sampleHashEnv.sha256Sum bytes).length = 32) ∧
    ∃ (p : partRenderResult) (err : Option GoError) (res : List partRenderResult),
      renderTask sampleHashEnv sampleJob "c" sampleChunks ⟨""⟩ ⟨2, 2, []⟩ zeroTime none 0
        = Except.ok p ∧
      renderViewerParts sampleHashEnv sampleJob "c" sampleChunks ⟨""⟩ ⟨2, 2, []⟩ zeroTime
        (List.replicate 2 zeroPartRenderResult) none
        [RenderEvent.acquire 1, RenderEvent.acquire 0, RenderEvent.complete 1,
          RenderEvent.complete 0] = some (err, res) ∧
      res[0]? = some p ∧
      p.meta.SHA256 = hexEncodeToString (sampleHashEnv.sha256Sum p.content) ∧
      p.meta.SHA256.length = 64 :=
  ⟨fun _ => rfl, _, _, _, rfl, rfl,
    (part_sha256_of_content sampleHashEnv sampleJob "c" sampleChunks ⟨""⟩ ⟨2, 2, []⟩ zeroTime
      (List.replicate 2 zeroPartRenderResult) none
      [RenderEvent.acquire 1, RenderEvent.acquire 0, RenderEvent.complete 1,
        RenderEvent.complete 0] _ _ 0 _ (fun _ => rfl) (by decide) rfl rfl).1,
    (part_sha256_of_content sampleHashEnv sampleJob "c" sampleChunks ⟨""⟩ ⟨2, 2, []⟩ zeroTime
      (List.replicate 2 zeroPartRenderResult) none
      [RenderEvent.acquire 1, RenderEvent.acquire 0, RenderEvent.complete 1,
        RenderEvent.complete 0] _ _ 0 _ (fun _ => rfl) (by decide) rfl rfl).2.1,
    (part_sha256_of_content sampleHashEnv sampleJob "c" sampleChunks ⟨""⟩ ⟨2, 2, []⟩ zeroTime
      (List.replicate 2 zeroPartRenderResult) none
      [RenderEvent.acquire 1, RenderEvent.acquire 0, RenderEvent.complete 1,
        RenderEvent.complete 0] _ _ 0 _ (fun _ => rfl) (by decide) rfl rfl).2.2.1⟩

/-- Witness of C12: the two sample parts written in the sample surroundings (the file is
the complete archive of the four entries in their order), in surroundings in which the
write of the manifest entry fails (the error of that write is returned, only the two part
entries were handed to the archive writer and the file is left unfinished), and in
surroundings in which the deferred `zw.Close()` fails (nil is returned, the four entries
were handed to the archive writer in their order and the file is left unfinished). -/
theorem writeViewerArchive_entry_order_witness :
    sampleEnv.createErr "dir/a.zip" = none ∧
    sampleZipFailEnv.createErr "dir/a.zip" = none ∧
    sampleCloseFailEnv.createErr "dir/a.zip" = none ∧
    writeViewerArchive sampleEnv ⟨["dir"], []⟩ "dir/a.zip" sampleJob "c" ⟨2, 2, []⟩ zeroTime
        sampleResults ⟨""⟩
      = (⟨["dir"], [("dir/a.zip", FileContent.zip [("parts/part-001.html", [60, 49, 62]),
            ("parts/part-002.html", [60, 50, 62]), ("manifest/meta.json", [123, 125]),
            ("index.html", [60, 62])])]⟩,
          some (buildManifest sampleEnv sampleJob "c" ⟨2, 2, []⟩ zeroTime sampleResults 0),
          none) ∧
    writeViewerArchive sampleZipFailEnv ⟨["dir"], []⟩ "dir/a.zip" sampleJob "c" ⟨2, 2, []⟩
        zeroTime sampleResults ⟨""⟩
      = (⟨["dir"], [("dir/a.zip", FileContent.unfinished [("parts/part-001.html", [60, 49, 62]),
            ("parts/part-002.html", [60, 50, 62])])]⟩,
          some (buildManifest sampleZipFailEnv sampleJob "c" ⟨2, 2, []⟩ zeroTime
            sampleResults 0),
          some ⟨"写入 ZIP 内容失败 (manifest/meta.json): disk full"⟩) ∧
    writeViewerArchive sampleCloseFailEnv ⟨["dir"], []⟩ "dir/a.zip" sampleJob "c" ⟨2, 2, []⟩
        zeroTime sampleResults ⟨""⟩
      = (⟨["dir"], [("dir/a.zip", FileContent.unfinished [("parts/part-001.html", [60, 49, 62]),
            ("parts/part-002.html", [60, 50, 62]), ("manifest/meta.json", [123, 125]),
            ("index.html", [60, 62])])]⟩,
          some (buildManifest sampleCloseFailEnv sampleJob "c" ⟨2, 2, []⟩ zeroTime
            sampleResults 0),
          none) :=
  ⟨rfl, rfl, rfl,
    ((writeViewerArchive_entry_order sampleEnv ⟨["dir"], []⟩ "dir/a.zip" sampleJob "c"
      ⟨2, 2, []⟩ zeroTime sampleResults ⟨""⟩ rfl).2.1 [123, 125] [60, 62] (by decide) rfl rfl
      rfl rfl).trans rfl,
    ((writeViewerArchive_entry_order sampleZipFailEnv ⟨["dir"], []⟩ "dir/a.zip" sampleJob "c"
      ⟨2, 2, []⟩ zeroTime sampleResults ⟨""⟩ rfl).2.2.2.1 [123, 125]
      ⟨"写入 ZIP 内容失败 (manifest/meta.json): disk full"⟩ (by decide) rfl (by decide)).trans
      rfl,
    ((writeViewerArchive_entry_order sampleCloseFailEnv ⟨["dir"], []⟩ "dir/a.zip" sampleJob
      "c" ⟨2, 2, []⟩ zeroTime sampleResults ⟨""⟩ rfl).2.1 [123, 125] [60, 62] (by decide) rfl
      rfl rfl rfl).trans rfl⟩

/-! ### The capacity of the admission gate -/

/-- C21.  For every integer `value`, and whatever `NormalizeExportConcurrency` returns for
it, `normalizeConcurrency(value)` is at least 1: it is 1 when the normalised value is zero
or negative and the normalised value itself otherwise.  Hence the channel `sem` that
`renderViewerParts` creates with capacity `normalizeConcurrency(extra.MaxConcurrency)` has
capacity at least 1, for every job, every list of chunks and every schedule of the tasks. -/
theorem normalizeConcurrency_at_least_one (env : ExportEnv) (value : Int) :
    1 ≤ normalizeConcurrency env value ∧
    normalizeConcurrency env value
      = (if env.NormalizeExportConcurrency value ≤ 0 then 1
         else env.NormalizeExportConcurrency value) ∧
    ∀ (job : MessageExportJobModel) (channelName : String) (chunks : List (List MessageModel))
      (assets : viewerAssets) (extra : exportExtraOptions) (generatedAt : GoTime)
      (results : List partRenderResult) (embedder : Option (ExportPayload → ExportPayload))
      (sched : List RenderEvent),
      ∃ cap : Nat, 1 ≤ cap ∧ (cap : Int) = normalizeConcurrency env extra.MaxConcurrency ∧
        renderViewerParts env job channelName chunks assets extra generatedAt results embedder
            sched
          = (match runRender cap
                (renderTask env job channelName chunks assets extra generatedAt embedder)
                sched (renderInit chunks results) with
             | none => none
             | some s =>
               if s.phases.all (fun ph => decide (ph = TaskPhase.finished)) then
                 some (s.errCh, s.results)
               else none) := by
  refine ⟨normalizeConcurrency_pos env value, rfl, ?_⟩
  intro job channelName chunks assets extra generatedAt results embedder sched
  have hpos := normalizeConcurrency_pos env extra.MaxConcurrency
  exact ⟨(normalizeConcurrency env extra.MaxConcurrency).toNat, by omega, by omega, rfl⟩

/-! ### Image compression -/

/-- The clamped quality lies between 1 and 100. -/
theorem clampImageQuality_range (val : Int) :
    1 ≤ clampImageQuality val ∧ clampImageQuality val ≤ 100 := by
  simp only [clampImageQuality]
  split_ifs <;> omega

/-- What `tryCompressImage` returns after an encoder has run. -/
theorem tryCompressImage_encoded (data : List UInt8)
    (r : Except GoError (List UInt8)) (out : Option (List UInt8)) (ok : Bool)
    (err : Option GoError)
    (h : (match r with
          | Except.error e => ((none, false, some e) :
              Option (List UInt8) × Bool × Option GoError)
          | Except.ok result =>
            if result.length ≥ data.length then (none, false, none)
            else (some result, true, none)) = (out, ok, err)) :
    (ok = true → err = none ∧ ∃ result, out = some result ∧ result.length < data.length) ∧
    (ok = false → out = none) := by
  cases r with
  | error e =>
    simp only [Prod.mk.injEq] at h
    obtain ⟨h1, h2, -⟩ := h
    subst h1; subst h2
    exact ⟨fun hk => Bool.noConfusion hk, fun _ => rfl⟩
  | ok result =>
    by_cases hlen : result.length ≥ data.length
    · simp only [if_pos hlen, Prod.mk.injEq] at h
      obtain ⟨h1, h2, -⟩ := h
      subst h1; subst h2
      exact ⟨fun hk => Bool.noConfusion hk, fun _ => rfl⟩
    · simp only [if_neg hlen, Prod.mk.injEq] at h
      obtain ⟨h1, h2, h3⟩ := h
      subst h1; subst h2; subst h3
      exact ⟨fun _ => ⟨rfl, result, rfl, by omega⟩, fun hk => Bool.noConfusion hk⟩

/-- C27.  For every input byte sequence, mime type and quality, and whatever the decoder
and the encoders produce: when `tryCompressImage` returns `ok = true` its error is nil
and the returned bytes are strictly shorter than the input; when it returns `ok = false`
the returned bytes are nil.  The encoders see the quality only through
`clampImageQuality(quality)`: two image libraries that decode alike and whose encoders
agree at the JPEG quality `clampImageQuality(quality)` and at the PNG compression level
chosen from it give the same result.  `clampImageQuality` always lies in 1..100: 85 for
values below 1, 100 for values above 100, the value itself otherwise. -/
theorem tryCompressImage_spec {Image : Type} (codec : ImageCodec Image) (data : List UInt8)
    (mimeType : String) (quality : Int) :
    (∀ (out : Option (List UInt8)) (ok : Bool) (err : Option GoError),
      tryCompressImage codec data mimeType quality = (out, ok, err) →
      (ok = true → err = none ∧ ∃ result, out = some result ∧ result.length < data.length) ∧
      (ok = false → out = none)) ∧
    (∀ codec2 : ImageCodec Image, codec2.decode = codec.decode →
      (∀ img, codec2.jpegEncode img (clampImageQuality quality)
        = codec.jpegEncode img (clampImageQuality quality)) →
      (∀ img, codec2.pngEncode (pngLevelOfQuality (clampImageQuality quality)) img
        = codec.pngEncode (pngLevelOfQuality (clampImageQuality quality)) img) →
      tryCompressImage codec2 data mimeType quality
        = tryCompressImage codec data mimeType quality) ∧
    (1 ≤ clampImageQuality quality ∧ clampImageQuality quality ≤ 100) ∧
    (quality < 1 → clampImageQuality quality = 85) ∧
    (100 < quality → clampImageQuality quality = 100) ∧
    (1 ≤ quality → quality ≤ 100 → clampImageQuality quality = quality) := by
  refine ⟨?_, ?_, clampImageQuality_range quality, ?_, ?_, ?_⟩
  · intro out ok err h
    unfold tryCompressImage at h
    cases hd : codec.decode data with
    | error e =>
      rw [hd] at h
      simp only [Prod.mk.injEq] at h
      obtain ⟨h1, h2, -⟩ := h
      subst h1; subst h2
      exact ⟨fun hk => Bool.noConfusion hk, fun _ => rfl⟩
    | ok p =>
      obtain ⟨img, format⟩ := p
      rw [hd] at h
      simp only at h
      by_cases hj : format = "jpeg" ∨ format = "jpg"
      · rw [if_pos hj] at h
        exact tryCompressImage_encoded data _ out ok err h
      · rw [if_neg hj] at h
        by_cases hp : format = "png"
        · rw [if_pos hp] at h
          exact tryCompressImage_encoded data _ out ok err h
        · rw [if_neg hp] at h
          simp only [Prod.mk.injEq] at h
          obtain ⟨h1, h2, -⟩ := h
          subst h1; subst h2
          exact ⟨fun hk => Bool.noConfusion hk, fun _ => rfl⟩
  · intro codec2 hdec hjpeg hpng
    unfold tryCompressImage
    rw [hdec]
    cases codec.decode data with
    | error e => rfl
    | ok p =>
      obtain ⟨img, format⟩ := p
      simp only [hjpeg, hpng]
  · intro h
    simp only [clampImageQuality, if_pos h]
  · intro h
    have h1 : ¬ quality < 1 := by omega
    have h2 : quality > 100 := h
    simp only [clampImageQuality, if_neg h1, if_pos h2]
  · intro h1 h2
    have h3 : ¬ quality < 1 := by omega
    have h4 : ¬ quality > 100 := by omega
    simp only [clampImageQuality, if_neg h3, if_neg h4]

/-- Witness of C27: at the sample codec an input of four bytes and quality 0 (clamped to
85, for which the encoder writes one byte) is compressed; an input of one byte and quality
500 (clamped to 100, two bytes written) is not. -/
theorem tryCompressImage_spec_witness :
    tryCompressImage sampleCodec [1, 2, 3, 4] "image/jpeg" 0 = (some [7], true, none) ∧
    tryCompressImage sampleCodec [1] "image/jpeg" 500 = (none, false, none) ∧
    clampImageQuality 0 = 85 ∧ clampImageQuality 500 = 100 ∧ clampImageQuality 42 = 42 ∧
    ((true = true → (none : Option GoError) = none ∧
        ∃ result, some [(7 : UInt8)] = some result ∧
          result.length < [1, 2, 3, (4 : UInt8)].length) ∧
      (true = false → some [(7 : UInt8)] = none)) :=
  ⟨by decide, by decide, by decide, by decide, by decide,
    (tryCompressImage_spec sampleCodec [1, 2, 3, 4] "image/jpeg" 0).1 _ _ _ (by decide)⟩

/-! ### UTF-8 -/

/-- Every encoding has at least one byte. -/
theorem encodeRune_ne_nil (r : Nat) : encodeRune r ≠ [] := by
  unfold encodeRune
  split_ifs <;> simp

/-- The width of a decoded rune is at least one on a string that is not empty. -/
theorem decodeRune_width_pos (s : List Nat) (h : s ≠ []) : 1 ≤ (decodeRune s).2 := by
  rcases s with _ | ⟨s0, _ | ⟨s1, _ | ⟨s2, _ | ⟨s3, tail⟩⟩⟩⟩
  · exact absurd rfl h
  all_goals
    simp only [decodeRune]
    split_ifs <;> simp

/-- The width of a decoded rune does not exceed the length of the string. -/
theorem decodeRune_width_le (s : List Nat) : (decodeRune s).2 ≤ s.length := by
  rcases s with _ | ⟨s0, _ | ⟨s1, _ | ⟨s2, _ | ⟨s3, tail⟩⟩⟩⟩
  all_goals
    simp only [decodeRune]
    try split_ifs
    all_goals simp

/-- A decoded rune is a Unicode scalar value. -/
theorem decodeRune_valid (s : List Nat) : validRune (decodeRune s).1 := by
  unfold validRune
  rcases s with _ | ⟨s0, _ | ⟨s1, _ | ⟨s2, _ | ⟨s3, tail⟩⟩⟩⟩
  all_goals
    simp only [decodeRune, RuneError]
    try split_ifs
    all_goals
      try simp only
      omega

/-- Decoding the encoding of a Unicode scalar value gives the value back, whatever
follows. -/
theorem decodeRune_encodeRune (r : Nat) (rest : List Nat) (h : validRune r) :
    decodeRune (encodeRune r ++ rest) = (r, (encodeRune r).length) := by
  unfold validRune at h
  unfold encodeRune
  by_cases h1 : r ≤ 0x7F
  · rw [if_pos h1]
    have : r < 0x80 := by omega
    simp [decodeRune, this]
  · rw [if_neg h1]
    by_cases h2 : r ≤ 0x7FF
    · rw [if_pos h2]
      simp only [decodeRune, List.cons_append, List.nil_append, List.length_cons,
        List.length_nil]
      have a1 : ¬ (0xC0 + r / 64 < 0x80) := by omega
      have a2 : ¬ (0xC0 + r / 64 < 0xC2) := by omega
      have a3 : 0xC0 + r / 64 < 0xE0 := by omega
      have a4 : ¬ (0x80 + r % 64 < 0x80 ∨ 0xBF < 0x80 + r % 64) := by omega
      rw [if_neg a1, if_neg a2, if_pos a3, if_neg a4]
      refine Prod.ext ?_ rfl
      simp only
      omega
    · rw [if_neg h2]
      have h3 : ¬ (0x10FFFF < r ∨ (0xD800 ≤ r ∧ r ≤ 0xDFFF)) := by omega
      rw [if_neg h3]
      by_cases h4 : r ≤ 0xFFFF
      · rw [if_pos h4]
        simp only [decodeRune, List.cons_append, List.nil_append, List.length_cons,
          List.length_nil]
        have a1 : ¬ (0xE0 + r / 4096 < 0x80) := by omega
        have a2 : ¬ (0xE0 + r / 4096 < 0xC2) := by omega
        have a3 : ¬ (0xE0 + r / 4096 < 0xE0) := by omega
        have a4 : 0xE0 + r / 4096 < 0xF0 := by omega
        have a5 : ¬ (0x80 + r / 64 % 64 < (if 0xE0 + r / 4096 = 0xE0 then 0xA0 else 0x80) ∨
            (if 0xE0 + r / 4096 = 0xED then 0x9F else 0xBF) < 0x80 + r / 64 % 64) := by
          split_ifs <;> omega
        have a6 : ¬ (0x80 + r % 64 < 0x80 ∨ 0xBF < 0x80 + r % 64) := by omega
        rw [if_neg a1, if_neg a2, if_neg a3, if_pos a4, if_neg a5, if_neg a6]
        refine Prod.ext ?_ rfl
        simp only
        omega
      · rw [if_neg h4]
        simp only [decodeRune, List.cons_append, List.nil_append, List.length_cons,
          List.length_nil]
        have a1 : ¬ (0xF0 + r / 262144 < 0x80) := by omega
        have a2 : ¬ (0xF0 + r / 262144 < 0xC2) := by omega
        have a3 : ¬ (0xF0 + r / 262144 < 0xE0) := by omega
        have a4 : ¬ (0xF0 + r / 262144 < 0xF0) := by omega
        have a5 : 0xF0 + r / 262144 < 0xF5 := by omega
        have a6 : ¬ (0x80 + r / 4096 % 64 < (if 0xF0 + r / 262144 = 0xF0 then 0x90 else 0x80) ∨
            (if 0xF0 + r / 262144 = 0xF4 then 0x8F else 0xBF) < 0x80 + r / 4096 % 64) := by
          split_ifs <;> omega
        have a7 : ¬ (0x80 + r / 64 % 64 < 0x80 ∨ 0xBF < 0x80 + r / 64 % 64) := by omega
        have a8 : ¬ (0x80 + r % 64 < 0x80 ∨ 0xBF < 0x80 + r % 64) := by omega
        rw [if_neg a1, if_neg a2, if_neg a3, if_neg a4, if_pos a5, if_neg a6, if_neg a7,
          if_neg a8]
        refine Prod.ext ?_ rfl
        simp only
        omega

/-- More fuel than the length of the string changes nothing in a `range` loop. -/
theorem rangeRunes_of_le (fuel : Nat) (s : List Nat) (h : s.length ≤ fuel) :
    rangeRunes fuel s = rangeRunes s.length s := by
  induction fuel using Nat.strong_induction_on generalizing s with
  | _ fuel ih =>
    cases s with
    | nil => cases fuel <;> simp [rangeRunes]
    | cons b rest =>
      cases fuel with
      | zero => simp at h
      | succ n =>
        have hw := decodeRune_width_pos (b :: rest) (by simp)
        have hlen : ((b :: rest).drop (decodeRune (b :: rest)).2).length ≤ rest.length := by
          simp only [List.length_drop, List.length_cons]
          omega
        simp only [rangeRunes, List.length_cons]
        rw [if_neg (by simp), if_neg (by simp)]
        have hn : rest.length ≤ n := by simpa using h
        rw [ih n (Nat.lt_succ_self n) _ (le_trans hlen hn)]
        by_cases hr : rest.length = n
        · rw [hr]
          rw [ih n (Nat.lt_succ_self n) _ (le_trans hlen hn)]
        · rw [ih rest.length (by omega) _ hlen]

/-- One iteration of a `range` loop over a string that is not empty. -/
theorem goRunes_step (s : List Nat) (h : s ≠ []) :
    goRunes s = (decodeRune s).1 :: goRunes (s.drop (decodeRune s).2) := by
  cases s with
  | nil => exact absurd rfl h
  | cons b rest =>
    have hw := decodeRune_width_pos (b :: rest) (by simp)
    have hlen : ((b :: rest).drop (decodeRune (b :: rest)).2).length ≤ rest.length := by
      simp only [List.length_drop, List.length_cons]
      omega
    simp only [goRunes, List.length_cons, rangeRunes]
    rw [if_neg (by simp)]
    rw [rangeRunes_of_le rest.length _ hlen]

/-- The `range` loop over the empty string sees nothing. -/
theorem goRunes_nil : goRunes [] = [] := rfl

/-- A `range` loop sees the rune whose encoding the string starts with. -/
theorem goRunes_encodeRune_append (r : Nat) (rest : List Nat) (h : validRune r) :
    goRunes (encodeRune r ++ rest) = r :: goRunes rest := by
  have hne : encodeRune r ++ rest ≠ [] := by
    intro hc
    exact encodeRune_ne_nil r (List.append_eq_nil.mp hc).1
  rw [goRunes_step _ hne, decodeRune_encodeRune r rest h]
  simp

/-- A `range` loop over the encodings of Unicode scalar values sees these values. -/
theorem goRunes_encodeRunes (rs : List Nat) (h : ∀ r ∈ rs, validRune r) :
    goRunes (encodeRunes rs) = rs := by
  induction rs with
  | nil => rfl
  | cons r rest ih =>
    have h1 : encodeRunes (r :: rest) = encodeRune r ++ encodeRunes rest := by
      simp [encodeRunes]
    rw [h1, goRunes_encodeRune_append r _ (h r (List.mem_cons_self _ _)),
      ih (fun x hx => h x (List.mem_cons_of_mem _ hx))]

/-- Every rune that a bounded `range` loop sees is a Unicode scalar value. -/
theorem rangeRunes_valid (fuel : Nat) (s : List Nat) : ∀ r ∈ rangeRunes fuel s, validRune r := by
  induction fuel generalizing s with
  | zero => intro r hr; simp [rangeRunes] at hr
  | succ n ih =>
    intro r hr
    simp only [rangeRunes] at hr
    by_cases hs : s = []
    · rw [if_pos hs] at hr; cases hr
    · rw [if_neg hs] at hr
      rcases List.mem_cons.mp hr with h | h
      · rw [h]; exact decodeRune_valid s
      · exact ih _ r h

/-- Every rune that a `range` loop sees is a Unicode scalar value. -/
theorem goRunes_valid (s : List Nat) : ∀ r ∈ goRunes s, validRune r :=
  rangeRunes_valid s.length s

/-- The encoding of a sequence of runes, rune by rune. -/
theorem encodeRunes_cons (r : Nat) (rs : List Nat) :
    encodeRunes (r :: rs) = encodeRune r ++ encodeRunes rs := by
  simp [encodeRunes]

/-- The encoding of two sequences of runes, one after the other. -/
theorem encodeRunes_append (xs ys : List Nat) :
    encodeRunes (xs ++ ys) = encodeRunes xs ++ encodeRunes ys := by
  simp [encodeRunes]

/-- Only the empty sequence of runes has an empty encoding. -/
theorem encodeRunes_eq_nil (rs : List Nat) : encodeRunes rs = [] ↔ rs = [] := by
  cases rs with
  | nil => simp [encodeRunes]
  | cons r rest =>
    rw [encodeRunes_cons]
    constructor
    · intro h
      exact absurd (List.append_eq_nil.mp h).1 (encodeRune_ne_nil r)
    · intro h; cases h

/-! ### The loop of `NormalizeRemark` -/

/-- The loop of `NormalizeRemark` appends to `builder` the encodings of the runes it
writes. -/
theorem normalizeRemarkLoop_eq (U : UnicodeTables) (rs builder : List Nat)
    (lastUnderscore : Bool) :
    normalizeRemarkLoop U rs builder lastUnderscore
      = builder ++ encodeRunes (writtenRunes U rs lastUnderscore) := by
  induction rs generalizing builder lastUnderscore with
  | nil => simp [normalizeRemarkLoop, writtenRunes, encodeRunes]
  | cons r rest ih =>
    simp only [normalizeRemarkLoop, writtenRunes]
    by_cases hl : (U.isLetter r || U.isDigit r) = true
    · rw [if_pos hl, if_pos hl, ih, encodeRunes_cons, List.append_assoc]
    · rw [if_neg hl, if_neg hl]
      by_cases hu : (!lastUnderscore) = true
      · simp only [hu, if_true, ite_self]
        rw [ih, encodeRunes_cons, List.append_assoc]
      · simp only [hu, if_false, ite_self, Bool.false_eq_true]
        rw [ih]

/-- Every rune that the loop writes is a Unicode scalar value and is a letter, a digit or
`_`, when the runes it reads are Unicode scalar values. -/
theorem writtenRunes_mem (U : UnicodeTables) (rs : List Nat) (lastUnderscore : Bool)
    (h : ∀ r ∈ rs, validRune r) :
    ∀ w ∈ writtenRunes U rs lastUnderscore,
      validRune w ∧ ((U.isLetter w || U.isDigit w) = true ∨ w = 0x5F) := by
  induction rs generalizing lastUnderscore with
  | nil => intro w hw; simp [writtenRunes] at hw
  | cons r rest ih =>
    intro w hw
    have hrest : ∀ x ∈ rest, validRune x := fun x hx => h x (List.mem_cons_of_mem _ hx)
    simp only [writtenRunes] at hw
    by_cases hl : (U.isLetter r || U.isDigit r) = true
    · rw [if_pos hl] at hw
      rcases List.mem_cons.mp hw with h1 | h1
      · rw [h1]; exact ⟨h r (List.mem_cons_self _ _), Or.inl hl⟩
      · exact ih false hrest w h1
    · rw [if_neg hl] at hw
      by_cases hu : (!lastUnderscore) = true
      · rw [if_pos hu] at hw
        rcases List.mem_cons.mp hw with h1 | h1
        · rw [h1]; exact ⟨Or.inl (by decide), Or.inr rfl⟩
        · exact ih true hrest w h1
      · rw [if_neg hu] at hw
        exact ih lastUnderscore hrest w hw

/-- The loop never writes two `_` in a row, and starts with no `_` when the flag
`lastUnderscore` is set. -/
theorem writtenRunes_chain (U : UnicodeTables) (rs : List Nat) (lastUnderscore : Bool)
    (hU : (U.isLetter 0x5F || U.isDigit 0x5F) = false) :
    (writtenRunes U rs lastUnderscore).Chain' (fun a b => ¬ (a = 0x5F ∧ b = 0x5F)) ∧
    (lastUnderscore = true → (writtenRunes U rs lastUnderscore).head? ≠ some 0x5F) := by
  induction rs generalizing lastUnderscore with
  | nil => simp [writtenRunes]
  | cons r rest ih =>
    simp only [writtenRunes]
    by_cases hl : (U.isLetter r || U.isDigit r) = true
    · rw [if_pos hl]
      have hr : r ≠ 0x5F := by
        intro hc
        rw [hc, hU] at hl
        cases hl
      refine ⟨?_, ?_⟩
      · rw [List.chain'_cons']
        exact ⟨fun y _ hc => hr hc.1, (ih false).1⟩
      · intro _ hc
        simp only [List.head?_cons, Option.some.injEq] at hc
        exact hr hc
    · rw [if_neg hl]
      by_cases hu : (!lastUnderscore) = true
      · rw [if_pos hu]
        refine ⟨?_, ?_⟩
        · rw [List.chain'_cons']
          refine ⟨fun y hy hc => ?_, (ih true).1⟩
          apply (ih true).2 rfl
          rw [hy, hc.2]
        · intro hc
          rw [hc] at hu
          cases hu
      · rw [if_neg hu]
        exact ih lastUnderscore

/-- The first byte of an encoding is `_` only for the rune `_`. -/
theorem encodeRune_head (r : Nat) (h : r ≠ 0x5F) :
    ∃ b t, encodeRune r = b :: t ∧ b ≠ 0x5F := by
  unfold encodeRune
  split_ifs
  · exact ⟨_, _, rfl, h⟩
  · exact ⟨_, _, rfl, by omega⟩
  · exact ⟨_, _, rfl, by omega⟩
  · exact ⟨_, _, rfl, by omega⟩
  · exact ⟨_, _, rfl, by omega⟩

/-- The last byte of an encoding is `_` only for the rune `_`. -/
theorem encodeRune_last (r : Nat) (h : r ≠ 0x5F) :
    ∃ b t, (encodeRune r).reverse = b :: t ∧ b ≠ 0x5F := by
  unfold encodeRune
  split_ifs
  · exact ⟨_, _, rfl, h⟩
  · exact ⟨_, _, rfl, by omega⟩
  · exact ⟨_, _, rfl, by omega⟩
  · exact ⟨_, _, rfl, by omega⟩
  · exact ⟨_, _, rfl, by omega⟩

/-- The encoding of `_` is the byte `_`. -/
theorem encodeRune_underscore : encodeRune 0x5F = [0x5F] := by decide

/-- Dropping the leading bytes `_` of an encoding drops the leading runes `_`. -/
theorem dropWhile_encodeRunes (rs : List Nat) :
    (encodeRunes rs).dropWhile (fun b => decide (b = 0x5F))
      = encodeRunes (rs.dropWhile (fun r => decide (r = 0x5F))) := by
  induction rs with
  | nil => rfl
  | cons r rest ih =>
    by_cases hr : r = 0x5F
    · subst hr
      rw [encodeRunes_cons, encodeRune_underscore]
      simp only [List.singleton_append, List.dropWhile_cons, decide_True, if_true]
      exact ih
    · obtain ⟨b, t, hbt, hb⟩ := encodeRune_head r hr
      rw [encodeRunes_cons, hbt]
      simp only [List.cons_append, List.dropWhile_cons, hb, hr, decide_False,
        Bool.false_eq_true, if_false]
      rw [encodeRunes_cons, hbt]
      rfl

/-- Dropping the trailing bytes `_` of an encoding drops the trailing runes `_`. -/
theorem dropWhile_reverse_encodeRunes (rs : List Nat) :
    ((encodeRunes rs).reverse.dropWhile (fun b => decide (b = 0x5F))).reverse
      = encodeRunes ((rs.reverse.dropWhile (fun r => decide (r = 0x5F))).reverse) := by
  induction rs using List.reverseRecOn with
  | nil => rfl
  | append_singleton rest r ih =>
    have henc : encodeRunes (rest ++ [r]) = encodeRunes rest ++ encodeRune r := by
      rw [encodeRunes_append, encodeRunes_cons]
      simp [encodeRunes]
    by_cases hr : r = 0x5F
    · subst hr
      rw [henc, encodeRune_underscore]
      simp only [List.reverse_append, List.reverse_cons, List.reverse_nil, List.nil_append,
        List.singleton_append, List.dropWhile_cons, decide_True, if_true]
      exact ih
    · obtain ⟨b, t, hbt, hb⟩ := encodeRune_last r hr
      rw [henc]
      simp only [List.reverse_append, hbt, List.reverse_cons, List.reverse_nil,
        List.nil_append, List.singleton_append, List.cons_append, List.dropWhile_cons, hb, hr,
        decide_False, Bool.false_eq_true, if_false]
      have h2 : encodeRune r = t.reverse ++ [b] := by
        have := congrArg List.reverse hbt
        simpa using this
      rw [List.reverse_reverse, List.reverse_reverse, henc, h2, List.append_assoc]

/-- Trimming the bytes `_` of an encoding trims the runes `_`. -/
theorem trimByte_encodeRunes (rs : List Nat) :
    trimByte (encodeRunes rs) 0x5F = encodeRunes (trimRune rs) := by
  unfold trimByte trimRune
  rw [dropWhile_reverse_encodeRunes, dropWhile_encodeRunes]

/-- The trimmed runes are a stretch of the runes. -/
theorem trimRune_stretch (rs : List Nat) : trimRune rs <:+: rs := by
  unfold trimRune
  have h1 : (rs.reverse.dropWhile (fun r => decide (r = 0x5F))).reverse <+: rs := by
    have := List.dropWhile_suffix (fun r => decide (r = 0x5F)) (l := rs.reverse)
    rw [← List.reverse_prefix] at this
    simpa using this
  exact (List.dropWhile_suffix _).isInfix.trans h1.isInfix

/-- The trimmed runes do not start with `_`. -/
theorem trimRune_head (rs : List Nat) : (trimRune rs).head? ≠ some 0x5F := by
  unfold trimRune
  intro hc
  have := List.head?_dropWhile_not (fun r => decide (r = 0x5F))
    ((rs.reverse.dropWhile (fun r => decide (r = 0x5F))).reverse)
  rw [hc] at this
  simp at this

/-- The trimmed runes do not end with `_`. -/
theorem trimRune_getLast (rs : List Nat) : (trimRune rs).getLast? ≠ some 0x5F := by
  unfold trimRune
  intro hc
  have hsuf := List.dropWhile_suffix (fun r => decide (r = 0x5F))
    (l := (rs.reverse.dropWhile (fun r => decide (r = 0x5F))).reverse)
  obtain ⟨pre, hpre⟩ := hsuf
  have hne : ((rs.reverse.dropWhile (fun r => decide (r = 0x5F))).reverse).dropWhile
      (fun r => decide (r = 0x5F)) ≠ [] := by
    intro h0
    rw [h0] at hc
    cases hc
  have hlast : ((rs.reverse.dropWhile (fun r => decide (r = 0x5F))).reverse).getLast?
      = some 0x5F := by
    rw [← hpre, List.getLast?_append_of_ne_nil _ hne]
    exact hc
  rw [List.getLast?_reverse] at hlast
  have := List.head?_dropWhile_not (fun r => decide (r = 0x5F)) rs.reverse
  rw [hlast] at this
  simp at this

/-- The three letters `img` are a remark that `NormalizeRemark` leaves as it is. -/
theorem goodRemark_img (U : UnicodeTables) (hU : unicodeFacts U) :
    goodRemark U [0x69, 0x6D, 0x67] := by
  obtain ⟨-, -, hi, hm, hg⟩ := hU
  refine ⟨by simp, ?_, by simp, by simp, by simp [List.chain'_cons]⟩
  intro r hr
  simp only [List.mem_cons, List.mem_singleton, List.not_mem_nil, or_false] at hr
  rcases hr with h | h | h
  · subst h; exact ⟨Or.inl (by decide), Or.inl (by simp [hi])⟩
  · subst h; exact ⟨Or.inl (by decide), Or.inl (by simp [hm])⟩
  · subst h; exact ⟨Or.inl (by decide), Or.inl (by simp [hg])⟩

/-- The normalised remark before the length check is the encoding of a sequence of
letters, digits and `_` with no `_` at its ends and no two `_` in a row. -/
theorem normalizeRemarkText_good (U : UnicodeTables) (hU : unicodeFacts U)
    (input filename : List Nat) :
    ∃ R, goodRemark U R ∧ normalizeRemarkText U input filename = encodeRunes R := by
  have key : ∀ remark : List Nat,
      ∃ R, goodRemark U R ∧
        (if trimByte (normalizeRemarkLoop U (goRunes remark) [] false) 0x5F = []
          then ascii "img"
          else trimByte (normalizeRemarkLoop U (goRunes remark) [] false) 0x5F)
          = encodeRunes R := by
    intro remark
    rw [normalizeRemarkLoop_eq, List.nil_append, trimByte_encodeRunes]
    by_cases he : trimRune (writtenRunes U (goRunes remark) false) = []
    · refine ⟨[0x69, 0x6D, 0x67], goodRemark_img U hU, ?_⟩
      rw [he]
      decide
    · refine ⟨trimRune (writtenRunes U (goRunes remark) false), ⟨he, ?_, trimRune_head _,
        trimRune_getLast _, ?_⟩, ?_⟩
      · intro r hr
        exact writtenRunes_mem U _ false (goRunes_valid remark) r
          ((trimRune_stretch _).subset hr)
      · exact List.Chain'.infix (writtenRunes_chain U _ false hU.1).1 (trimRune_stretch _)
      · rw [if_neg]
        rw [encodeRunes_eq_nil]
        exact he
  exact key _

/-! ### Remarks that `NormalizeRemark` leaves as they are -/

/-- Decoding backwards gives the Unicode scalar value whose encoding the string ends
with. -/
theorem decodeLastRune_encodeRune (pre : List Nat) (r : Nat) (h : validRune r) :
    decodeLastRune (pre ++ encodeRune r) = (r, (encodeRune r).length) := by
  have hdec := decodeRune_encodeRune r [] h
  rw [List.append_nil] at hdec
  have hdrop : ∀ e : List Nat, (pre ++ e).drop ((pre ++ e).length - e.length) = e := by
    intro e
    simp [List.length_append]
  unfold validRune at h
  unfold encodeRune at hdec hdrop ⊢
  by_cases h1 : r ≤ 0x7F
  · rw [if_pos h1]
    have : r < 0x80 := by omega
    simp [decodeLastRune, this]
  · rw [if_neg h1] at hdec ⊢
    by_cases h2 : r ≤ 0x7FF
    · rw [if_pos h2] at hdec ⊢
      have hd := hdrop [0xC0 + r / 64, 0x80 + r % 64]
      simp only [List.length_cons, List.length_nil] at hd hdec
      have a1 : ¬ (0x80 + r % 64 < 0x80) := by omega
      have a2 : runeStart (0xC0 + r / 64) = true := by
        simp only [runeStart, decide_eq_true_eq]; omega
      simp only [decodeLastRune, List.reverse_append, List.reverse_cons, List.reverse_nil,
        List.nil_append, List.singleton_append, List.cons_append, if_neg a1, a2, if_true]
      rw [hd, hdec]
      simp
    · rw [if_neg h2] at hdec ⊢
      have h3 : ¬ (0x10FFFF < r ∨ (0xD800 ≤ r ∧ r ≤ 0xDFFF)) := by omega
      rw [if_neg h3] at hdec ⊢
      by_cases h4 : r ≤ 0xFFFF
      · rw [if_pos h4] at hdec ⊢
        have hd := hdrop [0xE0 + r / 4096, 0x80 + r / 64 % 64, 0x80 + r % 64]
        simp only [List.length_cons, List.length_nil] at hd hdec
        have a1 : ¬ (0x80 + r % 64 < 0x80) := by omega
        have a2 : runeStart (0x80 + r / 64 % 64) = false := by
          simp only [runeStart, decide_eq_false_iff_not, not_not]; omega
        have a3 : runeStart (0xE0 + r / 4096) = true := by
          simp only [runeStart, decide_eq_true_eq]; omega
        simp only [decodeLastRune, List.reverse_append, List.reverse_cons, List.reverse_nil,
          List.nil_append, List.singleton_append, List.cons_append, if_neg a1, a2, a3, if_true,
          Bool.false_eq_true, if_false]
        rw [hd, hdec]
        simp
      · rw [if_neg h4] at hdec ⊢
        have hd := hdrop [0xF0 + r / 262144, 0x80 + r / 4096 % 64, 0x80 + r / 64 % 64,
          0x80 + r % 64]
        simp only [List.length_cons, List.length_nil] at hd hdec
        have a1 : ¬ (0x80 + r % 64 < 0x80) := by omega
        have a2 : runeStart (0x80 + r / 64 % 64) = false := by
          simp only [runeStart, decide_eq_false_iff_not, not_not]; omega
        have a3 : runeStart (0x80 + r / 4096 % 64) = false := by
          simp only [runeStart, decide_eq_false_iff_not, not_not]; omega
        have a4 : runeStart (0xF0 + r / 262144) = true := by
          simp only [runeStart, decide_eq_true_eq]; omega
        simp only [decodeLastRune, List.reverse_append, List.reverse_cons, List.reverse_nil,
          List.nil_append, List.singleton_append, List.cons_append, if_neg a1, a2, a3, a4,
          if_true, Bool.false_eq_true, if_false]
        rw [hd, hdec]
        simp

/-- `strings.TrimSpace` leaves a string as it is when neither its first nor its last rune
is white space. -/
theorem bytesTrimSpace_eq_self (s : List Nat) (hs : s ≠ [])
    (hfirst : unicodeIsSpace (decodeRune s).1 = false)
    (hlast : unicodeIsSpace (decodeLastRune s).1 = false) :
    bytesTrimSpace s = s := by
  have hlen : s.length = (s.length - 1) + 1 := by
    have : 0 < s.length := List.length_pos.mpr hs
    omega
  unfold bytesTrimSpace
  rw [hlen]
  simp only [trimLeftSpace, trimRightSpace, if_neg hs, hfirst, hlast, Bool.false_eq_true,
    if_false]

/-- The loop of `NormalizeRemark` writes a sequence of letters, digits and single `_`
as it is. -/
theorem writtenRunes_eq_self (U : UnicodeTables) (rs : List Nat) (lastUnderscore : Bool)
    (hmem : ∀ r ∈ rs, (U.isLetter r || U.isDigit r) = true ∨ r = 0x5F)
    (hchain : rs.Chain' (fun a b => ¬ (a = 0x5F ∧ b = 0x5F)))
    (hhead : lastUnderscore = true → rs.head? ≠ some 0x5F) :
    writtenRunes U rs lastUnderscore = rs := by
  induction rs generalizing lastUnderscore with
  | nil => rfl
  | cons r rest ih =>
    have hrest : ∀ x ∈ rest, (U.isLetter x || U.isDigit x) = true ∨ x = 0x5F :=
      fun x hx => hmem x (List.mem_cons_of_mem _ hx)
    rw [List.chain'_cons'] at hchain
    simp only [writtenRunes]
    by_cases hl : (U.isLetter r || U.isDigit r) = true
    · rw [if_pos hl, ih false hrest hchain.2 (fun hc => by cases hc)]
    · rw [if_neg hl]
      have hr : r = 0x5F := by
        rcases hmem r (List.mem_cons_self _ _) with h | h
        · exact absurd h hl
        · exact h
      have hlu : lastUnderscore = false := by
        cases lastUnderscore with
        | false => rfl
        | true =>
          exfalso
          apply hhead rfl
          rw [hr]
          rfl
      subst hlu
      simp only [Bool.not_false, if_true]
      rw [ih true hrest hchain.2 (fun _ hc => ?_), hr]
      cases rest with
      | nil => cases hc
      | cons y ys =>
        simp only [List.head?_cons, Option.some.injEq] at hc
        exact hchain.1 y rfl ⟨hr, hc⟩

/-- A sequence of runes with no `_` at its ends is its own trimmed sequence. -/
theorem trimRune_eq_self (rs : List Nat) (hhead : rs.head? ≠ some 0x5F)
    (hlast : rs.getLast? ≠ some 0x5F) : trimRune rs = rs := by
  unfold trimRune
  have h1 : rs.reverse.dropWhile (fun r => decide (r = 0x5F)) = rs.reverse := by
    cases hrev : rs.reverse with
    | nil => rfl
    | cons x xs =>
      have hx : rs.getLast? = some x := by
        rw [← List.head?_reverse, hrev]
        rfl
      have : x ≠ 0x5F := by
        intro hc
        rw [hx, hc] at hlast
        exact hlast rfl
      simp [List.dropWhile_cons, this]
  rw [h1, List.reverse_reverse]
  cases rs with
  | nil => rfl
  | cons x xs =>
    have : x ≠ 0x5F := by
      intro hc
      apply hhead
      rw [hc]
      rfl
    simp [List.dropWhile_cons, this]

/-- A letter, a digit or `_` is no white space. -/
theorem not_space_of_remark_rune (U : UnicodeTables) (hU : unicodeFacts U) (r : Nat)
    (h : (U.isLetter r || U.isDigit r) = true ∨ r = 0x5F) : unicodeIsSpace r = false := by
  rcases h with h | h
  · cases hs : unicodeIsSpace r with
    | false => rfl
    | true =>
      rw [hU.2.1 r hs] at h
      cases h
  · rw [h]
    decide

/-- `NormalizeRemark` leaves the encoding of a good remark of at most 64 bytes as it
is. -/
theorem NormalizeRemark_fixed (U : UnicodeTables) (hU : unicodeFacts U) (R : List Nat)
    (hR : goodRemark U R) (hlen : (encodeRunes R).length ≤ 64) (filename : List Nat) :
    NormalizeRemark U (encodeRunes R) filename = encodeRunes R := by
  obtain ⟨hne, hmem, hhead, hlast, hchain⟩ := hR
  have hvalid : ∀ r ∈ R, validRune r := fun r hr => (hmem r hr).1
  have hne2 : encodeRunes R ≠ [] := fun hc => hne ((encodeRunes_eq_nil R).mp hc)
  have htrim : bytesTrimSpace (encodeRunes R) = encodeRunes R := by
    apply bytesTrimSpace_eq_self _ hne2
    · cases R with
      | nil => exact absurd rfl hne
      | cons r rest =>
        rw [encodeRunes_cons, decodeRune_encodeRune r _ (hvalid r (List.mem_cons_self _ _))]
        exact not_space_of_remark_rune U hU r (hmem r (List.mem_cons_self _ _)).2
    · obtain ⟨init, l, hl⟩ : ∃ init l, R = init ++ [l] := by
        refine ⟨R.dropLast, R.getLast hne, ?_⟩
        exact (List.dropLast_append_getLast hne).symm
      have hlmem : l ∈ R := by rw [hl]; simp
      rw [hl, encodeRunes_append]
      have : encodeRunes [l] = encodeRune l := by simp [encodeRunes]
      rw [this, decodeLastRune_encodeRune _ l (hvalid l hlmem)]
      exact not_space_of_remark_rune U hU l (hmem l hlmem).2
  have hout : normalizeRemarkText U (encodeRunes R) filename = encodeRunes R := by
    unfold normalizeRemarkText
    simp only [htrim, if_neg hne2]
    rw [normalizeRemarkLoop_eq, List.nil_append, trimByte_encodeRunes,
      goRunes_encodeRunes R hvalid,
      writtenRunes_eq_self U R false (fun r hr => (hmem r hr).2) hchain
        (fun hc => by cases hc),
      trimRune_eq_self R hhead hlast, if_neg hne2]
  unfold NormalizeRemark
  simp only [hout]
  rw [if_neg (by omega)]

/-! ### Remarks cut by the length limit -/

/-- A `range` loop over an encoding cut short sees one `RuneError` for every byte. -/
theorem goRunes_take_encodeRune (r n : Nat) (h : validRune r) (hn : n < (encodeRune r).length) :
    goRunes ((encodeRune r).take n) = List.replicate n RuneError := by
  unfold validRune at h
  unfold encodeRune at hn ⊢
  by_cases h1 : r ≤ 0x7F
  · rw [if_pos h1] at hn ⊢
    simp only [List.length_cons, List.length_nil] at hn
    have : n = 0 := by omega
    subst this
    rfl
  · rw [if_neg h1] at hn ⊢
    by_cases h2 : r ≤ 0x7FF
    · rw [if_pos h2] at hn ⊢
      simp only [List.length_cons, List.length_nil] at hn
      have a1 : ¬ (0xC0 + r / 64 < 0x80) := by omega
      have a2 : ¬ (0xC0 + r / 64 < 0xC2) := by omega
      have a3 : 0xC0 + r / 64 < 0xE0 := by omega
      interval_cases n
      · rfl
      · simp [goRunes, rangeRunes, decodeRune, a1, a2, a3]
    · rw [if_neg h2] at hn ⊢
      have h3 : ¬ (0x10FFFF < r ∨ (0xD800 ≤ r ∧ r ≤ 0xDFFF)) := by omega
      rw [if_neg h3] at hn ⊢
      by_cases h4 : r ≤ 0xFFFF
      · rw [if_pos h4] at hn ⊢
        simp only [List.length_cons, List.length_nil] at hn
        have a1 : ¬ (0xE0 + r / 4096 < 0x80) := by omega
        have a2 : ¬ (0xE0 + r / 4096 < 0xC2) := by omega
        have a3 : ¬ (0xE0 + r / 4096 < 0xE0) := by omega
        have a4 : 0xE0 + r / 4096 < 0xF0 := by omega
        have b1 : ¬ (0x80 + r / 64 % 64 < 0x80) := by omega
        have b2 : 0x80 + r / 64 % 64 < 0xC2 := by omega
        interval_cases n
        · rfl
        · simp [goRunes, rangeRunes, decodeRune, a1, a2, a3, a4]
        · simp [goRunes, rangeRunes, decodeRune, a1, a2, a3, a4, b1, b2]
      · rw [if_neg h4] at hn ⊢
        simp only [List.length_cons, List.length_nil] at hn
        have a1 : ¬ (0xF0 + r / 262144 < 0x80) := by omega
        have a2 : ¬ (0xF0 + r / 262144 < 0xC2) := by omega
        have a3 : ¬ (0xF0 + r / 262144 < 0xE0) := by omega
        have a4 : ¬ (0xF0 + r / 262144 < 0xF0) := by omega
        have a5 : 0xF0 + r / 262144 < 0xF5 := by omega
        have b1 : ¬ (0x80 + r / 4096 % 64 < 0x80) := by omega
        have b2 : 0x80 + r / 4096 % 64 < 0xC2 := by omega
        have c1 : ¬ (0x80 + r / 64 % 64 < 0x80) := by omega
        have c2 : 0x80 + r / 64 % 64 < 0xC2 := by omega
        interval_cases n
        · rfl
        · simp [goRunes, rangeRunes, decodeRune, a1, a2, a3, a4, a5]
        · simp [goRunes, rangeRunes, decodeRune, a1, a2, a3, a4, a5, b1, b2]
        · simp [goRunes, rangeRunes, decodeRune, a1, a2, a3, a4, a5, b1, b2, c1, c2]

/-- The first `n` bytes of an encoding are the encodings of the first runes followed by
the bytes of an encoding cut short, and a `range` loop sees these runes and one
`RuneError` for each of the bytes left. -/
theorem take_encodeRunes (R : List Nat) (n : Nat) (h : ∀ r ∈ R, validRune r) :
    ∃ (k : Nat) (part : List Nat),
      (encodeRunes R).take n = encodeRunes (R.take k) ++ part ∧
      goRunes ((encodeRunes R).take n) = R.take k ++ List.replicate part.length RuneError := by
  induction R generalizing n with
  | nil => exact ⟨0, [], by simp [encodeRunes], by simp [encodeRunes, goRunes_nil]⟩
  | cons r rest ih =>
    have hr := h r (List.mem_cons_self _ _)
    by_cases hn : (encodeRune r).length ≤ n
    · obtain ⟨k, part, h1, h2⟩ := ih (n - (encodeRune r).length)
        (fun x hx => h x (List.mem_cons_of_mem _ hx))
      have htake : (encodeRunes (r :: rest)).take n
          = encodeRune r ++ (encodeRunes rest).take (n - (encodeRune r).length) := by
        rw [encodeRunes_cons, List.take_append_eq_append_take, List.take_of_length_le hn]
      refine ⟨k + 1, part, ?_, ?_⟩
      · rw [htake, h1, List.take_succ_cons, encodeRunes_cons, List.append_assoc]
      · rw [htake, goRunes_encodeRune_append r _ hr, h2, List.take_succ_cons,
          List.cons_append]
    · have hlt : n < (encodeRune r).length := by omega
      have htake : (encodeRunes (r :: rest)).take n = (encodeRune r).take n := by
        rw [encodeRunes_cons, List.take_append_of_le_length (Nat.le_of_lt hlt)]
      refine ⟨0, (encodeRune r).take n, ?_, ?_⟩
      · rw [htake]
        simp [encodeRunes]
      · rw [htake, goRunes_take_encodeRune r n hr hlt]
        simp [List.length_take, Nat.min_eq_left (Nat.le_of_lt hlt)]

/-- The encoding of `j` times `RuneError` has `3 * j` bytes. -/
theorem encodeRunes_replicate_RuneError (j : Nat) :
    (encodeRunes (List.replicate j RuneError)).length = 3 * j := by
  induction j with
  | zero => rfl
  | succ n ih =>
    rw [List.replicate_succ, encodeRunes_cons, List.length_append, ih]
    have : (encodeRune RuneError).length = 3 := by decide
    omega

/-- An encoding starts with the byte `_` only when the runes start with `_`. -/
theorem head?_encodeRunes (R : List Nat) (h : (encodeRunes R).head? = some 0x5F) :
    R.head? = some 0x5F := by
  cases R with
  | nil => simp [encodeRunes] at h
  | cons r rest =>
    by_cases hr : r = 0x5F
    · rw [hr]; rfl
    · obtain ⟨b, t, hbt, hb⟩ := encodeRune_head r hr
      rw [encodeRunes_cons, hbt] at h
      simp only [List.cons_append, List.head?_cons, Option.some.injEq] at h
      exact absurd h hb

/-- An encoding ends with the byte `_` exactly when the runes end with `_`. -/
theorem getLast?_encodeRunes (R : List Nat) :
    (encodeRunes R).getLast? = some 0x5F ↔ R.getLast? = some 0x5F := by
  induction R using List.reverseRecOn with
  | nil => simp [encodeRunes]
  | append_singleton init l _ =>
    have henc : encodeRunes (init ++ [l]) = encodeRunes init ++ encodeRune l := by
      rw [encodeRunes_append, encodeRunes_cons]
      simp [encodeRunes]
    rw [henc, List.getLast?_append_of_ne_nil _ (encodeRune_ne_nil l),
      List.getLast?_append_of_ne_nil _ (List.cons_ne_nil l []), List.getLast?_singleton,
      Option.some.injEq]
    by_cases hl : l = 0x5F
    · rw [hl, encodeRune_underscore]
      simp
    · obtain ⟨b, t, hbt, hb⟩ := encodeRune_last l hl
      have : (encodeRune l).getLast? = some b := by
        rw [← List.head?_reverse, hbt]
        rfl
      rw [this]
      simp only [Option.some.injEq]
      exact ⟨fun h => absurd h hb, fun h => absurd h hl⟩

/-- In an encoding there are no two bytes `_` in a row when there are no two runes `_`
in a row. -/
theorem chain_encodeRunes (R : List Nat)
    (h : R.Chain' (fun a b => ¬ (a = 0x5F ∧ b = 0x5F))) :
    (encodeRunes R).Chain' (fun a b => ¬ (a = 0x5F ∧ b = 0x5F)) := by
  induction R with
  | nil => simp [encodeRunes]
  | cons r rest ih =>
    rw [List.chain'_cons'] at h
    rw [encodeRunes_cons, List.chain'_append]
    refine ⟨?_, ih h.2, ?_⟩
    · unfold encodeRune
      split_ifs
      · simp
      all_goals
        simp only [List.chain'_cons, List.chain'_singleton, and_true]
        omega
    · intro x hx y hy hc
      have hy2 : rest.head? = some 0x5F := by
        apply head?_encodeRunes
        rw [← hc.2]
        exact hy
      have hx2 : r = 0x5F := by
        by_contra hne
        obtain ⟨b, t, hbt, hb⟩ := encodeRune_last r hne
        have : (encodeRune r).getLast? = some b := by
          rw [← List.head?_reverse, hbt]
          rfl
        rw [this] at hx
        simp only [Option.mem_def, Option.some.injEq] at hx
        exact hb (hx.trans hc.1)
      cases rest with
      | nil => cases hy2
      | cons z zs =>
        simp only [List.head?_cons, Option.some.injEq] at hy2
        exact h.1 z rfl ⟨hx2, hy2⟩

/-! ### The remark of an uploaded image -/

/-- The sample tables have the properties that the normalisation of remarks rests on. -/
theorem sampleUnicode_facts : unicodeFacts sampleUnicode := by
  refine ⟨by decide, ?_, by decide, by decide, by decide⟩
  intro r hs
  simp only [unicodeIsSpace, Bool.or_eq_true, Bool.and_eq_true, decide_eq_true_eq] at hs
  simp only [sampleUnicode, Bool.or_eq_false_iff, Bool.and_eq_false_iff,
    decide_eq_false_iff_not]
  omega

/-- The result of `NormalizeRemark` is never empty and never longer than 64 bytes. -/
theorem NormalizeRemark_length (U : UnicodeTables) (input filename : List Nat) :
    NormalizeRemark U input filename ≠ [] ∧ (NormalizeRemark U input filename).length ≤ 64 := by
  have htext : normalizeRemarkText U input filename ≠ [] := by
    unfold normalizeRemarkText
    simp only
    split_ifs with h1 h2 h2
    · decide
    · exact h2
    · decide
    · exact h2
  unfold NormalizeRemark
  simp only
  split_ifs with h
  · refine ⟨?_, by simp⟩
    intro hc
    have := congrArg List.length hc
    simp only [List.length_take, List.length_nil] at this
    omega
  · exact ⟨htext, by omega⟩

/-- C22.  At the remark of 22 characters `中` (66 bytes) the cut `out[:64]` of
`NormalizeRemark` falls inside the 22nd character: for every file name, and for all
Unicode tables in which U+4E2D is a letter and U+FFFD is neither a letter nor a number,
the result is the 21 characters followed by the lone byte `E4`.  It is not empty and has
64 bytes, but `GalleryValidateRemark` rejects it.  (For every input the result is not
empty and at most 64 bytes long.) -/
theorem NormalizeRemark_cut_inside_character (U : UnicodeTables) (filename : List Nat)
    (hL : U.isLetter 0x4E2D = true)
    (hE : (U.isLetter RuneError || U.isNumber RuneError) = false) :
    NormalizeRemark U sampleLongRemark filename
      = (List.replicate 21 [0xE4, 0xB8, 0xAD]).flatten ++ [0xE4] ∧
    (NormalizeRemark U sampleLongRemark filename).length = 64 ∧
    goRunes (NormalizeRemark U sampleLongRemark filename)
      = List.replicate 21 0x4E2D ++ [RuneError] ∧
    GalleryValidateRemark U (NormalizeRemark U sampleLongRemark filename) = false ∧
    ∀ input : List Nat, NormalizeRemark U input filename ≠ [] ∧
      (NormalizeRemark U input filename).length ≤ 64 := by
  have htrim : bytesTrimSpace sampleLongRemark = sampleLongRemark := by decide
  have hne : sampleLongRemark ≠ [] := by decide
  have hrunes : goRunes sampleLongRemark = List.replicate 22 0x4E2D := by decide
  have hloop : ∀ (n : Nat) (builder : List Nat),
      normalizeRemarkLoop U (List.replicate n 0x4E2D) builder false
        = builder ++ (List.replicate n [0xE4, 0xB8, 0xAD]).flatten := by
    intro n
    induction n with
    | zero => intro builder; simp [normalizeRemarkLoop]
    | succ k ih =>
      intro builder
      have henc : encodeRune 0x4E2D = [0xE4, 0xB8, 0xAD] := by decide
      simp only [List.replicate_succ, normalizeRemarkLoop, hL, Bool.true_or, if_true, ih,
        henc, List.flatten_cons, List.append_assoc]
  have hres : NormalizeRemark U sampleLongRemark filename
      = (List.replicate 21 [0xE4, 0xB8, 0xAD]).flatten ++ [0xE4] := by
    unfold NormalizeRemark normalizeRemarkText
    simp only [htrim, if_neg hne, hrunes, hloop, List.nil_append]
    decide
  have hgo : goRunes ((List.replicate 21 [0xE4, 0xB8, 0xAD]).flatten ++ [0xE4])
      = List.replicate 21 0x4E2D ++ [RuneError] := by decide
  refine ⟨hres, ?_, ?_, ?_, fun input => NormalizeRemark_length U input filename⟩
  · rw [hres]; decide
  · rw [hres, hgo]
  · rw [hres]
    unfold GalleryValidateRemark
    rw [if_neg (by decide), hgo]
    have : ((List.replicate 21 0x4E2D ++ [RuneError]).all
        (fun r => U.isLetter r || U.isNumber r || decide (r = 0x5F))) = false := by
      rw [List.all_eq_false]
      refine ⟨RuneError, by simp, ?_⟩
      rw [hE]
      decide
    rw [this]
    simp

/-- Witness of C22: the sample tables and the file name `photo.png`. -/
theorem NormalizeRemark_cut_inside_character_witness :
    NormalizeRemark sampleUnicode sampleLongRemark (ascii "photo.png")
      = (List.replicate 21 [0xE4, 0xB8, 0xAD]).flatten ++ [0xE4] ∧
    GalleryValidateRemark sampleUnicode
      (NormalizeRemark sampleUnicode sampleLongRemark (ascii "photo.png")) = false :=
  ⟨(NormalizeRemark_cut_inside_character sampleUnicode (ascii "photo.png")
      (by decide) (by decide)).1,
    (NormalizeRemark_cut_inside_character sampleUnicode (ascii "photo.png")
      (by decide) (by decide)).2.2.2.1⟩

/-- C26, as stated, fails: for the remark of 63 letters `a` followed by `_b` (65 bytes)
the cut at 64 bytes leaves the 63 letters and the `_`, and a second call removes that
`_`: the result ends with `_` and `NormalizeRemark` is not idempotent there. -/
theorem NormalizeRemark_twice_differs_counterexample :
    NormalizeRemark sampleUnicode sampleUnderscoreRemark (ascii "a.png")
      = List.replicate 63 0x61 ++ [0x5F] ∧
    NormalizeRemark sampleUnicode
        (NormalizeRemark sampleUnicode sampleUnderscoreRemark (ascii "a.png")) (ascii "b.png")
      = List.replicate 63 0x61 ∧
    NormalizeRemark sampleUnicode
        (NormalizeRemark sampleUnicode sampleUnderscoreRemark (ascii "a.png")) (ascii "b.png")
      ≠ NormalizeRemark sampleUnicode sampleUnderscoreRemark (ascii "a.png") ∧
    (NormalizeRemark sampleUnicode sampleUnderscoreRemark (ascii "a.png")).getLast?
      = some 0x5F := by
  set_option maxRecDepth 100000 in decide

/-- C26, amended.  For all Unicode tables in which `_` is neither a letter nor a digit, no
white space is a letter or a digit and `i`, `m`, `g` are letters, for every input and
all file names: when the result of `NormalizeRemark(input, filename)` is well-formed
UTF-8 (encoding the runes of the result gives the result) and does not end with `_`,
`NormalizeRemark` maps it to itself whatever the second file name is; this is the case
whenever the normalised remark has at most 64 bytes before the length check, so that
nothing is cut off.  In every case the result does not begin with `_` and does not
contain two `_` in a row. -/
theorem NormalizeRemark_idempotent (U : UnicodeTables) (hU : unicodeFacts U)
    (input filename other : List Nat) :
    (encodeRunes (goRunes (NormalizeRemark U input filename))
        = NormalizeRemark U input filename →
      (NormalizeRemark U input filename).getLast? ≠ some 0x5F →
      NormalizeRemark U (NormalizeRemark U input filename) other
        = NormalizeRemark U input filename) ∧
    ((normalizeRemarkText U input filename).length ≤ 64 →
      encodeRunes (goRunes (NormalizeRemark U input filename))
        = NormalizeRemark U input filename ∧
      (NormalizeRemark U input filename).getLast? ≠ some 0x5F) ∧
    (NormalizeRemark U input filename).head? ≠ some 0x5F ∧
    (NormalizeRemark U input filename).Chain' (fun a b => ¬ (a = 0x5F ∧ b = 0x5F)) := by
  obtain ⟨R, hR, htext⟩ := normalizeRemarkText_good U hU input filename
  obtain ⟨hne, hmem, hhead, hlast, hchain⟩ := hR
  have hvalid : ∀ r ∈ R, validRune r := fun r hr => (hmem r hr).1
  have hres : NormalizeRemark U input filename = (encodeRunes R).take 64 := by
    unfold NormalizeRemark
    simp only [htext]
    split_ifs with h
    · rfl
    · rw [List.take_of_length_le (by omega)]
  have hne2 : encodeRunes R ≠ [] := fun hc => hne ((encodeRunes_eq_nil R).mp hc)
  have hresne : (encodeRunes R).take 64 ≠ [] := by
    intro hc
    have := congrArg List.length hc
    have hpos : 0 < (encodeRunes R).length := List.length_pos.mpr hne2
    simp only [List.length_take, List.length_nil] at this
    omega
  rw [hres]
  refine ⟨?_, ?_, ?_, ?_⟩
  · intro hwf hend
    obtain ⟨k, part, h1, h2⟩ := take_encodeRunes R 64 hvalid
    have hpart : part = [] := by
      have hl := congrArg List.length hwf
      rw [h2, encodeRunes_append, h1, List.length_append, List.length_append,
        encodeRunes_replicate_RuneError] at hl
      have : part.length = 0 := by omega
      exact List.length_eq_zero.mp this
    rw [hpart, List.append_nil] at h1
    rw [h1] at hend hresne ⊢
    have hgood : goodRemark U (R.take k) := by
      refine ⟨fun hc => hresne (by rw [hc]; rfl), ?_, ?_, ?_, ?_⟩
      · intro r hr
        exact hmem r (List.mem_of_mem_take hr)
      · intro hc
        apply hhead
        cases R with
        | nil => simp at hc
        | cons x xs =>
          cases k with
          | zero => simp at hc
          | succ k => simpa using hc
      · intro hc
        exact hend ((getLast?_encodeRunes _).mpr hc)
      · exact List.Chain'.infix hchain ( List.take_prefix k R).isInfix
    apply NormalizeRemark_fixed U hU (R.take k) hgood _ other
    rw [← h1]
    simp
  · intro hlen
    rw [htext] at hlen
    rw [List.take_of_length_le (by omega)]
    refine ⟨by rw [goRunes_encodeRunes R hvalid], ?_⟩
    intro hc
    exact hlast ((getLast?_encodeRunes R).mp hc)
  · intro hc
    apply hhead
    apply head?_encodeRunes
    cases henc : encodeRunes R with
    | nil => exact absurd henc hne2
    | cons b t =>
      rw [henc] at hc
      simpa using hc
  · exact List.Chain'.infix (chain_encodeRunes R hchain) ( List.take_prefix 64 _).isInfix

/-- Witness of C26: a remark with blanks around and inside, at the sample tables. -/
theorem NormalizeRemark_idempotent_witness :
    unicodeFacts sampleUnicode ∧
    NormalizeRemark sampleUnicode (ascii "  my  photo_ ") (ascii "x.png") = ascii "my_photo" ∧
    NormalizeRemark sampleUnicode
        (NormalizeRemark sampleUnicode (ascii "  my  photo_ ") (ascii "x.png")) (ascii "y.png")
      = NormalizeRemark sampleUnicode (ascii "  my  photo_ ") (ascii "x.png") :=
  ⟨sampleUnicode_facts, by decide,
    (NormalizeRemark_idempotent sampleUnicode sampleUnicode_facts (ascii "  my  photo_ ")
      (ascii "x.png") (ascii "y.png")).1 (by decide) (by decide)⟩

/-! ### Serving an uploaded file -/

/-- The tokens that `attachmentFileTokenPattern` matches: at least 32 hexadecimal digits,
then `_`, then at least one decimal digit, and nothing else. -/
theorem attachmentFileTokenMatch_iff (token : List Nat) :
    attachmentFileTokenMatch token = true ↔
      ∃ hex digits, token = hex ++ 0x5F :: digits ∧ 32 ≤ hex.length ∧
        (∀ b ∈ hex, isHexDigitByte b = true) ∧ digits ≠ [] ∧
        (∀ b ∈ digits, isDecDigitByte b = true) := by
  constructor
  · intro h
    unfold attachmentFileTokenMatch at h
    rw [Bool.and_eq_true, decide_eq_true_eq] at h
    obtain ⟨hlen, hrest⟩ := h
    cases hd : token.dropWhile isHexDigitByte with
    | nil => rw [hd] at hrest; cases hrest
    | cons c digits =>
      rw [hd] at hrest
      simp only [Bool.and_eq_true, decide_eq_true_eq, Bool.not_eq_true', List.isEmpty_eq_false,
        List.all_eq_true] at hrest
      obtain ⟨⟨hc, hne⟩, hall⟩ := hrest
      refine ⟨token.takeWhile isHexDigitByte, digits, ?_, hlen, ?_, ?_, hall⟩
      · rw [← hc, ← hd, List.takeWhile_append_dropWhile]
      · intro b hb
        exact List.mem_takeWhile_imp hb
      · intro h0
        rw [h0] at hne
        simp at hne
  · rintro ⟨hex, digits, rfl, hlen, hhex, hne, hdig⟩
    have h1 : (hex ++ 0x5F :: digits).takeWhile isHexDigitByte = hex := by
      rw [List.takeWhile_append_of_pos hhex]
      simp [List.takeWhile_cons, isHexDigitByte]
    have h2 : (hex ++ 0x5F :: digits).dropWhile isHexDigitByte = 0x5F :: digits := by
      rw [List.dropWhile_append_of_pos hhex]
      simp [List.dropWhile_cons, isHexDigitByte]
    unfold attachmentFileTokenMatch
    rw [h1, h2]
    simp only [Bool.and_eq_true, decide_eq_true_eq, Bool.not_eq_true', List.all_eq_true,
      List.isEmpty_eq_false]
    refine ⟨hlen, ⟨trivial, ?_⟩, hdig⟩
    cases digits with
    | nil => exact absurd rfl hne
    | cons d ds => simp

/-- A token that the pattern matches consists of hexadecimal digits, `_` and decimal
digits: none of its bytes is `/`, `\` or `.`. -/
theorem attachmentFileTokenMatch_bytes (token : List Nat)
    (h : attachmentFileTokenMatch token = true) :
    ∀ b ∈ token, b ≠ 0x2F ∧ b ≠ 0x5C ∧ b ≠ 0x2E := by
  obtain ⟨hex, digits, rfl, -, hhex, -, hdig⟩ := (attachmentFileTokenMatch_iff token).mp h
  intro b hb
  rcases List.mem_append.mp hb with h1 | h1
  · have := hhex b h1
    simp only [isHexDigitByte, Bool.or_eq_true, Bool.and_eq_true, decide_eq_true_eq] at this
    omega
  · rcases List.mem_cons.mp h1 with h2 | h2
    · omega
    · have := hdig b h2
      simp only [isDecDigitByte, Bool.and_eq_true, decide_eq_true_eq] at this
      omega

/-- Joining `./data/upload` and a name without `/` that does not start with `.` gives the
path `data/upload/` followed by the name. -/
theorem filepathJoin_upload (name : List Nat) (hne : name ≠ [])
    (hsep : ∀ b ∈ name, b ≠ 0x2F) (hdot : name.head? ≠ some 0x2E) :
    filepathJoin (ascii "./data/upload") name = ascii "data/upload/" ++ name := by
  have h1 : ascii "./data/upload"
      = [46, 47, 100, 97, 116, 97, 47, 117, 112, 108, 111, 97, 100] := by decide
  have h2 : ascii "data/upload/"
      = [100, 97, 116, 97, 47, 117, 112, 108, 111, 97, 100, 47] := by decide
  cases name with
  | nil => exact absurd rfl hne
  | cons c cs =>
    have hc1 : c ≠ 0x2F := hsep c (List.mem_cons_self _ _)
    have hc2 : c ≠ 0x2E := by
      intro hc
      apply hdot
      rw [hc]
      rfl
    have htake : cs.takeWhile (fun b => decide (b ≠ 0x2F)) = cs := by
      rw [List.takeWhile_eq_self_iff]
      intro b hb
      simpa using hsep b (List.mem_cons_of_mem _ hb)
    have hdrop : cs.dropWhile (fun b => decide (b ≠ 0x2F)) = [] := by
      rw [List.dropWhile_eq_nil_iff]
      intro b hb
      simpa using hsep b (List.mem_cons_of_mem _ hb)
    have htake2 : cs.takeWhile (fun b => !decide (b = 0x2F)) = cs := by
      rw [← htake]
      congr 1
      funext b
      simp
    have hdrop2 : cs.dropWhile (fun b => !decide (b = 0x2F)) = [] := by
      rw [← hdrop]
      congr 1
      funext b
      simp
    rw [h1, h2]
    simp [filepathJoin, filepathClean, cleanLoop, hc1, hc2, htake2, hdrop2]

/-- C23.  For every token and all surroundings, with `t` the token after
`strings.TrimSpace`: when `trySendUploadFile` reports `served = true`, or touches the
file system at all, `t` matches `^[0-9a-fA-F]{32,}_[0-9]+$` (at least 32 hexadecimal
digits, `_`, at least one decimal digit), none of its bytes is `/`, `\` or `.`, and every
path given to `os.Stat` or `c.SendFile` is `data/upload/` followed by `t`, a direct child
of `./data/upload`.  For every token for which `t` does not match the pattern or
contains `/` or `\`, the result is `(false, nil)` and the file system is not touched. -/
theorem trySendUploadFile_serves_matching_tokens (env : UploadEnv) (token : List Nat) :
    (((trySendUploadFile env token).1 = true ∨ (trySendUploadFile env token).2.2 ≠ []) →
      attachmentFileTokenMatch (bytesTrimSpace token) = true ∧
      (∃ hex digits, bytesTrimSpace token = hex ++ 0x5F :: digits ∧ 32 ≤ hex.length ∧
        (∀ b ∈ hex, isHexDigitByte b = true) ∧ digits ≠ [] ∧
        (∀ b ∈ digits, isDecDigitByte b = true)) ∧
      (∀ b ∈ bytesTrimSpace token, b ≠ 0x2F ∧ b ≠ 0x5C ∧ b ≠ 0x2E) ∧
      filepathJoin (ascii "./data/upload") (bytesTrimSpace token)
        = ascii "data/upload/" ++ bytesTrimSpace token ∧
      (∀ a ∈ (trySendUploadFile env token).2.2,
        a = UploadAccess.stat (ascii "data/upload/" ++ bytesTrimSpace token) ∨
        a = UploadAccess.sendFile (ascii "data/upload/" ++ bytesTrimSpace token))) ∧
    (¬ (attachmentFileTokenMatch (bytesTrimSpace token) = true ∧
        ∀ b ∈ bytesTrimSpace token, b ≠ 0x2F ∧ b ≠ 0x5C) →
      trySendUploadFile env token = (false, none, [])) := by
  by_cases hempty : bytesTrimSpace token = []
  · have hres : trySendUploadFile env token = (false, none, []) := by
      unfold trySendUploadFile
      simp only [hempty, if_true]
    rw [hres]
    exact ⟨fun h => by rcases h with h | h <;> simp at h, fun _ => rfl⟩
  by_cases hany : (bytesTrimSpace token).any (fun b => b = 0x2F || b = 0x5C) = true
  · have hres : trySendUploadFile env token = (false, none, []) := by
      unfold trySendUploadFile
      simp only [if_neg hempty, hany, if_true]
    rw [hres]
    exact ⟨fun h => by rcases h with h | h <;> simp at h, fun _ => rfl⟩
  by_cases hmatch : attachmentFileTokenMatch (bytesTrimSpace token) = true
  · have hbytes := attachmentFileTokenMatch_bytes _ hmatch
    have hjoin : filepathJoin (ascii "./data/upload") (bytesTrimSpace token)
        = ascii "data/upload/" ++ bytesTrimSpace token := by
      apply filepathJoin_upload _ hempty (fun b hb => (hbytes b hb).1)
      intro hc
      cases hb : bytesTrimSpace token with
      | nil => exact hempty hb
      | cons c cs =>
        rw [hb] at hc
        simp only [List.head?_cons, Option.some.injEq] at hc
        exact (hbytes c (by rw [hb]; exact List.mem_cons_self _ _)).2.2 hc
    have hres : trySendUploadFile env token
        = (match env.stat (ascii "data/upload/" ++ bytesTrimSpace token) with
          | some err =>
            if env.isNotExist err then
              (false, none, [UploadAccess.stat (ascii "data/upload/" ++ bytesTrimSpace token)])
            else
              (true, env.wrapError err "读取附件失败",
                [UploadAccess.stat (ascii "data/upload/" ++ bytesTrimSpace token)])
          | none =>
            (true, env.sendFile (ascii "data/upload/" ++ bytesTrimSpace token),
              [UploadAccess.stat (ascii "data/upload/" ++ bytesTrimSpace token),
                UploadAccess.sendFile (ascii "data/upload/" ++ bytesTrimSpace token)])) := by
      unfold trySendUploadFile
      simp only [if_neg hempty, hany, hmatch, Bool.not_true, Bool.false_eq_true, if_false,
        hjoin]
    refine ⟨fun _ => ⟨hmatch, (attachmentFileTokenMatch_iff _).mp hmatch, hbytes, hjoin, ?_⟩,
      fun hn => ?_⟩
    · rw [hres]
      intro a ha
      cases hstat : env.stat (ascii "data/upload/" ++ bytesTrimSpace token) with
      | none =>
        rw [hstat] at ha
        simp only [List.mem_cons, List.mem_singleton, List.not_mem_nil, or_false] at ha
        exact ha
      | some err =>
        rw [hstat] at ha
        by_cases hex : env.isNotExist err = true
        · simp only [hex, if_true, List.mem_singleton] at ha
          exact Or.inl ha
        · simp only [hex, Bool.false_eq_true, if_false, List.mem_singleton] at ha
          exact Or.inl ha
    · exfalso
      exact hn ⟨hmatch, fun b hb => ⟨(hbytes b hb).1, (hbytes b hb).2.1⟩⟩
  · have hres : trySendUploadFile env token = (false, none, []) := by
      unfold trySendUploadFile
      have hm : attachmentFileTokenMatch (bytesTrimSpace token) = false := by
        cases h : attachmentFileTokenMatch (bytesTrimSpace token) with
        | false => rfl
        | true => exact absurd h hmatch
      simp only [if_neg hempty, hany, hm, Bool.not_false, if_true, Bool.false_eq_true,
        if_false]
    rw [hres]
    exact ⟨fun h => by rcases h with h | h <;> simp at h, fun _ => rfl⟩

/-- Witness of C23: the sample token with blanks around it is served from
`data/upload`, a token with a dot in it is not looked up. -/
theorem trySendUploadFile_serves_matching_tokens_witness :
    trySendUploadFile sampleUploadEnv (ascii " " ++ sampleToken ++ ascii "\n")
      = (true, none, [UploadAccess.stat (ascii "data/upload/" ++ sampleToken),
          UploadAccess.sendFile (ascii "data/upload/" ++ sampleToken)]) ∧
    trySendUploadFile sampleUploadEnv (ascii "../" ++ sampleToken) = (false, none, []) ∧
    attachmentFileTokenMatch (bytesTrimSpace (ascii " " ++ sampleToken ++ ascii "\n")) = true :=
  ⟨by decide, by decide,
    ((trySendUploadFile_serves_matching_tokens sampleUploadEnv
      (ascii " " ++ sampleToken ++ ascii "\n")).1 (Or.inl (by decide))).1⟩

/-! ### The memberships of owners -/

/-- A filter is not changed by an earlier filter that keeps all the rows it selects. -/
theorem filter_filter_of_imp {α : Type} (p q : α → Bool) (l : List α)
    (h : ∀ a ∈ l, q a = true → p a = true) : (l.filter p).filter q = l.filter q := by
  induction l with
  | nil => rfl
  | cons a rest ih =>
    have hrest : ∀ x ∈ rest, q x = true → p x = true :=
      fun x hx => h x (List.mem_cons_of_mem _ hx)
    by_cases hp : p a = true
    · rw [List.filter_cons_of_pos hp]
      by_cases hq : q a = true
      · rw [List.filter_cons_of_pos hq, List.filter_cons_of_pos hq, ih hrest]
      · rw [List.filter_cons_of_neg hq, List.filter_cons_of_neg hq, ih hrest]
    · rw [List.filter_cons_of_neg hp]
      have hq : ¬ q a = true := fun hq => hp (h a (List.mem_cons_self _ _) hq)
      rw [List.filter_cons_of_neg hq, ih hrest]

/-- A filter is not changed by an update that leaves the selected rows as they are and
selects no new row. -/
theorem filter_map_of_fixed {α : Type} (q : α → Bool) (f : α → α) (l : List α)
    (h : ∀ a ∈ l, q (f a) = q a ∧ (q a = true → f a = a)) :
    (l.map f).filter q = l.filter q := by
  induction l with
  | nil => rfl
  | cons a rest ih =>
    have hrest := ih (fun x hx => h x (List.mem_cons_of_mem _ hx))
    obtain ⟨h1, h2⟩ := h a (List.mem_cons_self _ _)
    rw [List.map_cons]
    by_cases hq : q a = true
    · have hq2 : q (f a) = true := by rw [h1]; exact hq
      rw [List.filter_cons_of_pos hq2, List.filter_cons_of_pos hq, hrest, h2 hq]
    · have hq2 : ¬ q (f a) = true := by rw [h1]; exact hq
      rw [List.filter_cons_of_neg hq2, List.filter_cons_of_neg hq, hrest]

/-- When the lookup is carried out and `IsWorldOwner` answers no, no row of the user in
the world has the role of owner. -/
theorem not_owner_of_IsWorldOwner_false (env : WorldEnv) (db : WorldStore)
    (worldID userID : String) (hwf : membersWellFormed db)
    (hfind : env.memberFindErr worldID userID = none)
    (h : IsWorldOwner env db worldID userID = false) :
    ∀ m ∈ db.members, m.WorldID = worldID → m.UserID = userID → m.Role ≠ env.roles.Owner := by
  intro m hm hw hu hrole
  obtain ⟨hid, huniq⟩ := hwf
  cases hf : db.members.find? (fun x => decide (x.WorldID = worldID ∧ x.UserID = userID)) with
  | none =>
    have := List.find?_eq_none.mp hf m hm
    simp only [decide_eq_true_eq, not_and] at this
    exact this hw hu
  | some m' =>
    have hm' : m' ∈ db.members := List.mem_of_find?_eq_some hf
    have hp := List.find?_some hf
    simp only [decide_eq_true_eq] at hp
    have heq : m' = m := huniq m' hm' m hm (hp.1.trans hw.symm) (hp.2.trans hu.symm)
    subst heq
    have hne := hid m' hm'
    simp only [IsWorldOwner, worldRoleEquals, hfind, findWorldMember, hf, Option.getD_some,
      ne_eq, not_true_eq_false, false_or, hne, if_false] at h
    by_cases ho : env.roles.Owner = ""
    · simp only [ho, if_true] at h
      cases h
    · simp only [ho, if_false, hrole, decide_True] at h
      cases h

/-- `WorldLeave` leaves the memberships of owners as they are. -/
theorem WorldLeave_owners (env : WorldEnv) (db : WorldStore) (worldID userID : String)
    (hwf : membersWellFormed db) (hfind : env.memberFindErr worldID userID = none) :
    ownerMemberships env (WorldLeave env db worldID userID).2 = ownerMemberships env db := by
  unfold WorldLeave
  cases ho : IsWorldOwner env db worldID userID with
  | true => simp only [if_true]
  | false =>
    simp only [Bool.false_eq_true, if_false]
    cases env.memberDeleteErr worldID userID with
    | some err => rfl
    | none =>
      simp only [ownerMemberships]
      apply filter_filter_of_imp
      intro m hm hrole
      simp only [decide_eq_true_eq] at hrole
      simp only [Bool.not_eq_true', decide_eq_false_iff_not, not_and]
      intro hw hu
      exact not_owner_of_IsWorldOwner_false env db worldID userID hwf hfind ho m hm hw hu hrole

/-- `WorldRemoveMember` leaves the memberships of owners as they are. -/
theorem WorldRemoveMember_owners (env : WorldEnv) (db : WorldStore)
    (worldID actorID targetUserID : String)
    (hwf : membersWellFormed db) (hfind : env.memberFindErr worldID targetUserID = none) :
    ownerMemberships env (WorldRemoveMember env db worldID actorID targetUserID).2
      = ownerMemberships env db := by
  unfold WorldRemoveMember
  split_ifs
  · rfl
  · rfl
  · rfl
  · exact WorldLeave_owners env db worldID targetUserID hwf hfind

/-- `WorldUpdateMemberRole` leaves the memberships of owners as they are. -/
theorem WorldUpdateMemberRole_owners (env : WorldEnv) (db : WorldStore)
    (worldID actorID targetUserID role : String)
    (hwf : membersWellFormed db) (hfind : env.memberFindErr worldID targetUserID = none)
    (hroles : env.roles.Owner ≠ env.roles.Admin ∧ env.roles.Owner ≠ env.roles.Member) :
    ownerMemberships env (WorldUpdateMemberRole env db worldID actorID targetUserID role).2
      = ownerMemberships env db := by
  unfold WorldUpdateMemberRole
  simp only
  by_cases hrole : trimSpace role ≠ env.roles.Admin ∧ trimSpace role ≠ env.roles.Member
  · rw [if_pos hrole]
  rw [if_neg hrole]
  by_cases hadmin : (!IsWorldAdmin env db worldID actorID) = true
  · rw [if_pos hadmin]
  rw [if_neg hadmin]
  cases ho : IsWorldOwner env db worldID targetUserID with
  | true => simp only [if_true]
  | false =>
    simp only [Bool.false_eq_true, if_false]
    cases env.memberUpdateErr worldID targetUserID with
    | some err => rfl
    | none =>
      have hnew : trimSpace role ≠ env.roles.Owner := by
        intro hc
        apply hrole
        rw [hc]
        exact hroles
      have key : (db.members.map (fun m =>
            if m.WorldID = worldID ∧ m.UserID = targetUserID then
              { m with Role := trimSpace role, UpdatedAt := env.now }
            else m)).filter (fun m => decide (m.Role = env.roles.Owner))
          = db.members.filter (fun m => decide (m.Role = env.roles.Owner)) := by
        apply filter_map_of_fixed
        intro m hm
        by_cases hmatch : m.WorldID = worldID ∧ m.UserID = targetUserID
        · have hnot := not_owner_of_IsWorldOwner_false env db worldID targetUserID hwf hfind ho
            m hm hmatch.1 hmatch.2
          simp only [if_pos hmatch, hnew, hnot, decide_False, Bool.false_eq_true,
            false_implies, and_self]
        · simp only [if_neg hmatch, implies_true, and_self]
      split_ifs <;> exact key

/-- C24, as stated, fails: when the lookup of the membership returns an error,
`worldRoleEquals` answers `false`, `IsWorldOwner` does not stop `WorldLeave`, and the
statement that deletes the rows of the user is carried out also for the owner.  Here the
store has one row for every world and user, `u1` is the owner of `w1`, the lookups fail
and `WorldLeave("w1", "u1")` returns nil and leaves no membership of an owner. -/
theorem WorldLeave_owner_deleted_counterexample :
    membersWellFormed sampleWorldStore ∧
    ownerMemberships sampleLookupFailEnv sampleWorldStore = [sampleOwnerRow] ∧
    (WorldLeave sampleLookupFailEnv sampleWorldStore "w1" "u1").1 = none ∧
    sampleOwnerRow ∉ (WorldLeave sampleLookupFailEnv sampleWorldStore "w1" "u1").2.members ∧
    ownerMemberships sampleLookupFailEnv
      (WorldLeave sampleLookupFailEnv sampleWorldStore "w1" "u1").2 = [] := by
  refine ⟨⟨by decide, by decide⟩, by decide, by decide, by decide, by decide⟩

/-- C24, amended.  For every store in which every membership row has an id and there is
at most one row for a world and a user, for role constants in which owner differs from
admin and from member, and provided the lookup of the membership of the user in question
is carried out (a lookup that returns an error is read as "not an owner"): `WorldLeave`,
`WorldRemoveMember` and `WorldUpdateMemberRole` leave the rows of the owners exactly as
they are, whatever they return and whether the other statements are carried out or not:
no owner row is deleted or changed and no row becomes an owner row.
`WorldUpdateMemberRole` accepts only the admin and the member role, after trimming: for
every other role it returns `ErrWorldMemberInvalid` and leaves the store as it is. -/
theorem world_owner_memberships_preserved (env : WorldEnv) (db : WorldStore)
    (worldID actorID targetUserID role : String)
    (hwf : membersWellFormed db)
    (hfind : env.memberFindErr worldID targetUserID = none)
    (hroles : env.roles.Owner ≠ env.roles.Admin ∧ env.roles.Owner ≠ env.roles.Member) :
    ownerMemberships env (WorldLeave env db worldID targetUserID).2
      = ownerMemberships env db ∧
    ownerMemberships env (WorldRemoveMember env db worldID actorID targetUserID).2
      = ownerMemberships env db ∧
    ownerMemberships env (WorldUpdateMemberRole env db worldID actorID targetUserID role).2
      = ownerMemberships env db ∧
    ((WorldUpdateMemberRole env db worldID actorID targetUserID role).1 = none →
      trimSpace role = env.roles.Admin ∨ trimSpace role = env.roles.Member) ∧
    (trimSpace role ≠ env.roles.Admin → trimSpace role ≠ env.roles.Member →
      WorldUpdateMemberRole env db worldID actorID targetUserID role
        = (some ErrWorldMemberInvalid, db)) := by
  refine ⟨WorldLeave_owners env db worldID targetUserID hwf hfind,
    WorldRemoveMember_owners env db worldID actorID targetUserID hwf hfind,
    WorldUpdateMemberRole_owners env db worldID actorID targetUserID role hwf hfind hroles,
    ?_, ?_⟩
  · intro hok
    by_contra hc
    have hc2 : trimSpace role ≠ env.roles.Admin ∧ trimSpace role ≠ env.roles.Member := by
      constructor
      · intro h; exact hc (Or.inl h)
      · intro h; exact hc (Or.inr h)
    unfold WorldUpdateMemberRole at hok
    simp only [if_pos hc2] at hok
    cases hok
  · intro h1 h2
    unfold WorldUpdateMemberRole
    simp only [if_pos (And.intro h1 h2)]

/-- Witness of C24: the admin `u2` removes the member `u3` from the sample store and makes
them an admin, and the owner `u1` tries to leave; the row of the owner stays. -/
theorem world_owner_memberships_preserved_witness :
    membersWellFormed sampleWorldStore ∧
    (WorldRemoveMember sampleWorldEnv sampleWorldStore "w1" "u2" "u3").1 = none ∧
    (WorldUpdateMemberRole sampleWorldEnv sampleWorldStore "w1" "u2" "u3" " admin ").1 = none ∧
    (WorldLeave sampleWorldEnv sampleWorldStore "w1" "u1").2 = sampleWorldStore ∧
    ownerMemberships sampleWorldEnv
        (WorldRemoveMember sampleWorldEnv sampleWorldStore "w1" "u2" "u3").2
      = [sampleOwnerRow] ∧
    ownerMemberships sampleWorldEnv
        (WorldUpdateMemberRole sampleWorldEnv sampleWorldStore "w1" "u2" "u3" " admin ").2
      = ownerMemberships sampleWorldEnv sampleWorldStore :=
  ⟨⟨by decide, by decide⟩, by decide, by decide, by decide, by decide,
    (world_owner_memberships_preserved sampleWorldEnv sampleWorldStore "w1" "u2" "u3" " admin "
      ⟨by decide, by decide⟩ rfl ⟨by decide, by decide⟩).2.2.1⟩

/-! ### The use of an invite -/

/-- `WorldJoin` does not change the invites. -/
theorem WorldJoin_invites (env : WorldEnv) (db : WorldStore) (worldID userID : String) :
    (WorldJoin env db worldID userID).2.invites = db.invites := by
  unfold WorldJoin
  cases env.activeWorldFindErr worldID with
  | some err => rfl
  | none =>
    simp only
    by_cases h1 : ((db.worlds.find?
        (fun w => decide (w.ID = worldID ∧ w.Status = "active"))).getD zeroWorld).ID = ""
    · rw [if_pos h1]
    rw [if_neg h1]
    cases env.memberFindErr worldID userID with
    | some err => rfl
    | none =>
      simp only
      by_cases h2 : (findWorldMember db worldID userID).ID ≠ ""
      · rw [if_pos h2]
        cases env.ensureWorldChannelMemberships worldID userID <;> rfl
      · rw [if_neg h2]
        cases env.memberCreateErr worldID userID with
        | some err => rfl
        | none => cases env.ensureWorldChannelMemberships worldID userID <;> rfl

/-- An invite that the lookup finds is a row of the table, is active and has the slug. -/
theorem findActiveInvite_mem (db : WorldStore) (slug : String)
    (h : (findActiveInvite db slug).ID ≠ "") :
    findActiveInvite db slug ∈ db.invites ∧ (findActiveInvite db slug).Slug = slug ∧
      (findActiveInvite db slug).Status = "active" := by
  unfold findActiveInvite at h ⊢
  cases hf : db.invites.find? (fun i => decide (i.Slug = slug ∧ i.Status = "active")) with
  | none =>
    rw [hf] at h
    exact absurd rfl h
  | some inv =>
    have hp := List.find?_some hf
    simp only [decide_eq_true_eq] at hp
    exact ⟨List.mem_of_find?_eq_some hf, hp.1, hp.2⟩

/-- When no active invite has the slug, the lookup gives the zero value. -/
theorem findActiveInvite_none (db : WorldStore) (slug : String)
    (h : ∀ i ∈ db.invites, ¬ (i.Slug = slug ∧ i.Status = "active")) :
    findActiveInvite db slug = zeroWorldInvite := by
  unfold findActiveInvite
  have : db.invites.find? (fun i => decide (i.Slug = slug ∧ i.Status = "active")) = none := by
    rw [List.find?_eq_none]
    intro i hi
    simpa using h i hi
  rw [this]
  rfl

/-- In a table with pairwise distinct ids a row is known by its id. -/
theorem invite_eq_of_id (db : WorldStore) (hwf : invitesWellFormed db)
    (i j : WorldInviteModel) (hi : i ∈ db.invites) (hj : j ∈ db.invites) (h : i.ID = j.ID) :
    i = j :=
  List.inj_on_of_nodup_map hwf hi hj h

/-- The invites after a call of `WorldInviteConsume`: either as before, or with one more
use counted in the rows of the id of the invite found, which then passed the checks. -/
theorem WorldInviteConsume_invites (env : WorldEnv) (db : WorldStore) (slug userID : String) :
    (WorldInviteConsume env db slug userID).2.invites = db.invites ∨
    ((WorldInviteConsume env db slug userID).2.invites
        = bumpUsedCount env db.invites (findActiveInvite db (trimSpace slug)).ID ∧
      (findActiveInvite db (trimSpace slug)).ID ≠ "" ∧
      ¬ ((findActiveInvite db (trimSpace slug)).MaxUse > 0 ∧
        (findActiveInvite db (trimSpace slug)).UsedCount
          ≥ (findActiveInvite db (trimSpace slug)).MaxUse)) := by
  unfold WorldInviteConsume
  simp only
  by_cases h1 : trimSpace slug = ""
  · rw [if_pos h1]; exact Or.inl rfl
  rw [if_neg h1]
  cases env.inviteFindErr (trimSpace slug) with
  | some err => exact Or.inl rfl
  | none =>
    simp only
    by_cases h2 : (findActiveInvite db (trimSpace slug)).ID = ""
    · rw [if_pos h2]; exact Or.inl rfl
    rw [if_neg h2]
    by_cases h3 : (match (findActiveInvite db (trimSpace slug)).ExpireAt with
        | some t => decide (t.unix < env.now.unix)
        | none => false) = true
    · rw [if_pos h3]; exact Or.inl rfl
    rw [if_neg h3]
    by_cases h4 : (findActiveInvite db (trimSpace slug)).MaxUse > 0 ∧
        (findActiveInvite db (trimSpace slug)).UsedCount
          ≥ (findActiveInvite db (trimSpace slug)).MaxUse
    · rw [if_pos h4]; exact Or.inl rfl
    rw [if_neg h4]
    cases hw : GetWorldByID env db (findActiveInvite db (trimSpace slug)).WorldID with
    | mk world werr =>
      cases werr with
      | some err => exact Or.inl rfl
      | none =>
        simp only
        have hinv := WorldJoin_invites env db (findActiveInvite db (trimSpace slug)).WorldID
          userID
        cases hj : WorldJoin env db (findActiveInvite db (trimSpace slug)).WorldID userID with
        | mk res db1 =>
          rw [hj] at hinv
          obtain ⟨member, jerr⟩ := res
          cases jerr with
          | some err => exact Or.inl hinv
          | none =>
            simp only at hinv ⊢
            by_cases h5 : (!decide
                ((match env.existingMemberFindErr
                    (findActiveInvite db (trimSpace slug)).WorldID userID with
                  | some _ => zeroWorldMember
                  | none => findWorldMember db (findActiveInvite db (trimSpace slug)).WorldID
                      userID).ID ≠ "")) = true
            · rw [if_pos h5]
              cases env.inviteUpdateErr (findActiveInvite db (trimSpace slug)).ID with
              | some err => exact Or.inl hinv
              | none =>
                refine Or.inr ⟨?_, h2, h4⟩
                simp only [hinv]
            · rw [if_neg h5]
              exact Or.inl hinv

/-- The bound on the uses of an invite is kept by every call of `WorldInviteConsume`,
whatever the statements sent to the database return. -/
theorem WorldInviteConsume_bounded (env : WorldEnv) (db : WorldStore) (slug userID : String)
    (hwf : invitesWellFormed db) (hb : usedCountBounded db) :
    usedCountBounded (WorldInviteConsume env db slug userID).2 := by
  unfold usedCountBounded
  rcases WorldInviteConsume_invites env db slug userID with h | ⟨h, hid, hcheck⟩
  · rw [h]; exact hb
  · rw [h]
    intro i hi hmax
    unfold bumpUsedCount at hi
    obtain ⟨i0, hi0, rfl⟩ := List.mem_map.mp hi
    by_cases hsame : i0.ID = (findActiveInvite db (trimSpace slug)).ID
    · have heq := invite_eq_of_id db hwf i0 _ hi0 (findActiveInvite_mem db _ hid).1 hsame
      rw [if_pos hsame] at hmax ⊢
      simp only at hmax ⊢
      rw [heq] at hmax ⊢
      omega
    · rw [if_neg hsame] at hmax ⊢
      exact hb i0 hi0 hmax

/-- With ids on all rows, the lookup of a member finds a row exactly when the user has a
row in the world. -/
theorem findWorldMember_id (db : WorldStore) (worldID userID : String)
    (hid : ∀ m ∈ db.members, m.ID ≠ "") :
    (findWorldMember db worldID userID).ID ≠ "" ↔
      ∃ m ∈ db.members, m.WorldID = worldID ∧ m.UserID = userID := by
  unfold findWorldMember
  cases hf : db.members.find? (fun m => decide (m.WorldID = worldID ∧ m.UserID = userID)) with
  | none =>
    simp only [Option.getD_none, zeroWorldMember, ne_eq, not_true_eq_false, false_iff,
      not_exists, not_and]
    intro m hm hw
    have := List.find?_eq_none.mp hf m hm
    simp only [decide_eq_true_eq, not_and] at this
    exact this hw
  | some m =>
    have hm : m ∈ db.members := List.mem_of_find?_eq_some hf
    have hp := List.find?_some hf
    simp only [decide_eq_true_eq] at hp
    simp only [Option.getD_some]
    exact ⟨fun _ => ⟨m, hm, hp⟩, fun _ => hid m hm⟩

/-- A call of `WorldInviteConsume` that returns no error: the invite found has an id and
is returned, `alreadyJoined` tells whether the lookup of the member found a row, and the
use is counted when it found none and the statement that counts is carried out. -/
theorem WorldInviteConsume_success (env : WorldEnv) (db : WorldStore) (slug userID : String)
    (h : (WorldInviteConsume env db slug userID).1.err = none) :
    (findActiveInvite db (trimSpace slug)).ID ≠ "" ∧
    (WorldInviteConsume env db slug userID).1.invite
      = some (findActiveInvite db (trimSpace slug)) ∧
    (WorldInviteConsume env db slug userID).1.alreadyJoined
      = decide ((match env.existingMemberFindErr
            (findActiveInvite db (trimSpace slug)).WorldID userID with
          | some _ => zeroWorldMember
          | none => findWorldMember db (findActiveInvite db (trimSpace slug)).WorldID
              userID).ID ≠ "") ∧
    (WorldInviteConsume env db slug userID).2.invites
      = (if (!decide ((match env.existingMemberFindErr
            (findActiveInvite db (trimSpace slug)).WorldID userID with
          | some _ => zeroWorldMember
          | none => findWorldMember db (findActiveInvite db (trimSpace slug)).WorldID
              userID).ID ≠ "")) = true then
          match env.inviteUpdateErr (findActiveInvite db (trimSpace slug)).ID with
          | some _ => db.invites
          | none => bumpUsedCount env db.invites (findActiveInvite db (trimSpace slug)).ID
        else db.invites) := by
  unfold WorldInviteConsume at h ⊢
  simp only at h ⊢
  by_cases h1 : trimSpace slug = ""
  · rw [if_pos h1] at h; cases h
  rw [if_neg h1] at h ⊢
  cases hfe : env.inviteFindErr (trimSpace slug) with
  | some err => rw [hfe] at h; cases h
  | none =>
    rw [hfe] at h
    simp only at h ⊢
    by_cases h2 : (findActiveInvite db (trimSpace slug)).ID = ""
    · rw [if_pos h2] at h; cases h
    rw [if_neg h2] at h ⊢
    by_cases h3 : (match (findActiveInvite db (trimSpace slug)).ExpireAt with
        | some t => decide (t.unix < env.now.unix)
        | none => false) = true
    · rw [if_pos h3] at h; cases h
    rw [if_neg h3] at h ⊢
    by_cases h4 : (findActiveInvite db (trimSpace slug)).MaxUse > 0 ∧
        (findActiveInvite db (trimSpace slug)).UsedCount
          ≥ (findActiveInvite db (trimSpace slug)).MaxUse
    · rw [if_pos h4] at h; cases h
    rw [if_neg h4] at h ⊢
    cases hw : GetWorldByID env db (findActiveInvite db (trimSpace slug)).WorldID with
    | mk world werr =>
      rw [hw] at h
      cases werr with
      | some err => cases h
      | none =>
        simp only at h ⊢
        have hinv := WorldJoin_invites env db (findActiveInvite db (trimSpace slug)).WorldID
          userID
        cases hj : WorldJoin env db (findActiveInvite db (trimSpace slug)).WorldID userID with
        | mk res db1 =>
          rw [hj] at hinv h
          obtain ⟨member, jerr⟩ := res
          cases jerr with
          | some err => cases h
          | none =>
            simp only at hinv h ⊢
            refine ⟨h2, trivial, trivial, ?_⟩
            by_cases h5 : (!decide
                ((match env.existingMemberFindErr
                    (findActiveInvite db (trimSpace slug)).WorldID userID with
                  | some _ => zeroWorldMember
                  | none => findWorldMember db (findActiveInvite db (trimSpace slug)).WorldID
                      userID).ID ≠ "")) = true
            · rw [if_pos h5, if_pos h5]
              cases env.inviteUpdateErr (findActiveInvite db (trimSpace slug)).ID with
              | some err => exact hinv
              | none => simp only [hinv]
            · rw [if_neg h5, if_neg h5]
              exact hinv

/-- C25, as stated, fails: the statement that adds one to `used_count` may return an
error, which `WorldInviteConsume` ignores.  In the sample store the user `u9` is no member
of the world `w1`; with that statement failing, the call for the invite `welcome` returns
no error and `alreadyJoined = false`, `u9` has become a member, and `used_count` is still
0. -/
theorem WorldInviteConsume_count_not_increased_counterexample :
    (WorldInviteConsume sampleCountFailEnv sampleWorldStore " welcome " "u9").1.err = none ∧
    (WorldInviteConsume sampleCountFailEnv sampleWorldStore " welcome " "u9").1.alreadyJoined
      = false ∧
    (∀ m ∈ sampleWorldStore.members, ¬ (m.WorldID = "w1" ∧ m.UserID = "u9")) ∧
    (∃ m ∈ (WorldInviteConsume sampleCountFailEnv sampleWorldStore " welcome " "u9").2.members,
      m.WorldID = "w1" ∧ m.UserID = "u9") ∧
    sampleWorldStore.invites.map (fun i => (i.ID, i.UsedCount)) = [("i1", 0)] ∧
    (WorldInviteConsume sampleCountFailEnv sampleWorldStore " welcome " "u9").2.invites.map
      (fun i => (i.ID, i.UsedCount)) = [("i1", 0)] := by
  refine ⟨by decide, by decide, by decide, by decide, by decide, by decide⟩

/-- C25, amended.  For a call of `WorldInviteConsume` on a store whose invites have
pairwise distinct ids and whose membership rows all have an id, and provided the lookup
of the invite, the lookup of the existing member and the statement that counts the use
are carried out (the errors of the last two are ignored by the code): the call returns
`ErrWorldInviteInvalid` and leaves the store as it is when the trimmed slug is blank, no
active invite has that slug, the invite found has expired, or `MaxUse > 0` and
`UsedCount >= MaxUse`; a call that returns no error returns the first active invite of
the slug, adds exactly one to the `used_count` of that invite and changes no other
invite if the user had no membership row in the world of the invite, and leaves the
invites as they are otherwise.  For every invite with `MaxUse > 0` the bound
`used_count <= MaxUse` is kept. -/
theorem WorldInviteConsume_used_count (env : WorldEnv) (db : WorldStore) (slug userID : String)
    (hwf : invitesWellFormed db) (hid : ∀ m ∈ db.members, m.ID ≠ "")
    (hfind : env.inviteFindErr (trimSpace slug) = none)
    (hex : ∀ w, env.existingMemberFindErr w userID = none)
    (hup : ∀ id, env.inviteUpdateErr id = none) :
    ((trimSpace slug = "" ∨
        (∀ i ∈ db.invites, ¬ (i.Slug = trimSpace slug ∧ i.Status = "active")) ∨
        (∃ t, (findActiveInvite db (trimSpace slug)).ExpireAt = some t ∧
          t.unix < env.now.unix) ∨
        (0 < (findActiveInvite db (trimSpace slug)).MaxUse ∧
          (findActiveInvite db (trimSpace slug)).MaxUse
            ≤ (findActiveInvite db (trimSpace slug)).UsedCount)) →
      WorldInviteConsume env db slug userID
        = (inviteConsumeFailure ErrWorldInviteInvalid, db)) ∧
    ((WorldInviteConsume env db slug userID).1.err = none →
      findActiveInvite db (trimSpace slug) ∈ db.invites ∧
      (findActiveInvite db (trimSpace slug)).Slug = trimSpace slug ∧
      (findActiveInvite db (trimSpace slug)).Status = "active" ∧
      (WorldInviteConsume env db slug userID).1.invite
        = some (findActiveInvite db (trimSpace slug)) ∧
      ((∀ m ∈ db.members,
          ¬ (m.WorldID = (findActiveInvite db (trimSpace slug)).WorldID ∧ m.UserID = userID)) →
        (WorldInviteConsume env db slug userID).1.alreadyJoined = false ∧
        (WorldInviteConsume env db slug userID).2.invites
          = db.invites.map (fun i =>
              if i = findActiveInvite db (trimSpace slug) then
                { i with UsedCount := i.UsedCount + 1, UpdatedAt := env.now }
              else i)) ∧
      ((∃ m ∈ db.members,
          m.WorldID = (findActiveInvite db (trimSpace slug)).WorldID ∧ m.UserID = userID) →
        (WorldInviteConsume env db slug userID).1.alreadyJoined = true ∧
        (WorldInviteConsume env db slug userID).2.invites = db.invites)) ∧
    (usedCountBounded db → usedCountBounded (WorldInviteConsume env db slug userID).2) := by
  refine ⟨?_, ?_, WorldInviteConsume_bounded env db slug userID hwf⟩
  · intro hcase
    unfold WorldInviteConsume
    simp only
    by_cases h1 : trimSpace slug = ""
    · rw [if_pos h1]
    rw [if_neg h1, hfind]
    simp only
    by_cases h2 : (findActiveInvite db (trimSpace slug)).ID = ""
    · rw [if_pos h2]
    rw [if_neg h2]
    rcases hcase with hc | hc | hc | hc
    · exact absurd hc h1
    · rw [findActiveInvite_none db _ hc] at h2
      exact absurd rfl h2
    · obtain ⟨t, ht, hlt⟩ := hc
      have h3 : (match (findActiveInvite db (trimSpace slug)).ExpireAt with
          | some t => decide (t.unix < env.now.unix)
          | none => false) = true := by
        rw [ht]
        simpa using hlt
      rw [if_pos h3]
    · by_cases h3 : (match (findActiveInvite db (trimSpace slug)).ExpireAt with
          | some t => decide (t.unix < env.now.unix)
          | none => false) = true
      · rw [if_pos h3]
      · rw [if_neg h3, if_pos ⟨hc.1, hc.2⟩]
  · intro hok
    obtain ⟨hne, hinvite, hjoined, hinvs⟩ := WorldInviteConsume_success env db slug userID hok
    obtain ⟨hmem, hslug, hstatus⟩ := findActiveInvite_mem db _ hne
    rw [hex] at hjoined hinvs
    simp only at hjoined hinvs
    rw [hup] at hinvs
    simp only at hinvs
    refine ⟨hmem, hslug, hstatus, hinvite, ?_, ?_⟩
    · intro hnot
      have hno : ¬ (findWorldMember db (findActiveInvite db (trimSpace slug)).WorldID
          userID).ID ≠ "" := by
        rw [findWorldMember_id db _ _ hid]
        rintro ⟨m, hm, hw⟩
        exact hnot m hm hw
      refine ⟨by rw [hjoined]; simpa using hno, ?_⟩
      rw [hinvs, if_pos (by simpa using hno)]
      unfold bumpUsedCount
      apply List.map_congr_left
      intro i hi
      by_cases hsame : i.ID = (findActiveInvite db (trimSpace slug)).ID
      · have heq := invite_eq_of_id db hwf i _ hi hmem hsame
        rw [if_pos hsame, if_pos heq]
      · have hneq : ¬ i = findActiveInvite db (trimSpace slug) := fun hc => hsame (by rw [hc])
        rw [if_neg hsame, if_neg hneq]
    · intro hyes
      have hfound : (findWorldMember db (findActiveInvite db (trimSpace slug)).WorldID
          userID).ID ≠ "" := (findWorldMember_id db _ _ hid).mpr hyes
      refine ⟨by rw [hjoined]; simpa using hfound, ?_⟩
      rw [hinvs, if_neg (by simpa using hfound)]

/-- Witness of C25: in the sample store, with every statement carried out, the user `u9`
uses the invite `welcome` and the use is counted. -/
theorem WorldInviteConsume_used_count_witness :
    invitesWellFormed sampleWorldStore ∧
    (WorldInviteConsume sampleWorldEnv sampleWorldStore " welcome " "u9").1.err = none ∧
    (WorldInviteConsume sampleWorldEnv sampleWorldStore " welcome " "u9").2.invites
      = [⟨"i1", "welcome", "active", "w1", none, 2, 1, sampleWorldEnv.now⟩] ∧
    (usedCountBounded sampleWorldStore →
      usedCountBounded
        (WorldInviteConsume sampleWorldEnv sampleWorldStore " welcome " "u9").2) :=
  ⟨by unfold invitesWellFormed; decide, by decide, by decide,
    (WorldInviteConsume_used_count sampleWorldEnv sampleWorldStore " welcome " "u9"
      (by unfold invitesWellFormed; decide) (by decide) rfl (fun _ => rfl)
      (fun _ => rfl)).2.2⟩

end SealChat
